import Mathlib

/-!
# hyrbtree: an intrusive red-black tree with a colour bit packed in the owner word

Shallow embedding of `src/hyrbtree.h` and `src/Example/hyrbtree.c`.

Pointers are natural numbers.  The node memory is modelled field by field
(one map per field of `hyrbnode_t`), so that a write to one field of one node
leaves every other field of every node untouched, exactly as in C.  The
sentinel `nil_node` lives inside the tree object; its address is the field
`nil_node` of the state and its four fields are read and written through the
same maps as every other node.  Loops of the form `while(1)` carry a fuel
argument and return `none` when the fuel runs out.
-/

namespace Hyrbtree

/-- Colour tag RED of the enum in `hyrbtree.h`. -/
def HYRBTREE_NODE_RED : Nat := 0

/-- Colour tag BLACK of the enum in `hyrbtree.h`. -/
def HYRBTREE_NODE_BLACK : Nat := 1

/-- The null pointer `HY_NULL`. -/
def HY_NULL : Nat := 0

/-- Operation status codes `hyrbtree_ret_t`. -/
inductive hyrbtree_ret_t where
  | HYRBTREE_RET_OK
  | HYRBTREE_RET_ADD_NODE_ELEM_EXIST
  | HYRBTREE_RET_ADD_NODE_UNINITIALIZED
  | HYRBTREE_RET_DEL_NODE_ARGS_ERROR
  | HYRBTREE_RET_GET_NODE_NOT_FIND
  | HYRBTREE_RET_GET_NODE_TREE_NULL
  | HYRBTREE_RET_REPLACE_CMP_ERROR
  | HYRBTREE_RET_REPLACE_INIT_ERROR
  deriving DecidableEq, Repr

open hyrbtree_ret_t

/-- The tree object `hyrbtree_t` together with the node memory it works on.
`user_node`, `parent_node`, `left_node`, `right_node` give the four fields of
the `hyrbnode_t` stored at an address; `nil_node` is the address of the
sentinel embedded in the tree object. -/
structure hyrbtree_t where
  get_rbnode : Nat → Nat
  get_elem : Nat → Nat
  cmp_elem : Nat → Nat → Int
  root_node : Nat
  nil_node : Nat
  user_node : Nat → Nat
  parent_node : Nat → Nat
  left_node : Nat → Nat
  right_node : Nat → Nat

namespace hyrbtree_t

/-- The assignment `n->user_node = v`. -/
def set_user (t : hyrbtree_t) (n v : Nat) : hyrbtree_t :=
  { t with user_node := Function.update t.user_node n v }

/-- The assignment `n->parent_node = v`. -/
def set_parent (t : hyrbtree_t) (n v : Nat) : hyrbtree_t :=
  { t with parent_node := Function.update t.parent_node n v }

/-- The assignment `n->left_node = v`. -/
def set_left (t : hyrbtree_t) (n v : Nat) : hyrbtree_t :=
  { t with left_node := Function.update t.left_node n v }

/-- The assignment `n->right_node = v`. -/
def set_right (t : hyrbtree_t) (n v : Nat) : hyrbtree_t :=
  { t with right_node := Function.update t.right_node n v }

/-- The assignment `tree->root_node = v`. -/
def set_root (t : hyrbtree_t) (v : Nat) : hyrbtree_t :=
  { t with root_node := v }

end hyrbtree_t

/-- The macro `HYRBTREE_GET_NODE_ADDR(n)`: the owner word of `n` with bit 0
cleared (`& ~(hy_uptr_t)0x1`). -/
def HYRBTREE_GET_NODE_ADDR (t : hyrbtree_t) (n : Nat) : Nat :=
  t.user_node n - t.user_node n % 2

/-- The macro `HYRBTREE_READ_NODE_COLOR(n)`: bit 0 of the owner word. -/
def HYRBTREE_READ_NODE_COLOR (t : hyrbtree_t) (n : Nat) : Nat :=
  t.user_node n % 2

/-- The macro `HYRBTREE_SET_NODE_RED(n)`: clear bit 0 of the owner word. -/
def HYRBTREE_SET_NODE_RED (t : hyrbtree_t) (n : Nat) : hyrbtree_t :=
  t.set_user n (t.user_node n - t.user_node n % 2)

/-- The macro `HYRBTREE_SET_NODE_BLACK(n)`: set bit 0 of the owner word. -/
def HYRBTREE_SET_NODE_BLACK (t : hyrbtree_t) (n : Nat) : hyrbtree_t :=
  t.set_user n (t.user_node n ||| 1)

/-- `hyrbtree_init`: the root points at the sentinel and the sentinel is
coloured BLACK. -/
def hyrbtree_init (t : hyrbtree_t) : hyrbtree_t :=
  let t := t.set_root t.nil_node
  t.set_user t.nil_node (t.user_node t.nil_node ||| 1)

/-- `hyrbtree_left_rotate_node`. -/
def hyrbtree_left_rotate_node (t : hyrbtree_t) (node : Nat) : hyrbtree_t :=
  let center_node := t.right_node node
  let t := if node = t.left_node (t.parent_node node)
    then t.set_left (t.parent_node node) center_node
    else t.set_right (t.parent_node node) center_node
  let t := t.set_parent center_node (t.parent_node node)
  let t := t.set_parent node center_node
  let t := t.set_right node (t.left_node center_node)
  let t := t.set_left center_node node
  t.set_parent (t.right_node node) node

/-- `hyrbtree_right_rotate_node`. -/
def hyrbtree_right_rotate_node (t : hyrbtree_t) (node : Nat) : hyrbtree_t :=
  let center_node := t.left_node node
  let t := if node = t.left_node (t.parent_node node)
    then t.set_left (t.parent_node node) center_node
    else t.set_right (t.parent_node node) center_node
  let t := t.set_parent center_node (t.parent_node node)
  let t := t.set_parent node center_node
  let t := t.set_left node (t.right_node center_node)
  let t := t.set_right center_node node
  t.set_parent (t.left_node node) node

/-- The four rotation cases of insertion (`RBNODE_ADD_ROTATE_*`). -/
def RBNODE_ADD_ROTATE_LL : Nat := 0
/-- Insertion case: parent is a right child, current node a left child. -/
def RBNODE_ADD_ROTATE_RL : Nat := 1
/-- Insertion case: parent is a left child, current node a right child. -/
def RBNODE_ADD_ROTATE_LR : Nat := 2
/-- Insertion case: parent and current node are right children. -/
def RBNODE_ADD_ROTATE_RR : Nat := 3

/-- The body of the `switch( balance_case )` of `hyrbtree_add_balance`. -/
def add_balance_switch (t : hyrbtree_t) (cur_node parent_rbnode grandpa_rbnode balance_case : Nat) :
    hyrbtree_t :=
  if balance_case = RBNODE_ADD_ROTATE_LL then
    let t := HYRBTREE_SET_NODE_BLACK t parent_rbnode
    hyrbtree_right_rotate_node t grandpa_rbnode
  else if balance_case = RBNODE_ADD_ROTATE_RL then
    let t := HYRBTREE_SET_NODE_BLACK t cur_node
    let t := hyrbtree_right_rotate_node t parent_rbnode
    hyrbtree_left_rotate_node t grandpa_rbnode
  else if balance_case = RBNODE_ADD_ROTATE_LR then
    let t := HYRBTREE_SET_NODE_BLACK t cur_node
    let t := hyrbtree_left_rotate_node t parent_rbnode
    hyrbtree_right_rotate_node t grandpa_rbnode
  else if balance_case = RBNODE_ADD_ROTATE_RR then
    let t := HYRBTREE_SET_NODE_BLACK t parent_rbnode
    hyrbtree_left_rotate_node t grandpa_rbnode
  else t

/-- The `while(1)` loop of `hyrbtree_add_balance`; the loop variables are
`cur_node`, `parent_rbnode`, `grandpa_rbnode` and `balance_case`. -/
def hyrbtree_add_balance_loop : Nat → hyrbtree_t → Nat → Nat → Nat → Nat → Option hyrbtree_t
  | 0, _, _, _, _, _ => none
  | fuel + 1, t, cur_node, parent_rbnode, grandpa_rbnode, balance_case =>
    let uncle_rbnode := if parent_rbnode = t.left_node grandpa_rbnode
      then t.right_node grandpa_rbnode else t.left_node grandpa_rbnode
    let balance_case := if parent_rbnode = t.left_node grandpa_rbnode
      then balance_case else balance_case + 1
    if HYRBTREE_READ_NODE_COLOR t uncle_rbnode = HYRBTREE_NODE_RED then
      let t := HYRBTREE_SET_NODE_BLACK t parent_rbnode
      let t := HYRBTREE_SET_NODE_BLACK t uncle_rbnode
      let cur_node := grandpa_rbnode
      if cur_node ≠ t.root_node then
        let t := HYRBTREE_SET_NODE_RED t cur_node
        let parent_rbnode := t.parent_node cur_node
        if HYRBTREE_READ_NODE_COLOR t parent_rbnode = HYRBTREE_NODE_RED then
          let grandpa_rbnode := t.parent_node parent_rbnode
          hyrbtree_add_balance_loop fuel t cur_node parent_rbnode grandpa_rbnode 0
        else some t
      else some t
    else
      let balance_case := if cur_node ≠ t.left_node parent_rbnode
        then balance_case + 2 else balance_case
      let t := add_balance_switch t cur_node parent_rbnode grandpa_rbnode balance_case
      let t := HYRBTREE_SET_NODE_RED t grandpa_rbnode
      if grandpa_rbnode = t.root_node then
        let t := if balance_case % 3 = 0 then t.set_root parent_rbnode
          else t.set_root cur_node
        let t := t.set_parent t.root_node t.nil_node
        let t := t.set_left t.nil_node t.root_node
        some t
      else some t

/-- `hyrbtree_add_balance`. -/
def hyrbtree_add_balance (fuel : Nat) (t : hyrbtree_t) (cur_node : Nat) : Option hyrbtree_t :=
  let t := HYRBTREE_SET_NODE_RED t cur_node
  let parent_rbnode := t.parent_node cur_node
  let grandpa_rbnode := t.parent_node parent_rbnode
  hyrbtree_add_balance_loop fuel t cur_node parent_rbnode grandpa_rbnode 0

/-- The descent loop of `hyrbtree_add_node`.  It ends either with the new node
linked under its parent (`Sum.inl`, the `break` exits) or with the owner whose
key compares equal (`Sum.inr`, the `return` inside the loop). -/
def hyrbtree_add_node_loop : Nat → hyrbtree_t → Nat → Nat → Nat → Option (hyrbtree_t ⊕ Nat)
  | 0, _, _, _, _ => none
  | fuel + 1, t, add_node, add_node_elem, cur_node =>
    let cur_node_elem := t.get_elem (HYRBTREE_GET_NODE_ADDR t cur_node)
    let parent_node := cur_node
    let result := t.cmp_elem add_node_elem cur_node_elem
    if result < 0 then
      let cur_node := t.left_node cur_node
      if cur_node = t.nil_node then
        let t := t.set_left parent_node add_node
        let t := t.set_parent add_node parent_node
        some (Sum.inl t)
      else hyrbtree_add_node_loop fuel t add_node add_node_elem cur_node
    else if result > 0 then
      let cur_node := t.right_node cur_node
      if cur_node = t.nil_node then
        let t := t.set_right parent_node add_node
        let t := t.set_parent add_node parent_node
        some (Sum.inl t)
      else hyrbtree_add_node_loop fuel t add_node add_node_elem cur_node
    else some (Sum.inr (HYRBTREE_GET_NODE_ADDR t cur_node))

/-- `hyrbtree_add_node`.  The result is the status code, the state afterwards
and the value written through `exist_node` (`none` when nothing is written). -/
def hyrbtree_add_node (fuel : Nat) (t : hyrbtree_t) (user_node : Nat) :
    Option (hyrbtree_ret_t × hyrbtree_t × Option Nat) :=
  let add_node := t.get_rbnode user_node
  if HYRBTREE_GET_NODE_ADDR t add_node = HY_NULL then
    let t := t.set_left add_node t.nil_node
    let t := t.set_right add_node t.nil_node
    if t.root_node ≠ t.nil_node then
      let add_node_elem := t.get_elem user_node
      match hyrbtree_add_node_loop fuel t add_node add_node_elem t.root_node with
      | none => none
      | some (Sum.inr e) => some (HYRBTREE_RET_ADD_NODE_ELEM_EXIST, t, some e)
      | some (Sum.inl t) =>
        let t := t.set_user add_node user_node
        if HYRBTREE_READ_NODE_COLOR t (t.parent_node add_node) = HYRBTREE_NODE_RED then
          match hyrbtree_add_balance fuel t add_node with
          | none => none
          | some t => some (HYRBTREE_RET_OK, t, none)
        else some (HYRBTREE_RET_OK, t, none)
    else
      let t := t.set_user add_node user_node
      let t := t.set_root add_node
      let t := HYRBTREE_SET_NODE_BLACK t t.root_node
      let t := t.set_parent t.root_node t.nil_node
      let t := t.set_left t.nil_node t.root_node
      some (HYRBTREE_RET_OK, t, none)
  else some (HYRBTREE_RET_ADD_NODE_UNINITIALIZED, t, none)

/-- The successor walk `while( cur_node->left_node!=&tree->nil_node )` of
`hyrbtree_replace_successor`. -/
def replace_successor_walk : Nat → hyrbtree_t → Nat → Option Nat
  | 0, _, _ => none
  | fuel + 1, t, cur_node =>
    if t.left_node cur_node ≠ t.nil_node then
      replace_successor_walk fuel t (t.left_node cur_node)
    else some cur_node

/-- The colour exchange of `hyrbtree_replace_successor`: `node` and its
successor `cur_node` trade colours when they differ. -/
def replace_successor_colors (t : hyrbtree_t) (node cur_node : Nat) : hyrbtree_t :=
  if HYRBTREE_READ_NODE_COLOR t node = HYRBTREE_NODE_RED then
    if HYRBTREE_READ_NODE_COLOR t cur_node ≠ HYRBTREE_NODE_RED then
      let t := HYRBTREE_SET_NODE_BLACK t node
      HYRBTREE_SET_NODE_RED t cur_node
    else t
  else
    if HYRBTREE_READ_NODE_COLOR t cur_node = HYRBTREE_NODE_RED then
      let t := HYRBTREE_SET_NODE_RED t node
      HYRBTREE_SET_NODE_BLACK t cur_node
    else t

/-- First step of the relinking of `hyrbtree_replace_successor`: the left
subtree of `node` moves below `cur_node`. -/
def replace_successor_left (t : hyrbtree_t) (node cur_node : Nat) : hyrbtree_t :=
  let t := t.set_left cur_node (t.left_node node)
  let t := t.set_parent (t.left_node node) cur_node
  t.set_left node t.nil_node

/-- Second step of the relinking: the parent of `node` adopts `cur_node`. -/
def replace_successor_parent (t : hyrbtree_t) (node cur_node : Nat) : hyrbtree_t :=
  if t.left_node (t.parent_node node) = node
  then t.set_left (t.parent_node node) cur_node
  else t.set_right (t.parent_node node) cur_node

/-- Third step of the relinking when `cur_node` is not the right child of
`node`: the two nodes trade parent and right links, the sentinel's fields
serving as temporaries. -/
def replace_successor_far (t : hyrbtree_t) (node cur_node : Nat) : hyrbtree_t :=
  let t := t.set_parent (t.right_node node) cur_node
  let t := t.set_left (t.parent_node cur_node) node
  let t := t.set_parent (t.right_node cur_node) node
  let t := t.set_parent t.nil_node (t.parent_node cur_node)
  let t := t.set_right t.nil_node (t.right_node cur_node)
  let t := t.set_parent cur_node (t.parent_node node)
  let t := t.set_right cur_node (t.right_node node)
  let t := t.set_parent node (t.parent_node t.nil_node)
  t.set_right node (t.right_node t.nil_node)

/-- Third step of the relinking when `cur_node` is the right child of `node`. -/
def replace_successor_near (t : hyrbtree_t) (node cur_node : Nat) : hyrbtree_t :=
  let t := t.set_right t.nil_node (t.right_node cur_node)
  let t := t.set_parent cur_node (t.parent_node node)
  let t := t.set_right cur_node node
  let t := t.set_parent node cur_node
  t.set_right node (t.right_node t.nil_node)

/-- The relinking of `hyrbtree_replace_successor`: the left subtree of `node`
moves to `cur_node`, the parent of `node` adopts `cur_node`, the two nodes
trade parent and right links, and the root pointer follows. -/
def replace_successor_links (t : hyrbtree_t) (node cur_node : Nat) : hyrbtree_t :=
  let t := replace_successor_left t node cur_node
  let t := replace_successor_parent t node cur_node
  let t :=
    if cur_node ≠ t.right_node node then replace_successor_far t node cur_node
    else replace_successor_near t node cur_node
  if node = t.root_node then t.set_root cur_node else t

/-- `hyrbtree_replace_successor`. -/
def hyrbtree_replace_successor (fuel : Nat) (t : hyrbtree_t) (node : Nat) : Option hyrbtree_t :=
  if t.right_node node ≠ t.nil_node then
    match replace_successor_walk fuel t (t.right_node node) with
    | none => none
    | some cur_node =>
      some (replace_successor_links (replace_successor_colors t node cur_node) node cur_node)
  else some t

/-- The eight rotation cases of deletion (`RBNODE_DEL_*`). -/
def RBNODE_DEL_LEFT_SILING : Nat := 0
/-- Deletion case 1: left sibling whose left child is RED. -/
def RBNODE_DEL_ROTATE_LL_0 : Nat := 1
/-- Deletion case 2: left sibling whose right child only is RED. -/
def RBNODE_DEL_ROTATE_LR : Nat := 2
/-- Deletion case 3: left sibling with two RED children. -/
def RBNODE_DEL_ROTATE_LL_1 : Nat := 3
/-- Deletion case 4: right sibling with two BLACK children. -/
def RBNODE_DEL_RIGHT_SILING : Nat := 4
/-- Deletion case 5: right sibling whose left child only is RED. -/
def RBNODE_DEL_ROTATE_RL : Nat := 5
/-- Deletion case 6: right sibling whose right child only is RED. -/
def RBNODE_DEL_ROTATE_RR_0 : Nat := 6
/-- Deletion case 7: right sibling with two RED children. -/
def RBNODE_DEL_ROTATE_RR_1 : Nat := 7

/-- The rotating cases of the first `switch( balance_case )` of
`hyrbtree_del_balance` (the BLACK-sibling branch), all of which `break`. -/
def del_balance_switch (t : hyrbtree_t) (parent_rbnode sibling_rbnode balance_case : Nat) :
    hyrbtree_t :=
  if balance_case = RBNODE_DEL_ROTATE_LR then
    let t := if HYRBTREE_READ_NODE_COLOR t parent_rbnode = HYRBTREE_NODE_RED
      then HYRBTREE_SET_NODE_RED t (t.right_node sibling_rbnode)
      else HYRBTREE_SET_NODE_BLACK t (t.right_node sibling_rbnode)
    let t := HYRBTREE_SET_NODE_BLACK t parent_rbnode
    let t := hyrbtree_left_rotate_node t sibling_rbnode
    hyrbtree_right_rotate_node t parent_rbnode
  else if balance_case = RBNODE_DEL_ROTATE_LL_0 ∨ balance_case = RBNODE_DEL_ROTATE_LL_1 then
    let t := HYRBTREE_SET_NODE_BLACK t (t.left_node sibling_rbnode)
    let t := if HYRBTREE_READ_NODE_COLOR t parent_rbnode = HYRBTREE_NODE_RED
      then HYRBTREE_SET_NODE_RED t sibling_rbnode
      else HYRBTREE_SET_NODE_BLACK t sibling_rbnode
    let t := HYRBTREE_SET_NODE_BLACK t parent_rbnode
    hyrbtree_right_rotate_node t parent_rbnode
  else if balance_case = RBNODE_DEL_ROTATE_RL then
    let t := if HYRBTREE_READ_NODE_COLOR t parent_rbnode = HYRBTREE_NODE_RED
      then HYRBTREE_SET_NODE_RED t (t.left_node sibling_rbnode)
      else HYRBTREE_SET_NODE_BLACK t (t.left_node sibling_rbnode)
    let t := HYRBTREE_SET_NODE_BLACK t parent_rbnode
    let t := hyrbtree_right_rotate_node t sibling_rbnode
    hyrbtree_left_rotate_node t parent_rbnode
  else if balance_case = RBNODE_DEL_ROTATE_RR_0 ∨ balance_case = RBNODE_DEL_ROTATE_RR_1 then
    let t := HYRBTREE_SET_NODE_BLACK t (t.right_node sibling_rbnode)
    let t := if HYRBTREE_READ_NODE_COLOR t parent_rbnode = HYRBTREE_NODE_RED
      then HYRBTREE_SET_NODE_RED t sibling_rbnode
      else HYRBTREE_SET_NODE_BLACK t sibling_rbnode
    let t := HYRBTREE_SET_NODE_BLACK t parent_rbnode
    hyrbtree_left_rotate_node t parent_rbnode
  else t

/-- The `while(1)` loop of `hyrbtree_del_balance`; the loop variables are
`cur_node`, `parent_rbnode` and `balance_case`. -/
def hyrbtree_del_balance_loop : Nat → hyrbtree_t → Nat → Nat → Nat → Option hyrbtree_t
  | 0, _, _, _, _ => none
  | fuel + 1, t, cur_node, parent_rbnode, balance_case =>
    let sibling_rbnode := if cur_node = t.left_node parent_rbnode
      then t.right_node parent_rbnode else t.left_node parent_rbnode
    let balance_case := if cur_node = t.left_node parent_rbnode then 4 else balance_case
    if HYRBTREE_READ_NODE_COLOR t sibling_rbnode ≠ HYRBTREE_NODE_RED then
      let balance_case :=
        if HYRBTREE_READ_NODE_COLOR t (t.left_node sibling_rbnode) = HYRBTREE_NODE_RED
        then balance_case + 1 else balance_case
      let balance_case :=
        if HYRBTREE_READ_NODE_COLOR t (t.right_node sibling_rbnode) = HYRBTREE_NODE_RED
        then balance_case + 2 else balance_case
      if balance_case = RBNODE_DEL_LEFT_SILING ∨ balance_case = RBNODE_DEL_RIGHT_SILING then
        let t := HYRBTREE_SET_NODE_RED t sibling_rbnode
        if parent_rbnode ≠ t.root_node then
          if HYRBTREE_READ_NODE_COLOR t parent_rbnode ≠ HYRBTREE_NODE_RED then
            let cur_node := parent_rbnode
            let parent_rbnode := t.parent_node cur_node
            hyrbtree_del_balance_loop fuel t cur_node parent_rbnode 0
          else some (HYRBTREE_SET_NODE_BLACK t parent_rbnode)
        else some t
      else
        let t := del_balance_switch t parent_rbnode sibling_rbnode balance_case
        if parent_rbnode = t.root_node then
          let t := if balance_case % 3 = 2 then t.set_root (t.parent_node sibling_rbnode)
            else t.set_root sibling_rbnode
          let t := t.set_parent t.root_node t.nil_node
          let t := t.set_left t.nil_node t.root_node
          some t
        else some t
    else
      let t := HYRBTREE_SET_NODE_BLACK t sibling_rbnode
      let t := HYRBTREE_SET_NODE_RED t parent_rbnode
      let t :=
        if balance_case = RBNODE_DEL_LEFT_SILING then hyrbtree_right_rotate_node t parent_rbnode
        else if balance_case = RBNODE_DEL_RIGHT_SILING then hyrbtree_left_rotate_node t parent_rbnode
        else t
      let t :=
        if parent_rbnode = t.root_node then
          let t := t.set_root sibling_rbnode
          let t := t.set_parent t.root_node t.nil_node
          t.set_left t.nil_node t.root_node
        else t
      hyrbtree_del_balance_loop fuel t cur_node parent_rbnode 0

/-- `hyrbtree_del_balance`. -/
def hyrbtree_del_balance (fuel : Nat) (t : hyrbtree_t) (cur_node : Nat) : Option hyrbtree_t :=
  if t.right_node cur_node ≠ t.nil_node then
    let t := if t.left_node (t.parent_node cur_node) = cur_node
      then t.set_left (t.parent_node cur_node) (t.right_node cur_node)
      else t.set_right (t.parent_node cur_node) (t.right_node cur_node)
    let t := t.set_parent (t.right_node cur_node) (t.parent_node cur_node)
    some (HYRBTREE_SET_NODE_BLACK t (t.right_node cur_node))
  else if t.left_node cur_node ≠ t.nil_node then
    let t := if t.left_node (t.parent_node cur_node) = cur_node
      then t.set_left (t.parent_node cur_node) (t.left_node cur_node)
      else t.set_right (t.parent_node cur_node) (t.left_node cur_node)
    let t := t.set_parent (t.left_node cur_node) (t.parent_node cur_node)
    let t := HYRBTREE_SET_NODE_BLACK t (t.left_node cur_node)
    if cur_node = t.root_node then
      let t := t.set_root (t.left_node cur_node)
      let t := t.set_parent t.root_node t.nil_node
      some (t.set_left t.nil_node t.root_node)
    else some t
  else if HYRBTREE_READ_NODE_COLOR t cur_node = HYRBTREE_NODE_RED then
    if t.left_node (t.parent_node cur_node) = cur_node
    then some (t.set_left (t.parent_node cur_node) t.nil_node)
    else some (t.set_right (t.parent_node cur_node) t.nil_node)
  else
    if cur_node = t.root_node then some (t.set_root t.nil_node)
    else
      let parent_rbnode := t.parent_node cur_node
      let t := if cur_node = t.left_node parent_rbnode
        then t.set_left parent_rbnode t.nil_node
        else t.set_right parent_rbnode t.nil_node
      let cur_node := t.nil_node
      hyrbtree_del_balance_loop fuel t cur_node parent_rbnode 0

/-- `hyrbtree_del_node`. -/
def hyrbtree_del_node (fuel : Nat) (t : hyrbtree_t) (user_node : Nat) :
    Option (hyrbtree_ret_t × hyrbtree_t) :=
  let node := t.get_rbnode user_node
  if HYRBTREE_GET_NODE_ADDR t node = user_node then
    match hyrbtree_replace_successor fuel t node with
    | none => none
    | some t =>
      match hyrbtree_del_balance fuel t node with
      | none => none
      | some t => some (HYRBTREE_RET_OK, t.set_user node HY_NULL)
  else some (HYRBTREE_RET_DEL_NODE_ARGS_ERROR, t)

/-- The `while(1)` loop of `hyrbtree_get_node`. -/
def hyrbtree_get_node_loop : Nat → hyrbtree_t → Nat → Nat → Option (hyrbtree_ret_t × Option Nat)
  | 0, _, _, _ => none
  | fuel + 1, t, get_node_elem, cur_node =>
    let cur_node_elem := t.get_elem (HYRBTREE_GET_NODE_ADDR t cur_node)
    let result := t.cmp_elem get_node_elem cur_node_elem
    if result < 0 then
      let cur_node := t.left_node cur_node
      if cur_node = t.nil_node then some (HYRBTREE_RET_GET_NODE_NOT_FIND, none)
      else hyrbtree_get_node_loop fuel t get_node_elem cur_node
    else if result > 0 then
      let cur_node := t.right_node cur_node
      if cur_node = t.nil_node then some (HYRBTREE_RET_GET_NODE_NOT_FIND, none)
      else hyrbtree_get_node_loop fuel t get_node_elem cur_node
    else some (HYRBTREE_RET_OK, some (HYRBTREE_GET_NODE_ADDR t cur_node))

/-- `hyrbtree_get_node`.  The result is the status code and the value written
through `get_node` (`none` when nothing is written). -/
def hyrbtree_get_node (fuel : Nat) (t : hyrbtree_t) (get_node_elem : Nat) :
    Option (hyrbtree_ret_t × Option Nat) :=
  if t.root_node ≠ t.nil_node then
    hyrbtree_get_node_loop fuel t get_node_elem t.root_node
  else some (HYRBTREE_RET_GET_NODE_TREE_NULL, none)

/-- `hyrbtree_replace_node`. -/
def hyrbtree_replace_node (t : hyrbtree_t) (old_node new_node : Nat) :
    hyrbtree_ret_t × hyrbtree_t :=
  let old_rbnode := t.get_rbnode old_node
  let new_rbnode := t.get_rbnode new_node
  if HYRBTREE_GET_NODE_ADDR t old_rbnode = old_node ∧
      HYRBTREE_GET_NODE_ADDR t new_rbnode = HY_NULL then
    let old_elem := t.get_elem old_node
    let new_elem := t.get_elem new_node
    let result := t.cmp_elem old_elem new_elem
    if result = 0 then
      let t := t.set_user new_rbnode new_node
      let t := if HYRBTREE_READ_NODE_COLOR t old_rbnode = HYRBTREE_NODE_RED
        then HYRBTREE_SET_NODE_RED t new_rbnode
        else HYRBTREE_SET_NODE_BLACK t new_rbnode
      let t := t.set_user old_rbnode HY_NULL
      let t := t.set_parent new_rbnode (t.parent_node old_rbnode)
      let t := t.set_left new_rbnode (t.left_node old_rbnode)
      let t := t.set_right new_rbnode (t.right_node old_rbnode)
      let t := if t.left_node (t.parent_node old_rbnode) = old_rbnode
        then t.set_left (t.parent_node old_rbnode) new_rbnode
        else t.set_right (t.parent_node old_rbnode) new_rbnode
      let t := t.set_parent (t.left_node old_rbnode) new_rbnode
      let t := t.set_parent (t.right_node old_rbnode) new_rbnode
      (HYRBTREE_RET_OK, t)
    else (HYRBTREE_RET_REPLACE_CMP_ERROR, t)
  else (HYRBTREE_RET_REPLACE_INIT_ERROR, t)


/-! ## Abstract view of the node memory -/

/-- Node colours. -/
inductive Color where
  | red
  | black
  deriving DecidableEq, Repr

/-- The colour tag stored in bit 0 of the owner word. -/
def Color.code : Color → Nat
  | Color.red => HYRBTREE_NODE_RED
  | Color.black => HYRBTREE_NODE_BLACK

/-- A finite binary tree of nodes: each node carries its colour, the address
`a` of its `hyrbnode_t` and the owner `o` stored in its owner word. -/
inductive Tree where
  | leaf
  | node (c : Color) (a o : Nat) (l r : Tree)
  deriving DecidableEq, Repr

/-- One step of a root-to-node path: the node stepped through, the direction
taken and the subtree left aside. `L` means the path continues into the left
child (the sibling is the right subtree), `R` the converse. -/
inductive Frame where
  | L (c : Color) (a o : Nat) (sib : Tree)
  | R (c : Color) (a o : Nat) (sib : Tree)
  deriving DecidableEq, Repr

/-- A tree with a hole: the frames from the hole up to the root, innermost
first. -/
abbrev Ctx := List Frame

namespace Frame

/-- Address of the node of a frame. -/
def addr : Frame → Nat
  | L _ a _ _ => a
  | R _ a _ _ => a

/-- Colour of the node of a frame. -/
def color : Frame → Color
  | L c _ _ _ => c
  | R c _ _ _ => c

/-- The subtree left aside by a frame. -/
def sibling : Frame → Tree
  | L _ _ _ s => s
  | R _ _ _ s => s

/-- Put a subtree back under a frame. -/
def plug : Frame → Tree → Tree
  | L c a o sib, s => Tree.node c a o s sib
  | R c a o sib, s => Tree.node c a o sib s

end Frame

/-- Fill the hole of a context. -/
def plug : Ctx → Tree → Tree
  | [], s => s
  | f :: ctx, s => plug ctx (f.plug s)

namespace Tree

/-- Pointer value denoting a tree: the sentinel for the empty tree, the root
node's address otherwise. -/
def rootOf (nil : Nat) : Tree → Nat
  | leaf => nil
  | node _ a _ _ _ => a

/-- Colour of the root; the empty tree (the sentinel) counts as BLACK. -/
def rootColor : Tree → Color
  | leaf => Color.black
  | node c _ _ _ _ => c

/-- In-order list of the node addresses. -/
def addrs : Tree → List Nat
  | leaf => []
  | node _ a _ l r => addrs l ++ a :: addrs r

/-- In-order list of the owners. -/
def owners : Tree → List Nat
  | leaf => []
  | node _ _ o l r => owners l ++ o :: owners r

/-- In-order list of the (node address, owner) pairs. -/
def nodes : Tree → List (Nat × Nat)
  | leaf => []
  | node _ a o l r => nodes l ++ (a, o) :: nodes r

/-- Number of nodes. -/
def size : Tree → Nat
  | leaf => 0
  | node _ _ _ l r => size l + size r + 1

/-- Number of BLACK nodes on the leftmost path. -/
def bh : Tree → Nat
  | leaf => 0
  | node Color.black _ _ l _ => bh l + 1
  | node Color.red _ _ l _ => bh l

/-- Every root-to-sentinel path crosses the same number of BLACK nodes. -/
def Bal : Tree → Prop
  | leaf => True
  | node _ _ _ l r => Bal l ∧ Bal r ∧ bh l = bh r

/-- No RED node has a RED child. -/
def NoRedRed : Tree → Prop
  | leaf => True
  | node c _ _ l r =>
    (c = Color.red → rootColor l = Color.black ∧ rootColor r = Color.black) ∧
      NoRedRed l ∧ NoRedRed r

end Tree

open Tree

/-- The node memory of `t` lays out the tree: every node of the tree holds its
owner and colour in the owner word, its parent link points to `par` at the
root and to the node above elsewhere, and its child links point to the roots
of its subtrees (the sentinel for an empty subtree). -/
def Rep (t : hyrbtree_t) : Tree → Nat → Prop
  | Tree.leaf, _ => True
  | Tree.node c a o l r, par =>
    HYRBTREE_GET_NODE_ADDR t a = o ∧ HYRBTREE_READ_NODE_COLOR t a = c.code ∧
    t.parent_node a = par ∧
    t.left_node a = rootOf t.nil_node l ∧ t.right_node a = rootOf t.nil_node r ∧
    Rep t l a ∧ Rep t r a

/-- Address of the innermost node of a context, `top` for the empty context. -/
def ctxPar (top : Nat) : Ctx → Nat
  | [] => top
  | f :: _ => f.addr

/-- Address of the outermost node of a context, `p` for the empty context. -/
def ctxRoot : Ctx → Nat → Nat
  | [], p => p
  | f :: ctx, _ => ctxRoot ctx f.addr

/-- Addresses of the nodes of a context (path nodes and subtrees aside). -/
def ctxAddrs : Ctx → List Nat
  | [] => []
  | f :: ctx => f.addr :: (addrs f.sibling ++ ctxAddrs ctx)

/-- The node memory of `t` lays out a context whose hole holds the pointer `p`
and whose outermost node has parent link `top`. -/
def RepCtx (t : hyrbtree_t) : Ctx → Nat → Nat → Prop
  | [], _, _ => True
  | Frame.L c a o sib :: ctx, p, top =>
    HYRBTREE_GET_NODE_ADDR t a = o ∧ HYRBTREE_READ_NODE_COLOR t a = c.code ∧
    t.parent_node a = ctxPar top ctx ∧
    t.left_node a = p ∧ t.right_node a = rootOf t.nil_node sib ∧
    Rep t sib a ∧ RepCtx t ctx a top
  | Frame.R c a o sib :: ctx, p, top =>
    HYRBTREE_GET_NODE_ADDR t a = o ∧ HYRBTREE_READ_NODE_COLOR t a = c.code ∧
    t.parent_node a = ctxPar top ctx ∧
    t.left_node a = rootOf t.nil_node sib ∧ t.right_node a = p ∧
    Rep t sib a ∧ RepCtx t ctx a top

/-- The nodes of `plug ctx s` are pairwise distinct and none is the sentinel. -/
def Sep (nil : Nat) (ctx : Ctx) (s : Tree) : Prop :=
  (addrs s ++ ctxAddrs ctx).Nodup ∧ nil ∉ addrs s ++ ctxAddrs ctx

/-- The node memory lays out the tree `plug ctx s`, seen at the subtree `s`:
the context and the subtree are laid out, the sentinel is BLACK, and the nodes
are pairwise distinct and differ from the sentinel. -/
def ZRep (t : hyrbtree_t) (ctx : Ctx) (s : Tree) : Prop :=
  RepCtx t ctx (rootOf t.nil_node s) t.nil_node ∧ Rep t s (ctxPar t.nil_node ctx) ∧
  HYRBTREE_READ_NODE_COLOR t t.nil_node = HYRBTREE_NODE_BLACK ∧ Sep t.nil_node ctx s

/-- The state `t` holds the tree `T`: the root pointer designates its root, the
node memory lays it out below the sentinel, the sentinel is BLACK, the nodes
are pairwise distinct and none is the sentinel, and every node is the linkage
of the (non-null) owner it stores. -/
structure Represents (t : hyrbtree_t) (T : Tree) : Prop where
  root : t.root_node = rootOf t.nil_node T
  rep : Rep t T t.nil_node
  nil_black : HYRBTREE_READ_NODE_COLOR t t.nil_node = HYRBTREE_NODE_BLACK
  nodup : (addrs T).Nodup
  nil_not_mem : t.nil_node ∉ addrs T
  linked : ∀ p ∈ nodes T, p.1 = t.get_rbnode p.2 ∧ p.2 ≠ HY_NULL

/-- The comparator is a total order on keys: its sign is antisymmetric and
"not greater" is transitive. -/
def TotalOrder (cmp : Nat → Nat → Int) : Prop :=
  (∀ a b, cmp a b < 0 ↔ 0 < cmp b a) ∧
  (∀ a b c, cmp a b ≤ 0 → cmp b c ≤ 0 → cmp a c ≤ 0)

/-- The key of owner `x` is strictly below the key of owner `y`. -/
def keyLt (t : hyrbtree_t) (x y : Nat) : Prop :=
  t.cmp_elem (t.get_elem x) (t.get_elem y) < 0

/-- The red-black invariants 1 to 3 of a tree: BLACK root, no RED node with a
RED child, uniform black-height. -/
def RBTree (T : Tree) : Prop :=
  rootColor T = Color.black ∧ NoRedRed T ∧ Bal T

/-- A well-formed tree: the state holds the tree `T`, which satisfies the
red-black invariants and whose owners are strictly increasing in key order,
and the comparator is a total order. -/
def WellFormed (t : hyrbtree_t) (T : Tree) : Prop :=
  Represents t T ∧ RBTree T ∧ (owners T).Pairwise (keyLt t) ∧ TotalOrder t.cmp_elem

open Tree

/-- Contribution of a node of colour `c` to the black-height. -/
def blackInc : Color → Nat
  | Color.black => 1
  | Color.red => 0

/-- Colour of the root of `plug ctx s` when the root of `s` has colour `c`. -/
def ctxRootColor : Ctx → Color → Color
  | [], c => c
  | f :: ctx, _ => ctxRootColor ctx f.color

/-- The context is balanced around a hole of black-height `k`. -/
def CtxBal : Ctx → Nat → Prop
  | [], _ => True
  | f :: ctx, k => Bal f.sibling ∧ bh f.sibling = k ∧ CtxBal ctx (k + blackInc f.color)

/-- The context has no RED node with a RED child, the hole being filled by a
tree whose root has colour `c`. -/
def CtxNoRedRed : Ctx → Color → Prop
  | [], _ => True
  | f :: ctx, c =>
    (f.color = Color.red → c = Color.black ∧ rootColor f.sibling = Color.black) ∧
      NoRedRed f.sibling ∧ CtxNoRedRed ctx f.color

/-- The (node, owner) pairs of a context that come before the hole in order. -/
def ctxBefore : Ctx → List (Nat × Nat)
  | [] => []
  | Frame.L _ _ _ _ :: ctx => ctxBefore ctx
  | Frame.R _ a o sib :: ctx => ctxBefore ctx ++ (nodes sib ++ [(a, o)])

/-- The (node, owner) pairs of a context that come after the hole in order. -/
def ctxAfter : Ctx → List (Nat × Nat)
  | [] => []
  | Frame.L _ a o sib :: ctx => (a, o) :: nodes sib ++ ctxAfter ctx
  | Frame.R _ _ _ _ :: ctx => ctxAfter ctx

open Tree

/-- The frame with its node recoloured. -/
def Frame.setColor (c : Color) : Frame → Frame
  | Frame.L _ a o s => Frame.L c a o s
  | Frame.R _ a o s => Frame.R c a o s

/-- The search path of the key `k` below a subtree: the context of the empty
slot where the descent of `hyrbtree_add_node` / `hyrbtree_get_node` ends
(`Sum.inl`), or the owner whose key compares equal (`Sum.inr`). -/
def descend (t : hyrbtree_t) (k : Nat) : Tree → Ctx → Ctx ⊕ Nat
  | Tree.leaf, ctx => Sum.inl ctx
  | Tree.node c a o l r, ctx =>
    if t.cmp_elem k (t.get_elem o) < 0 then descend t k l (Frame.L c a o r :: ctx)
    else if t.cmp_elem k (t.get_elem o) > 0 then descend t k r (Frame.R c a o l :: ctx)
    else Sum.inr o

/-- The two writes that link a new node into the empty slot of a context. -/
def attach (t : hyrbtree_t) (add_node : Nat) : Ctx → hyrbtree_t
  | [] => t
  | Frame.L _ a _ _ :: _ => (t.set_left a add_node).set_parent add_node a
  | Frame.R _ a _ _ :: _ => (t.set_right a add_node).set_parent add_node a

/-- What `hyrbtree_get_node` returns on a search path. -/
def getResult : Ctx ⊕ Nat → hyrbtree_ret_t × Option Nat
  | Sum.inl _ => (hyrbtree_ret_t.HYRBTREE_RET_GET_NODE_NOT_FIND, none)
  | Sum.inr e => (hyrbtree_ret_t.HYRBTREE_RET_OK, some e)

/-- The states `t` and `t'` have the same accessor callbacks and the same
sentinel address. -/
def SameEnv (t t' : hyrbtree_t) : Prop :=
  t'.get_rbnode = t.get_rbnode ∧ t'.get_elem = t.get_elem ∧ t'.cmp_elem = t.cmp_elem ∧
  t'.nil_node = t.nil_node

/-- Outcome of a rebalancing: the state `t'` holds a tree with the same nodes
in the same order as `T` that satisfies the red-black invariants, and the
accessors and sentinel address are those of `t`. -/
def Rebalanced (t t' : hyrbtree_t) (T : Tree) : Prop :=
  ∃ T', t'.root_node = rootOf t'.nil_node T' ∧ ZRep t' [] T' ∧ nodes T' = nodes T ∧
    RBTree T' ∧ SameEnv t t'

open Tree

/-- An owner in the detached state: a non-null, 2-byte aligned object whose
embedded linkage is not the sentinel and has its owner word cleared. -/
def DetachedOwner (t : hyrbtree_t) (o : Nat) : Prop :=
  o ≠ HY_NULL ∧ o % 2 = 0 ∧ t.get_rbnode o ≠ t.nil_node ∧
  HYRBTREE_GET_NODE_ADDR t (t.get_rbnode o) = HY_NULL

/-- The red-black invariants 1 to 3 hold in the state `t`: it holds some tree
with a BLACK root, no RED node with a RED child and uniform black-height. -/
def RBInvariants (t : hyrbtree_t) : Prop :=
  ∃ T, Represents t T ∧ rootColor T = Color.black ∧ NoRedRed T ∧ Bal T

/-- The statement proved by induction on the fuel for the loop of
`hyrbtree_add_balance`. -/
def AddBalanceSpec (fuel : Nat) : Prop :=
  ∀ (t : hyrbtree_t) (ctx : Ctx) (P G : Frame) (a o : Nat) (l r : Tree),
    ctx.length < fuel →
    ZRep t (P :: G :: ctx) (Tree.node Color.red a o l r) →
    t.root_node = ctxRoot ctx G.addr →
    P.color = Color.red → rootColor l = Color.black → rootColor r = Color.black →
    Bal (plug (P :: G :: ctx) (Tree.node Color.red a o l r)) →
    NoRedRed (plug (P :: G :: ctx) (Tree.node Color.black a o l r)) →
    rootColor (plug (P :: G :: ctx) (Tree.node Color.red a o l r)) = Color.black →
    ∃ t', hyrbtree_add_balance_loop fuel t a P.addr G.addr 0 = some t' ∧
      Rebalanced t t' (plug (P :: G :: ctx) (Tree.node Color.red a o l r))

/-- The outcome of `hyrbtree_add_node` for a key that is not in the tree. -/
def AddOk (t t' : hyrbtree_t) (T T' : Tree) (o : Nat) : Prop :=
  WellFormed t' T' ∧ SameEnv t t' ∧
  ∃ l1 l2, nodes T = l1 ++ l2 ∧ nodes T' = l1 ++ (t.get_rbnode o, o) :: l2 ∧
    (∀ x ∈ l1, keyLt t x.2 o) ∧ (∀ x ∈ l2, keyLt t o x.2)

open Tree

/-- A freshly initialised tree: the sentinel lives at address 1, owners are the
even addresses, the linkage of owner `o` lives at `o + 1`, the key of owner `o`
is `(o + 6) / 8` and keys are compared as integers. -/
def emptyTree : hyrbtree_t where
  get_rbnode := fun o => o + 1
  get_elem := fun o => (o + 6) / 8
  cmp_elem := fun a b => (a : Int) - (b : Int)
  root_node := 1
  nil_node := 1
  user_node := fun x => if x = 1 then 1 else 0
  parent_node := fun _ => 1
  left_node := fun _ => 1
  right_node := fun _ => 1

/-- The tree after owner 2 (key 1) was inserted into `emptyTree`: its linkage,
node 3, is the BLACK root. -/
def oneNodeTree : hyrbtree_t where
  get_rbnode := fun o => o + 1
  get_elem := fun o => (o + 6) / 8
  cmp_elem := fun a b => (a : Int) - (b : Int)
  root_node := 3
  nil_node := 1
  user_node := fun x => if x = 3 then 3 else if x = 1 then 1 else 0
  parent_node := fun _ => 1
  left_node := fun x => if x = 1 then 3 else 1
  right_node := fun _ => 1

/-- The abstract tree held by `oneNodeTree`. -/
def oneNode : Tree := Tree.node Color.black 3 2 Tree.leaf Tree.leaf

open Tree

/-- The invariant of the loop of `hyrbtree_del_balance`: the subtree `x` in the
hole is a red-black subtree with a BLACK root, the context would be balanced
around a hole one BLACK node higher than `x`, it has no RED node with a RED
child, and the root of the whole tree is BLACK. -/
def DelInv (ctx : Ctx) (x : Tree) : Prop :=
  Bal x ∧ NoRedRed x ∧ rootColor x = Color.black ∧ CtxBal ctx (bh x + 1) ∧
  CtxNoRedRed ctx Color.black ∧ ctxRootColor ctx Color.black = Color.black

open Tree

/-- The layout around the node `n` that `hyrbtree_del_balance` removes: `n`
fills the hole of the context `K`, its fields are those of a node with colour
`c`, owner `o` and subtrees `l`, `r`, the left subtree hangs below `n`, and the
right subtree is laid out below some parent link (after the exchange with an
adjacent successor the link of its root still names the successor). -/
def HoleRep (t : hyrbtree_t) (K : Ctx) (c : Color) (n o : Nat) (l r : Tree) : Prop :=
  RepCtx t K n t.nil_node ∧ HYRBTREE_GET_NODE_ADDR t n = o ∧
  HYRBTREE_READ_NODE_COLOR t n = c.code ∧ t.parent_node n = ctxPar t.nil_node K ∧
  t.left_node n = rootOf t.nil_node l ∧ t.right_node n = rootOf t.nil_node r ∧
  Rep t l n ∧ (∃ q, Rep t r q) ∧
  HYRBTREE_READ_NODE_COLOR t t.nil_node = HYRBTREE_NODE_BLACK ∧
  Sep t.nil_node K (Tree.node c n o l r)

open Tree

/-- The outcome of `hyrbtree_del_node` for an attached owner: the new state
holds a well-formed tree whose nodes are the old ones, in the same order,
without the node of `o`, and `o` is detached. -/
def DelOk (t t' : hyrbtree_t) (T T' : Tree) (o : Nat) : Prop :=
  WellFormed t' T' ∧ SameEnv t t' ∧ DetachedOwner t' o ∧
  ∃ l1 l2, nodes T = l1 ++ (t.get_rbnode o, o) :: l2 ∧ nodes T' = l1 ++ l2

open Tree hyrbtree_ret_t

/-! ## Attached and detached owners, as the checks of the code read them -/

/-- The owner `o` is attached: its linkage resolves back to `o`
(`HYRBTREE_GET_NODE_ADDR(get_rbnode(o)) == o`). -/
def Attached (t : hyrbtree_t) (o : Nat) : Prop :=
  HYRBTREE_GET_NODE_ADDR t (t.get_rbnode o) = o

/-- The linkage of the owner `o` is in the detached state: its owner word,
colour bit aside, is null (`HYRBTREE_GET_NODE_ADDR(get_rbnode(o)) == HY_NULL`). -/
def Detached (t : hyrbtree_t) (o : Nat) : Prop :=
  HYRBTREE_GET_NODE_ADDR t (t.get_rbnode o) = HY_NULL

/-! ## The blocks of the success path of `hyrbtree_replace_node` -/

/-- The owner-word block of `hyrbtree_replace_node`: the new linkage receives
the new owner and the colour of the old linkage, the old linkage is cleared. -/
def replace_node_owner (t : hyrbtree_t) (old_rbnode new_rbnode new_node : Nat) : hyrbtree_t :=
  let t := t.set_user new_rbnode new_node
  let t := if HYRBTREE_READ_NODE_COLOR t old_rbnode = HYRBTREE_NODE_RED
    then HYRBTREE_SET_NODE_RED t new_rbnode
    else HYRBTREE_SET_NODE_BLACK t new_rbnode
  t.set_user old_rbnode HY_NULL

/-- The block of `hyrbtree_replace_node` that copies the three links of the
old linkage to the new one. -/
def replace_node_copy (t : hyrbtree_t) (old_rbnode new_rbnode : Nat) : hyrbtree_t :=
  let t := t.set_parent new_rbnode (t.parent_node old_rbnode)
  let t := t.set_left new_rbnode (t.left_node old_rbnode)
  t.set_right new_rbnode (t.right_node old_rbnode)

/-- The block of `hyrbtree_replace_node` that repoints the child link of the
parent. -/
def replace_node_parent (t : hyrbtree_t) (old_rbnode new_rbnode : Nat) : hyrbtree_t :=
  if t.left_node (t.parent_node old_rbnode) = old_rbnode
  then t.set_left (t.parent_node old_rbnode) new_rbnode
  else t.set_right (t.parent_node old_rbnode) new_rbnode

/-- The block of `hyrbtree_replace_node` that repoints the parent links of the
two children. -/
def replace_node_children (t : hyrbtree_t) (old_rbnode new_rbnode : Nat) : hyrbtree_t :=
  let t := t.set_parent (t.left_node old_rbnode) new_rbnode
  t.set_parent (t.right_node old_rbnode) new_rbnode

open Tree hyrbtree_ret_t

/-! ## Reading the tree out of the node memory -/

/-- `rbtree_preorder` of the test harness: the in-order walk below `node_ptr`
that prints one line per node.  A line is modelled by the triple of the depth,
the owner read from the owner word and the colour bit; the `elem` and `addr`
fields printed are fields of that owner, and the collision chain is left out. -/
def rbtree_preorder : Nat → hyrbtree_t → Nat → Nat → Option (List (Nat × Nat × Nat))
  | 0, _, _, _ => none
  | fuel + 1, t, node_ptr, depth =>
    if node_ptr ≠ t.nil_node then
      match rbtree_preorder fuel t (t.left_node node_ptr) ((depth + 1) % 256) with
      | none => none
      | some ls =>
        match rbtree_preorder fuel t (t.right_node node_ptr) ((depth + 1) % 256) with
        | none => none
        | some rs =>
          some (ls ++ (depth, HYRBTREE_GET_NODE_ADDR t node_ptr,
            HYRBTREE_READ_NODE_COLOR t node_ptr) :: rs)
    else some []

/-- The tree that the walk of `rbtree_preorder` sees below `node_ptr`: the
nodes reached through the child links, each with the colour and the owner read
from its owner word. -/
def read_tree : Nat → hyrbtree_t → Nat → Option Tree
  | 0, _, _ => none
  | fuel + 1, t, node_ptr =>
    if node_ptr ≠ t.nil_node then
      match read_tree fuel t (t.left_node node_ptr) with
      | none => none
      | some l =>
        match read_tree fuel t (t.right_node node_ptr) with
        | none => none
        | some r =>
          some (Tree.node
            (if HYRBTREE_READ_NODE_COLOR t node_ptr = HYRBTREE_NODE_RED then Color.red
              else Color.black)
            node_ptr (HYRBTREE_GET_NODE_ADDR t node_ptr) l r)
    else some Tree.leaf

/-- Deciding `Bal`. -/
def decBal : (T : Tree) → Decidable (Bal T)
  | Tree.leaf => isTrue trivial
  | Tree.node _ _ _ l r =>
    match decBal l, decBal r with
    | isTrue hl, isTrue hr =>
      if h : bh l = bh r then isTrue ⟨hl, hr, h⟩ else isFalse (fun x => h x.2.2)
    | isFalse hl, _ => isFalse (fun x => hl x.1)
    | _, isFalse hr => isFalse (fun x => hr x.2.1)

instance instDecidableBal (T : Tree) : Decidable (Bal T) := decBal T

/-- Deciding `NoRedRed`. -/
def decNoRedRed : (T : Tree) → Decidable (NoRedRed T)
  | Tree.leaf => isTrue trivial
  | Tree.node c _ _ l r =>
    match decNoRedRed l, decNoRedRed r with
    | isTrue hl, isTrue hr =>
      if h : c = Color.red → rootColor l = Color.black ∧ rootColor r = Color.black
      then isTrue ⟨h, hl, hr⟩ else isFalse (fun x => h x.1)
    | isFalse hl, _ => isFalse (fun x => hl x.2.1)
    | _, isFalse hr => isFalse (fun x => hr x.2.2)

instance instDecidableNoRedRed (T : Tree) : Decidable (NoRedRed T) := decNoRedRed T

/-- Deciding `Rep`. -/
def decRep (t : hyrbtree_t) : (T : Tree) → (par : Nat) → Decidable (Rep t T par)
  | Tree.leaf, _ => isTrue trivial
  | Tree.node c a o l r, par =>
    match decRep t l a, decRep t r a with
    | isTrue hl, isTrue hr =>
      if h : HYRBTREE_GET_NODE_ADDR t a = o ∧ HYRBTREE_READ_NODE_COLOR t a = c.code ∧
          t.parent_node a = par ∧ t.left_node a = rootOf t.nil_node l ∧
          t.right_node a = rootOf t.nil_node r
      then isTrue ⟨h.1, h.2.1, h.2.2.1, h.2.2.2.1, h.2.2.2.2, hl, hr⟩
      else isFalse (fun x => h ⟨x.1, x.2.1, x.2.2.1, x.2.2.2.1, x.2.2.2.2.1⟩)
    | isFalse hl, _ => isFalse (fun x => hl x.2.2.2.2.2.1)
    | _, isFalse hr => isFalse (fun x => hr x.2.2.2.2.2.2)

instance instDecidableRep (t : hyrbtree_t) (T : Tree) (par : Nat) : Decidable (Rep t T par) :=
  decRep t T par

instance instDecidableKeyLt (t : hyrbtree_t) : DecidableRel (keyLt t) :=
  fun x y => inferInstanceAs (Decidable (t.cmp_elem (t.get_elem x) (t.get_elem y) < 0))

/-- The state satisfies invariants 1 to 5: it holds a tree (sentinel BLACK,
links consistent) with a BLACK root, no RED node with a RED child, uniform
black-height and strictly increasing keys. -/
def Invariants (t : hyrbtree_t) : Prop :=
  ∃ T, Represents t T ∧ RBTree T ∧ (owners T).Pairwise (keyLt t)

/-- The conditions of `Invariants` for a given tree, as a decidable
conjunction. -/
def HoldsTree (t : hyrbtree_t) (T : Tree) : Prop :=
  t.root_node = rootOf t.nil_node T ∧ Rep t T t.nil_node ∧
  HYRBTREE_READ_NODE_COLOR t t.nil_node = HYRBTREE_NODE_BLACK ∧
  (addrs T).Nodup ∧ t.nil_node ∉ addrs T ∧
  (∀ p ∈ nodes T, p.1 = t.get_rbnode p.2 ∧ p.2 ≠ HY_NULL) ∧
  (rootColor T = Color.black ∧ NoRedRed T ∧ Bal T) ∧ (owners T).Pairwise (keyLt t)

instance instDecidableHoldsTree (t : hyrbtree_t) (T : Tree) : Decidable (HoldsTree t T) :=
  inferInstanceAs (Decidable (_ ∧ _))

/-- Reads the tree below the root with `read_tree` and checks the invariants
on it. -/
def check_invariants (fuel : Nat) (t : hyrbtree_t) : Bool :=
  match read_tree fuel t t.root_node with
  | some T => decide (HoldsTree t T)
  | none => false

open Tree hyrbtree_ret_t

/-! ## The test harness `hyrbtree_test.c` -/

/-- `temp_add_array` of `hyrbtree_test`. -/
def temp_add_array : List Nat := [20, 10, 30, 5, 15, 25, 35, 3, 7, 12, 17, 22, 27, 32, 37, 1]

/-- `temp_del_array` of `hyrbtree_test`. -/
def temp_del_array : List Nat :=
  [15, 5, 25, 20, 30, 10, 35, 3, 17, 22, 27, 32, 37, 7, 12, 1, 19]

/-- `USER_POOL_SIZE`. -/
def USER_POOL_SIZE : Nat := 16

/-- Address of the pool object `user_node_pool[i]`; the objects lie 64 bytes
apart, the first one at address 64. -/
def user_node_pool (i : Nat) : Nat := 64 * (i + 1)

/-- `user_node_get_rbnode`: the linkage is embedded at offset 16 of the pool
object. -/
def user_node_get_rbnode (node : Nat) : Nat := node + 16

/-- `user_node_get_elem`.  Key pointers are identified with the keys they
point at; the key stored in `user_node_pool[i]` is `add_array[i]`, the value
the test writes to `elem` before it inserts the object. -/
def user_node_get_elem (add_array : List Nat) (node : Nat) : Nat :=
  add_array.getD (node / 64 - 1) 0

/-- `user_node_cmp_elem`: -1, 1 or 0. -/
def user_node_cmp_elem (elem1 elem2 : Nat) : Int :=
  if elem1 < elem2 then -1
  else if elem1 > elem2 then 1
  else 0

/-- The tree object `rbtree` of `hyrbtree_test` as declared: the three
callbacks are set, every other word of the tree object and of the pool is
zero.  The sentinel `rbtree.nil_node` lies at address 40. -/
def rbtree (add_array : List Nat) : hyrbtree_t where
  get_rbnode := user_node_get_rbnode
  get_elem := user_node_get_elem add_array
  cmp_elem := user_node_cmp_elem
  root_node := 0
  nil_node := 40
  user_node := fun _ => 0
  parent_node := fun _ => 0
  left_node := fun _ => 0
  right_node := fun _ => 0

/-- The library functions the test calls. -/
inductive api_t where
  | add_node
  | get_node
  | del_node
  | replace_node
  deriving DecidableEq, Repr

/-- What `hyrbtree_add_del_test` works on and what it reports: the tree, the
`next_node` field of the pool objects, the library calls made with their status
codes, in call order, and the tree after each call that may write to it. -/
structure test_t where
  rbtree : hyrbtree_t
  next_node : Nat → Nat
  rets : List (api_t × hyrbtree_ret_t)
  trees : List hyrbtree_t

/-- The walk `while( cur_node_ptr->next_node!=NULL )` to the end of a
collision chain. -/
def chain_end : Nat → (Nat → Nat) → Nat → Option Nat
  | 0, _, _ => none
  | fuel + 1, next_node, cur_node_ptr =>
    if next_node cur_node_ptr ≠ HY_NULL then chain_end fuel next_node (next_node cur_node_ptr)
    else some cur_node_ptr

/-- The insertion loop of `hyrbtree_add_del_test`.  A fresh pool hands out the
objects in index order; `user_pool_new_node` copies the template into the
object, which clears its linkage and its `next_node`. -/
def add_loop (fuel : Nat) : List Nat → Nat → test_t → Option test_t
  | [], _, s => some s
  | _ :: add_array, i, s =>
    if i < USER_POOL_SIZE then
      let new_node_ptr := user_node_pool i
      let rbnode := s.rbtree.get_rbnode new_node_ptr
      let t := s.rbtree.set_user rbnode HY_NULL
      let t := t.set_parent rbnode HY_NULL
      let t := t.set_left rbnode HY_NULL
      let t := t.set_right rbnode HY_NULL
      let next_node := Function.update s.next_node new_node_ptr HY_NULL
      match hyrbtree_add_node fuel t new_node_ptr with
      | none => none
      | some (ret, t, exist_node_ptr) =>
        match ret, exist_node_ptr with
        | HYRBTREE_RET_ADD_NODE_ELEM_EXIST, some exist_node_ptr =>
          match chain_end fuel next_node exist_node_ptr with
          | none => none
          | some cur_node_ptr =>
            add_loop fuel add_array (i + 1)
              { rbtree := t, next_node := Function.update next_node cur_node_ptr new_node_ptr,
                rets := s.rets ++ [(api_t.add_node, ret)], trees := s.trees ++ [t] }
        | _, _ =>
          add_loop fuel add_array (i + 1)
            { rbtree := t, next_node := next_node, rets := s.rets ++ [(api_t.add_node, ret)],
              trees := s.trees ++ [t] }
    else add_loop fuel add_array (i + 1) s

/-- The deletion loop of `hyrbtree_add_del_test`: each key is searched; the
owner found is replaced by the next object of its collision chain when there
is one and deleted otherwise. -/
def del_loop (fuel : Nat) : List Nat → test_t → Option test_t
  | [], s => some s
  | temp_elem :: del_array, s =>
    match hyrbtree_get_node fuel s.rbtree temp_elem with
    | none => none
    | some (ret, ret_node_ptr) =>
      match ret, ret_node_ptr with
      | HYRBTREE_RET_OK, some del_node_ptr =>
        if s.next_node del_node_ptr ≠ HY_NULL then
          match hyrbtree_replace_node s.rbtree del_node_ptr (s.next_node del_node_ptr) with
          | (ret2, t) =>
            del_loop fuel del_array
              { s with rbtree := t,
                       rets := s.rets ++ [(api_t.get_node, ret), (api_t.replace_node, ret2)],
                       trees := s.trees ++ [t] }
        else
          match hyrbtree_del_node fuel s.rbtree del_node_ptr with
          | none => none
          | some (ret2, t) =>
            del_loop fuel del_array
              { s with rbtree := t,
                       rets := s.rets ++ [(api_t.get_node, ret), (api_t.del_node, ret2)],
                       trees := s.trees ++ [t] }
      | _, _ => del_loop fuel del_array { s with rets := s.rets ++ [(api_t.get_node, ret)] }

/-- The state `hyrbtree_add_del_test` starts from. -/
def test_start (rbtree : hyrbtree_t) : test_t :=
  { rbtree := rbtree, next_node := fun _ => HY_NULL, rets := [], trees := [] }

/-- `hyrbtree_add_del_test`: the insertion loop followed by the deletion
loop. -/
def hyrbtree_add_del_test (fuel : Nat) (rbtree : hyrbtree_t) (add_array del_array : List Nat) :
    Option test_t :=
  match add_loop fuel add_array 0 (test_start rbtree) with
  | none => none
  | some s => del_loop fuel del_array s

/-! ### A strict variant of the test loops

The loops below are `add_loop` and `del_loop` with one difference: after each
library call the words of the listed nodes are read once and the state is
rebuilt from the values read.  They compute the same result (the theorems
`add_loop_strict_eq` and `del_loop_strict_eq`) and keep the terms small when
the loops are evaluated on the test arrays. -/

/-- Evaluates the number `n` and hands it to `k`. -/
def force {α : Type} (n : Nat) (k : Nat → α) : α :=
  match n with
  | 0 => k 0
  | m + 1 => k (m + 1)

/-- Reads the map `f` at the addresses listed and hands to `k` the map that
returns the values read at these addresses and is `f` elsewhere. -/
def strict_map {α : Type} (f : Nat → Nat) : List Nat → ((Nat → Nat) → α) → α
  | [], k => k f
  | a :: as, k =>
    force (f a) (fun v => strict_map f as (fun g => k (fun x => if x = a then v else g x)))

/-- Reads the root pointer, the sentinel address and the four words of each
node listed and hands to `k` the state rebuilt from them. -/
def strict_tree {α : Type} (nodes : List Nat) (t : hyrbtree_t) (k : hyrbtree_t → α) : α :=
  force t.root_node fun root =>
  force t.nil_node fun nil =>
  strict_map t.user_node nodes fun user =>
  strict_map t.parent_node nodes fun parent =>
  strict_map t.left_node nodes fun left =>
  strict_map t.right_node nodes fun right =>
  k { t with root_node := root, nil_node := nil, user_node := user, parent_node := parent,
             left_node := left, right_node := right }

/-- The loop `add_loop`, reading the state back after each call. -/
def add_loop_strict (nodes : List Nat) (fuel : Nat) : List Nat → Nat → test_t → Option test_t
  | [], _, s => some s
  | _ :: add_array, i, s =>
    if i < USER_POOL_SIZE then
      let new_node_ptr := user_node_pool i
      let rbnode := s.rbtree.get_rbnode new_node_ptr
      let t := s.rbtree.set_user rbnode HY_NULL
      let t := t.set_parent rbnode HY_NULL
      let t := t.set_left rbnode HY_NULL
      let t := t.set_right rbnode HY_NULL
      let next_node := Function.update s.next_node new_node_ptr HY_NULL
      match hyrbtree_add_node fuel t new_node_ptr with
      | none => none
      | some (ret, t, exist_node_ptr) =>
        strict_tree nodes t fun t =>
        match ret, exist_node_ptr with
        | HYRBTREE_RET_ADD_NODE_ELEM_EXIST, some exist_node_ptr =>
          match chain_end fuel next_node exist_node_ptr with
          | none => none
          | some cur_node_ptr =>
            add_loop_strict nodes fuel add_array (i + 1)
              { rbtree := t, next_node := Function.update next_node cur_node_ptr new_node_ptr,
                rets := s.rets ++ [(api_t.add_node, ret)], trees := s.trees ++ [t] }
        | _, _ =>
          add_loop_strict nodes fuel add_array (i + 1)
            { rbtree := t, next_node := next_node, rets := s.rets ++ [(api_t.add_node, ret)],
              trees := s.trees ++ [t] }
    else add_loop_strict nodes fuel add_array (i + 1) s

/-- The loop `del_loop`, reading the state back after each call. -/
def del_loop_strict (nodes : List Nat) (fuel : Nat) : List Nat → test_t → Option test_t
  | [], s => some s
  | temp_elem :: del_array, s =>
    match hyrbtree_get_node fuel s.rbtree temp_elem with
    | none => none
    | some (ret, ret_node_ptr) =>
      match ret, ret_node_ptr with
      | HYRBTREE_RET_OK, some del_node_ptr =>
        if s.next_node del_node_ptr ≠ HY_NULL then
          match hyrbtree_replace_node s.rbtree del_node_ptr (s.next_node del_node_ptr) with
          | (ret2, t) =>
            strict_tree nodes t fun t =>
            del_loop_strict nodes fuel del_array
              { s with rbtree := t,
                       rets := s.rets ++ [(api_t.get_node, ret), (api_t.replace_node, ret2)],
                       trees := s.trees ++ [t] }
        else
          match hyrbtree_del_node fuel s.rbtree del_node_ptr with
          | none => none
          | some (ret2, t) =>
            strict_tree nodes t fun t =>
            del_loop_strict nodes fuel del_array
              { s with rbtree := t,
                       rets := s.rets ++ [(api_t.get_node, ret), (api_t.del_node, ret2)],
                       trees := s.trees ++ [t] }
      | _, _ =>
        del_loop_strict nodes fuel del_array { s with rets := s.rets ++ [(api_t.get_node, ret)] }

/-- The linkages of the pool objects and the sentinel of `rbtree`. -/
def test_nodes : List Nat :=
  40 :: (List.range USER_POOL_SIZE).map (fun i => user_node_get_rbnode (user_node_pool i))

/-- What is checked of a run: the calls with their status codes, the number of
trees written, that each of them satisfies the invariants, and whether the
tree is empty at the end. -/
def test_report (fuel : Nat) (s : test_t) :
    List (api_t × hyrbtree_ret_t) × Nat × Bool × Bool :=
  (s.rets, s.trees.length, s.trees.all (check_invariants fuel),
    decide (s.rbtree.root_node = s.rbtree.nil_node))

/-- The calls and status codes of the first run of `hyrbtree_test` when every
insertion, search and deletion succeeds and the last search finds the tree
empty. -/
def expected_rets : List (api_t × hyrbtree_ret_t) :=
  List.replicate 16 (api_t.add_node, HYRBTREE_RET_OK) ++
  (List.replicate 16 [(api_t.get_node, HYRBTREE_RET_OK), (api_t.del_node, HYRBTREE_RET_OK)]).flatten ++
  [(api_t.get_node, HYRBTREE_RET_GET_NODE_TREE_NULL)]

/-- The keys of the first concrete scenario. -/
def seven_keys : List Nat := [20, 10, 30, 5, 15, 25, 35]

/-- What is checked after the insertions of the first scenario: the calls with
their status codes, the key of the owner at the root, the colour of the root
and that the last tree satisfies the invariants. -/
def insert_report (fuel : Nat) (s : test_t) : List (api_t × hyrbtree_ret_t) × Nat × Nat × Bool :=
  (s.rets, s.rbtree.get_elem (HYRBTREE_GET_NODE_ADDR s.rbtree s.rbtree.root_node),
    HYRBTREE_READ_NODE_COLOR s.rbtree s.rbtree.root_node, check_invariants fuel s.rbtree)

open Tree hyrbtree_ret_t

/-! ## Sequences of calls -/

/-- A call that may write to the tree, with its owner arguments. -/
inductive call_t where
  | add_node (user_node : Nat)
  | del_node (user_node : Nat)
  | replace_node (old_node new_node : Nat)
  deriving DecidableEq, Repr

/-- Makes one call; the result is the status code and the state afterwards. -/
def run_call (fuel : Nat) (t : hyrbtree_t) : call_t → Option (hyrbtree_ret_t × hyrbtree_t)
  | call_t.add_node user_node =>
    (hyrbtree_add_node fuel t user_node).map (fun r => (r.1, r.2.1))
  | call_t.del_node user_node => hyrbtree_del_node fuel t user_node
  | call_t.replace_node old_node new_node => some (hyrbtree_replace_node t old_node new_node)

/-- Makes the calls in order; the result is the list of calls with their
status codes and the state after the last one. -/
def run_calls (fuel : Nat) : List call_t → hyrbtree_t →
    Option (List (call_t × hyrbtree_ret_t) × hyrbtree_t)
  | [], t => some ([], t)
  | c :: cs, t =>
    match run_call fuel t c with
    | none => none
    | some (ret, t) =>
      match run_calls fuel cs t with
      | none => none
      | some (log, t) => some ((c, ret) :: log, t)

/-- The number of `hyrbtree_add_node` calls that returned OK minus the number
of `hyrbtree_del_node` calls that returned OK. -/
def live_count : List (call_t × hyrbtree_ret_t) → Int
  | [] => 0
  | (call_t.add_node _, HYRBTREE_RET_OK) :: log => live_count log + 1
  | (call_t.del_node _, HYRBTREE_RET_OK) :: log => live_count log - 1
  | _ :: log => live_count log

/-- The number of nodes reachable from the root: the number of lines
`rbtree_preorder` prints when started at the root. -/
def node_count (fuel : Nat) (t : hyrbtree_t) : Option Nat :=
  (rbtree_preorder fuel t t.root_node 0).map List.length

open Tree hyrbtree_ret_t

/-! ## Height and link consistency -/

/-- Number of nodes on the longest path from the root to a leaf position. -/
def Tree.height : Tree → Nat
  | Tree.leaf => 0
  | Tree.node _ _ _ l r => max (Tree.height l) (Tree.height r) + 1

/-- Link consistency of the nodes `reach`: the parent link of the root is the
sentinel; each child link of a node of `reach` is the sentinel or designates a
node of `reach` whose parent link points back; the owner word of each node is
non-null and the linkage of the owner it names is that node. -/
def LinkConsistent (t : hyrbtree_t) (reach : List Nat) : Prop :=
  (t.root_node ≠ t.nil_node →
    t.root_node ∈ reach ∧ t.parent_node t.root_node = t.nil_node) ∧
  ∀ n ∈ reach,
    (t.left_node n = t.nil_node ∨
      (t.left_node n ∈ reach ∧ t.parent_node (t.left_node n) = n)) ∧
    (t.right_node n = t.nil_node ∨
      (t.right_node n ∈ reach ∧ t.parent_node (t.right_node n) = n)) ∧
    HYRBTREE_GET_NODE_ADDR t n ≠ HY_NULL ∧
    t.get_rbnode (HYRBTREE_GET_NODE_ADDR t n) = n

open Tree

/-! ## More concrete states used to instantiate the theorems

All of them use the accessors of `emptyTree`: the sentinel at address 1, the
linkage of owner `o` at `o + 1`, the key of owner `o` equal to `(o + 6) / 8`. -/

/-- The tree after owners 2 (key 1) and 10 (key 2) were inserted into
`emptyTree`: node 3 is the BLACK root, node 11 its RED right child. -/
def twoNodeTree : hyrbtree_t where
  get_rbnode := fun o => o + 1
  get_elem := fun o => (o + 6) / 8
  cmp_elem := fun a b => (a : Int) - (b : Int)
  root_node := 3
  nil_node := 1
  user_node := fun x => if x = 3 then 3 else if x = 11 then 10 else if x = 1 then 1 else 0
  parent_node := fun x => if x = 11 then 3 else 1
  left_node := fun x => if x = 1 then 3 else 1
  right_node := fun x => if x = 3 then 11 else 1

/-- The abstract tree held by `twoNodeTree`. -/
def twoNodes : Tree :=
  Tree.node Color.black 3 2 Tree.leaf (Tree.node Color.red 11 10 Tree.leaf Tree.leaf)

/-- The mirror image: owner 10 (key 2) at node 11 is the BLACK root, owner 2
(key 1) at node 3 its RED left child. -/
def twoNodeTreeL : hyrbtree_t where
  get_rbnode := fun o => o + 1
  get_elem := fun o => (o + 6) / 8
  cmp_elem := fun a b => (a : Int) - (b : Int)
  root_node := 11
  nil_node := 1
  user_node := fun x => if x = 11 then 11 else if x = 3 then 2 else if x = 1 then 1 else 0
  parent_node := fun x => if x = 3 then 11 else 1
  left_node := fun x => if x = 11 then 3 else if x = 1 then 11 else 1
  right_node := fun _ => 1

/-- The abstract tree held by `twoNodeTreeL`. -/
def twoNodesL : Tree :=
  Tree.node Color.black 11 10 (Tree.node Color.red 3 2 Tree.leaf Tree.leaf) Tree.leaf

/-- The state in which the loop of `hyrbtree_add_balance` starts after owner 18
(key 3) was linked below node 11 of `twoNodeTree`: the new node 19 is RED, its
parent 11 is RED, its grandparent 3 is the BLACK root. -/
def addLoopState : hyrbtree_t where
  get_rbnode := fun o => o + 1
  get_elem := fun o => (o + 6) / 8
  cmp_elem := fun a b => (a : Int) - (b : Int)
  root_node := 3
  nil_node := 1
  user_node := fun x =>
    if x = 3 then 3 else if x = 11 then 10 else if x = 19 then 18 else if x = 1 then 1 else 0
  parent_node := fun x => if x = 11 then 3 else if x = 19 then 11 else 1
  left_node := fun x => if x = 1 then 3 else 1
  right_node := fun x => if x = 3 then 11 else if x = 11 then 19 else 1

/-- A state in which the loop of `hyrbtree_del_balance` starts: the BLACK root 3
has lost its left child, a BLACK leaf, and keeps the BLACK leaf 11 as right
child. -/
def delLoopState : hyrbtree_t where
  get_rbnode := fun o => o + 1
  get_elem := fun o => (o + 6) / 8
  cmp_elem := fun a b => (a : Int) - (b : Int)
  root_node := 3
  nil_node := 1
  user_node := fun x => if x = 3 then 3 else if x = 11 then 11 else if x = 1 then 1 else 0
  parent_node := fun x => if x = 11 then 3 else 1
  left_node := fun x => if x = 1 then 3 else 1
  right_node := fun x => if x = 3 then 11 else 1

/-- A state in which the loop of `hyrbtree_del_balance` starts below a RED
sibling: the BLACK root 3 has lost its left child, a BLACK leaf; its right
child 11 is RED with the BLACK leaves 19 and 27 as children. -/
def redSiblingState : hyrbtree_t where
  get_rbnode := fun o => o + 1
  get_elem := fun o => (o + 6) / 8
  cmp_elem := fun a b => (a : Int) - (b : Int)
  root_node := 3
  nil_node := 1
  user_node := fun x =>
    if x = 3 then 3 else if x = 11 then 10 else if x = 19 then 19 else if x = 27 then 27
    else if x = 1 then 1 else 0
  parent_node := fun x => if x = 11 then 3 else if x = 19 then 11 else if x = 27 then 11 else 1
  left_node := fun x => if x = 11 then 19 else if x = 1 then 3 else 1
  right_node := fun x => if x = 3 then 11 else if x = 11 then 27 else 1

/-- A state in which `hyrbtree_del_balance` meets a node with a right child
only, below the root: the BLACK root 11 has the BLACK leaf 3 as left child and
the BLACK node 19 as right child; node 19 has no left child and the RED leaf 27
as right child. -/
def spliceState : hyrbtree_t where
  get_rbnode := fun o => o + 1
  get_elem := fun o => (o + 6) / 8
  cmp_elem := fun a b => (a : Int) - (b : Int)
  root_node := 11
  nil_node := 1
  user_node := fun x =>
    if x = 11 then 11 else if x = 3 then 3 else if x = 19 then 19 else if x = 27 then 26
    else if x = 1 then 1 else 0
  parent_node := fun x => if x = 3 then 11 else if x = 19 then 11 else if x = 27 then 19 else 1
  left_node := fun x => if x = 11 then 3 else if x = 1 then 11 else 1
  right_node := fun x => if x = 11 then 19 else if x = 19 then 27 else 1

/-- The abstract tree held by `spliceState`: owners 2, 10, 18, 26 with keys
1 to 4 in order. -/
def fourNodes : Tree :=
  Tree.node Color.black 11 10 (Tree.node Color.black 3 2 Tree.leaf Tree.leaf)
    (Tree.node Color.black 19 18 Tree.leaf (Tree.node Color.red 27 26 Tree.leaf Tree.leaf))

/-- A tree of six nodes, owners 2, 10, 18, 26, 34, 42 with keys 1 to 6: the
BLACK root 11 has the BLACK leaf 3 as left child and the RED node 35 as right
child; node 35 has the BLACK node 19 as left child and the BLACK leaf 43 as
right child; node 19 has no left child and the RED leaf 27 as right child.  The
in-order successor of the root is node 19, which is not its right child and has
a right child. -/
def sixNodeTree : hyrbtree_t where
  get_rbnode := fun o => o + 1
  get_elem := fun o => (o + 6) / 8
  cmp_elem := fun a b => (a : Int) - (b : Int)
  root_node := 11
  nil_node := 1
  user_node := fun x =>
    if x = 11 then 11 else if x = 3 then 3 else if x = 19 then 19 else if x = 27 then 26
    else if x = 35 then 34 else if x = 43 then 43 else if x = 1 then 1 else 0
  parent_node := fun x =>
    if x = 3 then 11 else if x = 35 then 11 else if x = 19 then 35 else if x = 43 then 35
    else if x = 27 then 19 else 1
  left_node := fun x => if x = 11 then 3 else if x = 35 then 19 else if x = 1 then 11 else 1
  right_node := fun x => if x = 11 then 35 else if x = 35 then 43 else if x = 19 then 27 else 1

/-- The abstract tree held by `sixNodeTree`. -/
def sixNodes : Tree :=
  Tree.node Color.black 11 10 (Tree.node Color.black 3 2 Tree.leaf Tree.leaf)
    (Tree.node Color.red 35 34
      (Tree.node Color.black 19 18 Tree.leaf (Tree.node Color.red 27 26 Tree.leaf Tree.leaf))
      (Tree.node Color.black 43 42 Tree.leaf Tree.leaf))

open Tree hyrbtree_t

/-! ## Reading a field after a write -/

section setters
variable (t : hyrbtree_t) (n v x : Nat)

@[simp]
theorem set_user_user : (t.set_user n v).user_node x = if x = n then v else t.user_node x := by
  simp [set_user, Function.update_apply]
@[simp]
theorem set_user_parent : (t.set_user n v).parent_node = t.parent_node := rfl
@[simp]
theorem set_user_left : (t.set_user n v).left_node = t.left_node := rfl
@[simp]
theorem set_user_right : (t.set_user n v).right_node = t.right_node := rfl
@[simp]
theorem set_user_root : (t.set_user n v).root_node = t.root_node := rfl
@[simp]
theorem set_user_nil : (t.set_user n v).nil_node = t.nil_node := rfl
@[simp]
theorem set_user_get_rbnode : (t.set_user n v).get_rbnode = t.get_rbnode := rfl
@[simp]
theorem set_user_get_elem : (t.set_user n v).get_elem = t.get_elem := rfl
@[simp]
theorem set_user_cmp_elem : (t.set_user n v).cmp_elem = t.cmp_elem := rfl

@[simp]
theorem set_parent_parent :
    (t.set_parent n v).parent_node x = if x = n then v else t.parent_node x := by
  simp [set_parent, Function.update_apply]
@[simp]
theorem set_parent_user : (t.set_parent n v).user_node = t.user_node := rfl
@[simp]
theorem set_parent_left : (t.set_parent n v).left_node = t.left_node := rfl
@[simp]
theorem set_parent_right : (t.set_parent n v).right_node = t.right_node := rfl
@[simp]
theorem set_parent_root : (t.set_parent n v).root_node = t.root_node := rfl
@[simp]
theorem set_parent_nil : (t.set_parent n v).nil_node = t.nil_node := rfl
@[simp]
theorem set_parent_get_rbnode : (t.set_parent n v).get_rbnode = t.get_rbnode := rfl
@[simp]
theorem set_parent_get_elem : (t.set_parent n v).get_elem = t.get_elem := rfl
@[simp]
theorem set_parent_cmp_elem : (t.set_parent n v).cmp_elem = t.cmp_elem := rfl

@[simp]
theorem set_left_left :
    (t.set_left n v).left_node x = if x = n then v else t.left_node x := by
  simp [set_left, Function.update_apply]
@[simp]
theorem set_left_user : (t.set_left n v).user_node = t.user_node := rfl
@[simp]
theorem set_left_parent : (t.set_left n v).parent_node = t.parent_node := rfl
@[simp]
theorem set_left_right : (t.set_left n v).right_node = t.right_node := rfl
@[simp]
theorem set_left_root : (t.set_left n v).root_node = t.root_node := rfl
@[simp]
theorem set_left_nil : (t.set_left n v).nil_node = t.nil_node := rfl
@[simp]
theorem set_left_get_rbnode : (t.set_left n v).get_rbnode = t.get_rbnode := rfl
@[simp]
theorem set_left_get_elem : (t.set_left n v).get_elem = t.get_elem := rfl
@[simp]
theorem set_left_cmp_elem : (t.set_left n v).cmp_elem = t.cmp_elem := rfl

@[simp]
theorem set_right_right :
    (t.set_right n v).right_node x = if x = n then v else t.right_node x := by
  simp [set_right, Function.update_apply]
@[simp]
theorem set_right_user : (t.set_right n v).user_node = t.user_node := rfl
@[simp]
theorem set_right_parent : (t.set_right n v).parent_node = t.parent_node := rfl
@[simp]
theorem set_right_left : (t.set_right n v).left_node = t.left_node := rfl
@[simp]
theorem set_right_root : (t.set_right n v).root_node = t.root_node := rfl
@[simp]
theorem set_right_nil : (t.set_right n v).nil_node = t.nil_node := rfl
@[simp]
theorem set_right_get_rbnode : (t.set_right n v).get_rbnode = t.get_rbnode := rfl
@[simp]
theorem set_right_get_elem : (t.set_right n v).get_elem = t.get_elem := rfl
@[simp]
theorem set_right_cmp_elem : (t.set_right n v).cmp_elem = t.cmp_elem := rfl

@[simp]
theorem set_root_root : (t.set_root v).root_node = v := rfl
@[simp]
theorem set_root_user : (t.set_root v).user_node = t.user_node := rfl
@[simp]
theorem set_root_parent : (t.set_root v).parent_node = t.parent_node := rfl
@[simp]
theorem set_root_left : (t.set_root v).left_node = t.left_node := rfl
@[simp]
theorem set_root_right : (t.set_root v).right_node = t.right_node := rfl
@[simp]
theorem set_root_nil : (t.set_root v).nil_node = t.nil_node := rfl
@[simp]
theorem set_root_get_rbnode : (t.set_root v).get_rbnode = t.get_rbnode := rfl
@[simp]
theorem set_root_get_elem : (t.set_root v).get_elem = t.get_elem := rfl
@[simp]
theorem set_root_cmp_elem : (t.set_root v).cmp_elem = t.cmp_elem := rfl

end setters

/-! ## The colour macros -/

theorem lor_one_eq (w : Nat) : (w ||| 1) = w - w % 2 + 1 := by
  have h1 : (w ||| 1) % 2 = 1 := by simp [Nat.or_mod_two_eq_one]
  have h2 : (w ||| 1) / 2 = w / 2 := by simp [Nat.or_div_two]
  omega

section macros
variable (t : hyrbtree_t) (n v x : Nat)

@[simp]
theorem color_set_black : HYRBTREE_READ_NODE_COLOR (HYRBTREE_SET_NODE_BLACK t n) x =
    if x = n then HYRBTREE_NODE_BLACK else HYRBTREE_READ_NODE_COLOR t x := by
  simp only [HYRBTREE_READ_NODE_COLOR, HYRBTREE_SET_NODE_BLACK, set_user_user, HYRBTREE_NODE_BLACK]
  split
  · subst x; rw [lor_one_eq]; omega
  · rfl

@[simp]
theorem color_set_red : HYRBTREE_READ_NODE_COLOR (HYRBTREE_SET_NODE_RED t n) x =
    if x = n then HYRBTREE_NODE_RED else HYRBTREE_READ_NODE_COLOR t x := by
  simp only [HYRBTREE_READ_NODE_COLOR, HYRBTREE_SET_NODE_RED, set_user_user, HYRBTREE_NODE_RED]
  split
  · subst x; omega
  · rfl

@[simp]
theorem addr_set_black :
    HYRBTREE_GET_NODE_ADDR (HYRBTREE_SET_NODE_BLACK t n) x = HYRBTREE_GET_NODE_ADDR t x := by
  simp only [HYRBTREE_GET_NODE_ADDR, HYRBTREE_SET_NODE_BLACK, set_user_user]
  split
  · subst x; rw [lor_one_eq]; omega
  · rfl

@[simp]
theorem addr_set_red :
    HYRBTREE_GET_NODE_ADDR (HYRBTREE_SET_NODE_RED t n) x = HYRBTREE_GET_NODE_ADDR t x := by
  simp only [HYRBTREE_GET_NODE_ADDR, HYRBTREE_SET_NODE_RED, set_user_user]
  split
  · subst x; omega
  · rfl

@[simp]
theorem set_black_parent : (HYRBTREE_SET_NODE_BLACK t n).parent_node = t.parent_node := rfl
@[simp]
theorem set_black_left : (HYRBTREE_SET_NODE_BLACK t n).left_node = t.left_node := rfl
@[simp]
theorem set_black_right : (HYRBTREE_SET_NODE_BLACK t n).right_node = t.right_node := rfl
@[simp]
theorem set_black_root : (HYRBTREE_SET_NODE_BLACK t n).root_node = t.root_node := rfl
@[simp]
theorem set_black_nil : (HYRBTREE_SET_NODE_BLACK t n).nil_node = t.nil_node := rfl
@[simp]
theorem set_black_get_rbnode : (HYRBTREE_SET_NODE_BLACK t n).get_rbnode = t.get_rbnode := rfl
@[simp]
theorem set_black_get_elem : (HYRBTREE_SET_NODE_BLACK t n).get_elem = t.get_elem := rfl
@[simp]
theorem set_black_cmp_elem : (HYRBTREE_SET_NODE_BLACK t n).cmp_elem = t.cmp_elem := rfl
@[simp]
theorem set_red_parent : (HYRBTREE_SET_NODE_RED t n).parent_node = t.parent_node := rfl
@[simp]
theorem set_red_left : (HYRBTREE_SET_NODE_RED t n).left_node = t.left_node := rfl
@[simp]
theorem set_red_right : (HYRBTREE_SET_NODE_RED t n).right_node = t.right_node := rfl
@[simp]
theorem set_red_root : (HYRBTREE_SET_NODE_RED t n).root_node = t.root_node := rfl
@[simp]
theorem set_red_nil : (HYRBTREE_SET_NODE_RED t n).nil_node = t.nil_node := rfl
@[simp]
theorem set_red_get_rbnode : (HYRBTREE_SET_NODE_RED t n).get_rbnode = t.get_rbnode := rfl
@[simp]
theorem set_red_get_elem : (HYRBTREE_SET_NODE_RED t n).get_elem = t.get_elem := rfl
@[simp]
theorem set_red_cmp_elem : (HYRBTREE_SET_NODE_RED t n).cmp_elem = t.cmp_elem := rfl

@[simp]
theorem color_set_parent :
    HYRBTREE_READ_NODE_COLOR (t.set_parent n v) x = HYRBTREE_READ_NODE_COLOR t x := rfl
@[simp]
theorem color_set_left :
    HYRBTREE_READ_NODE_COLOR (t.set_left n v) x = HYRBTREE_READ_NODE_COLOR t x := rfl
@[simp]
theorem color_set_right :
    HYRBTREE_READ_NODE_COLOR (t.set_right n v) x = HYRBTREE_READ_NODE_COLOR t x := rfl
@[simp]
theorem color_set_root :
    HYRBTREE_READ_NODE_COLOR (t.set_root v) x = HYRBTREE_READ_NODE_COLOR t x := rfl
@[simp]
theorem addr_set_parent :
    HYRBTREE_GET_NODE_ADDR (t.set_parent n v) x = HYRBTREE_GET_NODE_ADDR t x := rfl
@[simp]
theorem addr_set_left :
    HYRBTREE_GET_NODE_ADDR (t.set_left n v) x = HYRBTREE_GET_NODE_ADDR t x := rfl
@[simp]
theorem addr_set_right :
    HYRBTREE_GET_NODE_ADDR (t.set_right n v) x = HYRBTREE_GET_NODE_ADDR t x := rfl
@[simp]
theorem addr_set_root :
    HYRBTREE_GET_NODE_ADDR (t.set_root v) x = HYRBTREE_GET_NODE_ADDR t x := rfl

theorem color_set_user : HYRBTREE_READ_NODE_COLOR (t.set_user n v) x =
    if x = n then v % 2 else HYRBTREE_READ_NODE_COLOR t x := by
  simp only [HYRBTREE_READ_NODE_COLOR, set_user_user]; split <;> rfl

theorem addr_set_user : HYRBTREE_GET_NODE_ADDR (t.set_user n v) x =
    if x = n then v - v % 2 else HYRBTREE_GET_NODE_ADDR t x := by
  simp only [HYRBTREE_GET_NODE_ADDR, set_user_user]; split <;> rfl

end macros

/-! ## Frame lemmas: a write outside a tree does not disturb its layout -/

/-- Two states that agree on the sentinel address and on the four fields of
every node of a tree lay it out alike. -/
theorem Rep_congr (t t' : hyrbtree_t) (hnil : t'.nil_node = t.nil_node) :
    ∀ (s : Tree) (par : Nat),
      (∀ x ∈ addrs s, t'.user_node x = t.user_node x ∧ t'.parent_node x = t.parent_node x ∧
        t'.left_node x = t.left_node x ∧ t'.right_node x = t.right_node x) →
      Rep t s par → Rep t' s par
  | Tree.leaf, _, _, _ => trivial
  | Tree.node c a o l r, par, h, hr => by
    obtain ⟨h1, h2, h3, h4, h5, h6, h7⟩ := hr
    have ha := h a (by simp [addrs])
    refine ⟨?_, ?_, ?_, ?_, ?_, ?_, ?_⟩
    · simpa [HYRBTREE_GET_NODE_ADDR, ha.1] using h1
    · simpa [HYRBTREE_READ_NODE_COLOR, ha.1] using h2
    · rw [ha.2.1]; exact h3
    · rw [ha.2.2.1, hnil]; exact h4
    · rw [ha.2.2.2, hnil]; exact h5
    · exact Rep_congr t t' hnil l a (fun x hx => h x (by simp [addrs, hx])) h6
    · exact Rep_congr t t' hnil r a (fun x hx => h x (by simp [addrs, hx])) h7

section frame
variable (t : hyrbtree_t) (n v : Nat) (s : Tree) (par : Nat)

theorem ne_of_mem_addrs {n x : Nat} {s : Tree} (h : n ∉ addrs s) (hx : x ∈ addrs s) : x ≠ n :=
  fun e => h (e ▸ hx)

@[simp]
theorem Rep_set_root : Rep (t.set_root v) s par ↔ Rep t s par :=
  ⟨Rep_congr (t.set_root v) t rfl s par (fun _ _ => ⟨rfl, rfl, rfl, rfl⟩),
   Rep_congr t (t.set_root v) rfl s par (fun _ _ => ⟨rfl, rfl, rfl, rfl⟩)⟩

@[simp]
theorem Rep_set_left (h : n ∉ addrs s) : Rep (t.set_left n v) s par ↔ Rep t s par :=
  ⟨Rep_congr (t.set_left n v) t rfl s par (fun x hx => by simp [ne_of_mem_addrs h hx]),
   Rep_congr t (t.set_left n v) rfl s par (fun x hx => by simp [ne_of_mem_addrs h hx])⟩

@[simp]
theorem Rep_set_right (h : n ∉ addrs s) : Rep (t.set_right n v) s par ↔ Rep t s par :=
  ⟨Rep_congr (t.set_right n v) t rfl s par (fun x hx => by simp [ne_of_mem_addrs h hx]),
   Rep_congr t (t.set_right n v) rfl s par (fun x hx => by simp [ne_of_mem_addrs h hx])⟩

@[simp]
theorem Rep_set_parent (h : n ∉ addrs s) : Rep (t.set_parent n v) s par ↔ Rep t s par :=
  ⟨Rep_congr (t.set_parent n v) t rfl s par (fun x hx => by simp [ne_of_mem_addrs h hx]),
   Rep_congr t (t.set_parent n v) rfl s par (fun x hx => by simp [ne_of_mem_addrs h hx])⟩

@[simp]
theorem Rep_set_user (h : n ∉ addrs s) : Rep (t.set_user n v) s par ↔ Rep t s par :=
  ⟨Rep_congr (t.set_user n v) t rfl s par (fun x hx => by simp [ne_of_mem_addrs h hx]),
   Rep_congr t (t.set_user n v) rfl s par (fun x hx => by simp [ne_of_mem_addrs h hx])⟩

@[simp]
theorem Rep_set_black (h : n ∉ addrs s) :
    Rep (HYRBTREE_SET_NODE_BLACK t n) s par ↔ Rep t s par := Rep_set_user t n _ s par h

@[simp]
theorem Rep_set_red (h : n ∉ addrs s) :
    Rep (HYRBTREE_SET_NODE_RED t n) s par ↔ Rep t s par := Rep_set_user t n _ s par h

end frame

open Tree hyrbtree_t

/-- Two states that agree on the sentinel address and on the four fields of
every node of a context lay it out alike. -/
theorem RepCtx_congr (t t' : hyrbtree_t) (hnil : t'.nil_node = t.nil_node) :
    ∀ (ctx : Ctx) (p top : Nat),
      (∀ x ∈ ctxAddrs ctx, t'.user_node x = t.user_node x ∧ t'.parent_node x = t.parent_node x ∧
        t'.left_node x = t.left_node x ∧ t'.right_node x = t.right_node x) →
      RepCtx t ctx p top → RepCtx t' ctx p top
  | [], _, _, _, _ => trivial
  | Frame.L c a o sib :: ctx, p, top, h, hr => by
    obtain ⟨h1, h2, h3, h4, h5, h6, h7⟩ := hr
    have ha := h a (by simp [ctxAddrs, Frame.addr])
    refine ⟨?_, ?_, ?_, ?_, ?_, ?_, ?_⟩
    · simpa [HYRBTREE_GET_NODE_ADDR, ha.1] using h1
    · simpa [HYRBTREE_READ_NODE_COLOR, ha.1] using h2
    · rw [ha.2.1]; exact h3
    · rw [ha.2.2.1]; exact h4
    · rw [ha.2.2.2, hnil]; exact h5
    · exact Rep_congr t t' hnil sib a
        (fun x hx => h x (by simp [ctxAddrs, Frame.sibling, hx])) h6
    · exact RepCtx_congr t t' hnil ctx a top (fun x hx => h x (by simp [ctxAddrs, hx])) h7
  | Frame.R c a o sib :: ctx, p, top, h, hr => by
    obtain ⟨h1, h2, h3, h4, h5, h6, h7⟩ := hr
    have ha := h a (by simp [ctxAddrs, Frame.addr])
    refine ⟨?_, ?_, ?_, ?_, ?_, ?_, ?_⟩
    · simpa [HYRBTREE_GET_NODE_ADDR, ha.1] using h1
    · simpa [HYRBTREE_READ_NODE_COLOR, ha.1] using h2
    · rw [ha.2.1]; exact h3
    · rw [ha.2.2.1, hnil]; exact h4
    · rw [ha.2.2.2]; exact h5
    · exact Rep_congr t t' hnil sib a
        (fun x hx => h x (by simp [ctxAddrs, Frame.sibling, hx])) h6
    · exact RepCtx_congr t t' hnil ctx a top (fun x hx => h x (by simp [ctxAddrs, hx])) h7

section framectx
variable (t : hyrbtree_t) (n v : Nat) (ctx : Ctx) (p top : Nat)

theorem ne_of_mem_ctxAddrs {n x : Nat} {ctx : Ctx} (h : n ∉ ctxAddrs ctx) (hx : x ∈ ctxAddrs ctx) :
    x ≠ n :=
  fun e => h (e ▸ hx)

@[simp]
theorem RepCtx_set_root : RepCtx (t.set_root v) ctx p top ↔ RepCtx t ctx p top :=
  ⟨RepCtx_congr (t.set_root v) t rfl ctx p top (fun _ _ => ⟨rfl, rfl, rfl, rfl⟩),
   RepCtx_congr t (t.set_root v) rfl ctx p top (fun _ _ => ⟨rfl, rfl, rfl, rfl⟩)⟩

@[simp]
theorem RepCtx_set_left (h : n ∉ ctxAddrs ctx) :
    RepCtx (t.set_left n v) ctx p top ↔ RepCtx t ctx p top :=
  ⟨RepCtx_congr (t.set_left n v) t rfl ctx p top (fun x hx => by simp [ne_of_mem_ctxAddrs h hx]),
   RepCtx_congr t (t.set_left n v) rfl ctx p top (fun x hx => by simp [ne_of_mem_ctxAddrs h hx])⟩

@[simp]
theorem RepCtx_set_right (h : n ∉ ctxAddrs ctx) :
    RepCtx (t.set_right n v) ctx p top ↔ RepCtx t ctx p top :=
  ⟨RepCtx_congr (t.set_right n v) t rfl ctx p top (fun x hx => by simp [ne_of_mem_ctxAddrs h hx]),
   RepCtx_congr t (t.set_right n v) rfl ctx p top (fun x hx => by simp [ne_of_mem_ctxAddrs h hx])⟩

@[simp]
theorem RepCtx_set_parent (h : n ∉ ctxAddrs ctx) :
    RepCtx (t.set_parent n v) ctx p top ↔ RepCtx t ctx p top :=
  ⟨RepCtx_congr (t.set_parent n v) t rfl ctx p top (fun x hx => by simp [ne_of_mem_ctxAddrs h hx]),
   RepCtx_congr t (t.set_parent n v) rfl ctx p top (fun x hx => by simp [ne_of_mem_ctxAddrs h hx])⟩

@[simp]
theorem RepCtx_set_user (h : n ∉ ctxAddrs ctx) :
    RepCtx (t.set_user n v) ctx p top ↔ RepCtx t ctx p top :=
  ⟨RepCtx_congr (t.set_user n v) t rfl ctx p top (fun x hx => by simp [ne_of_mem_ctxAddrs h hx]),
   RepCtx_congr t (t.set_user n v) rfl ctx p top (fun x hx => by simp [ne_of_mem_ctxAddrs h hx])⟩

@[simp]
theorem RepCtx_set_black (h : n ∉ ctxAddrs ctx) :
    RepCtx (HYRBTREE_SET_NODE_BLACK t n) ctx p top ↔ RepCtx t ctx p top :=
  RepCtx_set_user t n _ ctx p top h

@[simp]
theorem RepCtx_set_red (h : n ∉ ctxAddrs ctx) :
    RepCtx (HYRBTREE_SET_NODE_RED t n) ctx p top ↔ RepCtx t ctx p top :=
  RepCtx_set_user t n _ ctx p top h

end framectx

open Tree hyrbtree_t

/-! ## Small facts used to take distinctness hypotheses apart -/

@[simp]
theorem rootOf_leaf (nil : Nat) : rootOf nil Tree.leaf = nil := rfl
@[simp]
theorem rootOf_node (nil : Nat) (c : Color) (a o : Nat) (l r : Tree) :
    rootOf nil (Tree.node c a o l r) = a := rfl

theorem not_mem_cons_sym {a b : Nat} {l : List Nat} :
    a ∉ b :: l ↔ (¬ a = b ∧ ¬ b = a) ∧ a ∉ l := by
  simp only [List.mem_cons, not_or]
  constructor
  · rintro ⟨h1, h2⟩; exact ⟨⟨h1, fun e => h1 e.symm⟩, h2⟩
  · rintro ⟨⟨h1, _⟩, h2⟩; exact ⟨h1, h2⟩

open Tree hyrbtree_t

@[simp]
theorem ctxPar_nil (top : Nat) : ctxPar top [] = top := rfl
@[simp]
theorem ctxPar_cons (top : Nat) (f : Frame) (ctx : Ctx) : ctxPar top (f :: ctx) = f.addr := rfl
@[simp]
theorem Frame.addr_L (c : Color) (a o : Nat) (s : Tree) : (Frame.L c a o s).addr = a := rfl
@[simp]
theorem Frame.addr_R (c : Color) (a o : Nat) (s : Tree) : (Frame.R c a o s).addr = a := rfl
@[simp]
theorem Frame.sibling_L (c : Color) (a o : Nat) (s : Tree) : (Frame.L c a o s).sibling = s := rfl
@[simp]
theorem Frame.sibling_R (c : Color) (a o : Nat) (s : Tree) : (Frame.R c a o s).sibling = s := rfl
@[simp]
theorem Frame.color_L (c : Color) (a o : Nat) (s : Tree) : (Frame.L c a o s).color = c := rfl
@[simp]
theorem Frame.color_R (c : Color) (a o : Nat) (s : Tree) : (Frame.R c a o s).color = c := rfl
@[simp]
theorem ctxRoot_nil (p : Nat) : ctxRoot [] p = p := rfl
@[simp]
theorem ctxRoot_cons (f : Frame) (ctx : Ctx) (p : Nat) :
    ctxRoot (f :: ctx) p = ctxRoot ctx f.addr := rfl
@[simp]
theorem ctxAddrs_nil : ctxAddrs [] = [] := rfl
@[simp]
theorem ctxAddrs_cons (f : Frame) (ctx : Ctx) :
    ctxAddrs (f :: ctx) = f.addr :: (addrs f.sibling ++ ctxAddrs ctx) := rfl
@[simp]
theorem addrs_leaf : addrs Tree.leaf = [] := rfl
@[simp]
theorem addrs_node (c : Color) (a o : Nat) (l r : Tree) :
    addrs (Tree.node c a o l r) = addrs l ++ a :: addrs r := rfl

open Tree hyrbtree_t

theorem rootOf_mem_or (nil : Nat) : ∀ s : Tree, rootOf nil s = nil ∨ rootOf nil s ∈ addrs s
  | Tree.leaf => Or.inl rfl
  | Tree.node _ _ _ _ _ => Or.inr (by simp)

@[simp]
theorem ne_rootOf {nil x : Nat} {s : Tree} (h1 : x ∉ addrs s) (h2 : ¬ x = nil) :
    (x = rootOf nil s) = False := by
  refine eq_false (fun e => ?_)
  rcases rootOf_mem_or nil s with h | h
  · exact h2 (e.trans h)
  · exact h1 (e ▸ h)

@[simp]
theorem rootOf_ne {nil x : Nat} {s : Tree} (h1 : x ∉ addrs s) (h2 : ¬ x = nil) :
    (rootOf nil s = x) = False := by
  refine eq_false (fun e => ?_)
  exact (ne_rootOf h1 h2 ▸ e.symm : False)

theorem addrs_plug_perm (f : Frame) (ctx : Ctx) (s : Tree) :
    (addrs (f.plug s) ++ ctxAddrs ctx).Perm (addrs s ++ ctxAddrs (f :: ctx)) := by
  cases f with
  | L c a o sib => simp [Frame.plug]
  | R c a o sib =>
    simp only [Frame.plug, addrs_node, ctxAddrs_cons, Frame.addr_R, Frame.sibling_R,
      List.append_assoc, List.cons_append]
    rw [List.perm_iff_count]
    intro x
    simp only [List.count_append, List.count_cons]
    omega

/-- Moving the focus one node up does not change the set of nodes. -/
theorem Sep_cons (nil : Nat) (f : Frame) (ctx : Ctx) (s : Tree) :
    Sep nil (f :: ctx) s ↔ Sep nil ctx (f.plug s) := by
  have hp := addrs_plug_perm f ctx s
  simp only [Sep, hp.nodup_iff, hp.mem_iff]

/-- Moving the focus one node up does not change what the memory lays out. -/
theorem ZRep_cons (t : hyrbtree_t) (f : Frame) (ctx : Ctx) (s : Tree) :
    ZRep t (f :: ctx) s ↔ ZRep t ctx (f.plug s) := by
  have hsep := Sep_cons t.nil_node f ctx s
  cases f <;> simp only [ZRep, RepCtx, Rep, Frame.plug, rootOf_node, ctxPar_cons, Frame.addr_L,
    Frame.addr_R, hsep] <;> tauto

open Tree hyrbtree_t

/-! ## A conditional between two states, read field by field -/

section ite
variable (c : Prop) [Decidable c] (a b : hyrbtree_t)

@[simp]
theorem ite_root_node :
    (if c then a else b).root_node = if c then a.root_node else b.root_node := by
  split <;> rfl
@[simp]
theorem ite_nil_node :
    (if c then a else b).nil_node = if c then a.nil_node else b.nil_node := by
  split <;> rfl
@[simp]
theorem ite_user_node (x : Nat) :
    (if c then a else b).user_node x = if c then a.user_node x else b.user_node x := by
  split <;> rfl
@[simp]
theorem ite_parent_node (x : Nat) :
    (if c then a else b).parent_node x = if c then a.parent_node x else b.parent_node x := by
  split <;> rfl
@[simp]
theorem ite_left_node (x : Nat) :
    (if c then a else b).left_node x = if c then a.left_node x else b.left_node x := by
  split <;> rfl
@[simp]
theorem ite_right_node (x : Nat) :
    (if c then a else b).right_node x = if c then a.right_node x else b.right_node x := by
  split <;> rfl
@[simp]
theorem ite_get_rbnode :
    (if c then a else b).get_rbnode = if c then a.get_rbnode else b.get_rbnode := by
  split <;> rfl
@[simp]
theorem ite_get_elem :
    (if c then a else b).get_elem = if c then a.get_elem else b.get_elem := by
  split <;> rfl
@[simp]
theorem ite_cmp_elem :
    (if c then a else b).cmp_elem = if c then a.cmp_elem else b.cmp_elem := by
  split <;> rfl
@[simp]
theorem ite_color (x : Nat) : HYRBTREE_READ_NODE_COLOR (if c then a else b) x =
    if c then HYRBTREE_READ_NODE_COLOR a x else HYRBTREE_READ_NODE_COLOR b x := by
  split <;> rfl
@[simp]
theorem ite_addr (x : Nat) : HYRBTREE_GET_NODE_ADDR (if c then a else b) x =
    if c then HYRBTREE_GET_NODE_ADDR a x else HYRBTREE_GET_NODE_ADDR b x := by
  split <;> rfl
@[simp]
theorem Rep_ite (s : Tree) (p : Nat) :
    Rep (if c then a else b) s p ↔ if c then Rep a s p else Rep b s p := by
  split <;> rfl
@[simp]
theorem RepCtx_ite (ctx : Ctx) (p top : Nat) :
    RepCtx (if c then a else b) ctx p top ↔ if c then RepCtx a ctx p top else RepCtx b ctx p top := by
  split <;> rfl

end ite

open Tree hyrbtree_t

/-! ## Rotations -/

section rotate_fields
variable (t : hyrbtree_t) (n x : Nat)

@[simp]
theorem left_rotate_root : (hyrbtree_left_rotate_node t n).root_node = t.root_node := by
  simp [hyrbtree_left_rotate_node]
@[simp]
theorem left_rotate_nil : (hyrbtree_left_rotate_node t n).nil_node = t.nil_node := by
  simp [hyrbtree_left_rotate_node]
@[simp]
theorem left_rotate_user : (hyrbtree_left_rotate_node t n).user_node = t.user_node := by
  funext x; simp [hyrbtree_left_rotate_node]
@[simp]
theorem left_rotate_get_rbnode :
    (hyrbtree_left_rotate_node t n).get_rbnode = t.get_rbnode := by
  simp [hyrbtree_left_rotate_node]
@[simp]
theorem left_rotate_get_elem : (hyrbtree_left_rotate_node t n).get_elem = t.get_elem := by
  simp [hyrbtree_left_rotate_node]
@[simp]
theorem left_rotate_cmp_elem : (hyrbtree_left_rotate_node t n).cmp_elem = t.cmp_elem := by
  simp [hyrbtree_left_rotate_node]
@[simp]
theorem left_rotate_color : HYRBTREE_READ_NODE_COLOR (hyrbtree_left_rotate_node t n) x =
    HYRBTREE_READ_NODE_COLOR t x := by
  simp only [HYRBTREE_READ_NODE_COLOR, left_rotate_user]

@[simp]
theorem right_rotate_root : (hyrbtree_right_rotate_node t n).root_node = t.root_node := by
  simp [hyrbtree_right_rotate_node]
@[simp]
theorem right_rotate_nil : (hyrbtree_right_rotate_node t n).nil_node = t.nil_node := by
  simp [hyrbtree_right_rotate_node]
@[simp]
theorem right_rotate_user : (hyrbtree_right_rotate_node t n).user_node = t.user_node := by
  funext x; simp [hyrbtree_right_rotate_node]
@[simp]
theorem right_rotate_get_rbnode :
    (hyrbtree_right_rotate_node t n).get_rbnode = t.get_rbnode := by
  simp [hyrbtree_right_rotate_node]
@[simp]
theorem right_rotate_get_elem : (hyrbtree_right_rotate_node t n).get_elem = t.get_elem := by
  simp [hyrbtree_right_rotate_node]
@[simp]
theorem right_rotate_cmp_elem : (hyrbtree_right_rotate_node t n).cmp_elem = t.cmp_elem := by
  simp [hyrbtree_right_rotate_node]
@[simp]
theorem right_rotate_color : HYRBTREE_READ_NODE_COLOR (hyrbtree_right_rotate_node t n) x =
    HYRBTREE_READ_NODE_COLOR t x := by
  simp only [HYRBTREE_READ_NODE_COLOR, right_rotate_user]

end rotate_fields

/-- A left rotation at `n` turns the subtree `n(a, c(b, d))` into `c(n(a, b), d)` and
leaves the rest of the layout alone. -/
theorem left_rotate_rep (t : hyrbtree_t) (ctx : Ctx) (cn : Color) (n no : Nat) (a : Tree)
    (cc : Color) (c oc : Nat) (b d : Tree)
    (h : ZRep t ctx (node cn n no a (node cc c oc b d))) :
    ZRep (hyrbtree_left_rotate_node t n) ctx (node cc c oc (node cn n no a b) d) := by
  obtain ⟨h1, h2, h3, hs⟩ := h
  rcases ctx with _ | ⟨⟨cp, p, op, sib⟩ | ⟨cp, p, op, sib⟩, ctx⟩ <;>
  rcases b with _ | ⟨cb, ab, ob, bl, br⟩ <;>
  simp only [ZRep, RepCtx, Rep, rootOf_node, rootOf_leaf, ctxPar_nil, ctxPar_cons, Frame.addr_L,
    Frame.addr_R, true_and, and_true] at h1 h2 ⊢ <;>
  simp only [Sep, addrs_node, addrs_leaf, ctxAddrs_cons, ctxAddrs_nil, Frame.addr_L, Frame.addr_R,
    Frame.sibling_L, Frame.sibling_R, List.nodup_append, List.nodup_cons,
    List.mem_append, not_or, not_mem_cons_sym, List.disjoint_cons_left, List.disjoint_cons_right,
    List.disjoint_append_left, List.disjoint_append_right, List.not_mem_nil, List.nodup_nil,
    List.disjoint_nil_left, List.disjoint_nil_right, not_false_eq_true, true_and, and_true,
    List.append_nil, List.nil_append] at hs ⊢ <;>
  simp [hyrbtree_left_rotate_node, h1, h2, h3, hs]

/-- A right rotation at `n` turns the subtree `n(c(a, b), d)` into `c(a, n(b, d))` and
leaves the rest of the layout alone. -/
theorem right_rotate_rep (t : hyrbtree_t) (ctx : Ctx) (cn : Color) (n no : Nat) (d : Tree)
    (cc : Color) (c oc : Nat) (a b : Tree)
    (h : ZRep t ctx (node cn n no (node cc c oc a b) d)) :
    ZRep (hyrbtree_right_rotate_node t n) ctx (node cc c oc a (node cn n no b d)) := by
  obtain ⟨h1, h2, h3, hs⟩ := h
  rcases ctx with _ | ⟨⟨cp, p, op, sib⟩ | ⟨cp, p, op, sib⟩, ctx⟩ <;>
  rcases b with _ | ⟨cb, ab, ob, bl, br⟩ <;>
  simp only [ZRep, RepCtx, Rep, rootOf_node, rootOf_leaf, ctxPar_nil, ctxPar_cons, Frame.addr_L,
    Frame.addr_R, true_and, and_true] at h1 h2 ⊢ <;>
  simp only [Sep, addrs_node, addrs_leaf, ctxAddrs_cons, ctxAddrs_nil, Frame.addr_L, Frame.addr_R,
    Frame.sibling_L, Frame.sibling_R, List.nodup_append, List.nodup_cons,
    List.mem_append, not_or, not_mem_cons_sym, List.disjoint_cons_left, List.disjoint_cons_right,
    List.disjoint_append_left, List.disjoint_append_right, List.not_mem_nil, List.nodup_nil,
    List.disjoint_nil_left, List.disjoint_nil_right, not_false_eq_true, true_and, and_true,
    List.append_nil, List.nil_append] at hs ⊢ <;>
  simp [hyrbtree_right_rotate_node, h1, h2, h3, hs]

/-! ## Recolouring the node in focus -/

theorem set_black_rep (t : hyrbtree_t) (ctx : Ctx) (c : Color) (a o : Nat) (l r : Tree)
    (h : ZRep t ctx (node c a o l r)) :
    ZRep (HYRBTREE_SET_NODE_BLACK t a) ctx (node Color.black a o l r) := by
  obtain ⟨h1, h2, h3, hs⟩ := h
  have hs' := hs
  simp only [Sep, addrs_node, List.nodup_append, List.nodup_cons, List.mem_append, not_or,
    not_mem_cons_sym, List.disjoint_cons_left, List.disjoint_cons_right,
    List.disjoint_append_left, List.disjoint_append_right] at hs
  simp only [ZRep, Rep, rootOf_node] at h1 h2 ⊢
  refine ⟨?_, ?_, ?_, hs'⟩ <;> simp [h1, h2, h3, hs, Color.code]

theorem set_red_rep (t : hyrbtree_t) (ctx : Ctx) (c : Color) (a o : Nat) (l r : Tree)
    (h : ZRep t ctx (node c a o l r)) :
    ZRep (HYRBTREE_SET_NODE_RED t a) ctx (node Color.red a o l r) := by
  obtain ⟨h1, h2, h3, hs⟩ := h
  have hs' := hs
  simp only [Sep, addrs_node, List.nodup_append, List.nodup_cons, List.mem_append, not_or,
    not_mem_cons_sym, List.disjoint_cons_left, List.disjoint_cons_right,
    List.disjoint_append_left, List.disjoint_append_right] at hs
  simp only [ZRep, Rep, rootOf_node] at h1 h2 ⊢
  refine ⟨?_, ?_, ?_, hs'⟩ <;> simp [h1, h2, h3, hs, Color.code]

open Tree hyrbtree_t

/-! ## Trees with a hole: invariants -/

@[simp]
theorem plug_nil (s : Tree) : plug [] s = s := rfl
@[simp]
theorem plug_cons (f : Frame) (ctx : Ctx) (s : Tree) :
    plug (f :: ctx) s = plug ctx (f.plug s) := rfl

theorem bh_node (c : Color) (a o : Nat) (l r : Tree) :
    bh (Tree.node c a o l r) = bh l + blackInc c := by
  cases c <;> rfl

theorem rootOf_plug (nil : Nat) : ∀ (ctx : Ctx) (s : Tree),
    rootOf nil (plug ctx s) = ctxRoot ctx (rootOf nil s)
  | [], _ => rfl
  | f :: ctx, s => by
    rw [plug_cons, rootOf_plug nil ctx]; cases f <;> rfl

theorem rootColor_plug : ∀ (ctx : Ctx) (s : Tree),
    rootColor (plug ctx s) = ctxRootColor ctx (rootColor s)
  | [], _ => rfl
  | f :: ctx, s => by
    rw [plug_cons, rootColor_plug ctx]; cases f <;> rfl

theorem Bal_plug : ∀ (ctx : Ctx) (s : Tree),
    Bal (plug ctx s) ↔ Bal s ∧ CtxBal ctx (bh s)
  | [], _ => by simp [CtxBal]
  | f :: ctx, s => by
    rw [plug_cons, Bal_plug ctx]
    cases f <;> simp only [Frame.plug, Bal, CtxBal, bh_node, Frame.sibling_L,
      Frame.sibling_R, Frame.color_L, Frame.color_R]
    · constructor
      · rintro ⟨⟨h1, h2, h3⟩, h4⟩; exact ⟨h1, h2, h3.symm, h4⟩
      · rintro ⟨h1, h2, h3, h4⟩; exact ⟨⟨h1, h2, h3.symm⟩, h4⟩
    · constructor
      · rintro ⟨⟨h1, h2, h3⟩, h4⟩; exact ⟨h2, h1, h3, h3 ▸ h4⟩
      · rintro ⟨h1, h2, h3, h4⟩; exact ⟨⟨h2, h1, h3⟩, h3 ▸ h4⟩

theorem NoRedRed_plug : ∀ (ctx : Ctx) (s : Tree),
    NoRedRed (plug ctx s) ↔ NoRedRed s ∧ CtxNoRedRed ctx (rootColor s)
  | [], _ => by simp [CtxNoRedRed]
  | f :: ctx, s => by
    rw [plug_cons, NoRedRed_plug ctx]
    cases f <;> simp only [Frame.plug, NoRedRed, CtxNoRedRed, rootColor, Frame.sibling_L,
      Frame.sibling_R, Frame.color_L, Frame.color_R] <;> tauto

theorem nodes_plug : ∀ (ctx : Ctx) (s : Tree),
    nodes (plug ctx s) = ctxBefore ctx ++ (nodes s ++ ctxAfter ctx)
  | [], _ => by simp [ctxBefore, ctxAfter]
  | f :: ctx, s => by
    rw [plug_cons, nodes_plug ctx]
    cases f <;> simp [Frame.plug, nodes, ctxBefore, ctxAfter]

theorem addrs_eq_map : ∀ s : Tree, addrs s = (nodes s).map Prod.fst
  | Tree.leaf => rfl
  | Tree.node _ _ _ l r => by simp [nodes, addrs_eq_map l, addrs_eq_map r]

theorem owners_eq_map : ∀ s : Tree, owners s = (nodes s).map Prod.snd
  | Tree.leaf => rfl
  | Tree.node _ _ _ l r => by simp [nodes, owners, owners_eq_map l, owners_eq_map r]

theorem size_eq_length : ∀ s : Tree, size s = (nodes s).length
  | Tree.leaf => rfl
  | Tree.node _ _ _ l r => by simp [nodes, size, size_eq_length l, size_eq_length r]; omega

theorem Sep_plug (nil : Nat) : ∀ (ctx : Ctx) (s : Tree),
    Sep nil [] (plug ctx s) ↔ Sep nil ctx s
  | [], _ => Iff.rfl
  | f :: ctx, s => by rw [plug_cons, Sep_plug nil ctx, Sep_cons]

theorem Sep_nil_iff (nil : Nat) (T : Tree) :
    Sep nil [] T ↔ (addrs T).Nodup ∧ nil ∉ addrs T := by
  simp [Sep]

theorem ZRep_plug (t : hyrbtree_t) : ∀ (ctx : Ctx) (s : Tree),
    ZRep t [] (plug ctx s) ↔ ZRep t ctx s
  | [], s => Iff.rfl
  | f :: ctx, s => by rw [plug_cons, ZRep_plug t ctx, ZRep_cons]

theorem length_le_size : ∀ (ctx : Ctx) (s : Tree), ctx.length + size s ≤ size (plug ctx s)
  | [], _ => by simp
  | f :: ctx, s => by
    have := length_le_size ctx (f.plug s)
    cases f <;> simp [Frame.plug, size] at this ⊢ <;> omega

/-- The state holds `T` exactly when the memory lays it out below the sentinel,
the root pointer designates its root and the owners are linked. -/
theorem Represents_iff (t : hyrbtree_t) (T : Tree) :
    Represents t T ↔
      t.root_node = rootOf t.nil_node T ∧ ZRep t [] T ∧
      ∀ p ∈ nodes T, p.1 = t.get_rbnode p.2 ∧ p.2 ≠ HY_NULL := by
  simp only [ZRep, RepCtx, ctxPar_nil, true_and, Sep_nil_iff]
  constructor
  · rintro ⟨h1, h2, h3, h4, h5, h6⟩; exact ⟨h1, ⟨h2, h3, h4, h5⟩, h6⟩
  · rintro ⟨h1, ⟨h2, h3, h4, h5⟩, h6⟩; exact ⟨h1, h2, h3, h4, h5, h6⟩


theorem ctxRoot_congr : ∀ (ctx : Ctx) (x y : Nat), ctx ≠ [] → ctxRoot ctx x = ctxRoot ctx y
  | [], _, _, h => absurd rfl h
  | _ :: _, _, _, _ => rfl

open Tree

@[simp]
theorem rootColor_leaf : rootColor Tree.leaf = Color.black := rfl
@[simp]
theorem rootColor_node (c : Color) (a o : Nat) (l r : Tree) :
    rootColor (Tree.node c a o l r) = c := rfl
@[simp]
theorem blackInc_red : blackInc Color.red = 0 := rfl
@[simp]
theorem blackInc_black : blackInc Color.black = 1 := rfl
@[simp]
theorem ctxRootColor_nil (c : Color) : ctxRootColor [] c = c := rfl
@[simp]
theorem ctxRootColor_cons (f : Frame) (ctx : Ctx) (c : Color) :
    ctxRootColor (f :: ctx) c = ctxRootColor ctx f.color := rfl
@[simp]
theorem Bal_leaf : Bal Tree.leaf := trivial
@[simp]
theorem Bal_node (c : Color) (a o : Nat) (l r : Tree) :
    Bal (Tree.node c a o l r) ↔ Bal l ∧ Bal r ∧ bh l = bh r := Iff.rfl
@[simp]
theorem NoRedRed_leaf : NoRedRed Tree.leaf := trivial
@[simp]
theorem NoRedRed_node (c : Color) (a o : Nat) (l r : Tree) :
    NoRedRed (Tree.node c a o l r) ↔
      (c = Color.red → rootColor l = Color.black ∧ rootColor r = Color.black) ∧
        NoRedRed l ∧ NoRedRed r := Iff.rfl
@[simp]
theorem bh_leaf : bh Tree.leaf = 0 := rfl
@[simp]
theorem CtxBal_nil (k : Nat) : CtxBal [] k := trivial
@[simp]
theorem CtxBal_cons (f : Frame) (ctx : Ctx) (k : Nat) :
    CtxBal (f :: ctx) k ↔
      Bal f.sibling ∧ bh f.sibling = k ∧ CtxBal ctx (k + blackInc f.color) := Iff.rfl
@[simp]
theorem CtxNoRedRed_nil (c : Color) : CtxNoRedRed [] c := trivial
@[simp]
theorem CtxNoRedRed_cons (f : Frame) (ctx : Ctx) (c : Color) :
    CtxNoRedRed (f :: ctx) c ↔
      (f.color = Color.red → c = Color.black ∧ rootColor f.sibling = Color.black) ∧
        NoRedRed f.sibling ∧ CtxNoRedRed ctx f.color := Iff.rfl

/-- A context whose hole is filled by a BLACK-rooted tree accepts any root colour
in the hole as soon as the node above the hole is BLACK or absent. -/
theorem CtxNoRedRed_of_black (ctx : Ctx) (c : Color) (h : CtxNoRedRed ctx Color.black)
    (hp : ∀ f ctx', ctx = f :: ctx' → f.color = Color.black) : CtxNoRedRed ctx c := by
  cases ctx with
  | nil => trivial
  | cons f ctx' =>
    have := hp f ctx' rfl
    simp only [CtxNoRedRed_cons, this] at h ⊢
    simpa using h

theorem CtxNoRedRed_black (ctx : Ctx) (c : Color) (h : CtxNoRedRed ctx c) :
    CtxNoRedRed ctx Color.black := by
  cases ctx with
  | nil => trivial
  | cons f ctx' =>
    simp only [CtxNoRedRed_cons] at h ⊢
    exact ⟨fun e => ⟨trivial, (h.1 e).2⟩, h.2⟩

open Tree hyrbtree_t hyrbtree_ret_t

/-! ## The descent loops -/

/-- The descent loop of `hyrbtree_add_node` follows the search path. -/
theorem add_node_loop_eq (t : hyrbtree_t) (add k : Nat) :
    ∀ (s : Tree) (par : Nat) (ctx : Ctx) (fuel : Nat), s ≠ Tree.leaf → Rep t s par →
      t.nil_node ∉ addrs s → size s ≤ fuel →
      hyrbtree_add_node_loop fuel t add k (rootOf t.nil_node s) =
        some (match descend t k s ctx with
          | Sum.inl c => Sum.inl (attach t add c)
          | Sum.inr e => Sum.inr e)
  | Tree.leaf, _, _, _, h, _, _, _ => absurd rfl h
  | Tree.node c a o l r, par, ctx, 0, _, _, _, hf => by simp [size] at hf
  | Tree.node c a o l r, par, ctx, fuel + 1, _, hr, hn, hf => by
    obtain ⟨h1, h2, h3, h4, h5, h6, h7⟩ := hr
    simp only [addrs_node, List.mem_append, List.mem_cons, not_or] at hn
    simp only [size] at hf
    simp only [hyrbtree_add_node_loop, rootOf_node, h1, descend, h4, h5]
    by_cases hlt : t.cmp_elem k (t.get_elem o) < 0
    · simp only [hlt, if_true]
      cases l with
      | leaf => simp [descend, attach]
      | node lc la lo ll lr =>
        have hla : la ≠ t.nil_node := by
          intro e; apply hn.1; simp [e]
        simp only [rootOf_node, hla, if_false]
        exact add_node_loop_eq t add k (Tree.node lc la lo ll lr) a (Frame.L c a o r :: ctx) fuel
          (by simp) h6 hn.1 (by omega)
    · simp only [hlt, if_false]
      by_cases hgt : t.cmp_elem k (t.get_elem o) > 0
      · simp only [hgt, if_true]
        cases r with
        | leaf => simp [descend, attach]
        | node rc ra ro rl rr =>
          have hra : ra ≠ t.nil_node := by
            intro e; apply hn.2.2; simp [e]
          simp only [rootOf_node, hra, if_false]
          exact add_node_loop_eq t add k (Tree.node rc ra ro rl rr) a (Frame.R c a o l :: ctx) fuel
            (by simp) h7 hn.2.2 (by omega)
      · simp only [hgt, if_false]

/-- The loop of `hyrbtree_get_node` follows the search path. -/
theorem get_node_loop_eq (t : hyrbtree_t) (k : Nat) :
    ∀ (s : Tree) (par : Nat) (ctx : Ctx) (fuel : Nat), s ≠ Tree.leaf → Rep t s par →
      t.nil_node ∉ addrs s → size s ≤ fuel →
      hyrbtree_get_node_loop fuel t k (rootOf t.nil_node s) = some (getResult (descend t k s ctx))
  | Tree.leaf, _, _, _, h, _, _, _ => absurd rfl h
  | Tree.node c a o l r, par, ctx, 0, _, _, _, hf => by simp [size] at hf
  | Tree.node c a o l r, par, ctx, fuel + 1, _, hr, hn, hf => by
    obtain ⟨h1, h2, h3, h4, h5, h6, h7⟩ := hr
    simp only [addrs_node, List.mem_append, List.mem_cons, not_or] at hn
    simp only [size] at hf
    simp only [hyrbtree_get_node_loop, rootOf_node, h1, descend, h4, h5]
    by_cases hlt : t.cmp_elem k (t.get_elem o) < 0
    · simp only [hlt, if_true]
      cases l with
      | leaf => simp [descend, getResult]
      | node lc la lo ll lr =>
        have hla : la ≠ t.nil_node := by
          intro e; apply hn.1; simp [e]
        simp only [rootOf_node, hla, if_false]
        exact get_node_loop_eq t k (Tree.node lc la lo ll lr) a (Frame.L c a o r :: ctx) fuel
          (by simp) h6 hn.1 (by omega)
    · simp only [hlt, if_false]
      by_cases hgt : t.cmp_elem k (t.get_elem o) > 0
      · simp only [hgt, if_true]
        cases r with
        | leaf => simp [descend, getResult]
        | node rc ra ro rl rr =>
          have hra : ra ≠ t.nil_node := by
            intro e; apply hn.2.2; simp [e]
          simp only [rootOf_node, hra, if_false]
          exact get_node_loop_eq t k (Tree.node rc ra ro rl rr) a (Frame.R c a o l :: ctx) fuel
            (by simp) h7 hn.2.2 (by omega)
      · simp only [hgt, if_false, getResult]

/-! ## The search path -/

theorem descend_inl_plug (t : hyrbtree_t) (k : Nat) :
    ∀ (s : Tree) (ctx c : Ctx), descend t k s ctx = Sum.inl c → plug c Tree.leaf = plug ctx s
  | Tree.leaf, ctx, c, h => by
    simp only [descend, Sum.inl.injEq] at h; rw [← h]
  | Tree.node cc a o l r, ctx, c, h => by
    simp only [descend] at h
    split_ifs at h with h1 h2
    · exact descend_inl_plug t k l _ c h
    · exact descend_inl_plug t k r _ c h

theorem descend_inr (t : hyrbtree_t) (k : Nat) :
    ∀ (s : Tree) (ctx : Ctx) (e : Nat), descend t k s ctx = Sum.inr e →
      e ∈ owners s ∧ t.cmp_elem k (t.get_elem e) = 0
  | Tree.leaf, ctx, e, h => by simp [descend] at h
  | Tree.node cc a o l r, ctx, e, h => by
    simp only [descend] at h
    split_ifs at h with h1 h2
    · have := descend_inr t k l _ e h
      exact ⟨by simp [owners, this.1], this.2⟩
    · have := descend_inr t k r _ e h
      exact ⟨by simp [owners, this.1], this.2⟩
    · simp only [Sum.inr.injEq] at h
      subst h
      exact ⟨by simp [owners], by omega⟩

open Tree hyrbtree_t hyrbtree_ret_t

/-! ## The comparator -/

theorem TotalOrder.lt_trans {cmp : Nat → Nat → Int} (h : TotalOrder cmp) {a b c : Nat}
    (h1 : cmp a b < 0) (h2 : cmp b c < 0) : cmp a c < 0 := by
  have hle := h.2 a b c (le_of_lt h1) (le_of_lt h2)
  rcases lt_or_eq_of_le hle with h3 | h3
  · exact h3
  · exfalso
    have h4 : cmp c a ≤ 0 := by
      by_contra hc
      have := (h.1 a c).2 (not_le.1 hc)
      omega
    have h5 := h.2 c a b h4 (le_of_lt h1)
    have h6 := (h.1 b c).1 h2
    omega

theorem TotalOrder.eq_symm {cmp : Nat → Nat → Int} (h : TotalOrder cmp) {a b : Nat}
    (h1 : cmp a b = 0) : cmp b a = 0 := by
  have h2 := h.1 a b
  have h3 := h.1 b a
  omega

theorem TotalOrder.eq_lt_trans {cmp : Nat → Nat → Int} (h : TotalOrder cmp) {a b c : Nat}
    (h1 : cmp a b = 0) (h2 : cmp b c < 0) : cmp a c < 0 := by
  have hle := h.2 a b c (le_of_eq h1) (le_of_lt h2)
  rcases lt_or_eq_of_le hle with h3 | h3
  · exact h3
  · exfalso
    have h4 := h.eq_symm h3
    have h5 := h.2 c a b (le_of_eq h4) (le_of_eq h1)
    have h6 := (h.1 b c).1 h2
    omega

theorem TotalOrder.lt_eq_trans {cmp : Nat → Nat → Int} (h : TotalOrder cmp) {a b c : Nat}
    (h1 : cmp a b < 0) (h2 : cmp b c = 0) : cmp a c < 0 := by
  have hle := h.2 a b c (le_of_lt h1) (le_of_eq h2)
  rcases lt_or_eq_of_le hle with h3 | h3
  · exact h3
  · exfalso
    have h4 := h.eq_symm h3
    have h5 := h.2 b c a (le_of_eq h2) (le_of_eq h4)
    have h6 := (h.1 a b).1 h1
    omega

theorem TotalOrder.lt_irrefl {cmp : Nat → Nat → Int} (h : TotalOrder cmp) (a : Nat) :
    ¬ cmp a a < 0 := by
  have := h.1 a a
  omega

/-! ## Order facts about the search path -/

/-- Along the search path of `k`, everything before the slot is below `k` and
everything after it is above `k`. -/
theorem descend_bounds (t : hyrbtree_t) (k : Nat) (ho : TotalOrder t.cmp_elem) :
    ∀ (s : Tree) (ctx c : Ctx), descend t k s ctx = Sum.inl c →
      (owners s).Pairwise (keyLt t) →
      (∀ x ∈ ctxBefore ctx, t.cmp_elem (t.get_elem x.2) k < 0) →
      (∀ x ∈ ctxAfter ctx, t.cmp_elem k (t.get_elem x.2) < 0) →
      (∀ x ∈ ctxBefore c, t.cmp_elem (t.get_elem x.2) k < 0) ∧
      (∀ x ∈ ctxAfter c, t.cmp_elem k (t.get_elem x.2) < 0)
  | Tree.leaf, ctx, c, h, _, hb, ha => by
    simp only [descend, Sum.inl.injEq] at h; subst h; exact ⟨hb, ha⟩
  | Tree.node cc a o l r, ctx, c, h, hp, hb, ha => by
    simp only [descend] at h
    simp only [owners, List.pairwise_append, List.pairwise_cons, List.mem_cons] at hp
    obtain ⟨hpl, ⟨hor, hpr⟩, hlr⟩ := hp
    split_ifs at h with h1 h2
    · refine descend_bounds t k ho l _ c h hpl hb ?_
      intro x hx
      simp only [ctxAfter, List.cons_append, List.mem_cons, List.mem_append] at hx
      rcases hx with rfl | hx | hx
      · exact h1
      · have : x.2 ∈ owners r := by rw [owners_eq_map]; exact List.mem_map_of_mem _ hx
        exact ho.lt_trans h1 (hor _ this)
      · exact ha x hx
    · refine descend_bounds t k ho r _ c h hpr ?_ ha
      intro x hx
      simp only [ctxBefore, List.mem_append, List.mem_singleton] at hx
      have h2' : t.cmp_elem (t.get_elem o) k < 0 := (ho.1 _ _).2 h2
      rcases hx with hx | hx | rfl
      · exact hb x hx
      · have : x.2 ∈ owners l := by rw [owners_eq_map]; exact List.mem_map_of_mem _ hx
        exact ho.lt_trans (hlr _ this _ (Or.inl rfl)) h2'
      · exact h2'

/-- A key that compares unequal to every owner of the subtree ends in an empty slot. -/
theorem descend_inl_of_ne (t : hyrbtree_t) (k : Nat) :
    ∀ (s : Tree) (ctx : Ctx), (∀ e ∈ owners s, t.cmp_elem k (t.get_elem e) ≠ 0) →
      ∃ c, descend t k s ctx = Sum.inl c
  | Tree.leaf, ctx, _ => ⟨ctx, rfl⟩
  | Tree.node cc a o l r, ctx, h => by
    simp only [owners, List.mem_append, List.mem_cons] at h
    simp only [descend]
    split_ifs with h1 h2
    · exact descend_inl_of_ne t k l _ (fun e he => h e (Or.inl he))
    · exact descend_inl_of_ne t k r _ (fun e he => h e (Or.inr (Or.inr he)))
    · exact absurd (by omega) (h o (Or.inr (Or.inl rfl)))

/-- A key that compares equal to an owner of an ordered subtree finds that owner. -/
theorem descend_inr_of_eq (t : hyrbtree_t) (k : Nat) (ho : TotalOrder t.cmp_elem) :
    ∀ (s : Tree) (ctx : Ctx) (e : Nat), (owners s).Pairwise (keyLt t) → e ∈ owners s →
      t.cmp_elem k (t.get_elem e) = 0 → descend t k s ctx = Sum.inr e
  | Tree.leaf, ctx, e, _, he, _ => by simp [owners] at he
  | Tree.node cc a o l r, ctx, e, hp, he, hk => by
    simp only [owners, List.pairwise_append, List.pairwise_cons, List.mem_cons] at hp
    obtain ⟨hpl, ⟨hor, hpr⟩, hlr⟩ := hp
    simp only [owners, List.mem_append, List.mem_cons] at he
    simp only [descend]
    rcases he with he | rfl | he
    · have h1 : t.cmp_elem k (t.get_elem o) < 0 := ho.eq_lt_trans hk (hlr e he o (Or.inl rfl))
      simp only [h1, if_true]
      exact descend_inr_of_eq t k ho l _ e hpl he hk
    · have h1 : ¬ t.cmp_elem k (t.get_elem e) < 0 := by omega
      have h2 : ¬ t.cmp_elem k (t.get_elem e) > 0 := by omega
      simp only [h1, h2, if_false]
    · have h0 : t.cmp_elem (t.get_elem o) k < 0 := ho.lt_eq_trans (hor e he) (ho.eq_symm hk)
      have h2 : t.cmp_elem k (t.get_elem o) > 0 := (ho.1 _ _).1 h0
      have h1 : ¬ t.cmp_elem k (t.get_elem o) < 0 := by omega
      simp only [h1, h2, if_false, if_true]
      exact descend_inr_of_eq t k ho r _ e hpr he hk

/-! ## Linking the new node -/

/-- After the two linking writes and the write of the owner word, the new node
sits in the empty slot as a RED leaf. -/
theorem attach_rep (t : hyrbtree_t) (ctx : Ctx) (add o : Nat) (h : ZRep t ctx Tree.leaf)
    (hne : ctx ≠ []) (h1 : add ∉ ctxAddrs ctx) (h2 : ¬ add = t.nil_node)
    (hl : t.left_node add = t.nil_node) (hr : t.right_node add = t.nil_node)
    (he : o % 2 = 0) :
    ZRep ((attach t add ctx).set_user add o) ctx (Tree.node Color.red add o Tree.leaf Tree.leaf) := by
  obtain ⟨g1, g2, g3, hs⟩ := h
  have h2' : ¬ t.nil_node = add := fun e => h2 e.symm
  rcases ctx with _ | ⟨⟨cp, p, op, sib⟩ | ⟨cp, p, op, sib⟩, ctx⟩
  · exact absurd rfl hne
  all_goals
    simp only [ZRep, RepCtx, Rep, rootOf_node, rootOf_leaf, ctxPar_nil, ctxPar_cons, Frame.addr_L,
      Frame.addr_R, true_and, and_true] at g1 ⊢
    simp only [Sep, addrs_node, addrs_leaf, ctxAddrs_cons, ctxAddrs_nil, Frame.addr_L, Frame.addr_R,
      Frame.sibling_L, Frame.sibling_R, List.nodup_append, List.nodup_cons,
      List.mem_append, not_or, not_mem_cons_sym, List.disjoint_cons_left, List.disjoint_cons_right,
      List.disjoint_append_left, List.disjoint_append_right, List.not_mem_nil, List.nodup_nil,
      List.disjoint_nil_left, List.disjoint_nil_right, not_false_eq_true, true_and, and_true,
      List.append_nil, List.nil_append] at hs h1 ⊢
    simp [attach, g1, g3, hs, h1, h2, h2', hl, hr, color_set_user, addr_set_user, he, Color.code,
      HYRBTREE_NODE_RED]

open Tree hyrbtree_t hyrbtree_ret_t

/-! ## Helper facts for the rebalancing loops -/

theorem ctxRoot_mem : ∀ (ctx : Ctx) (x : Nat), ctx ≠ [] → ctxRoot ctx x ∈ ctxAddrs ctx
  | [], _, h => absurd rfl h
  | [f], _, _ => by simp
  | f :: g :: ctx, x, _ => by
    have := ctxRoot_mem (g :: ctx) f.addr (by simp)
    simp only [ctxRoot_cons, ctxAddrs_cons, List.mem_cons, List.mem_append] at this ⊢
    tauto

/-- The colour bit read at the root pointer of a subtree is the colour of its root. -/
theorem color_rootOf (t : hyrbtree_t) (u : Tree) (par : Nat) (h : Rep t u par)
    (hb : HYRBTREE_READ_NODE_COLOR t t.nil_node = HYRBTREE_NODE_BLACK) :
    HYRBTREE_READ_NODE_COLOR t (rootOf t.nil_node u) = (rootColor u).code := by
  cases u with
  | leaf => simpa [rootColor, Color.code] using hb
  | node c a o l r => exact h.2.1

/-- The three root writes `root_node = x; x->parent_node = nil; nil.left_node = x`
on a tree whose root is already `x`. -/
theorem root_fix_rep (t : hyrbtree_t) (nil : Nat) (c : Color) (x o : Nat) (l r : Tree)
    (hnil : t.nil_node = nil) (h : ZRep t [] (Tree.node c x o l r)) :
    ZRep (((t.set_root x).set_parent x nil).set_left nil x) [] (Tree.node c x o l r) := by
  subst hnil
  obtain ⟨h1, h2, h3, hs⟩ := h
  simp only [ZRep, RepCtx, Rep, rootOf_node, ctxPar_nil, true_and] at h2 ⊢
  simp only [Sep, addrs_node, addrs_leaf, ctxAddrs_cons, ctxAddrs_nil, List.nodup_append,
    List.nodup_cons, List.mem_append, not_or, not_mem_cons_sym, List.disjoint_cons_left,
    List.disjoint_cons_right, List.disjoint_append_left, List.disjoint_append_right,
    List.not_mem_nil, List.nodup_nil, List.disjoint_nil_left, List.disjoint_nil_right,
    not_false_eq_true, true_and, and_true, List.append_nil, List.nil_append] at hs ⊢
  simp [h2, h3, hs]

@[simp]
theorem rootOf_frame_plug (nil : Nat) (f : Frame) (s : Tree) :
    rootOf nil (f.plug s) = f.addr := by
  cases f <;> rfl

/-! ## The four rotation cases of insertion -/

theorem add_case_LL (t : hyrbtree_t) (ctx : Ctx) (cg cp : Color) (g og p op : Nat)
    (s psib u : Tree)
    (h : ZRep t ctx (Tree.node cg g og (Tree.node cp p op s psib) u)) :
    ZRep (HYRBTREE_SET_NODE_RED (hyrbtree_right_rotate_node (HYRBTREE_SET_NODE_BLACK t p) g) g) ctx
      (Tree.node Color.black p op s (Tree.node Color.red g og psib u)) := by
  have h1 := (ZRep_cons t (Frame.L cg g og u) ctx _).2 h
  have h2 := (ZRep_cons _ (Frame.L cg g og u) ctx _).1 (set_black_rep _ _ _ _ _ _ _ h1)
  have h3 := right_rotate_rep _ _ _ _ _ _ _ _ _ _ _ h2
  have h4 := (ZRep_cons _ (Frame.R Color.black p op s) ctx _).2 h3
  exact (ZRep_cons _ (Frame.R Color.black p op s) ctx _).1 (set_red_rep _ _ _ _ _ _ _ h4)

theorem add_case_RR (t : hyrbtree_t) (ctx : Ctx) (cg cp : Color) (g og p op : Nat)
    (s psib u : Tree)
    (h : ZRep t ctx (Tree.node cg g og u (Tree.node cp p op psib s))) :
    ZRep (HYRBTREE_SET_NODE_RED (hyrbtree_left_rotate_node (HYRBTREE_SET_NODE_BLACK t p) g) g) ctx
      (Tree.node Color.black p op (Tree.node Color.red g og u psib) s) := by
  have h1 := (ZRep_cons t (Frame.R cg g og u) ctx _).2 h
  have h2 := (ZRep_cons _ (Frame.R cg g og u) ctx _).1 (set_black_rep _ _ _ _ _ _ _ h1)
  have h3 := left_rotate_rep _ _ _ _ _ _ _ _ _ _ _ h2
  have h4 := (ZRep_cons _ (Frame.L Color.black p op s) ctx _).2 h3
  exact (ZRep_cons _ (Frame.L Color.black p op s) ctx _).1 (set_red_rep _ _ _ _ _ _ _ h4)

theorem add_case_LR (t : hyrbtree_t) (ctx : Ctx) (cg cp cc : Color) (g og p op a o : Nat)
    (l r psib u : Tree)
    (h : ZRep t ctx (Tree.node cg g og (Tree.node cp p op psib (Tree.node cc a o l r)) u)) :
    ZRep (HYRBTREE_SET_NODE_RED (hyrbtree_right_rotate_node
        (hyrbtree_left_rotate_node (HYRBTREE_SET_NODE_BLACK t a) p) g) g) ctx
      (Tree.node Color.black a o (Tree.node cp p op psib l) (Tree.node Color.red g og r u)) := by
  have h1 := (ZRep_cons t (Frame.R cp p op psib) (Frame.L cg g og u :: ctx) _).2
    ((ZRep_cons t (Frame.L cg g og u) ctx _).2 h)
  have h2 := (ZRep_cons _ (Frame.R cp p op psib) (Frame.L cg g og u :: ctx) _).1
    (set_black_rep _ _ _ _ _ _ _ h1)
  have h3 := (ZRep_cons _ (Frame.L cg g og u) ctx _).1 (left_rotate_rep _ _ _ _ _ _ _ _ _ _ _ h2)
  have h4 := right_rotate_rep _ _ _ _ _ _ _ _ _ _ _ h3
  have h5 := (ZRep_cons _ (Frame.R Color.black a o (Tree.node cp p op psib l)) ctx _).2 h4
  exact (ZRep_cons _ (Frame.R Color.black a o (Tree.node cp p op psib l)) ctx _).1
    (set_red_rep _ _ _ _ _ _ _ h5)

theorem add_case_RL (t : hyrbtree_t) (ctx : Ctx) (cg cp cc : Color) (g og p op a o : Nat)
    (l r psib u : Tree)
    (h : ZRep t ctx (Tree.node cg g og u (Tree.node cp p op (Tree.node cc a o l r) psib))) :
    ZRep (HYRBTREE_SET_NODE_RED (hyrbtree_left_rotate_node
        (hyrbtree_right_rotate_node (HYRBTREE_SET_NODE_BLACK t a) p) g) g) ctx
      (Tree.node Color.black a o (Tree.node Color.red g og u l) (Tree.node cp p op r psib)) := by
  have h1 := (ZRep_cons t (Frame.L cp p op psib) (Frame.R cg g og u :: ctx) _).2
    ((ZRep_cons t (Frame.R cg g og u) ctx _).2 h)
  have h2 := (ZRep_cons _ (Frame.L cp p op psib) (Frame.R cg g og u :: ctx) _).1
    (set_black_rep _ _ _ _ _ _ _ h1)
  have h3 := (ZRep_cons _ (Frame.R cg g og u) ctx _).1 (right_rotate_rep _ _ _ _ _ _ _ _ _ _ _ h2)
  have h4 := left_rotate_rep _ _ _ _ _ _ _ _ _ _ _ h3
  have h5 := (ZRep_cons _ (Frame.L Color.black a o (Tree.node cp p op r psib)) ctx _).2 h4
  exact (ZRep_cons _ (Frame.L Color.black a o (Tree.node cp p op r psib)) ctx _).1
    (set_red_rep _ _ _ _ _ _ _ h5)

/-- The recolouring of the RED-uncle case: parent and uncle BLACK. -/
theorem add_case_red_uncle_L (t : hyrbtree_t) (ctx : Ctx) (cg cp cu : Color)
    (g og p op ua uo : Nat) (pl pr ul ur : Tree)
    (h : ZRep t ctx (Tree.node cg g og (Tree.node cp p op pl pr) (Tree.node cu ua uo ul ur))) :
    ZRep (HYRBTREE_SET_NODE_BLACK (HYRBTREE_SET_NODE_BLACK t p) ua) ctx
      (Tree.node cg g og (Tree.node Color.black p op pl pr) (Tree.node Color.black ua uo ul ur)) := by
  have h1 := (ZRep_cons t (Frame.L cg g og _) ctx _).2 h
  have h2 := (ZRep_cons _ (Frame.L cg g og _) ctx _).1 (set_black_rep _ _ _ _ _ _ _ h1)
  have h3 := (ZRep_cons _ (Frame.R cg g og _) ctx _).2 h2
  exact (ZRep_cons _ (Frame.R cg g og _) ctx _).1 (set_black_rep _ _ _ _ _ _ _ h3)

theorem add_case_red_uncle_R (t : hyrbtree_t) (ctx : Ctx) (cg cp cu : Color)
    (g og p op ua uo : Nat) (pl pr ul ur : Tree)
    (h : ZRep t ctx (Tree.node cg g og (Tree.node cu ua uo ul ur) (Tree.node cp p op pl pr))) :
    ZRep (HYRBTREE_SET_NODE_BLACK (HYRBTREE_SET_NODE_BLACK t p) ua) ctx
      (Tree.node cg g og (Tree.node Color.black ua uo ul ur) (Tree.node Color.black p op pl pr)) := by
  have h1 := (ZRep_cons t (Frame.R cg g og _) ctx _).2 h
  have h2 := (ZRep_cons _ (Frame.R cg g og _) ctx _).1 (set_black_rep _ _ _ _ _ _ _ h1)
  have h3 := (ZRep_cons _ (Frame.L cg g og _) ctx _).2 h2
  exact (ZRep_cons _ (Frame.L cg g og _) ctx _).1 (set_black_rep _ _ _ _ _ _ _ h3)

open Tree hyrbtree_t hyrbtree_ret_t

theorem SameEnv.refl (t : hyrbtree_t) : SameEnv t t := ⟨rfl, rfl, rfl, rfl⟩

theorem SameEnv_trans {a b c : hyrbtree_t} (h1 : SameEnv a b) (h2 : SameEnv b c) : SameEnv a c :=
  ⟨h2.1.trans h1.1, h2.2.1.trans h1.2.1, h2.2.2.1.trans h1.2.2.1, h2.2.2.2.trans h1.2.2.2⟩

theorem CtxBal_congr {ctx : Ctx} {k k' : Nat} (h : k = k') (hc : CtxBal ctx k) : CtxBal ctx k' :=
  h ▸ hc

/-- Insertion, BLACK uncle, case LL: one loop iteration ends the rebalancing. -/
theorem add_balance_black_LL (t : hyrbtree_t) (ctx : Ctx) (fuel : Nat)
    (g og p op a o : Nat) (l r psib u : Tree)
    (hrep : ZRep t (Frame.L Color.red p op psib :: Frame.L Color.black g og u :: ctx)
      (Tree.node Color.red a o l r))
    (hroot : t.root_node = ctxRoot ctx g)
    (hu : rootColor u = Color.black) (hlc : rootColor l = Color.black)
    (hrcc : rootColor r = Color.black)
    (hbal : Bal (plug (Frame.L Color.red p op psib :: Frame.L Color.black g og u :: ctx)
      (Tree.node Color.red a o l r)))
    (hrr : NoRedRed (plug (Frame.L Color.red p op psib :: Frame.L Color.black g og u :: ctx)
      (Tree.node Color.black a o l r)))
    (hrc : rootColor (plug (Frame.L Color.red p op psib :: Frame.L Color.black g og u :: ctx)
      (Tree.node Color.red a o l r)) = Color.black) :
    ∃ t', hyrbtree_add_balance_loop (fuel + 1) t a p g 0 = some t' ∧
      Rebalanced t t' (plug (Frame.L Color.red p op psib :: Frame.L Color.black g og u :: ctx)
        (Tree.node Color.red a o l r)) := by
  have hinv : RBTree (plug ctx (Tree.node Color.black p op (Tree.node Color.red a o l r) (Tree.node Color.red g og psib u))) := by
    simp only [RBTree, plug_cons, Frame.plug, Bal_plug, NoRedRed_plug, rootColor_plug, Bal_node,
      NoRedRed_node, rootColor_node, bh_node, blackInc_red, blackInc_black, Nat.add_zero]
      at hbal hrr hrc ⊢
    obtain ⟨hb1, hcb⟩ := hbal
    obtain ⟨hr1, hcr⟩ := hrr
    refine ⟨hrc, ⟨?_, hcr⟩, ?_, CtxBal_congr ?_ hcb⟩
    · simp only [hu, hlc, hrcc]; tauto
    · and_intros <;> first | omega | tauto
    · omega
  have hG := (ZRep_cons t _ _ _).1 ((ZRep_cons t _ _ _).1 hrep)
  have hcase := add_case_LL t ctx _ _ g og p op _ psib u hG
  obtain ⟨h1, h2, h3, hs⟩ := hG
  have hcu := color_rootOf t u g h2.2.2.2.2.2.2 h3
  simp only [Frame.plug, Rep, rootOf_node] at h2
  simp only [Sep, addrs_node, addrs_leaf, ctxAddrs_cons, ctxAddrs_nil, Frame.addr_L, Frame.addr_R,
    Frame.sibling_L, Frame.sibling_R, List.nodup_append, List.nodup_cons,
    List.mem_append, not_or, not_mem_cons_sym, List.disjoint_cons_left, List.disjoint_cons_right,
    List.disjoint_append_left, List.disjoint_append_right, List.not_mem_nil, List.nodup_nil,
    List.disjoint_nil_left, List.disjoint_nil_right, not_false_eq_true, true_and, and_true,
    List.append_nil, List.nil_append, Frame.plug] at hs
  by_cases hctx : ctx = []
  · subst hctx
    simp only [ctxRoot_nil] at hroot
    simp [hyrbtree_add_balance_loop, add_balance_switch, h2, hs, hcu, hu, Color.code,
      HYRBTREE_NODE_RED, HYRBTREE_NODE_BLACK, RBNODE_ADD_ROTATE_LL, RBNODE_ADD_ROTATE_RL,
      RBNODE_ADD_ROTATE_LR, RBNODE_ADD_ROTATE_RR, hroot]
    refine ⟨_, ?_, root_fix_rep _ _ _ _ _ _ _ (by simp) hcase, ?_, hinv, ?_⟩
    · simp
    · simp [nodes, Frame.plug]
    · exact ⟨by simp, by simp, by simp, by simp⟩
  · have hne : ¬ g = ctxRoot ctx g := by
      intro e
      exact hs.1.2.2.2.1 (e ▸ ctxRoot_mem ctx g hctx)
    simp [hyrbtree_add_balance_loop, add_balance_switch, h2, hs, hcu, hu, Color.code,
      HYRBTREE_NODE_RED, HYRBTREE_NODE_BLACK, RBNODE_ADD_ROTATE_LL, RBNODE_ADD_ROTATE_RL,
      RBNODE_ADD_ROTATE_LR, RBNODE_ADD_ROTATE_RR, hroot, hne]
    refine ⟨_, ?_, (ZRep_plug _ _ _).2 hcase, ?_, hinv, ?_⟩
    · simp [rootOf_plug, hroot, ctxRoot_congr ctx g p hctx]
    · simp [nodes_plug, nodes, Frame.plug]
    · exact ⟨by simp, by simp, by simp, by simp⟩

/-- Insertion, BLACK uncle, case RR: one loop iteration ends the rebalancing. -/
theorem add_balance_black_RR (t : hyrbtree_t) (ctx : Ctx) (fuel : Nat)
    (g og p op a o : Nat) (l r psib u : Tree)
    (hrep : ZRep t (Frame.R Color.red p op psib :: Frame.R Color.black g og u :: ctx)
      (Tree.node Color.red a o l r))
    (hroot : t.root_node = ctxRoot ctx g)
    (hu : rootColor u = Color.black) (hlc : rootColor l = Color.black)
    (hrcc : rootColor r = Color.black)
    (hbal : Bal (plug (Frame.R Color.red p op psib :: Frame.R Color.black g og u :: ctx)
      (Tree.node Color.red a o l r)))
    (hrr : NoRedRed (plug (Frame.R Color.red p op psib :: Frame.R Color.black g og u :: ctx)
      (Tree.node Color.black a o l r)))
    (hrc : rootColor (plug (Frame.R Color.red p op psib :: Frame.R Color.black g og u :: ctx)
      (Tree.node Color.red a o l r)) = Color.black) :
    ∃ t', hyrbtree_add_balance_loop (fuel + 1) t a p g 0 = some t' ∧
      Rebalanced t t' (plug (Frame.R Color.red p op psib :: Frame.R Color.black g og u :: ctx)
        (Tree.node Color.red a o l r)) := by
  have hinv : RBTree (plug ctx (Tree.node Color.black p op (Tree.node Color.red g og u psib) (Tree.node Color.red a o l r))) := by
    simp only [RBTree, plug_cons, Frame.plug, Bal_plug, NoRedRed_plug, rootColor_plug, Bal_node,
      NoRedRed_node, rootColor_node, bh_node, blackInc_red, blackInc_black, Nat.add_zero]
      at hbal hrr hrc ⊢
    obtain ⟨hb1, hcb⟩ := hbal
    obtain ⟨hr1, hcr⟩ := hrr
    refine ⟨hrc, ⟨?_, hcr⟩, ?_, CtxBal_congr ?_ hcb⟩
    · simp only [hu, hlc, hrcc]; tauto
    · and_intros <;> first | omega | tauto
    · omega
  have hG := (ZRep_cons t _ _ _).1 ((ZRep_cons t _ _ _).1 hrep)
  have hcase := add_case_RR t ctx _ _ g og p op _ psib u hG
  obtain ⟨h1, h2, h3, hs⟩ := hG
  have hcu := color_rootOf t u g h2.2.2.2.2.2.1 h3
  simp only [Frame.plug, Rep, rootOf_node] at h2
  simp only [Sep, addrs_node, addrs_leaf, ctxAddrs_cons, ctxAddrs_nil, Frame.addr_L, Frame.addr_R,
    Frame.sibling_L, Frame.sibling_R, List.nodup_append, List.nodup_cons,
    List.mem_append, not_or, not_mem_cons_sym, List.disjoint_cons_left, List.disjoint_cons_right,
    List.disjoint_append_left, List.disjoint_append_right, List.not_mem_nil, List.nodup_nil,
    List.disjoint_nil_left, List.disjoint_nil_right, not_false_eq_true, true_and, and_true,
    List.append_nil, List.nil_append, Frame.plug] at hs
  by_cases hctx : ctx = []
  · subst hctx
    simp only [ctxRoot_nil] at hroot
    simp [hyrbtree_add_balance_loop, add_balance_switch, h2, hs, hcu, hu, Color.code,
      HYRBTREE_NODE_RED, HYRBTREE_NODE_BLACK, RBNODE_ADD_ROTATE_LL, RBNODE_ADD_ROTATE_RL,
      RBNODE_ADD_ROTATE_LR, RBNODE_ADD_ROTATE_RR, hroot]
    refine ⟨_, ?_, root_fix_rep _ _ _ _ _ _ _ (by simp) hcase, ?_, hinv, ?_⟩
    · simp
    · simp [nodes, Frame.plug]
    · exact ⟨by simp, by simp, by simp, by simp⟩
  · have hne : ¬ g = ctxRoot ctx g := by
      intro e
      exact hs.1.2.2.2.1 (e ▸ ctxRoot_mem ctx g hctx)
    simp [hyrbtree_add_balance_loop, add_balance_switch, h2, hs, hcu, hu, Color.code,
      HYRBTREE_NODE_RED, HYRBTREE_NODE_BLACK, RBNODE_ADD_ROTATE_LL, RBNODE_ADD_ROTATE_RL,
      RBNODE_ADD_ROTATE_LR, RBNODE_ADD_ROTATE_RR, hroot, hne]
    refine ⟨_, ?_, (ZRep_plug _ _ _).2 hcase, ?_, hinv, ?_⟩
    · simp [rootOf_plug, hroot, ctxRoot_congr ctx g p hctx]
    · simp [nodes_plug, nodes, Frame.plug]
    · exact ⟨by simp, by simp, by simp, by simp⟩

/-- Insertion, BLACK uncle, case LR: one loop iteration ends the rebalancing. -/
theorem add_balance_black_LR (t : hyrbtree_t) (ctx : Ctx) (fuel : Nat)
    (g og p op a o : Nat) (l r psib u : Tree)
    (hrep : ZRep t (Frame.R Color.red p op psib :: Frame.L Color.black g og u :: ctx)
      (Tree.node Color.red a o l r))
    (hroot : t.root_node = ctxRoot ctx g)
    (hu : rootColor u = Color.black) (hlc : rootColor l = Color.black)
    (hrcc : rootColor r = Color.black)
    (hbal : Bal (plug (Frame.R Color.red p op psib :: Frame.L Color.black g og u :: ctx)
      (Tree.node Color.red a o l r)))
    (hrr : NoRedRed (plug (Frame.R Color.red p op psib :: Frame.L Color.black g og u :: ctx)
      (Tree.node Color.black a o l r)))
    (hrc : rootColor (plug (Frame.R Color.red p op psib :: Frame.L Color.black g og u :: ctx)
      (Tree.node Color.red a o l r)) = Color.black) :
    ∃ t', hyrbtree_add_balance_loop (fuel + 1) t a p g 0 = some t' ∧
      Rebalanced t t' (plug (Frame.R Color.red p op psib :: Frame.L Color.black g og u :: ctx)
        (Tree.node Color.red a o l r)) := by
  have hinv : RBTree (plug ctx (Tree.node Color.black a o (Tree.node Color.red p op psib l) (Tree.node Color.red g og r u))) := by
    simp only [RBTree, plug_cons, Frame.plug, Bal_plug, NoRedRed_plug, rootColor_plug, Bal_node,
      NoRedRed_node, rootColor_node, bh_node, blackInc_red, blackInc_black, Nat.add_zero]
      at hbal hrr hrc ⊢
    obtain ⟨hb1, hcb⟩ := hbal
    obtain ⟨hr1, hcr⟩ := hrr
    refine ⟨hrc, ⟨?_, hcr⟩, ?_, CtxBal_congr ?_ hcb⟩
    · simp only [hu, hlc, hrcc]; tauto
    · and_intros <;> first | omega | tauto
    · omega
  have hG := (ZRep_cons t _ _ _).1 ((ZRep_cons t _ _ _).1 hrep)
  have hcase := add_case_LR t ctx _ _ _ g og p op a o l r psib u hG
  obtain ⟨h1, h2, h3, hs⟩ := hG
  have hcu := color_rootOf t u g h2.2.2.2.2.2.2 h3
  simp only [Frame.plug, Rep, rootOf_node] at h2
  simp only [Sep, addrs_node, addrs_leaf, ctxAddrs_cons, ctxAddrs_nil, Frame.addr_L, Frame.addr_R,
    Frame.sibling_L, Frame.sibling_R, List.nodup_append, List.nodup_cons,
    List.mem_append, not_or, not_mem_cons_sym, List.disjoint_cons_left, List.disjoint_cons_right,
    List.disjoint_append_left, List.disjoint_append_right, List.not_mem_nil, List.nodup_nil,
    List.disjoint_nil_left, List.disjoint_nil_right, not_false_eq_true, true_and, and_true,
    List.append_nil, List.nil_append, Frame.plug] at hs
  by_cases hctx : ctx = []
  · subst hctx
    simp only [ctxRoot_nil] at hroot
    simp [hyrbtree_add_balance_loop, add_balance_switch, h2, hs, hcu, hu, Color.code,
      HYRBTREE_NODE_RED, HYRBTREE_NODE_BLACK, RBNODE_ADD_ROTATE_LL, RBNODE_ADD_ROTATE_RL,
      RBNODE_ADD_ROTATE_LR, RBNODE_ADD_ROTATE_RR, hroot]
    refine ⟨_, ?_, root_fix_rep _ _ _ _ _ _ _ (by simp) hcase, ?_, hinv, ?_⟩
    · simp
    · simp [nodes, Frame.plug]
    · exact ⟨by simp, by simp, by simp, by simp⟩
  · have hne : ¬ g = ctxRoot ctx g := by
      intro e
      exact hs.1.2.2.2.1 (e ▸ ctxRoot_mem ctx g hctx)
    simp [hyrbtree_add_balance_loop, add_balance_switch, h2, hs, hcu, hu, Color.code,
      HYRBTREE_NODE_RED, HYRBTREE_NODE_BLACK, RBNODE_ADD_ROTATE_LL, RBNODE_ADD_ROTATE_RL,
      RBNODE_ADD_ROTATE_LR, RBNODE_ADD_ROTATE_RR, hroot, hne]
    refine ⟨_, ?_, (ZRep_plug _ _ _).2 hcase, ?_, hinv, ?_⟩
    · simp [rootOf_plug, hroot, ctxRoot_congr ctx g a hctx]
    · simp [nodes_plug, nodes, Frame.plug]
    · exact ⟨by simp, by simp, by simp, by simp⟩

/-- Insertion, BLACK uncle, case RL: one loop iteration ends the rebalancing. -/
theorem add_balance_black_RL (t : hyrbtree_t) (ctx : Ctx) (fuel : Nat)
    (g og p op a o : Nat) (l r psib u : Tree)
    (hrep : ZRep t (Frame.L Color.red p op psib :: Frame.R Color.black g og u :: ctx)
      (Tree.node Color.red a o l r))
    (hroot : t.root_node = ctxRoot ctx g)
    (hu : rootColor u = Color.black) (hlc : rootColor l = Color.black)
    (hrcc : rootColor r = Color.black)
    (hbal : Bal (plug (Frame.L Color.red p op psib :: Frame.R Color.black g og u :: ctx)
      (Tree.node Color.red a o l r)))
    (hrr : NoRedRed (plug (Frame.L Color.red p op psib :: Frame.R Color.black g og u :: ctx)
      (Tree.node Color.black a o l r)))
    (hrc : rootColor (plug (Frame.L Color.red p op psib :: Frame.R Color.black g og u :: ctx)
      (Tree.node Color.red a o l r)) = Color.black) :
    ∃ t', hyrbtree_add_balance_loop (fuel + 1) t a p g 0 = some t' ∧
      Rebalanced t t' (plug (Frame.L Color.red p op psib :: Frame.R Color.black g og u :: ctx)
        (Tree.node Color.red a o l r)) := by
  have hinv : RBTree (plug ctx (Tree.node Color.black a o (Tree.node Color.red g og u l) (Tree.node Color.red p op r psib))) := by
    simp only [RBTree, plug_cons, Frame.plug, Bal_plug, NoRedRed_plug, rootColor_plug, Bal_node,
      NoRedRed_node, rootColor_node, bh_node, blackInc_red, blackInc_black, Nat.add_zero]
      at hbal hrr hrc ⊢
    obtain ⟨hb1, hcb⟩ := hbal
    obtain ⟨hr1, hcr⟩ := hrr
    refine ⟨hrc, ⟨?_, hcr⟩, ?_, CtxBal_congr ?_ hcb⟩
    · simp only [hu, hlc, hrcc]; tauto
    · and_intros <;> first | omega | tauto
    · omega
  have hG := (ZRep_cons t _ _ _).1 ((ZRep_cons t _ _ _).1 hrep)
  have hcase := add_case_RL t ctx _ _ _ g og p op a o l r psib u hG
  obtain ⟨h1, h2, h3, hs⟩ := hG
  have hcu := color_rootOf t u g h2.2.2.2.2.2.1 h3
  simp only [Frame.plug, Rep, rootOf_node] at h2
  simp only [Sep, addrs_node, addrs_leaf, ctxAddrs_cons, ctxAddrs_nil, Frame.addr_L, Frame.addr_R,
    Frame.sibling_L, Frame.sibling_R, List.nodup_append, List.nodup_cons,
    List.mem_append, not_or, not_mem_cons_sym, List.disjoint_cons_left, List.disjoint_cons_right,
    List.disjoint_append_left, List.disjoint_append_right, List.not_mem_nil, List.nodup_nil,
    List.disjoint_nil_left, List.disjoint_nil_right, not_false_eq_true, true_and, and_true,
    List.append_nil, List.nil_append, Frame.plug] at hs
  by_cases hctx : ctx = []
  · subst hctx
    simp only [ctxRoot_nil] at hroot
    simp [hyrbtree_add_balance_loop, add_balance_switch, h2, hs, hcu, hu, Color.code,
      HYRBTREE_NODE_RED, HYRBTREE_NODE_BLACK, RBNODE_ADD_ROTATE_LL, RBNODE_ADD_ROTATE_RL,
      RBNODE_ADD_ROTATE_LR, RBNODE_ADD_ROTATE_RR, hroot]
    refine ⟨_, ?_, root_fix_rep _ _ _ _ _ _ _ (by simp) hcase, ?_, hinv, ?_⟩
    · simp
    · simp [nodes, Frame.plug]
    · exact ⟨by simp, by simp, by simp, by simp⟩
  · have hne : ¬ g = ctxRoot ctx g := by
      intro e
      exact hs.1.2.2.2.1 (e ▸ ctxRoot_mem ctx g hctx)
    simp [hyrbtree_add_balance_loop, add_balance_switch, h2, hs, hcu, hu, Color.code,
      HYRBTREE_NODE_RED, HYRBTREE_NODE_BLACK, RBNODE_ADD_ROTATE_LL, RBNODE_ADD_ROTATE_RL,
      RBNODE_ADD_ROTATE_LR, RBNODE_ADD_ROTATE_RR, hroot, hne]
    refine ⟨_, ?_, (ZRep_plug _ _ _).2 hcase, ?_, hinv, ?_⟩
    · simp [rootOf_plug, hroot, ctxRoot_congr ctx g a hctx]
    · simp [nodes_plug, nodes, Frame.plug]
    · exact ⟨by simp, by simp, by simp, by simp⟩

open Tree hyrbtree_t hyrbtree_ret_t

@[simp]
theorem Frame.setColor_color (c : Color) (f : Frame) : (f.setColor c).color = c := by
  cases f <;> rfl
@[simp]
theorem Frame.setColor_addr (c : Color) (f : Frame) : (f.setColor c).addr = f.addr := by
  cases f <;> rfl

/-! ## Insertion, RED uncle -/

/-- Insertion, RED uncle on the right: the recolouring step and what the loop
does next. -/
theorem add_balance_red_L (t : hyrbtree_t) (ctx : Ctx) (fuel : Nat) (P : Frame)
    (g og a o ua uo : Nat) (l r ul ur : Tree)
    (hrep : ZRep t (P :: Frame.L Color.black g og (Tree.node Color.red ua uo ul ur) :: ctx)
      (Tree.node Color.red a o l r))
    (hroot : t.root_node = ctxRoot ctx g) :
    ZRep (HYRBTREE_SET_NODE_BLACK (HYRBTREE_SET_NODE_BLACK t P.addr) ua) ctx
      (Tree.node Color.black g og ((P.setColor Color.black).plug (Tree.node Color.red a o l r))
        (Tree.node Color.black ua uo ul ur)) ∧
    ZRep (HYRBTREE_SET_NODE_RED (HYRBTREE_SET_NODE_BLACK (HYRBTREE_SET_NODE_BLACK t P.addr) ua) g) ctx
      (Tree.node Color.red g og ((P.setColor Color.black).plug (Tree.node Color.red a o l r))
        (Tree.node Color.black ua uo ul ur)) ∧
    hyrbtree_add_balance_loop (fuel + 1) t a P.addr g 0 =
      if ctx = [] then some (HYRBTREE_SET_NODE_BLACK (HYRBTREE_SET_NODE_BLACK t P.addr) ua)
      else
        let t3 := HYRBTREE_SET_NODE_RED
          (HYRBTREE_SET_NODE_BLACK (HYRBTREE_SET_NODE_BLACK t P.addr) ua) g
        if HYRBTREE_READ_NODE_COLOR t3 (t3.parent_node g) = HYRBTREE_NODE_RED then
          hyrbtree_add_balance_loop fuel t3 g (t3.parent_node g)
            (t3.parent_node (t3.parent_node g)) 0
        else some t3 := by
  have hG := (ZRep_cons t _ _ _).1 ((ZRep_cons t _ _ _).1 hrep)
  have hcase : ZRep (HYRBTREE_SET_NODE_BLACK (HYRBTREE_SET_NODE_BLACK t P.addr) ua) ctx
      (Tree.node Color.black g og ((P.setColor Color.black).plug (Tree.node Color.red a o l r))
        (Tree.node Color.black ua uo ul ur)) := by
    cases P <;> exact add_case_red_uncle_L t ctx _ _ _ g og _ _ ua uo _ _ ul ur hG
  have hcase2 := set_red_rep _ _ _ _ _ _ _ hcase
  refine ⟨hcase, hcase2, ?_⟩
  obtain ⟨h1, h2, h3, hs⟩ := hG
  by_cases hctx : ctx = []
  · subst hctx
    simp only [ctxRoot_nil] at hroot
    cases P <;>
    · simp only [Frame.plug, Rep, rootOf_node] at h2
      simp only [Sep, addrs_node, addrs_leaf, ctxAddrs_cons, ctxAddrs_nil, Frame.addr_L, Frame.addr_R,
        Frame.sibling_L, Frame.sibling_R, List.nodup_append, List.nodup_cons,
        List.mem_append, not_or, not_mem_cons_sym, List.disjoint_cons_left, List.disjoint_cons_right,
        List.disjoint_append_left, List.disjoint_append_right, List.not_mem_nil, List.nodup_nil,
        List.disjoint_nil_left, List.disjoint_nil_right, not_false_eq_true, true_and, and_true,
        List.append_nil, List.nil_append, Frame.plug] at hs
      simp [hyrbtree_add_balance_loop, h2, hs, Color.code, HYRBTREE_NODE_RED, hroot]
  · have hne : ¬ g = ctxRoot ctx g := by
      intro e
      have hmem := ctxRoot_mem ctx g hctx
      rw [← e] at hmem
      simp only [Sep, List.nodup_append, List.disjoint_left] at hs
      exact hs.1.2.2 (by cases P <;> simp [Frame.plug]) hmem
    cases P <;>
    · simp only [Frame.plug, Rep, rootOf_node] at h2
      simp only [Sep, addrs_node, addrs_leaf, ctxAddrs_cons, ctxAddrs_nil, Frame.addr_L, Frame.addr_R,
        Frame.sibling_L, Frame.sibling_R, List.nodup_append, List.nodup_cons,
        List.mem_append, not_or, not_mem_cons_sym, List.disjoint_cons_left, List.disjoint_cons_right,
        List.disjoint_append_left, List.disjoint_append_right, List.not_mem_nil, List.nodup_nil,
        List.disjoint_nil_left, List.disjoint_nil_right, not_false_eq_true, true_and, and_true,
        List.append_nil, List.nil_append, Frame.plug] at hs
      simp [hyrbtree_add_balance_loop, h2, hs, Color.code, HYRBTREE_NODE_RED, hroot, hctx, hne]

/-- Insertion, RED uncle on the left: the recolouring step and what the loop
does next. -/
theorem add_balance_red_R (t : hyrbtree_t) (ctx : Ctx) (fuel : Nat) (P : Frame)
    (g og a o ua uo : Nat) (l r ul ur : Tree)
    (hrep : ZRep t (P :: Frame.R Color.black g og (Tree.node Color.red ua uo ul ur) :: ctx)
      (Tree.node Color.red a o l r))
    (hroot : t.root_node = ctxRoot ctx g) :
    ZRep (HYRBTREE_SET_NODE_BLACK (HYRBTREE_SET_NODE_BLACK t P.addr) ua) ctx
      (Tree.node Color.black g og (Tree.node Color.black ua uo ul ur)
        ((P.setColor Color.black).plug (Tree.node Color.red a o l r))) ∧
    ZRep (HYRBTREE_SET_NODE_RED (HYRBTREE_SET_NODE_BLACK (HYRBTREE_SET_NODE_BLACK t P.addr) ua) g) ctx
      (Tree.node Color.red g og (Tree.node Color.black ua uo ul ur)
        ((P.setColor Color.black).plug (Tree.node Color.red a o l r))) ∧
    hyrbtree_add_balance_loop (fuel + 1) t a P.addr g 0 =
      if ctx = [] then some (HYRBTREE_SET_NODE_BLACK (HYRBTREE_SET_NODE_BLACK t P.addr) ua)
      else
        let t3 := HYRBTREE_SET_NODE_RED
          (HYRBTREE_SET_NODE_BLACK (HYRBTREE_SET_NODE_BLACK t P.addr) ua) g
        if HYRBTREE_READ_NODE_COLOR t3 (t3.parent_node g) = HYRBTREE_NODE_RED then
          hyrbtree_add_balance_loop fuel t3 g (t3.parent_node g)
            (t3.parent_node (t3.parent_node g)) 0
        else some t3 := by
  have hG := (ZRep_cons t _ _ _).1 ((ZRep_cons t _ _ _).1 hrep)
  have hcase : ZRep (HYRBTREE_SET_NODE_BLACK (HYRBTREE_SET_NODE_BLACK t P.addr) ua) ctx
      (Tree.node Color.black g og (Tree.node Color.black ua uo ul ur)
        ((P.setColor Color.black).plug (Tree.node Color.red a o l r))) := by
    cases P <;> exact add_case_red_uncle_R t ctx _ _ _ g og _ _ ua uo _ _ ul ur hG
  have hcase2 := set_red_rep _ _ _ _ _ _ _ hcase
  refine ⟨hcase, hcase2, ?_⟩
  obtain ⟨h1, h2, h3, hs⟩ := hG
  by_cases hctx : ctx = []
  · subst hctx
    simp only [ctxRoot_nil] at hroot
    cases P <;>
    · simp only [Frame.plug, Rep, rootOf_node] at h2
      simp only [Sep, addrs_node, addrs_leaf, ctxAddrs_cons, ctxAddrs_nil, Frame.addr_L, Frame.addr_R,
        Frame.sibling_L, Frame.sibling_R, List.nodup_append, List.nodup_cons,
        List.mem_append, not_or, not_mem_cons_sym, List.disjoint_cons_left, List.disjoint_cons_right,
        List.disjoint_append_left, List.disjoint_append_right, List.not_mem_nil, List.nodup_nil,
        List.disjoint_nil_left, List.disjoint_nil_right, not_false_eq_true, true_and, and_true,
        List.append_nil, List.nil_append, Frame.plug] at hs
      simp [hyrbtree_add_balance_loop, h2, hs, Color.code, HYRBTREE_NODE_RED, hroot]
  · have hne : ¬ g = ctxRoot ctx g := by
      intro e
      have hmem := ctxRoot_mem ctx g hctx
      rw [← e] at hmem
      simp only [Sep, List.nodup_append, List.disjoint_left] at hs
      exact hs.1.2.2 (by cases P <;> simp [Frame.plug]) hmem
    cases P <;>
    · simp only [Frame.plug, Rep, rootOf_node] at h2
      simp only [Sep, addrs_node, addrs_leaf, ctxAddrs_cons, ctxAddrs_nil, Frame.addr_L, Frame.addr_R,
        Frame.sibling_L, Frame.sibling_R, List.nodup_append, List.nodup_cons,
        List.mem_append, not_or, not_mem_cons_sym, List.disjoint_cons_left, List.disjoint_cons_right,
        List.disjoint_append_left, List.disjoint_append_right, List.not_mem_nil, List.nodup_nil,
        List.disjoint_nil_left, List.disjoint_nil_right, not_false_eq_true, true_and, and_true,
        List.append_nil, List.nil_append, Frame.plug] at hs
      simp [hyrbtree_add_balance_loop, h2, hs, Color.code, HYRBTREE_NODE_RED, hroot, hctx, hne]

theorem red_uncle_inv_L (ctx : Ctx) (P : Frame) (g og a o ua uo : Nat) (l r ul ur : Tree)
    (hP : P.color = Color.red) (hlc : rootColor l = Color.black)
    (hrcc : rootColor r = Color.black)
    (hbal : Bal (plug (P :: Frame.L Color.black g og (Tree.node Color.red ua uo ul ur) :: ctx)
      (Tree.node Color.red a o l r)))
    (hrr : NoRedRed (plug (P :: Frame.L Color.black g og (Tree.node Color.red ua uo ul ur) :: ctx)
      (Tree.node Color.black a o l r)))
    (hrc : rootColor (plug (P :: Frame.L Color.black g og (Tree.node Color.red ua uo ul ur) :: ctx)
      (Tree.node Color.red a o l r)) = Color.black) :
    (ctx = [] → RBTree (Tree.node Color.black g og
      ((P.setColor Color.black).plug (Tree.node Color.red a o l r))
      (Tree.node Color.black ua uo ul ur))) ∧
    Bal (plug ctx (Tree.node Color.red g og
      ((P.setColor Color.black).plug (Tree.node Color.red a o l r))
      (Tree.node Color.black ua uo ul ur))) ∧
    NoRedRed (plug ctx (Tree.node Color.black g og
      ((P.setColor Color.black).plug (Tree.node Color.red a o l r))
      (Tree.node Color.black ua uo ul ur))) ∧
    (ctx ≠ [] → rootColor (plug ctx (Tree.node Color.red g og
      ((P.setColor Color.black).plug (Tree.node Color.red a o l r))
      (Tree.node Color.black ua uo ul ur))) = Color.black) := by
  rcases P with ⟨cp, p, op, psib⟩ | ⟨cp, p, op, psib⟩ <;>
  · simp only [Frame.color_L, Frame.color_R] at hP
    subst hP
    simp only [RBTree, plug_cons, Frame.plug, Frame.setColor, Bal_plug, NoRedRed_plug,
      rootColor_plug, Bal_node, NoRedRed_node, rootColor_node, bh_node, blackInc_red,
      blackInc_black, Nat.add_zero] at hbal hrr hrc ⊢
    obtain ⟨hb1, hcb⟩ := hbal
    obtain ⟨hr1, hcr⟩ := hrr
    refine ⟨?_, ⟨?_, CtxBal_congr ?_ hcb⟩, ⟨?_, hcr⟩, ?_⟩
    · intro hctx
      subst hctx
      and_intros <;> first | omega | simp_all
    · and_intros <;> first | omega | simp_all
    · omega
    · and_intros <;> first | omega | simp_all
    · intro hctx
      cases ctx with
      | nil => exact absurd rfl hctx
      | cons f ctx' => simpa using hrc

theorem red_uncle_inv_R (ctx : Ctx) (P : Frame) (g og a o ua uo : Nat) (l r ul ur : Tree)
    (hP : P.color = Color.red) (hlc : rootColor l = Color.black)
    (hrcc : rootColor r = Color.black)
    (hbal : Bal (plug (P :: Frame.R Color.black g og (Tree.node Color.red ua uo ul ur) :: ctx)
      (Tree.node Color.red a o l r)))
    (hrr : NoRedRed (plug (P :: Frame.R Color.black g og (Tree.node Color.red ua uo ul ur) :: ctx)
      (Tree.node Color.black a o l r)))
    (hrc : rootColor (plug (P :: Frame.R Color.black g og (Tree.node Color.red ua uo ul ur) :: ctx)
      (Tree.node Color.red a o l r)) = Color.black) :
    (ctx = [] → RBTree (Tree.node Color.black g og
      (Tree.node Color.black ua uo ul ur)
      ((P.setColor Color.black).plug (Tree.node Color.red a o l r)))) ∧
    Bal (plug ctx (Tree.node Color.red g og
      (Tree.node Color.black ua uo ul ur)
      ((P.setColor Color.black).plug (Tree.node Color.red a o l r)))) ∧
    NoRedRed (plug ctx (Tree.node Color.black g og
      (Tree.node Color.black ua uo ul ur)
      ((P.setColor Color.black).plug (Tree.node Color.red a o l r)))) ∧
    (ctx ≠ [] → rootColor (plug ctx (Tree.node Color.red g og
      (Tree.node Color.black ua uo ul ur)
      ((P.setColor Color.black).plug (Tree.node Color.red a o l r)))) = Color.black) := by
  rcases P with ⟨cp, p, op, psib⟩ | ⟨cp, p, op, psib⟩ <;>
  · simp only [Frame.color_L, Frame.color_R] at hP
    subst hP
    simp only [RBTree, plug_cons, Frame.plug, Frame.setColor, Bal_plug, NoRedRed_plug,
      rootColor_plug, Bal_node, NoRedRed_node, rootColor_node, bh_node, blackInc_red,
      blackInc_black, Nat.add_zero] at hbal hrr hrc ⊢
    obtain ⟨hb1, hcb⟩ := hbal
    obtain ⟨hr1, hcr⟩ := hrr
    refine ⟨?_, ⟨?_, CtxBal_congr ?_ hcb⟩, ⟨?_, hcr⟩, ?_⟩
    · intro hctx
      subst hctx
      and_intros <;> first | omega | simp_all
    · and_intros <;> first | omega | simp_all
    · omega
    · and_intros <;> first | omega | simp_all
    · intro hctx
      cases ctx with
      | nil => exact absurd rfl hctx
      | cons f ctx' => simpa using hrc

open Tree hyrbtree_t hyrbtree_ret_t

/-- What the layout of a context says about its innermost node. -/
theorem RepCtx_head (t : hyrbtree_t) (f : Frame) (ctx : Ctx) (p top : Nat)
    (h : RepCtx t (f :: ctx) p top) :
    HYRBTREE_READ_NODE_COLOR t f.addr = f.color.code ∧ t.parent_node f.addr = ctxPar top ctx := by
  cases f <;> exact ⟨h.2.1, h.2.2.1⟩

theorem Rebalanced_trans {t t1 t' : hyrbtree_t} {T T1 : Tree} (he : SameEnv t t1)
    (hn : nodes T1 = nodes T) (h : Rebalanced t1 t' T1) : Rebalanced t t' T := by
  obtain ⟨T', h1, h2, h3, h4, h5⟩ := h
  exact ⟨T', h1, h2, h3.trans hn, h4, SameEnv_trans he h5⟩

/-- After the recolouring of the RED-uncle case the loop stops at the root,
stops below a BLACK node, or goes on two levels higher. -/
theorem add_red_continue (fuel : Nat) (ih : AddBalanceSpec fuel) (t t2 t3 : hyrbtree_t)
    (ctx : Ctx) (T : Tree) (g og : Nat) (L R : Tree)
    (hlen : ctx.length < fuel + 1)
    (hz2 : ZRep t2 ctx (Tree.node Color.black g og L R))
    (hz3 : ZRep t3 ctx (Tree.node Color.red g og L R))
    (hr2 : t2.root_node = ctxRoot ctx g) (hr3 : t3.root_node = ctxRoot ctx g)
    (he2 : SameEnv t t2) (he3 : SameEnv t t3)
    (hL : rootColor L = Color.black) (hR : rootColor R = Color.black)
    (hn : nodes (plug ctx (Tree.node Color.red g og L R)) = nodes T)
    (hi1 : ctx = [] → RBTree (Tree.node Color.black g og L R))
    (hi2 : Bal (plug ctx (Tree.node Color.red g og L R)))
    (hi3 : NoRedRed (plug ctx (Tree.node Color.black g og L R)))
    (hi4 : ctx ≠ [] → rootColor (plug ctx (Tree.node Color.red g og L R)) = Color.black) :
    ∃ t', (if ctx = [] then some t2
      else if HYRBTREE_READ_NODE_COLOR t3 (t3.parent_node g) = HYRBTREE_NODE_RED then
          hyrbtree_add_balance_loop fuel t3 g (t3.parent_node g)
            (t3.parent_node (t3.parent_node g)) 0
        else some t3) = some t' ∧ Rebalanced t t' T := by
  rcases ctx with _ | ⟨F, ctx⟩
  · simp only [if_true]
    exact ⟨t2, rfl, _, (by simpa using hr2), hz2, hn, hi1 rfl, he2⟩
  · simp only [reduceCtorEq, if_false]
    have hpg : t3.parent_node g = F.addr := hz3.2.1.2.2.1
    have hF := RepCtx_head t3 F ctx _ _ hz3.1
    rw [hpg, hF.1, hF.2]
    have hi4' := hi4 (by simp)
    cases hFc : F.color with
    | black =>
      simp only [Color.code, HYRBTREE_NODE_BLACK, HYRBTREE_NODE_RED, one_ne_zero, if_false]
      refine ⟨t3, rfl, _, ?_, (ZRep_plug _ _ _).2 hz3, hn, ⟨hi4', ?_, hi2⟩, he3⟩
      · rw [rootOf_plug, hr3]; rfl
      · rw [NoRedRed_plug] at hi3 ⊢
        refine ⟨?_, CtxNoRedRed_of_black _ _ hi3.2 ?_⟩
        · simp only [NoRedRed_node, hL, hR] at hi3 ⊢
          exact ⟨fun _ => ⟨trivial, trivial⟩, hi3.1.2⟩
        · intro f c' e
          simp only [List.cons.injEq] at e
          rw [← e.1]; exact hFc
    | red =>
      simp only [Color.code, HYRBTREE_NODE_RED, if_true]
      rcases ctx with _ | ⟨G', ctx⟩
      · exfalso
        have : rootColor (F.plug (Tree.node Color.red g og L R)) = F.color := by
          cases F <;> rfl
        rw [plug_cons, plug_nil, this, hFc] at hi4'
        cases hi4'
      · simp only [ctxPar_cons]
        obtain ⟨t', h1, h2⟩ := ih t3 ctx F G' g og L R (by simp at hlen; omega) hz3
          (by rw [hr3]; rfl) hFc hL hR hi2 hi3 hi4'
        exact ⟨t', h1, Rebalanced_trans he3 hn h2⟩


/-- The loop of `hyrbtree_add_balance` terminates and restores the red-black
invariants: started at a RED node `a` below a RED parent in a tree that is
otherwise well-formed, it ends in a state that holds a red-black tree with the
same nodes in the same order. -/
theorem add_balance_loop_spec : ∀ fuel : Nat, AddBalanceSpec fuel := by
  intro fuel
  induction fuel with
  | zero => intro t ctx P G a o l r hlen; omega
  | succ fuel ih =>
    intro t ctx P G a o l r hlen hrep hroot hP hlc hrcc hbal hrr hrc
    have hG : G.color = Color.black := by
      have h := hrr
      simp only [plug_cons, NoRedRed_plug] at h
      have h1 := h.1
      cases hg : G.color with
      | black => rfl
      | red =>
        exfalso
        rcases G with ⟨cg, g, og, u⟩ | ⟨cg, g, og, u⟩ <;>
        rcases P with ⟨cp, p, op, psib⟩ | ⟨cp, p, op, psib⟩ <;>
        simp only [Frame.color_L, Frame.color_R] at hP hg <;>
        subst hP <;> subst hg <;>
        simp [Frame.plug] at h1
    rcases G with ⟨cg, g, og, u⟩ | ⟨cg, g, og, u⟩
    · simp only [Frame.color_L] at hG
      subst hG
      simp only [Frame.addr_L] at hroot ⊢
      rcases u with _ | ⟨cu, ua, uo, ul, ur⟩
      · rcases P with ⟨cp, p, op, psib⟩ | ⟨cp, p, op, psib⟩ <;>
        simp only [Frame.color_L, Frame.color_R] at hP <;> subst hP
        · exact add_balance_black_LL t ctx fuel g og p op a o l r psib _ hrep hroot rfl hlc hrcc
            hbal hrr hrc
        · exact add_balance_black_LR t ctx fuel g og p op a o l r psib _ hrep hroot rfl hlc hrcc
            hbal hrr hrc
      · cases cu with
        | black =>
          rcases P with ⟨cp, p, op, psib⟩ | ⟨cp, p, op, psib⟩ <;>
          simp only [Frame.color_L, Frame.color_R] at hP <;> subst hP
          · exact add_balance_black_LL t ctx fuel g og p op a o l r psib _ hrep hroot rfl hlc
              hrcc hbal hrr hrc
          · exact add_balance_black_LR t ctx fuel g og p op a o l r psib _ hrep hroot rfl hlc
              hrcc hbal hrr hrc
        | red =>
          obtain ⟨hz2, hz3, heq⟩ :=
            add_balance_red_L t ctx fuel P g og a o ua uo l r ul ur hrep hroot
          obtain ⟨hi1, hi2, hi3, hi4⟩ :=
            red_uncle_inv_L ctx P g og a o ua uo l r ul ur hP hlc hrcc hbal hrr hrc
          rw [heq]
          refine add_red_continue fuel ih t _ _ ctx _ g og _ _ hlen hz2 hz3 (by simpa using hroot)
            (by simpa using hroot) ⟨rfl, rfl, rfl, rfl⟩ ⟨rfl, rfl, rfl, rfl⟩ ?_ rfl ?_ hi1 hi2 hi3 hi4
          · cases P <;> rfl
          · cases P <;> simp [nodes_plug, nodes, Frame.plug, Frame.setColor]
    · simp only [Frame.color_R] at hG
      subst hG
      simp only [Frame.addr_R] at hroot ⊢
      rcases u with _ | ⟨cu, ua, uo, ul, ur⟩
      · rcases P with ⟨cp, p, op, psib⟩ | ⟨cp, p, op, psib⟩ <;>
        simp only [Frame.color_L, Frame.color_R] at hP <;> subst hP
        · exact add_balance_black_RL t ctx fuel g og p op a o l r psib _ hrep hroot rfl hlc hrcc
            hbal hrr hrc
        · exact add_balance_black_RR t ctx fuel g og p op a o l r psib _ hrep hroot rfl hlc hrcc
            hbal hrr hrc
      · cases cu with
        | black =>
          rcases P with ⟨cp, p, op, psib⟩ | ⟨cp, p, op, psib⟩ <;>
          simp only [Frame.color_L, Frame.color_R] at hP <;> subst hP
          · exact add_balance_black_RL t ctx fuel g og p op a o l r psib _ hrep hroot rfl hlc
              hrcc hbal hrr hrc
          · exact add_balance_black_RR t ctx fuel g og p op a o l r psib _ hrep hroot rfl hlc
              hrcc hbal hrr hrc
        | red =>
          obtain ⟨hz2, hz3, heq⟩ :=
            add_balance_red_R t ctx fuel P g og a o ua uo l r ul ur hrep hroot
          obtain ⟨hi1, hi2, hi3, hi4⟩ :=
            red_uncle_inv_R ctx P g og a o ua uo l r ul ur hP hlc hrcc hbal hrr hrc
          rw [heq]
          refine add_red_continue fuel ih t _ _ ctx _ g og _ _ hlen hz2 hz3 (by simpa using hroot)
            (by simpa using hroot) ⟨rfl, rfl, rfl, rfl⟩ ⟨rfl, rfl, rfl, rfl⟩ rfl ?_ ?_ hi1 hi2 hi3 hi4
          · cases P <;> rfl
          · cases P <;> simp [nodes_plug, nodes, Frame.plug, Frame.setColor]

open Tree hyrbtree_t hyrbtree_ret_t

/-! ## `hyrbtree_add_node` -/

/-- Every node of a laid-out tree stores the owner the tree says. -/
theorem Rep_addr_of_mem (t : hyrbtree_t) : ∀ (s : Tree) (par a : Nat), Rep t s par →
    a ∈ addrs s → ∃ o, (a, o) ∈ nodes s ∧ HYRBTREE_GET_NODE_ADDR t a = o
  | Tree.leaf, _, _, _, h => by simp at h
  | Tree.node c b o l r, par, a, hr, h => by
    simp only [addrs_node, List.mem_append, List.mem_cons] at h
    rcases h with h | rfl | h
    · obtain ⟨o', h1, h2⟩ := Rep_addr_of_mem t l b a hr.2.2.2.2.2.1 h
      exact ⟨o', by simp [nodes, h1], h2⟩
    · exact ⟨o, by simp [nodes], hr.1⟩
    · obtain ⟨o', h1, h2⟩ := Rep_addr_of_mem t r b a hr.2.2.2.2.2.2 h
      exact ⟨o', by simp [nodes, h1], h2⟩

/-- The linkage of a detached owner is not a node of the tree. -/
theorem detached_not_mem (t : hyrbtree_t) (T : Tree) (o : Nat) (hT : Represents t T)
    (hd : DetachedOwner t o) : t.get_rbnode o ∉ addrs T := by
  intro h
  obtain ⟨o', h1, h2⟩ := Rep_addr_of_mem t T _ _ hT.rep h
  have := (hT.linked _ h1).2
  rw [hd.2.2.2] at h2
  exact this h2.symm

theorem mem_addrs_plug (ctx : Ctx) (s : Tree) (x : Nat) :
    x ∈ addrs (plug ctx s) ↔ x ∈ addrs s ∨ x ∈ ctxAddrs ctx := by
  induction ctx generalizing s with
  | nil => simp
  | cons f ctx ih =>
    rw [plug_cons, ih]
    have := (addrs_plug_perm f ctx s).mem_iff (a := x)
    simp only [List.mem_append] at this
    exact this


/-- The state after the two preparatory writes `add_node->left_node = nil` and
`add_node->right_node = nil` still holds the same tree. -/
theorem add_node_prep (t : hyrbtree_t) (T : Tree) (o : Nat) (hT : Represents t T)
    (hd : DetachedOwner t o) :
    Represents ((t.set_left (t.get_rbnode o) t.nil_node).set_right (t.get_rbnode o) t.nil_node) T := by
  have hn := detached_not_mem t T o hT hd
  refine ⟨hT.root, ?_, hT.nil_black, hT.nodup, hT.nil_not_mem, hT.linked⟩
  simpa [hn] using hT.rep

theorem keyLt_congr {t t' : hyrbtree_t} (h : SameEnv t t') : keyLt t' = keyLt t := by
  funext x y
  simp only [keyLt, h.2.1, h.2.2.1]

/-- A rebalanced tree with the new node at its sorted position is well-formed. -/
theorem AddOk_of_rebalanced (t t0 t' : hyrbtree_t) (T : Tree) (ctx : Ctx) (o : Nat)
    (hwf : WellFormed t0 T) (he0 : SameEnv t0 t) (hd : DetachedOwner t0 o)
    (hplug : plug ctx Tree.leaf = T)
    (hb : (∀ x ∈ ctxBefore ctx, t0.cmp_elem (t0.get_elem x.2) (t0.get_elem o) < 0) ∧
      (∀ x ∈ ctxAfter ctx, t0.cmp_elem (t0.get_elem o) (t0.get_elem x.2) < 0))
    (h : Rebalanced t t' (plug ctx (Tree.node Color.red (t0.get_rbnode o) o Tree.leaf Tree.leaf))) :
    ∃ T', AddOk t0 t' T T' o := by
  obtain ⟨T', h1, h2, h3, h4, h5⟩ := h
  obtain ⟨hrep, hrb, hsorted, hord⟩ := hwf
  have he := SameEnv_trans he0 h5
  have hnT : nodes T = ctxBefore ctx ++ ctxAfter ctx := by
    rw [← hplug, nodes_plug]; simp [nodes]
  have hnT' : nodes T' = ctxBefore ctx ++ (t0.get_rbnode o, o) :: ctxAfter ctx := by
    rw [h3, nodes_plug]; simp [nodes]
  refine ⟨T', ⟨(Represents_iff _ _).2 ⟨h1, h2, ?_⟩, h4, ?_, ?_⟩, he,
    ctxBefore ctx, ctxAfter ctx, hnT, hnT', hb.1, hb.2⟩
  · intro p hp
    rw [hnT'] at hp
    simp only [List.mem_append, List.mem_cons] at hp
    rw [he.1]
    rcases hp with hp | rfl | hp
    · exact hrep.linked p (by rw [hnT]; simp [hp])
    · exact ⟨rfl, hd.1⟩
    · exact hrep.linked p (by rw [hnT]; simp [hp])
  · rw [keyLt_congr he, owners_eq_map, hnT']
    rw [owners_eq_map, hnT] at hsorted
    simp only [List.map_append, List.map_cons, List.pairwise_append, List.pairwise_cons,
      List.mem_map, List.mem_cons] at hsorted ⊢
    refine ⟨hsorted.1, ⟨?_, hsorted.2.1⟩, ?_⟩
    · rintro y ⟨x, hx, rfl⟩
      exact hb.2 x hx
    · rintro y ⟨x, hx, rfl⟩ z hz
      rcases hz with rfl | ⟨w, hw, rfl⟩
      · exact hb.1 x hx
      · exact hsorted.2.2 _ ⟨x, hx, rfl⟩ _ ⟨w, hw, rfl⟩
  · rw [he.2.2.1]; exact hord

open Tree hyrbtree_t hyrbtree_ret_t

theorem ctxAddrs_of_plug_leaf (ctx : Ctx) (x : Nat) :
    x ∈ ctxAddrs ctx ↔ x ∈ addrs (plug ctx Tree.leaf) := by
  rw [mem_addrs_plug]; simp

@[simp]
theorem attach_root (t : hyrbtree_t) (add : Nat) (ctx : Ctx) :
    (attach t add ctx).root_node = t.root_node := by
  rcases ctx with _ | ⟨_ | _, _⟩ <;> rfl

@[simp]
theorem attach_nil (t : hyrbtree_t) (add : Nat) (ctx : Ctx) :
    (attach t add ctx).nil_node = t.nil_node := by
  rcases ctx with _ | ⟨_ | _, _⟩ <;> rfl

theorem attach_env (t : hyrbtree_t) (add : Nat) (ctx : Ctx) : SameEnv t (attach t add ctx) := by
  rcases ctx with _ | ⟨_ | _, _⟩ <;> exact ⟨rfl, rfl, rfl, rfl⟩

/-- The red-black invariants of a tree with a new RED leaf below a BLACK node. -/
theorem RBTree_new_leaf (F : Frame) (ctx : Ctx) (a o : Nat) (hF : F.color = Color.black)
    (h : RBTree (plug (F :: ctx) Tree.leaf)) :
    RBTree (plug (F :: ctx) (Tree.node Color.red a o Tree.leaf Tree.leaf)) := by
  obtain ⟨h1, h2, h3⟩ := h
  rw [rootColor_plug] at h1
  rw [NoRedRed_plug] at h2
  rw [Bal_plug] at h3
  refine ⟨by rw [rootColor_plug]; exact h1, ?_, ?_⟩
  · rw [NoRedRed_plug]
    refine ⟨by simp, CtxNoRedRed_of_black _ _ h2.2 ?_⟩
    intro f c e
    simp only [List.cons.injEq] at e
    rw [← e.1]; exact hF
  · rw [Bal_plug]
    exact ⟨by simp, by simpa [bh_node] using h3.2⟩

/-- `hyrbtree_add_node` on a well-formed tree, for a detached owner whose key is
not in the tree: the call returns OK, and the new state holds a well-formed
tree whose nodes are the old ones with the new node at its sorted position. -/
theorem add_node_ok (t : hyrbtree_t) (T : Tree) (o fuel : Nat) (hwf : WellFormed t T)
    (hd : DetachedOwner t o)
    (hnew : ∀ e ∈ owners T, t.cmp_elem (t.get_elem o) (t.get_elem e) ≠ 0)
    (hf : size T < fuel) :
    ∃ t' T', hyrbtree_add_node fuel t o = some (HYRBTREE_RET_OK, t', none) ∧
      AddOk t t' T T' o := by
  have hT1 := add_node_prep t T o hwf.1 hd
  have hadd := detached_not_mem t T o hwf.1 hd
  have hz1 := ((Represents_iff _ _).1 hT1).2.1
  rcases hT : T with _ | ⟨c0, a0, o0, l0, r0⟩
  · -- empty tree
    subst hT
    have hroot : t.root_node = t.nil_node := hwf.1.root
    simp only [hyrbtree_add_node, hd.2.2.2, if_true, set_right_root, set_left_root, hroot,
      set_right_nil, set_left_nil, ne_eq, not_true_eq_false, if_false]
    refine ⟨_, Tree.node Color.black (t.get_rbnode o) o Tree.leaf Tree.leaf, rfl, ?_, ?_, ?_⟩
    · refine ⟨(Represents_iff _ _).2 ⟨by simp, ?_, ?_⟩, ?_, ?_, ?_⟩
      · have hnb := hwf.1.nil_black
        have hne : ¬ t.nil_node = t.get_rbnode o := fun e => hd.2.2.1 e.symm
        simp [ZRep, RepCtx, Rep, Sep, hd.2.2.1, hne, hnb, Color.code, addr_set_user,
          color_set_user, hd.2.1]
      · intro p hp
        simp only [nodes, List.nil_append, List.mem_singleton] at hp
        subst hp
        exact ⟨by simp, hd.1⟩
      · simp [RBTree]
      · simp [owners]
      · simpa using hwf.2.2.2
    · exact ⟨by simp, by simp, by simp, by simp⟩
    · exact ⟨[], [], by simp [nodes], by simp [nodes], by simp, by simp⟩
  · -- non-empty tree
    rw [← hT]
    have hne : T ≠ Tree.leaf := by rw [hT]; simp
    obtain ⟨hrootc, hnrr, hbal⟩ := hwf.2.1
    have hroot1 : t.root_node = rootOf t.nil_node T := hwf.1.root
    have hrootne : ¬ rootOf t.nil_node T = t.nil_node := by
      rw [hT]; intro e
      apply hwf.1.nil_not_mem
      simp only [rootOf_node] at e
      rw [hT, ← e]; simp
    simp only [hyrbtree_add_node, hd.2.2.2, if_true, set_right_root, set_left_root, hroot1,
      set_right_nil, set_left_nil, ne_eq, hrootne, not_false_eq_true, set_right_get_elem,
      set_left_get_elem]
    have hl1 : ((t.set_left (t.get_rbnode o) t.nil_node).set_right (t.get_rbnode o)
        t.nil_node).left_node (t.get_rbnode o) = t.nil_node := by
      simp only [set_right_left, set_left_left, if_true]
    have hr1 : ((t.set_left (t.get_rbnode o) t.nil_node).set_right (t.get_rbnode o)
        t.nil_node).right_node (t.get_rbnode o) = t.nil_node := by
      simp only [set_right_right, if_true]
    have henv : SameEnv t ((t.set_left (t.get_rbnode o) t.nil_node).set_right (t.get_rbnode o)
        t.nil_node) := ⟨rfl, rfl, rfl, rfl⟩
    have hroot2 : ((t.set_left (t.get_rbnode o) t.nil_node).set_right (t.get_rbnode o)
        t.nil_node).root_node = t.root_node := rfl
    generalize (t.set_left (t.get_rbnode o) t.nil_node).set_right (t.get_rbnode o)
        t.nil_node = t1 at *
    obtain ⟨e1, e2, e3, e4⟩ := henv
    obtain ⟨ctx, hdesc⟩ := descend_inl_of_ne t1 (t.get_elem o) T [] (by rw [e3, e2]; exact hnew)
    have hloop := add_node_loop_eq t1 (t.get_rbnode o) (t.get_elem o) T t1.nil_node [] fuel hne
      hT1.rep hT1.nil_not_mem (by omega)
    rw [hdesc, e4] at hloop
    have hplug := descend_inl_plug _ _ T [] ctx hdesc
    simp only [plug_nil] at hplug
    have hbounds := descend_bounds t1 (t.get_elem o) (by rw [e3]; exact hwf.2.2.2) T [] ctx hdesc
      (by rw [keyLt_congr ⟨e1, e2, e3, e4⟩]; exact hwf.2.2.1) (by simp [ctxBefore])
      (by simp [ctxAfter])
    rw [e3, e2] at hbounds
    have hctx : ctx ≠ [] := by
      intro e; rw [e] at hplug; exact hne hplug.symm
    have hzl : ZRep t1 ctx Tree.leaf := (ZRep_plug _ ctx Tree.leaf).1 (by rw [hplug]; exact hz1)
    have hadd' : t.get_rbnode o ∉ ctxAddrs ctx := by
      rw [ctxAddrs_of_plug_leaf, hplug]; exact hadd
    have hatt := attach_rep t1 ctx (t.get_rbnode o) o hzl hctx hadd' (by rw [e4]; exact hd.2.2.1)
      (by rw [hl1, e4]) (by rw [hr1, e4]) hd.2.1
    have henv1 : SameEnv t ((attach t1 (t.get_rbnode o) ctx).set_user (t.get_rbnode o) o) := by
      have := attach_env t1 (t.get_rbnode o) ctx
      exact ⟨this.1.trans e1, this.2.1.trans e2, this.2.2.1.trans e3, this.2.2.2.trans e4⟩
    have hroot3 : ((attach t1 (t.get_rbnode o) ctx).set_user (t.get_rbnode o) o).root_node =
          ctxRoot ctx (t.get_rbnode o) := by
      simp only [set_user_root, attach_root, hroot2, hroot1]
      rw [← hplug, rootOf_plug]
      exact ctxRoot_congr ctx _ _ hctx
    rw [hloop]
    simp only []
    obtain ⟨F, ctx', rfl⟩ : ∃ F ctx', ctx = F :: ctx' := by
      cases ctx with
      | nil => exact absurd rfl hctx
      | cons F ctx' => exact ⟨F, ctx', rfl⟩
    have hpa := hatt.2.1.2.2.1
    have hF := RepCtx_head _ F ctx' _ _ hatt.1
    simp only [ctxPar_cons] at hpa
    rw [hpa, hF.1]
    cases hFc : F.color with
    | black =>
      simp only [Color.code, HYRBTREE_NODE_BLACK, HYRBTREE_NODE_RED, one_ne_zero, if_false]
      have hreb : Rebalanced ((attach t1 (t.get_rbnode o) (F :: ctx')).set_user (t.get_rbnode o) o)
          ((attach t1 (t.get_rbnode o) (F :: ctx')).set_user (t.get_rbnode o) o)
          (plug (F :: ctx') (Tree.node Color.red (t.get_rbnode o) o Tree.leaf Tree.leaf)) := by
        refine ⟨_, ?_, (ZRep_plug _ _ _).2 hatt, rfl, ?_, SameEnv.refl _⟩
        · rw [hroot3, rootOf_plug]; rfl
        · exact RBTree_new_leaf F ctx' _ _ hFc (by rw [hplug]; exact hwf.2.1)
      obtain ⟨T', hok⟩ := AddOk_of_rebalanced _ t _ T (F :: ctx') o hwf henv1 hd hplug hbounds hreb
      exact ⟨_, T', rfl, hok⟩
    | red =>
      simp only [Color.code, HYRBTREE_NODE_RED, if_true]
      have hT' : T = plug (F :: ctx') Tree.leaf := hplug.symm
      obtain ⟨G, ctx'', rfl⟩ : ∃ G ctx'', ctx' = G :: ctx'' := by
        cases ctx' with
        | nil =>
          exfalso
          have : rootColor (F.plug Tree.leaf) = F.color := by cases F <;> rfl
          rw [hT', plug_cons, plug_nil, this, hFc] at hrootc
          cases hrootc
        | cons G ctx'' => exact ⟨G, ctx'', rfl⟩
      have hz4 := set_red_rep _ _ _ _ _ _ _ hatt
      have hlen : ctx''.length < fuel := by
        have := length_le_size (F :: G :: ctx'') Tree.leaf
        rw [← hT'] at this
        simp only [List.length_cons] at this
        omega
      have hbal' : Bal (plug (F :: G :: ctx'')
          (Tree.node Color.red (t.get_rbnode o) o Tree.leaf Tree.leaf)) := by
        rw [hT', Bal_plug] at hbal
        rw [Bal_plug]
        exact ⟨by simp, by simpa [bh_node] using hbal.2⟩
      have hrr' : NoRedRed (plug (F :: G :: ctx'')
          (Tree.node Color.black (t.get_rbnode o) o Tree.leaf Tree.leaf)) := by
        rw [hT', NoRedRed_plug] at hnrr
        rw [NoRedRed_plug]
        exact ⟨by simp, by simpa using hnrr.2⟩
      have hrc' : rootColor (plug (F :: G :: ctx'')
          (Tree.node Color.red (t.get_rbnode o) o Tree.leaf Tree.leaf)) = Color.black := by
        rw [hT', rootColor_plug] at hrootc
        rw [rootColor_plug]
        exact hrootc
      obtain ⟨t', h1, h2⟩ := add_balance_loop_spec fuel _ ctx'' F G (t.get_rbnode o) o Tree.leaf
        Tree.leaf hlen hz4 (by rw [set_red_root, hroot3]; rfl) hFc rfl rfl hbal' hrr' hrc'
      have hab : hyrbtree_add_balance fuel
          ((attach t1 (t.get_rbnode o) (F :: G :: ctx'')).set_user (t.get_rbnode o) o)
          (t.get_rbnode o) = some t' := by
        simp only [hyrbtree_add_balance, set_red_parent, hpa, hF.2, ctxPar_cons]
        exact h1
      rw [hab]
      obtain ⟨T', hok⟩ := AddOk_of_rebalanced _ t _ T (F :: G :: ctx'') o hwf
        (SameEnv_trans henv1 ⟨rfl, rfl, rfl, rfl⟩) hd hplug hbounds h2
      exact ⟨_, T', rfl, hok⟩

open Tree hyrbtree_t hyrbtree_ret_t

/-- The root pointer is the sentinel exactly when the tree is empty. -/
theorem root_eq_nil_iff (t : hyrbtree_t) (T : Tree) (h : Represents t T) :
    t.root_node = t.nil_node ↔ T = Tree.leaf := by
  rw [h.root]
  cases T with
  | leaf => simp
  | node c a o l r =>
    simp only [rootOf_node, reduceCtorEq, iff_false]
    intro e
    apply h.nil_not_mem
    rw [← e]; simp

/-- `hyrbtree_add_node` for a key that is already in the tree: the call returns
ELEM_EXIST with the owner found, and the only writes are the two preparatory
writes to the links of the new owner's own linkage. -/
theorem add_node_exist (t : hyrbtree_t) (T : Tree) (o e fuel : Nat) (hwf : WellFormed t T)
    (hd : DetachedOwner t o) (he : e ∈ owners T)
    (hk : t.cmp_elem (t.get_elem o) (t.get_elem e) = 0) (hf : size T ≤ fuel) :
    hyrbtree_add_node fuel t o = some (HYRBTREE_RET_ADD_NODE_ELEM_EXIST,
      (t.set_left (t.get_rbnode o) t.nil_node).set_right (t.get_rbnode o) t.nil_node, some e) := by
  have hT1 := add_node_prep t T o hwf.1 hd
  have hne : T ≠ Tree.leaf := by
    intro h; rw [h] at he; simp [owners] at he
  have hroot1 : t.root_node = rootOf t.nil_node T := hwf.1.root
  have hrootne : ¬ rootOf t.nil_node T = t.nil_node := by
    rw [← hroot1, root_eq_nil_iff t T hwf.1]; exact hne
  have hloop := add_node_loop_eq _ (t.get_rbnode o) (t.get_elem o) T _ [] fuel hne hT1.rep
    hT1.nil_not_mem hf
  have hdesc := descend_inr_of_eq
    ((t.set_left (t.get_rbnode o) t.nil_node).set_right (t.get_rbnode o) t.nil_node)
    (t.get_elem o) hwf.2.2.2 T [] e hwf.2.2.1 he hk
  rw [hdesc] at hloop
  simp only [set_right_nil, set_left_nil] at hloop
  simp only [hyrbtree_add_node, hd.2.2.2, if_true, set_right_root, set_left_root, hroot1,
    set_right_nil, set_left_nil, ne_eq, hrootne, not_false_eq_true, set_right_get_elem,
    set_left_get_elem, hloop]

/-- `hyrbtree_get_node` on a well-formed tree. -/
theorem get_node_spec (t : hyrbtree_t) (T : Tree) (k fuel : Nat) (hwf : WellFormed t T)
    (hf : size T ≤ fuel) :
    (T = Tree.leaf → hyrbtree_get_node fuel t k = some (HYRBTREE_RET_GET_NODE_TREE_NULL, none)) ∧
    (∀ e ∈ owners T, t.cmp_elem k (t.get_elem e) = 0 →
      hyrbtree_get_node fuel t k = some (HYRBTREE_RET_OK, some e)) ∧
    (T ≠ Tree.leaf → (∀ e ∈ owners T, t.cmp_elem k (t.get_elem e) ≠ 0) →
      hyrbtree_get_node fuel t k = some (HYRBTREE_RET_GET_NODE_NOT_FIND, none)) := by
  have hroot1 : t.root_node = rootOf t.nil_node T := hwf.1.root
  have hiff := root_eq_nil_iff t T hwf.1
  refine ⟨?_, ?_, ?_⟩
  · intro h
    simp [hyrbtree_get_node, hiff.2 h]
  · intro e he hk
    have hne : T ≠ Tree.leaf := by
      intro h; rw [h] at he; simp [owners] at he
    have hrootne : ¬ t.root_node = t.nil_node := fun h => hne (hiff.1 h)
    have hloop := get_node_loop_eq t k T _ [] fuel hne hwf.1.rep hwf.1.nil_not_mem hf
    rw [descend_inr_of_eq t k hwf.2.2.2 T [] e hwf.2.2.1 he hk] at hloop
    simp only [hyrbtree_get_node, ne_eq, hrootne, not_false_eq_true, if_true]
    rw [hroot1, hloop]; rfl
  · intro hne hall
    have hrootne : ¬ t.root_node = t.nil_node := fun h => hne (hiff.1 h)
    have hloop := get_node_loop_eq t k T _ [] fuel hne hwf.1.rep hwf.1.nil_not_mem hf
    obtain ⟨c, hc⟩ := descend_inl_of_ne t k T [] hall
    rw [hc] at hloop
    simp only [hyrbtree_get_node, ne_eq, hrootne, not_false_eq_true, if_true]
    rw [hroot1, hloop]; rfl

open Tree hyrbtree_t hyrbtree_ret_t

/-! ## Concrete states used to instantiate the theorems -/

theorem totalOrder_sub : TotalOrder (fun a b : Nat => (a : Int) - (b : Int)) := by
  refine ⟨fun a b => ?_, fun a b c h1 h2 => ?_⟩
  · constructor <;> intro h <;> simp only at h ⊢ <;> omega
  · simp only at h1 h2 ⊢; omega

theorem emptyTree_wf : WellFormed emptyTree Tree.leaf := by
  refine ⟨⟨rfl, trivial, rfl, List.nodup_nil, by simp, by simp [nodes]⟩, ⟨rfl, trivial, trivial⟩,
    by simp [owners], totalOrder_sub⟩

theorem oneNodeTree_wf : WellFormed oneNodeTree oneNode := by
  refine ⟨⟨rfl, ?_, rfl, by simp [oneNode], by simp [oneNode, oneNodeTree], ?_⟩,
    ⟨rfl, by simp [oneNode], by simp [oneNode]⟩, by simp [oneNode, owners], totalOrder_sub⟩
  · simp [oneNode, Rep, oneNodeTree, HYRBTREE_GET_NODE_ADDR, HYRBTREE_READ_NODE_COLOR, Color.code,
      HYRBTREE_NODE_BLACK]
  · intro p hp
    simp only [oneNode, nodes, List.nil_append, List.mem_singleton] at hp
    subst hp
    simp [oneNodeTree, HY_NULL]

theorem emptyTree_detached : DetachedOwner emptyTree 2 := by
  simp [DetachedOwner, emptyTree, HY_NULL, HYRBTREE_GET_NODE_ADDR]

theorem oneNodeTree_detached_4 : DetachedOwner oneNodeTree 4 := by
  simp [DetachedOwner, oneNodeTree, HY_NULL, HYRBTREE_GET_NODE_ADDR]

theorem oneNodeTree_detached_10 : DetachedOwner oneNodeTree 10 := by
  simp [DetachedOwner, oneNodeTree, HY_NULL, HYRBTREE_GET_NODE_ADDR]

open Tree hyrbtree_t hyrbtree_ret_t

/-! ## The rotation cases of deletion -/

section del_switch_fields
variable (t : hyrbtree_t) (p s k : Nat)

@[simp]
theorem del_switch_root : (del_balance_switch t p s k).root_node = t.root_node := by
  simp only [del_balance_switch]; split_ifs <;> simp
@[simp]
theorem del_switch_nil : (del_balance_switch t p s k).nil_node = t.nil_node := by
  simp only [del_balance_switch]; split_ifs <;> simp
@[simp]
theorem del_switch_get_rbnode :
    (del_balance_switch t p s k).get_rbnode = t.get_rbnode := by
  simp only [del_balance_switch]; split_ifs <;> simp
@[simp]
theorem del_switch_get_elem : (del_balance_switch t p s k).get_elem = t.get_elem := by
  simp only [del_balance_switch]; split_ifs <;> simp
@[simp]
theorem del_switch_cmp_elem : (del_balance_switch t p s k).cmp_elem = t.cmp_elem := by
  simp only [del_balance_switch]; split_ifs <;> simp

end del_switch_fields

/-- The colour bit of the node in focus. -/
theorem ZRep_color (t : hyrbtree_t) (ctx : Ctx) (c : Color) (a o : Nat) (l r : Tree)
    (h : ZRep t ctx (Tree.node c a o l r)) :
    HYRBTREE_READ_NODE_COLOR t a = HYRBTREE_NODE_RED ↔ c = Color.red := by
  have := h.2.1.2.1
  rw [this]; cases c <;> simp [Color.code, HYRBTREE_NODE_RED, HYRBTREE_NODE_BLACK]

/-- Giving the node in focus the colour of another node. -/
theorem set_color_rep (t : hyrbtree_t) (ctx : Ctx) (c cp : Color) (a o : Nat) (l r : Tree)
    (b : Prop) [Decidable b] (hb : b ↔ cp = Color.red)
    (h : ZRep t ctx (Tree.node c a o l r)) :
    ZRep (if b then HYRBTREE_SET_NODE_RED t a else HYRBTREE_SET_NODE_BLACK t a) ctx
      (Tree.node cp a o l r) := by
  cases cp
  · rw [if_pos (hb.2 rfl)]; exact set_red_rep _ _ _ _ _ _ _ h
  · rw [if_neg (fun hh => by have := hb.1 hh; cases this)]; exact set_black_rep _ _ _ _ _ _ _ h

/-- Deletion cases 6 and 7: the sibling `s` is the right child and its right
child `d` is RED. -/
theorem del_case_RR (t : hyrbtree_t) (ctx : Ctx) (cp cs cd : Color) (p op s os d od : Nat)
    (x sl dl dr : Tree) (k : Nat)
    (hk : k = RBNODE_DEL_ROTATE_RR_0 ∨ k = RBNODE_DEL_ROTATE_RR_1)
    (h : ZRep t ctx (Tree.node cp p op x (Tree.node cs s os sl (Tree.node cd d od dl dr)))) :
    ZRep (del_balance_switch t p s k) ctx
      (Tree.node cp s os (Tree.node Color.black p op x sl) (Tree.node Color.black d od dl dr)) := by
  have hd : t.right_node s = d := h.2.1.2.2.2.2.2.2.2.2.2.2.1
  have h1 := (ZRep_cons t (Frame.R cs s os sl) (Frame.R cp p op x :: ctx) _).2
    ((ZRep_cons t (Frame.R cp p op x) ctx _).2 h)
  have h3 := (ZRep_cons _ (Frame.R cs s os sl) (Frame.R cp p op x :: ctx) _).1
    (set_black_rep _ _ _ _ _ _ _ h1)
  have hp := ZRep_color _ ctx cp p op _ _ ((ZRep_cons _ (Frame.R cp p op x) ctx _).1 h3)
  have h5 := (ZRep_cons _ (Frame.R cp p op x) ctx _).1 (set_color_rep _ _ _ cp _ _ _ _ _ hp h3)
  have h7 := left_rotate_rep _ _ _ _ _ _ _ _ _ _ _ (set_black_rep _ _ _ _ _ _ _ h5)
  have e : del_balance_switch t p s k = hyrbtree_left_rotate_node (HYRBTREE_SET_NODE_BLACK
      (if HYRBTREE_READ_NODE_COLOR (HYRBTREE_SET_NODE_BLACK t (t.right_node s)) p =
          HYRBTREE_NODE_RED
        then HYRBTREE_SET_NODE_RED (HYRBTREE_SET_NODE_BLACK t (t.right_node s)) s
        else HYRBTREE_SET_NODE_BLACK (HYRBTREE_SET_NODE_BLACK t (t.right_node s)) s) p) p := by
    rcases hk with rfl | rfl <;> rfl
  rw [e, hd]; exact h7

/-- Deletion cases 1 and 3: the sibling `s` is the left child and its left
child `d` is RED. -/
theorem del_case_LL (t : hyrbtree_t) (ctx : Ctx) (cp cs cd : Color) (p op s os d od : Nat)
    (x sr dl dr : Tree) (k : Nat)
    (hk : k = RBNODE_DEL_ROTATE_LL_0 ∨ k = RBNODE_DEL_ROTATE_LL_1)
    (h : ZRep t ctx (Tree.node cp p op (Tree.node cs s os (Tree.node cd d od dl dr) sr) x)) :
    ZRep (del_balance_switch t p s k) ctx
      (Tree.node cp s os (Tree.node Color.black d od dl dr) (Tree.node Color.black p op sr x)) := by
  have hd : t.left_node s = d := h.2.1.2.2.2.2.2.1.2.2.2.1
  have h1 := (ZRep_cons t (Frame.L cs s os sr) (Frame.L cp p op x :: ctx) _).2
    ((ZRep_cons t (Frame.L cp p op x) ctx _).2 h)
  have h3 := (ZRep_cons _ (Frame.L cs s os sr) (Frame.L cp p op x :: ctx) _).1
    (set_black_rep _ _ _ _ _ _ _ h1)
  have hp := ZRep_color _ ctx cp p op _ _ ((ZRep_cons _ (Frame.L cp p op x) ctx _).1 h3)
  have h5 := (ZRep_cons _ (Frame.L cp p op x) ctx _).1 (set_color_rep _ _ _ cp _ _ _ _ _ hp h3)
  have h7 := right_rotate_rep _ _ _ _ _ _ _ _ _ _ _ (set_black_rep _ _ _ _ _ _ _ h5)
  have e : del_balance_switch t p s k = hyrbtree_right_rotate_node (HYRBTREE_SET_NODE_BLACK
      (if HYRBTREE_READ_NODE_COLOR (HYRBTREE_SET_NODE_BLACK t (t.left_node s)) p =
          HYRBTREE_NODE_RED
        then HYRBTREE_SET_NODE_RED (HYRBTREE_SET_NODE_BLACK t (t.left_node s)) s
        else HYRBTREE_SET_NODE_BLACK (HYRBTREE_SET_NODE_BLACK t (t.left_node s)) s) p) p := by
    rcases hk with rfl | rfl <;> rfl
  rw [e, hd]; exact h7

/-- Deletion case 5: the sibling `s` is the right child, its left child `c` is
RED and its right child is BLACK. -/
theorem del_case_RL (t : hyrbtree_t) (ctx : Ctx) (cp cs cc : Color) (p op s os c oc : Nat)
    (x sr cl cr : Tree)
    (h : ZRep t ctx (Tree.node cp p op x (Tree.node cs s os (Tree.node cc c oc cl cr) sr))) :
    ZRep (del_balance_switch t p s RBNODE_DEL_ROTATE_RL) ctx
      (Tree.node cp c oc (Tree.node Color.black p op x cl) (Tree.node cs s os cr sr)) := by
  have hd : t.left_node s = c := h.2.1.2.2.2.2.2.2.2.2.2.1
  have hp := ZRep_color _ ctx cp p op _ _ h
  have h1 := (ZRep_cons t (Frame.L cs s os sr) (Frame.R cp p op x :: ctx) _).2
    ((ZRep_cons t (Frame.R cp p op x) ctx _).2 h)
  have h3 := (ZRep_cons _ (Frame.R cp p op x) ctx _).1
    ((ZRep_cons _ (Frame.L cs s os sr) (Frame.R cp p op x :: ctx) _).1
      (set_color_rep _ _ _ cp _ _ _ _ _ hp h1))
  have h5 := (ZRep_cons _ (Frame.R Color.black p op x) ctx _).2 (set_black_rep _ _ _ _ _ _ _ h3)
  have h7 := (ZRep_cons _ (Frame.R Color.black p op x) ctx _).1
    (right_rotate_rep _ _ _ _ _ _ _ _ _ _ _ h5)
  have h8 := left_rotate_rep _ _ _ _ _ _ _ _ _ _ _ h7
  have e : del_balance_switch t p s RBNODE_DEL_ROTATE_RL = hyrbtree_left_rotate_node
      (hyrbtree_right_rotate_node (HYRBTREE_SET_NODE_BLACK
        (if HYRBTREE_READ_NODE_COLOR t p = HYRBTREE_NODE_RED
          then HYRBTREE_SET_NODE_RED t (t.left_node s)
          else HYRBTREE_SET_NODE_BLACK t (t.left_node s)) p) s) p := rfl
  rw [e, hd]; exact h8

/-- Deletion case 2: the sibling `s` is the left child, its right child `c` is
RED and its left child is BLACK. -/
theorem del_case_LR (t : hyrbtree_t) (ctx : Ctx) (cp cs cc : Color) (p op s os c oc : Nat)
    (x sl cl cr : Tree)
    (h : ZRep t ctx (Tree.node cp p op (Tree.node cs s os sl (Tree.node cc c oc cl cr)) x)) :
    ZRep (del_balance_switch t p s RBNODE_DEL_ROTATE_LR) ctx
      (Tree.node cp c oc (Tree.node cs s os sl cl) (Tree.node Color.black p op cr x)) := by
  have hd : t.right_node s = c := h.2.1.2.2.2.2.2.1.2.2.2.2.1
  have hp := ZRep_color _ ctx cp p op _ _ h
  have h1 := (ZRep_cons t (Frame.R cs s os sl) (Frame.L cp p op x :: ctx) _).2
    ((ZRep_cons t (Frame.L cp p op x) ctx _).2 h)
  have h3 := (ZRep_cons _ (Frame.L cp p op x) ctx _).1
    ((ZRep_cons _ (Frame.R cs s os sl) (Frame.L cp p op x :: ctx) _).1
      (set_color_rep _ _ _ cp _ _ _ _ _ hp h1))
  have h5 := (ZRep_cons _ (Frame.L Color.black p op x) ctx _).2 (set_black_rep _ _ _ _ _ _ _ h3)
  have h7 := (ZRep_cons _ (Frame.L Color.black p op x) ctx _).1
    (left_rotate_rep _ _ _ _ _ _ _ _ _ _ _ h5)
  have h8 := right_rotate_rep _ _ _ _ _ _ _ _ _ _ _ h7
  have e : del_balance_switch t p s RBNODE_DEL_ROTATE_LR = hyrbtree_right_rotate_node
      (hyrbtree_left_rotate_node (HYRBTREE_SET_NODE_BLACK
        (if HYRBTREE_READ_NODE_COLOR t p = HYRBTREE_NODE_RED
          then HYRBTREE_SET_NODE_RED t (t.right_node s)
          else HYRBTREE_SET_NODE_BLACK t (t.right_node s)) p) s) p := rfl
  rw [e, hd]; exact h8

/-- Deletion, RED sibling on the right: recolour and rotate left at the parent. -/
theorem del_case_red_R (t : hyrbtree_t) (ctx : Ctx) (cp cs : Color) (p op s os : Nat)
    (x sl sr : Tree)
    (h : ZRep t ctx (Tree.node cp p op x (Tree.node cs s os sl sr))) :
    ZRep (hyrbtree_left_rotate_node
        (HYRBTREE_SET_NODE_RED (HYRBTREE_SET_NODE_BLACK t s) p) p) ctx
      (Tree.node Color.black s os (Tree.node Color.red p op x sl) sr) := by
  have h1 := (ZRep_cons t (Frame.R cp p op x) ctx _).2 h
  have h2 := (ZRep_cons _ (Frame.R cp p op x) ctx _).1 (set_black_rep _ _ _ _ _ _ _ h1)
  exact left_rotate_rep _ _ _ _ _ _ _ _ _ _ _ (set_red_rep _ _ _ _ _ _ _ h2)

/-- Deletion, RED sibling on the left: recolour and rotate right at the parent. -/
theorem del_case_red_L (t : hyrbtree_t) (ctx : Ctx) (cp cs : Color) (p op s os : Nat)
    (x sl sr : Tree)
    (h : ZRep t ctx (Tree.node cp p op (Tree.node cs s os sl sr) x)) :
    ZRep (hyrbtree_right_rotate_node
        (HYRBTREE_SET_NODE_RED (HYRBTREE_SET_NODE_BLACK t s) p) p) ctx
      (Tree.node Color.black s os sl (Tree.node Color.red p op sr x)) := by
  have h1 := (ZRep_cons t (Frame.L cp p op x) ctx _).2 h
  have h2 := (ZRep_cons _ (Frame.L cp p op x) ctx _).1 (set_black_rep _ _ _ _ _ _ _ h1)
  exact right_rotate_rep _ _ _ _ _ _ _ _ _ _ _ (set_red_rep _ _ _ _ _ _ _ h2)

/-- Deletion cases 0 and 4: the sibling on the right becomes RED. -/
theorem del_case_none_R (t : hyrbtree_t) (ctx : Ctx) (cp cs : Color) (p op s os : Nat)
    (x sl sr : Tree)
    (h : ZRep t ctx (Tree.node cp p op x (Tree.node cs s os sl sr))) :
    ZRep (HYRBTREE_SET_NODE_RED t s) ctx
      (Tree.node cp p op x (Tree.node Color.red s os sl sr)) := by
  have h1 := (ZRep_cons t (Frame.R cp p op x) ctx _).2 h
  exact (ZRep_cons _ (Frame.R cp p op x) ctx _).1 (set_red_rep _ _ _ _ _ _ _ h1)

/-- Deletion cases 0 and 4: the sibling on the left becomes RED. -/
theorem del_case_none_L (t : hyrbtree_t) (ctx : Ctx) (cp cs : Color) (p op s os : Nat)
    (x sl sr : Tree)
    (h : ZRep t ctx (Tree.node cp p op (Tree.node cs s os sl sr) x)) :
    ZRep (HYRBTREE_SET_NODE_RED t s) ctx
      (Tree.node cp p op (Tree.node Color.red s os sl sr) x) := by
  have h1 := (ZRep_cons t (Frame.L cp p op x) ctx _).2 h
  exact (ZRep_cons _ (Frame.L cp p op x) ctx _).1 (set_red_rep _ _ _ _ _ _ _ h1)

open Tree hyrbtree_t hyrbtree_ret_t

/-! ## Single iterations of the loop of `hyrbtree_del_balance` -/

/-- The node of the innermost frame is not a node of the rest of the context. -/
theorem Sep_frame_not_mem {nil : Nat} {f : Frame} {ctx : Ctx} {s : Tree}
    (h : Sep nil (f :: ctx) s) : f.addr ∉ ctxAddrs ctx := by
  have := h.1
  simp only [ctxAddrs_cons, List.nodup_append, List.nodup_cons, List.mem_append, not_or] at this
  exact this.2.1.1.2

/-- Deletion, BLACK sibling on the right whose outer child is RED
(cases 6 and 7): one loop iteration ends the rebalancing. -/
theorem del_black_RR (t : hyrbtree_t) (ctx : Ctx) (fuel : Nat) (cp : Color)
    (p op s os d od : Nat) (x sl dl dr : Tree)
    (hrep : ZRep t (Frame.L cp p op (Tree.node Color.black s os sl (Tree.node Color.red d od dl dr)) :: ctx) x)
    (hroot : t.root_node = ctxRoot ctx p)
    (hinv : DelInv (Frame.L cp p op (Tree.node Color.black s os sl (Tree.node Color.red d od dl dr)) :: ctx) x) :
    ∃ t', hyrbtree_del_balance_loop (fuel + 1) t (rootOf t.nil_node x) p 0 = some t' ∧
      Rebalanced t t' (plug (Frame.L cp p op (Tree.node Color.black s os sl (Tree.node Color.red d od dl dr)) :: ctx) x) := by
  have hinv' : RBTree (plug ctx (Tree.node cp s os (Tree.node Color.black p op x sl) (Tree.node Color.black d od dl dr))) := by
    simp only [DelInv, RBTree, plug_cons, Frame.plug, Bal_plug, NoRedRed_plug, rootColor_plug,
      Bal_node, NoRedRed_node, rootColor_node, bh_node, blackInc_red, blackInc_black,
      Nat.add_zero, CtxBal_cons, CtxNoRedRed_cons, ctxRootColor_cons, Frame.sibling_L,
      Frame.sibling_R, Frame.color_L, Frame.color_R] at hinv ⊢
    obtain ⟨hb, hn, hc, ⟨hb1, hb2, hb3⟩, ⟨hn1, hn2, hn3⟩, hrc⟩ := hinv
    refine ⟨hrc, ⟨?_, hn3⟩, ?_, CtxBal_congr ?_ hb3⟩
    · simp only [hc]; tauto
    · and_intros <;> first | omega | tauto
    · omega
  have hpc := Sep_frame_not_mem hrep.2.2.2
  have hG := (ZRep_cons t _ _ _).1 hrep
  obtain ⟨h1, h2, h3, hs⟩ := hG
  have hco := color_rootOf t sl s h2.2.2.2.2.2.2.2.2.2.2.2.1 h3
  have hG := (ZRep_cons t _ _ _).1 hrep
  simp only [Frame.plug, Rep, rootOf_node] at h2
  simp only [Sep, addrs_node, addrs_leaf, ctxAddrs_cons, ctxAddrs_nil, Frame.addr_L, Frame.addr_R,
    Frame.sibling_L, Frame.sibling_R, List.nodup_append, List.nodup_cons,
    List.mem_append, not_or, not_mem_cons_sym, List.disjoint_cons_left, List.disjoint_cons_right,
    List.disjoint_append_left, List.disjoint_append_right, List.not_mem_nil, List.nodup_nil,
    List.disjoint_nil_left, List.disjoint_nil_right, not_false_eq_true, true_and, and_true,
    List.append_nil, List.nil_append, Frame.plug] at hs
  by_cases hctx : ctx = []
  · subst hctx
    simp only [ctxRoot_nil] at hroot
    cases ho : rootColor sl <;> rw [ho] at hco
    · have hcase := del_case_RR t [] _ _ _ p op s os d od x sl dl dr _ (Or.inr rfl) hG
      simp [hyrbtree_del_balance_loop, h2, hs, hco, Color.code,
        HYRBTREE_NODE_RED, HYRBTREE_NODE_BLACK, RBNODE_DEL_LEFT_SILING, RBNODE_DEL_RIGHT_SILING,
        hroot]
      refine ⟨_, ?_, root_fix_rep _ _ _ _ _ _ _ (by simp) hcase, ?_, hinv', ?_⟩
      · simp
      · simp [nodes, Frame.plug]
      · exact ⟨by simp, by simp, by simp, by simp⟩
    · have hcase := del_case_RR t [] _ _ _ p op s os d od x sl dl dr _ (Or.inl rfl) hG
      simp [hyrbtree_del_balance_loop, h2, hs, hco, Color.code,
        HYRBTREE_NODE_RED, HYRBTREE_NODE_BLACK, RBNODE_DEL_LEFT_SILING, RBNODE_DEL_RIGHT_SILING,
        hroot]
      refine ⟨_, ?_, root_fix_rep _ _ _ _ _ _ _ (by simp) hcase, ?_, hinv', ?_⟩
      · simp
      · simp [nodes, Frame.plug]
      · exact ⟨by simp, by simp, by simp, by simp⟩
  · have hne : ¬ p = ctxRoot ctx p := fun e => hpc (e ▸ ctxRoot_mem ctx p hctx)
    cases ho : rootColor sl <;> rw [ho] at hco
    · have hcase := del_case_RR t ctx _ _ _ p op s os d od x sl dl dr _ (Or.inr rfl) hG
      simp [hyrbtree_del_balance_loop, h2, hs, hco, Color.code,
        HYRBTREE_NODE_RED, HYRBTREE_NODE_BLACK, RBNODE_DEL_LEFT_SILING, RBNODE_DEL_RIGHT_SILING,
        hroot, hne]
      refine ⟨_, ?_, (ZRep_plug _ _ _).2 hcase, ?_, hinv', ?_⟩
      · simp [rootOf_plug, hroot, ctxRoot_congr ctx p s hctx]
      · simp [nodes_plug, nodes, Frame.plug]
      · exact ⟨by simp, by simp, by simp, by simp⟩
    · have hcase := del_case_RR t ctx _ _ _ p op s os d od x sl dl dr _ (Or.inl rfl) hG
      simp [hyrbtree_del_balance_loop, h2, hs, hco, Color.code,
        HYRBTREE_NODE_RED, HYRBTREE_NODE_BLACK, RBNODE_DEL_LEFT_SILING, RBNODE_DEL_RIGHT_SILING,
        hroot, hne]
      refine ⟨_, ?_, (ZRep_plug _ _ _).2 hcase, ?_, hinv', ?_⟩
      · simp [rootOf_plug, hroot, ctxRoot_congr ctx p s hctx]
      · simp [nodes_plug, nodes, Frame.plug]
      · exact ⟨by simp, by simp, by simp, by simp⟩

/-- Deletion, BLACK sibling on the left whose outer child is RED
(cases 1 and 3): one loop iteration ends the rebalancing. -/
theorem del_black_LL (t : hyrbtree_t) (ctx : Ctx) (fuel : Nat) (cp : Color)
    (p op s os d od : Nat) (x sr dl dr : Tree)
    (hrep : ZRep t (Frame.R cp p op (Tree.node Color.black s os (Tree.node Color.red d od dl dr) sr) :: ctx) x)
    (hroot : t.root_node = ctxRoot ctx p)
    (hinv : DelInv (Frame.R cp p op (Tree.node Color.black s os (Tree.node Color.red d od dl dr) sr) :: ctx) x) :
    ∃ t', hyrbtree_del_balance_loop (fuel + 1) t (rootOf t.nil_node x) p 0 = some t' ∧
      Rebalanced t t' (plug (Frame.R cp p op (Tree.node Color.black s os (Tree.node Color.red d od dl dr) sr) :: ctx) x) := by
  have hinv' : RBTree (plug ctx (Tree.node cp s os (Tree.node Color.black d od dl dr) (Tree.node Color.black p op sr x))) := by
    simp only [DelInv, RBTree, plug_cons, Frame.plug, Bal_plug, NoRedRed_plug, rootColor_plug,
      Bal_node, NoRedRed_node, rootColor_node, bh_node, blackInc_red, blackInc_black,
      Nat.add_zero, CtxBal_cons, CtxNoRedRed_cons, ctxRootColor_cons, Frame.sibling_L,
      Frame.sibling_R, Frame.color_L, Frame.color_R] at hinv ⊢
    obtain ⟨hb, hn, hc, ⟨hb1, hb2, hb3⟩, ⟨hn1, hn2, hn3⟩, hrc⟩ := hinv
    refine ⟨hrc, ⟨?_, hn3⟩, ?_, CtxBal_congr ?_ hb3⟩
    · simp only [hc]; tauto
    · and_intros <;> first | omega | tauto
    · omega
  have hpc := Sep_frame_not_mem hrep.2.2.2
  have hG := (ZRep_cons t _ _ _).1 hrep
  obtain ⟨h1, h2, h3, hs⟩ := hG
  have hco := color_rootOf t sr s h2.2.2.2.2.2.1.2.2.2.2.2.2 h3
  have hG := (ZRep_cons t _ _ _).1 hrep
  simp only [Frame.plug, Rep, rootOf_node] at h2
  simp only [Sep, addrs_node, addrs_leaf, ctxAddrs_cons, ctxAddrs_nil, Frame.addr_L, Frame.addr_R,
    Frame.sibling_L, Frame.sibling_R, List.nodup_append, List.nodup_cons,
    List.mem_append, not_or, not_mem_cons_sym, List.disjoint_cons_left, List.disjoint_cons_right,
    List.disjoint_append_left, List.disjoint_append_right, List.not_mem_nil, List.nodup_nil,
    List.disjoint_nil_left, List.disjoint_nil_right, not_false_eq_true, true_and, and_true,
    List.append_nil, List.nil_append, Frame.plug] at hs
  by_cases hctx : ctx = []
  · subst hctx
    simp only [ctxRoot_nil] at hroot
    cases ho : rootColor sr <;> rw [ho] at hco
    · have hcase := del_case_LL t [] _ _ _ p op s os d od x sr dl dr _ (Or.inr rfl) hG
      simp [hyrbtree_del_balance_loop, h2, hs, hco, Color.code,
        HYRBTREE_NODE_RED, HYRBTREE_NODE_BLACK, RBNODE_DEL_LEFT_SILING, RBNODE_DEL_RIGHT_SILING,
        hroot]
      refine ⟨_, ?_, root_fix_rep _ _ _ _ _ _ _ (by simp) hcase, ?_, hinv', ?_⟩
      · simp
      · simp [nodes, Frame.plug]
      · exact ⟨by simp, by simp, by simp, by simp⟩
    · have hcase := del_case_LL t [] _ _ _ p op s os d od x sr dl dr _ (Or.inl rfl) hG
      simp [hyrbtree_del_balance_loop, h2, hs, hco, Color.code,
        HYRBTREE_NODE_RED, HYRBTREE_NODE_BLACK, RBNODE_DEL_LEFT_SILING, RBNODE_DEL_RIGHT_SILING,
        hroot]
      refine ⟨_, ?_, root_fix_rep _ _ _ _ _ _ _ (by simp) hcase, ?_, hinv', ?_⟩
      · simp
      · simp [nodes, Frame.plug]
      · exact ⟨by simp, by simp, by simp, by simp⟩
  · have hne : ¬ p = ctxRoot ctx p := fun e => hpc (e ▸ ctxRoot_mem ctx p hctx)
    cases ho : rootColor sr <;> rw [ho] at hco
    · have hcase := del_case_LL t ctx _ _ _ p op s os d od x sr dl dr _ (Or.inr rfl) hG
      simp [hyrbtree_del_balance_loop, h2, hs, hco, Color.code,
        HYRBTREE_NODE_RED, HYRBTREE_NODE_BLACK, RBNODE_DEL_LEFT_SILING, RBNODE_DEL_RIGHT_SILING,
        hroot, hne]
      refine ⟨_, ?_, (ZRep_plug _ _ _).2 hcase, ?_, hinv', ?_⟩
      · simp [rootOf_plug, hroot, ctxRoot_congr ctx p s hctx]
      · simp [nodes_plug, nodes, Frame.plug]
      · exact ⟨by simp, by simp, by simp, by simp⟩
    · have hcase := del_case_LL t ctx _ _ _ p op s os d od x sr dl dr _ (Or.inl rfl) hG
      simp [hyrbtree_del_balance_loop, h2, hs, hco, Color.code,
        HYRBTREE_NODE_RED, HYRBTREE_NODE_BLACK, RBNODE_DEL_LEFT_SILING, RBNODE_DEL_RIGHT_SILING,
        hroot, hne]
      refine ⟨_, ?_, (ZRep_plug _ _ _).2 hcase, ?_, hinv', ?_⟩
      · simp [rootOf_plug, hroot, ctxRoot_congr ctx p s hctx]
      · simp [nodes_plug, nodes, Frame.plug]
      · exact ⟨by simp, by simp, by simp, by simp⟩

/-- Deletion, BLACK sibling on the right whose inner child only is RED
(case 5): one loop iteration ends the rebalancing. -/
theorem del_black_RL (t : hyrbtree_t) (ctx : Ctx) (fuel : Nat) (cp : Color)
    (p op s os c oc : Nat) (x sr cl cr : Tree)
    (hrep : ZRep t (Frame.L cp p op (Tree.node Color.black s os (Tree.node Color.red c oc cl cr) sr) :: ctx) x)
    (hroot : t.root_node = ctxRoot ctx p)
    (ho : rootColor sr = Color.black)
    (hinv : DelInv (Frame.L cp p op (Tree.node Color.black s os (Tree.node Color.red c oc cl cr) sr) :: ctx) x) :
    ∃ t', hyrbtree_del_balance_loop (fuel + 1) t (rootOf t.nil_node x) p 0 = some t' ∧
      Rebalanced t t' (plug (Frame.L cp p op (Tree.node Color.black s os (Tree.node Color.red c oc cl cr) sr) :: ctx) x) := by
  have hinv' : RBTree (plug ctx (Tree.node cp c oc (Tree.node Color.black p op x cl) (Tree.node Color.black s os cr sr))) := by
    simp only [DelInv, RBTree, plug_cons, Frame.plug, Bal_plug, NoRedRed_plug, rootColor_plug,
      Bal_node, NoRedRed_node, rootColor_node, bh_node, blackInc_red, blackInc_black,
      Nat.add_zero, CtxBal_cons, CtxNoRedRed_cons, ctxRootColor_cons, Frame.sibling_L,
      Frame.sibling_R, Frame.color_L, Frame.color_R] at hinv ⊢
    obtain ⟨hb, hn, hc, ⟨hb1, hb2, hb3⟩, ⟨hn1, hn2, hn3⟩, hrc⟩ := hinv
    refine ⟨hrc, ⟨?_, hn3⟩, ?_, CtxBal_congr ?_ hb3⟩
    · simp only [hc, ho]; tauto
    · and_intros <;> first | omega | tauto
    · omega
  have hpc := Sep_frame_not_mem hrep.2.2.2
  have hG := (ZRep_cons t _ _ _).1 hrep
  have hcase := del_case_RL t ctx _ _ _ p op s os c oc x sr cl cr hG
  have hps : (del_balance_switch t p s 5).parent_node s = c := hcase.2.1.2.2.2.2.2.2.2.2.1
  obtain ⟨h1, h2, h3, hs⟩ := hG
  have hco := color_rootOf t sr s h2.2.2.2.2.2.2.2.2.2.2.2.2 h3
  rw [ho] at hco
  simp only [Frame.plug, Rep, rootOf_node] at h2
  simp only [Sep, addrs_node, addrs_leaf, ctxAddrs_cons, ctxAddrs_nil, Frame.addr_L, Frame.addr_R,
    Frame.sibling_L, Frame.sibling_R, List.nodup_append, List.nodup_cons,
    List.mem_append, not_or, not_mem_cons_sym, List.disjoint_cons_left, List.disjoint_cons_right,
    List.disjoint_append_left, List.disjoint_append_right, List.not_mem_nil, List.nodup_nil,
    List.disjoint_nil_left, List.disjoint_nil_right, not_false_eq_true, true_and, and_true,
    List.append_nil, List.nil_append, Frame.plug] at hs
  by_cases hctx : ctx = []
  · subst hctx
    simp only [ctxRoot_nil] at hroot
    simp [hyrbtree_del_balance_loop, h2, hs, hco, Color.code,
        HYRBTREE_NODE_RED, HYRBTREE_NODE_BLACK, RBNODE_DEL_LEFT_SILING, RBNODE_DEL_RIGHT_SILING,
        hroot, hps]
    refine ⟨_, ?_, root_fix_rep _ _ _ _ _ _ _ (by simp) hcase, ?_, hinv', ?_⟩
    · simp
    · simp [nodes, Frame.plug]
    · exact ⟨by simp, by simp, by simp, by simp⟩
  · have hne : ¬ p = ctxRoot ctx p := fun e => hpc (e ▸ ctxRoot_mem ctx p hctx)
    simp [hyrbtree_del_balance_loop, h2, hs, hco, Color.code,
        HYRBTREE_NODE_RED, HYRBTREE_NODE_BLACK, RBNODE_DEL_LEFT_SILING, RBNODE_DEL_RIGHT_SILING,
        hroot, hne]
    refine ⟨_, ?_, (ZRep_plug _ _ _).2 hcase, ?_, hinv', ?_⟩
    · simp [rootOf_plug, hroot, ctxRoot_congr ctx p c hctx]
    · simp [nodes_plug, nodes, Frame.plug]
    · exact ⟨by simp, by simp, by simp, by simp⟩

/-- Deletion, BLACK sibling on the left whose inner child only is RED
(case 2): one loop iteration ends the rebalancing. -/
theorem del_black_LR (t : hyrbtree_t) (ctx : Ctx) (fuel : Nat) (cp : Color)
    (p op s os c oc : Nat) (x sl cl cr : Tree)
    (hrep : ZRep t (Frame.R cp p op (Tree.node Color.black s os sl (Tree.node Color.red c oc cl cr)) :: ctx) x)
    (hroot : t.root_node = ctxRoot ctx p)
    (ho : rootColor sl = Color.black)
    (hinv : DelInv (Frame.R cp p op (Tree.node Color.black s os sl (Tree.node Color.red c oc cl cr)) :: ctx) x) :
    ∃ t', hyrbtree_del_balance_loop (fuel + 1) t (rootOf t.nil_node x) p 0 = some t' ∧
      Rebalanced t t' (plug (Frame.R cp p op (Tree.node Color.black s os sl (Tree.node Color.red c oc cl cr)) :: ctx) x) := by
  have hinv' : RBTree (plug ctx (Tree.node cp c oc (Tree.node Color.black s os sl cl) (Tree.node Color.black p op cr x))) := by
    simp only [DelInv, RBTree, plug_cons, Frame.plug, Bal_plug, NoRedRed_plug, rootColor_plug,
      Bal_node, NoRedRed_node, rootColor_node, bh_node, blackInc_red, blackInc_black,
      Nat.add_zero, CtxBal_cons, CtxNoRedRed_cons, ctxRootColor_cons, Frame.sibling_L,
      Frame.sibling_R, Frame.color_L, Frame.color_R] at hinv ⊢
    obtain ⟨hb, hn, hc, ⟨hb1, hb2, hb3⟩, ⟨hn1, hn2, hn3⟩, hrc⟩ := hinv
    refine ⟨hrc, ⟨?_, hn3⟩, ?_, CtxBal_congr ?_ hb3⟩
    · simp only [hc, ho]; tauto
    · and_intros <;> first | omega | tauto
    · omega
  have hpc := Sep_frame_not_mem hrep.2.2.2
  have hG := (ZRep_cons t _ _ _).1 hrep
  have hcase := del_case_LR t ctx _ _ _ p op s os c oc x sl cl cr hG
  have hps : (del_balance_switch t p s 2).parent_node s = c := hcase.2.1.2.2.2.2.2.1.2.2.1
  obtain ⟨h1, h2, h3, hs⟩ := hG
  have hco := color_rootOf t sl s h2.2.2.2.2.2.1.2.2.2.2.2.1 h3
  rw [ho] at hco
  simp only [Frame.plug, Rep, rootOf_node] at h2
  simp only [Sep, addrs_node, addrs_leaf, ctxAddrs_cons, ctxAddrs_nil, Frame.addr_L, Frame.addr_R,
    Frame.sibling_L, Frame.sibling_R, List.nodup_append, List.nodup_cons,
    List.mem_append, not_or, not_mem_cons_sym, List.disjoint_cons_left, List.disjoint_cons_right,
    List.disjoint_append_left, List.disjoint_append_right, List.not_mem_nil, List.nodup_nil,
    List.disjoint_nil_left, List.disjoint_nil_right, not_false_eq_true, true_and, and_true,
    List.append_nil, List.nil_append, Frame.plug] at hs
  by_cases hctx : ctx = []
  · subst hctx
    simp only [ctxRoot_nil] at hroot
    simp [hyrbtree_del_balance_loop, h2, hs, hco, Color.code,
        HYRBTREE_NODE_RED, HYRBTREE_NODE_BLACK, RBNODE_DEL_LEFT_SILING, RBNODE_DEL_RIGHT_SILING,
        hroot, hps]
    refine ⟨_, ?_, root_fix_rep _ _ _ _ _ _ _ (by simp) hcase, ?_, hinv', ?_⟩
    · simp
    · simp [nodes, Frame.plug]
    · exact ⟨by simp, by simp, by simp, by simp⟩
  · have hne : ¬ p = ctxRoot ctx p := fun e => hpc (e ▸ ctxRoot_mem ctx p hctx)
    simp [hyrbtree_del_balance_loop, h2, hs, hco, Color.code,
        HYRBTREE_NODE_RED, HYRBTREE_NODE_BLACK, RBNODE_DEL_LEFT_SILING, RBNODE_DEL_RIGHT_SILING,
        hroot, hne]
    refine ⟨_, ?_, (ZRep_plug _ _ _).2 hcase, ?_, hinv', ?_⟩
    · simp [rootOf_plug, hroot, ctxRoot_congr ctx p c hctx]
    · simp [nodes_plug, nodes, Frame.plug]
    · exact ⟨by simp, by simp, by simp, by simp⟩

open Tree hyrbtree_t hyrbtree_ret_t

theorem ctxRootColor_congr : ∀ (ctx : Ctx) (c c' : Color), ctx ≠ [] →
    ctxRootColor ctx c = ctxRootColor ctx c'
  | [], _, _, h => absurd rfl h
  | _ :: _, _, _, _ => rfl

/-- Deletion, BLACK sibling on the right with two BLACK children, parent at the
root: the sibling becomes RED and the loop ends. -/
theorem del_black_none_R_root (t : hyrbtree_t) (fuel : Nat) (cp : Color)
    (p op s os : Nat) (x sl sr : Tree)
    (hrep : ZRep t [Frame.L cp p op (Tree.node Color.black s os sl sr)] x)
    (hroot : t.root_node = p)
    (hsl : rootColor sl = Color.black) (hsr : rootColor sr = Color.black)
    (hinv : DelInv [Frame.L cp p op (Tree.node Color.black s os sl sr)] x) :
    ∃ t', hyrbtree_del_balance_loop (fuel + 1) t (rootOf t.nil_node x) p 0 = some t' ∧
      Rebalanced t t' (plug [Frame.L cp p op (Tree.node Color.black s os sl sr)] x) := by
  have hinv' : RBTree (Tree.node cp p op x (Tree.node Color.red s os sl sr)) := by
    simp only [DelInv, RBTree, plug_cons, Frame.plug, Bal_plug, NoRedRed_plug, rootColor_plug,
      Bal_node, NoRedRed_node, rootColor_node, bh_node, blackInc_red, blackInc_black,
      Nat.add_zero, CtxBal_cons, CtxNoRedRed_cons, ctxRootColor_cons, Frame.sibling_L,
      Frame.sibling_R, Frame.color_L, Frame.color_R] at hinv ⊢
    simp only [ctxRootColor_nil, CtxBal_nil, CtxNoRedRed_nil, and_true] at hinv
    obtain ⟨hb, hn, hc, ⟨hb1, hb2⟩, ⟨hn1, hn2⟩, hrc⟩ := hinv
    subst hrc
    simp only [hsl, hsr, hc, reduceCtorEq, false_implies, true_implies, and_self, true_and]
    and_intros <;> first | omega | tauto
  have hpc := Sep_frame_not_mem hrep.2.2.2
  have hG := (ZRep_cons t _ _ _).1 hrep
  have hcase := del_case_none_R t [] _ _ p op s os x sl sr hG
  obtain ⟨h1, h2, h3, hs⟩ := hG
  have hcl := color_rootOf t sl s h2.2.2.2.2.2.2.2.2.2.2.2.1 h3
  have hcr := color_rootOf t sr s h2.2.2.2.2.2.2.2.2.2.2.2.2 h3
  rw [hsl] at hcl
  rw [hsr] at hcr
  simp only [Frame.plug, Rep, rootOf_node] at h2
  simp only [Sep, addrs_node, addrs_leaf, ctxAddrs_cons, ctxAddrs_nil, Frame.addr_L, Frame.addr_R,
    Frame.sibling_L, Frame.sibling_R, List.nodup_append, List.nodup_cons,
    List.mem_append, not_or, not_mem_cons_sym, List.disjoint_cons_left, List.disjoint_cons_right,
    List.disjoint_append_left, List.disjoint_append_right, List.not_mem_nil, List.nodup_nil,
    List.disjoint_nil_left, List.disjoint_nil_right, not_false_eq_true, true_and, and_true,
    List.append_nil, List.nil_append, Frame.plug] at hs
  simp [hyrbtree_del_balance_loop, h2, hs, hcl, hcr, Color.code,
        HYRBTREE_NODE_RED, HYRBTREE_NODE_BLACK, RBNODE_DEL_LEFT_SILING, RBNODE_DEL_RIGHT_SILING,
        hroot]
  refine ⟨_, ?_, hcase, ?_, hinv', ?_⟩
  · simp [hroot]
  · simp [nodes, Frame.plug]
  · exact ⟨by simp, by simp, by simp, by simp⟩

/-- Deletion, BLACK sibling on the right with two BLACK children below a RED
parent: sibling RED, parent BLACK, and the loop ends. -/
theorem del_black_none_R_red (t : hyrbtree_t) (ctx : Ctx) (fuel : Nat)
    (p op s os : Nat) (x sl sr : Tree)
    (hrep : ZRep t (Frame.L Color.red p op (Tree.node Color.black s os sl sr) :: ctx) x)
    (hroot : t.root_node = ctxRoot ctx p) (hctx : ctx ≠ [])
    (hsl : rootColor sl = Color.black) (hsr : rootColor sr = Color.black)
    (hinv : DelInv (Frame.L Color.red p op (Tree.node Color.black s os sl sr) :: ctx) x) :
    ∃ t', hyrbtree_del_balance_loop (fuel + 1) t (rootOf t.nil_node x) p 0 = some t' ∧
      Rebalanced t t' (plug (Frame.L Color.red p op (Tree.node Color.black s os sl sr) :: ctx) x) := by
  have hinv' : RBTree (plug ctx (Tree.node Color.black p op x (Tree.node Color.red s os sl sr))) := by
    simp only [DelInv, RBTree, plug_cons, Frame.plug, Bal_plug, NoRedRed_plug, rootColor_plug,
      Bal_node, NoRedRed_node, rootColor_node, bh_node, blackInc_red, blackInc_black,
      Nat.add_zero, CtxBal_cons, CtxNoRedRed_cons, ctxRootColor_cons, Frame.sibling_L,
      Frame.sibling_R, Frame.color_L, Frame.color_R] at hinv ⊢
    obtain ⟨hb, hn, hc, ⟨hb1, hb2, hb3⟩, ⟨hn1, hn2, hn3⟩, hrc⟩ := hinv
    refine ⟨?_, ⟨?_, CtxNoRedRed_black _ _ hn3⟩, ?_, CtxBal_congr ?_ hb3⟩
    · rw [← hrc]; exact ctxRootColor_congr ctx _ _ hctx
    · simp only [hsl, hsr, hc]; tauto
    · and_intros <;> first | omega | tauto
    · omega
  have hpc := Sep_frame_not_mem hrep.2.2.2
  have hG := (ZRep_cons t _ _ _).1 hrep
  have hcase := del_case_none_R t ctx _ _ p op s os x sl sr hG
  obtain ⟨h1, h2, h3, hs⟩ := hG
  have hcl := color_rootOf t sl s h2.2.2.2.2.2.2.2.2.2.2.2.1 h3
  have hcr := color_rootOf t sr s h2.2.2.2.2.2.2.2.2.2.2.2.2 h3
  rw [hsl] at hcl
  rw [hsr] at hcr
  simp only [Frame.plug, Rep, rootOf_node] at h2
  simp only [Sep, addrs_node, addrs_leaf, ctxAddrs_cons, ctxAddrs_nil, Frame.addr_L, Frame.addr_R,
    Frame.sibling_L, Frame.sibling_R, List.nodup_append, List.nodup_cons,
    List.mem_append, not_or, not_mem_cons_sym, List.disjoint_cons_left, List.disjoint_cons_right,
    List.disjoint_append_left, List.disjoint_append_right, List.not_mem_nil, List.nodup_nil,
    List.disjoint_nil_left, List.disjoint_nil_right, not_false_eq_true, true_and, and_true,
    List.append_nil, List.nil_append, Frame.plug] at hs
  have hne : ¬ p = ctxRoot ctx p := fun e => hpc (e ▸ ctxRoot_mem ctx p hctx)
  simp [hyrbtree_del_balance_loop, h2, hs, hcl, hcr, Color.code,
        HYRBTREE_NODE_RED, HYRBTREE_NODE_BLACK, RBNODE_DEL_LEFT_SILING, RBNODE_DEL_RIGHT_SILING,
        hroot, hne]
  refine ⟨_, ?_, (ZRep_plug _ _ _).2 (set_black_rep _ _ _ _ _ _ _ hcase), ?_, hinv', ?_⟩
  · simp [rootOf_plug, hroot]
  · simp [nodes_plug, nodes, Frame.plug]
  · exact ⟨by simp, by simp, by simp, by simp⟩

/-- Deletion, BLACK sibling on the right with two BLACK children below a BLACK
parent that is not the root: the sibling becomes RED and the loop goes on one
level higher. -/
theorem del_black_none_R_cont (t : hyrbtree_t) (ctx : Ctx) (G : Frame) (fuel : Nat)
    (p op s os : Nat) (x sl sr : Tree)
    (hrep : ZRep t (Frame.L Color.black p op (Tree.node Color.black s os sl sr) :: G :: ctx) x)
    (hroot : t.root_node = ctxRoot ctx G.addr)
    (hsl : rootColor sl = Color.black) (hsr : rootColor sr = Color.black)
    (hinv : DelInv (Frame.L Color.black p op (Tree.node Color.black s os sl sr) :: G :: ctx) x) :
    hyrbtree_del_balance_loop (fuel + 1) t (rootOf t.nil_node x) p 0 =
        hyrbtree_del_balance_loop fuel (HYRBTREE_SET_NODE_RED t s) p G.addr 0 ∧
      ZRep (HYRBTREE_SET_NODE_RED t s) (G :: ctx) (Tree.node Color.black p op x (Tree.node Color.red s os sl sr)) ∧
      DelInv (G :: ctx) (Tree.node Color.black p op x (Tree.node Color.red s os sl sr)) := by
  have hinv' : DelInv (G :: ctx) (Tree.node Color.black p op x (Tree.node Color.red s os sl sr)) := by
    simp only [DelInv, RBTree, plug_cons, Frame.plug, Bal_plug, NoRedRed_plug, rootColor_plug,
      Bal_node, NoRedRed_node, rootColor_node, bh_node, blackInc_red, blackInc_black,
      Nat.add_zero, CtxBal_cons, CtxNoRedRed_cons, ctxRootColor_cons, Frame.sibling_L,
      Frame.sibling_R, Frame.color_L, Frame.color_R] at hinv ⊢
    obtain ⟨hb, hn, hc, ⟨hb1, hb2, hb3, hb4, hb5⟩, ⟨hn1, hn2, hn3⟩, hrc⟩ := hinv
    refine ⟨?_, ?_, trivial, ⟨hb3, ?_, CtxBal_congr ?_ hb5⟩, hn3, hrc⟩
    · and_intros <;> first | omega | tauto
    · simp only [hsl, hsr, hc]; tauto
    · omega
    · omega
  have hpc := Sep_frame_not_mem hrep.2.2.2
  have hG := (ZRep_cons t _ _ _).1 hrep
  have hcase := del_case_none_R t (G :: ctx) _ _ p op s os x sl sr hG
  obtain ⟨h1, h2, h3, hs⟩ := hG
  have hcl := color_rootOf t sl s h2.2.2.2.2.2.2.2.2.2.2.2.1 h3
  have hcr := color_rootOf t sr s h2.2.2.2.2.2.2.2.2.2.2.2.2 h3
  rw [hsl] at hcl
  rw [hsr] at hcr
  have hne : ¬ p = ctxRoot ctx G.addr := fun e =>
    hpc (e ▸ ctxRoot_mem (G :: ctx) p (by simp))
  simp only [Frame.plug, Rep, rootOf_node, ctxPar_cons] at h2
  simp only [Sep, addrs_node, addrs_leaf, ctxAddrs_cons, ctxAddrs_nil, Frame.addr_L, Frame.addr_R,
    Frame.sibling_L, Frame.sibling_R, List.nodup_append, List.nodup_cons,
    List.mem_append, not_or, not_mem_cons_sym, List.disjoint_cons_left, List.disjoint_cons_right,
    List.disjoint_append_left, List.disjoint_append_right, List.not_mem_nil, List.nodup_nil,
    List.disjoint_nil_left, List.disjoint_nil_right, not_false_eq_true, true_and, and_true,
    List.append_nil, List.nil_append, Frame.plug] at hs
  refine ⟨?_, hcase, hinv'⟩
  simp [hyrbtree_del_balance_loop, h2, hs, hcl, hcr, Color.code,
        HYRBTREE_NODE_RED, HYRBTREE_NODE_BLACK, RBNODE_DEL_LEFT_SILING, RBNODE_DEL_RIGHT_SILING,
        hroot, hne]

/-- Deletion, RED sibling on the right: after the recolouring and the rotation
at the parent the loop runs again with the same node and parent, now below a
RED parent with a BLACK sibling. -/
theorem del_red_R (t : hyrbtree_t) (ctx : Ctx) (fuel : Nat) (cp : Color)
    (p op s os : Nat) (x sl sr : Tree)
    (hrep : ZRep t (Frame.L cp p op (Tree.node Color.red s os sl sr) :: ctx) x)
    (hroot : t.root_node = ctxRoot ctx p)
    (hinv : DelInv (Frame.L cp p op (Tree.node Color.red s os sl sr) :: ctx) x) :
    ∃ t1, hyrbtree_del_balance_loop (fuel + 1) t (rootOf t.nil_node x) p 0 =
        hyrbtree_del_balance_loop fuel t1 (rootOf t1.nil_node x) p 0 ∧
      ZRep t1 (Frame.L Color.red p op sl :: Frame.L Color.black s os sr :: ctx) x ∧
      t1.root_node = ctxRoot ctx s ∧ SameEnv t t1 ∧
      DelInv (Frame.L Color.red p op sl :: Frame.L Color.black s os sr :: ctx) x ∧ 0 < bh sl := by
  have hinv' : DelInv (Frame.L Color.red p op sl :: Frame.L Color.black s os sr :: ctx) x ∧ 0 < bh sl := by
    simp only [DelInv, RBTree, plug_cons, Frame.plug, Bal_plug, NoRedRed_plug, rootColor_plug,
      Bal_node, NoRedRed_node, rootColor_node, bh_node, blackInc_red, blackInc_black,
      Nat.add_zero, CtxBal_cons, CtxNoRedRed_cons, ctxRootColor_cons, Frame.sibling_L,
      Frame.sibling_R, Frame.color_L, Frame.color_R] at hinv ⊢
    obtain ⟨hb, hn, hc, ⟨hb1, hb2, hb3⟩, ⟨hn1, hn2, hn3⟩, hrc⟩ := hinv
    have hcp : cp = Color.black := by
      cases cp
      · exact absurd (hn1 rfl).2 (by simp)
      · rfl
    subst hcp
    simp only [blackInc_black] at hb3
    refine ⟨⟨hb, hn, hc, ?_, ?_, hrc⟩, by omega⟩
    · refine ⟨?_, ?_, ?_, ?_, CtxBal_congr ?_ hb3⟩ <;> first | omega | tauto
    · refine ⟨?_, ?_, ?_, ?_, hn3⟩ <;> tauto
  have hpc := Sep_frame_not_mem hrep.2.2.2
  have hG := (ZRep_cons t _ _ _).1 hrep
  have hcase := del_case_red_R t ctx _ _ p op s os x sl sr hG
  obtain ⟨h1, h2, h3, hs⟩ := hG
  simp only [Frame.plug, Rep, rootOf_node] at h2
  simp only [Sep, addrs_node, addrs_leaf, ctxAddrs_cons, ctxAddrs_nil, Frame.addr_L, Frame.addr_R,
    Frame.sibling_L, Frame.sibling_R, List.nodup_append, List.nodup_cons,
    List.mem_append, not_or, not_mem_cons_sym, List.disjoint_cons_left, List.disjoint_cons_right,
    List.disjoint_append_left, List.disjoint_append_right, List.not_mem_nil, List.nodup_nil,
    List.disjoint_nil_left, List.disjoint_nil_right, not_false_eq_true, true_and, and_true,
    List.append_nil, List.nil_append, Frame.plug] at hs
  by_cases hctx : ctx = []
  · subst hctx
    simp only [ctxRoot_nil] at hroot
    refine ⟨_, ?_, (ZRep_cons _ _ _ _).2 ((ZRep_cons _ _ _ _).2
      (root_fix_rep _ _ _ _ _ _ _ rfl hcase)), ?_, ?_, hinv'⟩
    · simp [hyrbtree_del_balance_loop, h2, hs, Color.code,
        HYRBTREE_NODE_RED, HYRBTREE_NODE_BLACK, RBNODE_DEL_LEFT_SILING, RBNODE_DEL_RIGHT_SILING,
        hroot]
    · simp
    · exact ⟨by simp, by simp, by simp, by simp⟩
  · have hne : ¬ p = ctxRoot ctx p := fun e => hpc (e ▸ ctxRoot_mem ctx p hctx)
    refine ⟨_, ?_, (ZRep_cons _ _ _ _).2 ((ZRep_cons _ _ _ _).2 hcase), ?_, ?_, hinv'⟩
    · simp [hyrbtree_del_balance_loop, h2, hs, Color.code,
        HYRBTREE_NODE_RED, HYRBTREE_NODE_BLACK, RBNODE_DEL_LEFT_SILING, RBNODE_DEL_RIGHT_SILING,
        hroot, hne]
    · simp [hroot, ctxRoot_congr ctx p s hctx]
    · exact ⟨by simp, by simp, by simp, by simp⟩

/-- Deletion, BLACK sibling on the left with two BLACK children, parent at the
root: the sibling becomes RED and the loop ends. -/
theorem del_black_none_L_root (t : hyrbtree_t) (fuel : Nat) (cp : Color)
    (p op s os : Nat) (x sl sr : Tree)
    (hrep : ZRep t [Frame.R cp p op (Tree.node Color.black s os sl sr)] x)
    (hroot : t.root_node = p)
    (hsl : rootColor sl = Color.black) (hsr : rootColor sr = Color.black)
    (hinv : DelInv [Frame.R cp p op (Tree.node Color.black s os sl sr)] x) :
    ∃ t', hyrbtree_del_balance_loop (fuel + 1) t (rootOf t.nil_node x) p 0 = some t' ∧
      Rebalanced t t' (plug [Frame.R cp p op (Tree.node Color.black s os sl sr)] x) := by
  have hinv' : RBTree (Tree.node cp p op (Tree.node Color.red s os sl sr) x) := by
    simp only [DelInv, RBTree, plug_cons, Frame.plug, Bal_plug, NoRedRed_plug, rootColor_plug,
      Bal_node, NoRedRed_node, rootColor_node, bh_node, blackInc_red, blackInc_black,
      Nat.add_zero, CtxBal_cons, CtxNoRedRed_cons, ctxRootColor_cons, Frame.sibling_L,
      Frame.sibling_R, Frame.color_L, Frame.color_R] at hinv ⊢
    simp only [ctxRootColor_nil, CtxBal_nil, CtxNoRedRed_nil, and_true] at hinv
    obtain ⟨hb, hn, hc, ⟨hb1, hb2⟩, ⟨hn1, hn2⟩, hrc⟩ := hinv
    subst hrc
    simp only [hsl, hsr, hc, reduceCtorEq, false_implies, true_implies, and_self, true_and]
    and_intros <;> first | omega | tauto
  have hpc := Sep_frame_not_mem hrep.2.2.2
  have hG := (ZRep_cons t _ _ _).1 hrep
  have hcase := del_case_none_L t [] _ _ p op s os x sl sr hG
  obtain ⟨h1, h2, h3, hs⟩ := hG
  have hcl := color_rootOf t sl s h2.2.2.2.2.2.1.2.2.2.2.2.1 h3
  have hcr := color_rootOf t sr s h2.2.2.2.2.2.1.2.2.2.2.2.2 h3
  rw [hsl] at hcl
  rw [hsr] at hcr
  simp only [Frame.plug, Rep, rootOf_node] at h2
  simp only [Sep, addrs_node, addrs_leaf, ctxAddrs_cons, ctxAddrs_nil, Frame.addr_L, Frame.addr_R,
    Frame.sibling_L, Frame.sibling_R, List.nodup_append, List.nodup_cons,
    List.mem_append, not_or, not_mem_cons_sym, List.disjoint_cons_left, List.disjoint_cons_right,
    List.disjoint_append_left, List.disjoint_append_right, List.not_mem_nil, List.nodup_nil,
    List.disjoint_nil_left, List.disjoint_nil_right, not_false_eq_true, true_and, and_true,
    List.append_nil, List.nil_append, Frame.plug] at hs
  simp [hyrbtree_del_balance_loop, h2, hs, hcl, hcr, Color.code,
        HYRBTREE_NODE_RED, HYRBTREE_NODE_BLACK, RBNODE_DEL_LEFT_SILING, RBNODE_DEL_RIGHT_SILING,
        hroot]
  refine ⟨_, ?_, hcase, ?_, hinv', ?_⟩
  · simp [hroot]
  · simp [nodes, Frame.plug]
  · exact ⟨by simp, by simp, by simp, by simp⟩

/-- Deletion, BLACK sibling on the left with two BLACK children below a RED
parent: sibling RED, parent BLACK, and the loop ends. -/
theorem del_black_none_L_red (t : hyrbtree_t) (ctx : Ctx) (fuel : Nat)
    (p op s os : Nat) (x sl sr : Tree)
    (hrep : ZRep t (Frame.R Color.red p op (Tree.node Color.black s os sl sr) :: ctx) x)
    (hroot : t.root_node = ctxRoot ctx p) (hctx : ctx ≠ [])
    (hsl : rootColor sl = Color.black) (hsr : rootColor sr = Color.black)
    (hinv : DelInv (Frame.R Color.red p op (Tree.node Color.black s os sl sr) :: ctx) x) :
    ∃ t', hyrbtree_del_balance_loop (fuel + 1) t (rootOf t.nil_node x) p 0 = some t' ∧
      Rebalanced t t' (plug (Frame.R Color.red p op (Tree.node Color.black s os sl sr) :: ctx) x) := by
  have hinv' : RBTree (plug ctx (Tree.node Color.black p op (Tree.node Color.red s os sl sr) x)) := by
    simp only [DelInv, RBTree, plug_cons, Frame.plug, Bal_plug, NoRedRed_plug, rootColor_plug,
      Bal_node, NoRedRed_node, rootColor_node, bh_node, blackInc_red, blackInc_black,
      Nat.add_zero, CtxBal_cons, CtxNoRedRed_cons, ctxRootColor_cons, Frame.sibling_L,
      Frame.sibling_R, Frame.color_L, Frame.color_R] at hinv ⊢
    obtain ⟨hb, hn, hc, ⟨hb1, hb2, hb3⟩, ⟨hn1, hn2, hn3⟩, hrc⟩ := hinv
    refine ⟨?_, ⟨?_, CtxNoRedRed_black _ _ hn3⟩, ?_, CtxBal_congr ?_ hb3⟩
    · rw [← hrc]; exact ctxRootColor_congr ctx _ _ hctx
    · simp only [hsl, hsr, hc]; tauto
    · and_intros <;> first | omega | tauto
    · omega
  have hpc := Sep_frame_not_mem hrep.2.2.2
  have hG := (ZRep_cons t _ _ _).1 hrep
  have hcase := del_case_none_L t ctx _ _ p op s os x sl sr hG
  obtain ⟨h1, h2, h3, hs⟩ := hG
  have hcl := color_rootOf t sl s h2.2.2.2.2.2.1.2.2.2.2.2.1 h3
  have hcr := color_rootOf t sr s h2.2.2.2.2.2.1.2.2.2.2.2.2 h3
  rw [hsl] at hcl
  rw [hsr] at hcr
  simp only [Frame.plug, Rep, rootOf_node] at h2
  simp only [Sep, addrs_node, addrs_leaf, ctxAddrs_cons, ctxAddrs_nil, Frame.addr_L, Frame.addr_R,
    Frame.sibling_L, Frame.sibling_R, List.nodup_append, List.nodup_cons,
    List.mem_append, not_or, not_mem_cons_sym, List.disjoint_cons_left, List.disjoint_cons_right,
    List.disjoint_append_left, List.disjoint_append_right, List.not_mem_nil, List.nodup_nil,
    List.disjoint_nil_left, List.disjoint_nil_right, not_false_eq_true, true_and, and_true,
    List.append_nil, List.nil_append, Frame.plug] at hs
  have hne : ¬ p = ctxRoot ctx p := fun e => hpc (e ▸ ctxRoot_mem ctx p hctx)
  simp [hyrbtree_del_balance_loop, h2, hs, hcl, hcr, Color.code,
        HYRBTREE_NODE_RED, HYRBTREE_NODE_BLACK, RBNODE_DEL_LEFT_SILING, RBNODE_DEL_RIGHT_SILING,
        hroot, hne]
  refine ⟨_, ?_, (ZRep_plug _ _ _).2 (set_black_rep _ _ _ _ _ _ _ hcase), ?_, hinv', ?_⟩
  · simp [rootOf_plug, hroot]
  · simp [nodes_plug, nodes, Frame.plug]
  · exact ⟨by simp, by simp, by simp, by simp⟩

/-- Deletion, BLACK sibling on the left with two BLACK children below a BLACK
parent that is not the root: the sibling becomes RED and the loop goes on one
level higher. -/
theorem del_black_none_L_cont (t : hyrbtree_t) (ctx : Ctx) (G : Frame) (fuel : Nat)
    (p op s os : Nat) (x sl sr : Tree)
    (hrep : ZRep t (Frame.R Color.black p op (Tree.node Color.black s os sl sr) :: G :: ctx) x)
    (hroot : t.root_node = ctxRoot ctx G.addr)
    (hsl : rootColor sl = Color.black) (hsr : rootColor sr = Color.black)
    (hinv : DelInv (Frame.R Color.black p op (Tree.node Color.black s os sl sr) :: G :: ctx) x) :
    hyrbtree_del_balance_loop (fuel + 1) t (rootOf t.nil_node x) p 0 =
        hyrbtree_del_balance_loop fuel (HYRBTREE_SET_NODE_RED t s) p G.addr 0 ∧
      ZRep (HYRBTREE_SET_NODE_RED t s) (G :: ctx) (Tree.node Color.black p op (Tree.node Color.red s os sl sr) x) ∧
      DelInv (G :: ctx) (Tree.node Color.black p op (Tree.node Color.red s os sl sr) x) := by
  have hinv' : DelInv (G :: ctx) (Tree.node Color.black p op (Tree.node Color.red s os sl sr) x) := by
    simp only [DelInv, RBTree, plug_cons, Frame.plug, Bal_plug, NoRedRed_plug, rootColor_plug,
      Bal_node, NoRedRed_node, rootColor_node, bh_node, blackInc_red, blackInc_black,
      Nat.add_zero, CtxBal_cons, CtxNoRedRed_cons, ctxRootColor_cons, Frame.sibling_L,
      Frame.sibling_R, Frame.color_L, Frame.color_R] at hinv ⊢
    obtain ⟨hb, hn, hc, ⟨hb1, hb2, hb3, hb4, hb5⟩, ⟨hn1, hn2, hn3⟩, hrc⟩ := hinv
    refine ⟨?_, ?_, trivial, ⟨hb3, ?_, CtxBal_congr ?_ hb5⟩, hn3, hrc⟩
    · and_intros <;> first | omega | tauto
    · simp only [hsl, hsr, hc]; tauto
    · omega
    · omega
  have hpc := Sep_frame_not_mem hrep.2.2.2
  have hG := (ZRep_cons t _ _ _).1 hrep
  have hcase := del_case_none_L t (G :: ctx) _ _ p op s os x sl sr hG
  obtain ⟨h1, h2, h3, hs⟩ := hG
  have hcl := color_rootOf t sl s h2.2.2.2.2.2.1.2.2.2.2.2.1 h3
  have hcr := color_rootOf t sr s h2.2.2.2.2.2.1.2.2.2.2.2.2 h3
  rw [hsl] at hcl
  rw [hsr] at hcr
  have hne : ¬ p = ctxRoot ctx G.addr := fun e =>
    hpc (e ▸ ctxRoot_mem (G :: ctx) p (by simp))
  simp only [Frame.plug, Rep, rootOf_node, ctxPar_cons] at h2
  simp only [Sep, addrs_node, addrs_leaf, ctxAddrs_cons, ctxAddrs_nil, Frame.addr_L, Frame.addr_R,
    Frame.sibling_L, Frame.sibling_R, List.nodup_append, List.nodup_cons,
    List.mem_append, not_or, not_mem_cons_sym, List.disjoint_cons_left, List.disjoint_cons_right,
    List.disjoint_append_left, List.disjoint_append_right, List.not_mem_nil, List.nodup_nil,
    List.disjoint_nil_left, List.disjoint_nil_right, not_false_eq_true, true_and, and_true,
    List.append_nil, List.nil_append, Frame.plug] at hs
  refine ⟨?_, hcase, hinv'⟩
  simp [hyrbtree_del_balance_loop, h2, hs, hcl, hcr, Color.code,
        HYRBTREE_NODE_RED, HYRBTREE_NODE_BLACK, RBNODE_DEL_LEFT_SILING, RBNODE_DEL_RIGHT_SILING,
        hroot, hne]

/-- Deletion, RED sibling on the left: after the recolouring and the rotation
at the parent the loop runs again with the same node and parent, now below a
RED parent with a BLACK sibling. -/
theorem del_red_L (t : hyrbtree_t) (ctx : Ctx) (fuel : Nat) (cp : Color)
    (p op s os : Nat) (x sl sr : Tree)
    (hrep : ZRep t (Frame.R cp p op (Tree.node Color.red s os sl sr) :: ctx) x)
    (hroot : t.root_node = ctxRoot ctx p)
    (hinv : DelInv (Frame.R cp p op (Tree.node Color.red s os sl sr) :: ctx) x) :
    ∃ t1, hyrbtree_del_balance_loop (fuel + 1) t (rootOf t.nil_node x) p 0 =
        hyrbtree_del_balance_loop fuel t1 (rootOf t1.nil_node x) p 0 ∧
      ZRep t1 (Frame.R Color.red p op sr :: Frame.R Color.black s os sl :: ctx) x ∧
      t1.root_node = ctxRoot ctx s ∧ SameEnv t t1 ∧
      DelInv (Frame.R Color.red p op sr :: Frame.R Color.black s os sl :: ctx) x ∧ 0 < bh sr := by
  have hinv' : DelInv (Frame.R Color.red p op sr :: Frame.R Color.black s os sl :: ctx) x ∧ 0 < bh sr := by
    simp only [DelInv, RBTree, plug_cons, Frame.plug, Bal_plug, NoRedRed_plug, rootColor_plug,
      Bal_node, NoRedRed_node, rootColor_node, bh_node, blackInc_red, blackInc_black,
      Nat.add_zero, CtxBal_cons, CtxNoRedRed_cons, ctxRootColor_cons, Frame.sibling_L,
      Frame.sibling_R, Frame.color_L, Frame.color_R] at hinv ⊢
    obtain ⟨hb, hn, hc, ⟨hb1, hb2, hb3⟩, ⟨hn1, hn2, hn3⟩, hrc⟩ := hinv
    have hcp : cp = Color.black := by
      cases cp
      · exact absurd (hn1 rfl).2 (by simp)
      · rfl
    subst hcp
    simp only [blackInc_black] at hb3
    refine ⟨⟨hb, hn, hc, ?_, ?_, hrc⟩, by omega⟩
    · refine ⟨?_, ?_, ?_, ?_, CtxBal_congr ?_ hb3⟩ <;> first | omega | tauto
    · refine ⟨?_, ?_, ?_, ?_, hn3⟩ <;> tauto
  have hpc := Sep_frame_not_mem hrep.2.2.2
  have hG := (ZRep_cons t _ _ _).1 hrep
  have hcase := del_case_red_L t ctx _ _ p op s os x sl sr hG
  obtain ⟨h1, h2, h3, hs⟩ := hG
  simp only [Frame.plug, Rep, rootOf_node] at h2
  simp only [Sep, addrs_node, addrs_leaf, ctxAddrs_cons, ctxAddrs_nil, Frame.addr_L, Frame.addr_R,
    Frame.sibling_L, Frame.sibling_R, List.nodup_append, List.nodup_cons,
    List.mem_append, not_or, not_mem_cons_sym, List.disjoint_cons_left, List.disjoint_cons_right,
    List.disjoint_append_left, List.disjoint_append_right, List.not_mem_nil, List.nodup_nil,
    List.disjoint_nil_left, List.disjoint_nil_right, not_false_eq_true, true_and, and_true,
    List.append_nil, List.nil_append, Frame.plug] at hs
  by_cases hctx : ctx = []
  · subst hctx
    simp only [ctxRoot_nil] at hroot
    refine ⟨_, ?_, (ZRep_cons _ _ _ _).2 ((ZRep_cons _ _ _ _).2
      (root_fix_rep _ _ _ _ _ _ _ rfl hcase)), ?_, ?_, hinv'⟩
    · simp [hyrbtree_del_balance_loop, h2, hs, Color.code,
        HYRBTREE_NODE_RED, HYRBTREE_NODE_BLACK, RBNODE_DEL_LEFT_SILING, RBNODE_DEL_RIGHT_SILING,
        hroot]
    · simp
    · exact ⟨by simp, by simp, by simp, by simp⟩
  · have hne : ¬ p = ctxRoot ctx p := fun e => hpc (e ▸ ctxRoot_mem ctx p hctx)
    refine ⟨_, ?_, (ZRep_cons _ _ _ _).2 ((ZRep_cons _ _ _ _).2 hcase), ?_, ?_, hinv'⟩
    · simp [hyrbtree_del_balance_loop, h2, hs, Color.code,
        HYRBTREE_NODE_RED, HYRBTREE_NODE_BLACK, RBNODE_DEL_LEFT_SILING, RBNODE_DEL_RIGHT_SILING,
        hroot, hne]
    · simp [hroot, ctxRoot_congr ctx p s hctx]
    · exact ⟨by simp, by simp, by simp, by simp⟩

open Tree hyrbtree_t hyrbtree_ret_t

theorem rootColor_eq_black_of_ne_red {s : Tree} (h : ¬ rootColor s = Color.red) :
    rootColor s = Color.black := by
  cases hc : rootColor s
  · exact absurd hc h
  · rfl

/-- Deletion, BLACK sibling on the right: the iteration ends the loop as soon as
the parent is RED, the parent is the root, or a child of the sibling is RED. -/
theorem del_black_term_R (t : hyrbtree_t) (ctx : Ctx) (fuel : Nat) (cp : Color)
    (p op s os : Nat) (x sl sr : Tree)
    (hrep : ZRep t (Frame.L cp p op (Tree.node Color.black s os sl sr) :: ctx) x)
    (hroot : t.root_node = ctxRoot ctx p)
    (hinv : DelInv (Frame.L cp p op (Tree.node Color.black s os sl sr) :: ctx) x)
    (hterm : cp = Color.red ∨ ctx = [] ∨ rootColor sl = Color.red ∨ rootColor sr = Color.red) :
    ∃ t', hyrbtree_del_balance_loop (fuel + 1) t (rootOf t.nil_node x) p 0 = some t' ∧
      Rebalanced t t' (plug (Frame.L cp p op (Tree.node Color.black s os sl sr) :: ctx) x) := by
  by_cases ho : rootColor sr = Color.red
  · rcases sr with _ | ⟨cd, d, od, dl, dr⟩
    · simp at ho
    · simp only [rootColor_node] at ho
      subst ho
      exact del_black_RR t ctx fuel cp p op s os d od x sl dl dr hrep hroot hinv
  · have ho' := rootColor_eq_black_of_ne_red ho
    by_cases hi : rootColor sl = Color.red
    · rcases sl with _ | ⟨cc, c, oc, cl, cr⟩
      · simp at hi
      · simp only [rootColor_node] at hi
        subst hi
        exact del_black_RL t ctx fuel cp p op s os c oc x sr cl cr hrep hroot ho' hinv
    · have hi' := rootColor_eq_black_of_ne_red hi
      by_cases hctx : ctx = []
      · subst hctx
        exact del_black_none_R_root t fuel cp p op s os x sl sr hrep (by simpa using hroot)
          hi' ho' hinv
      · have hcp : cp = Color.red := by tauto
        subst hcp
        exact del_black_none_R_red t ctx fuel p op s os x sl sr hrep hroot hctx
          hi' ho' hinv

/-- Deletion, BLACK sibling on the left: the iteration ends the loop as soon as
the parent is RED, the parent is the root, or a child of the sibling is RED. -/
theorem del_black_term_L (t : hyrbtree_t) (ctx : Ctx) (fuel : Nat) (cp : Color)
    (p op s os : Nat) (x sl sr : Tree)
    (hrep : ZRep t (Frame.R cp p op (Tree.node Color.black s os sl sr) :: ctx) x)
    (hroot : t.root_node = ctxRoot ctx p)
    (hinv : DelInv (Frame.R cp p op (Tree.node Color.black s os sl sr) :: ctx) x)
    (hterm : cp = Color.red ∨ ctx = [] ∨ rootColor sl = Color.red ∨ rootColor sr = Color.red) :
    ∃ t', hyrbtree_del_balance_loop (fuel + 1) t (rootOf t.nil_node x) p 0 = some t' ∧
      Rebalanced t t' (plug (Frame.R cp p op (Tree.node Color.black s os sl sr) :: ctx) x) := by
  by_cases ho : rootColor sl = Color.red
  · rcases sl with _ | ⟨cd, d, od, dl, dr⟩
    · simp at ho
    · simp only [rootColor_node] at ho
      subst ho
      exact del_black_LL t ctx fuel cp p op s os d od x sr dl dr hrep hroot hinv
  · have ho' := rootColor_eq_black_of_ne_red ho
    by_cases hi : rootColor sr = Color.red
    · rcases sr with _ | ⟨cc, c, oc, cl, cr⟩
      · simp at hi
      · simp only [rootColor_node] at hi
        subst hi
        exact del_black_LR t ctx fuel cp p op s os c oc x sl cl cr hrep hroot ho' hinv
    · have hi' := rootColor_eq_black_of_ne_red hi
      by_cases hctx : ctx = []
      · subst hctx
        exact del_black_none_L_root t fuel cp p op s os x sl sr hrep (by simpa using hroot)
          ho' hi' hinv
      · have hcp : cp = Color.red := by tauto
        subst hcp
        exact del_black_none_L_red t ctx fuel p op s os x sl sr hrep hroot hctx
          ho' hi' hinv

/-- The loop of `hyrbtree_del_balance` terminates and restores the red-black
invariants: started at a BLACK-rooted subtree that is one BLACK node short, in
a tree that is otherwise well-formed, it ends in a state that holds a red-black
tree with the same nodes in the same order. -/
theorem del_balance_loop_spec : ∀ (fuel : Nat) (ctx : Ctx) (t : hyrbtree_t) (F : Frame)
    (x : Tree), ctx.length + 2 ≤ fuel → ZRep t (F :: ctx) x →
    t.root_node = ctxRoot ctx F.addr → DelInv (F :: ctx) x →
    ∃ t', hyrbtree_del_balance_loop fuel t (rootOf t.nil_node x) F.addr 0 = some t' ∧
      Rebalanced t t' (plug (F :: ctx) x) := by
  intro fuel
  induction fuel with
  | zero => intro ctx t F x hlen; omega
  | succ fuel0 ih =>
    intro ctx t F x hlen hrep hroot hinv
    obtain ⟨fuel, rfl⟩ : ∃ k, fuel0 = k + 1 := ⟨fuel0 - 1, by omega⟩
    rcases F with ⟨cp, p, op, sib⟩ | ⟨cp, p, op, sib⟩
    · rcases sib with _ | ⟨cs, s, os, sl, sr⟩
      · exfalso
        have := hinv.2.2.2.1
        simp only [CtxBal_cons, Frame.sibling_L, bh_leaf] at this
        omega
      simp only [Frame.addr_L] at hroot ⊢
      cases cs with
      | red =>
        obtain ⟨t1, heq, hz, hr, he, hinv1, hbh⟩ :=
          del_red_R t ctx (fuel + 1) cp p op s os x sl sr hrep hroot hinv
        rcases sl with _ | ⟨cn, n, no, nl, nr⟩
        · simp at hbh
        have hcn : cn = Color.black := by
          have := hinv1.2.2.2.2.1
          simp only [CtxNoRedRed_cons, Frame.color_L, Frame.sibling_L, rootColor_node] at this
          exact (this.1 trivial).2
        subst hcn
        obtain ⟨t', h1, h2⟩ := del_black_term_R t1 (Frame.L Color.black s os sr :: ctx) fuel Color.red p op n no x nl nr
          hz (by simpa using hr) hinv1 (Or.inl rfl)
        refine ⟨t', by rw [heq]; exact h1, Rebalanced_trans he ?_ h2⟩
        simp [nodes_plug, nodes, Frame.plug, ctxBefore, ctxAfter]
      | black =>
        by_cases hterm : cp = Color.red ∨ ctx = [] ∨ rootColor sl = Color.red ∨
            rootColor sr = Color.red
        · exact del_black_term_R t ctx (fuel + 1) cp p op s os x sl sr hrep hroot hinv hterm
        · simp only [not_or] at hterm
          obtain ⟨hcp, hctx, hsl, hsr⟩ := hterm
          have hcp' : cp = Color.black := by cases cp <;> simp_all
          subst hcp'
          rcases ctx with _ | ⟨G, ctx⟩
          · exact absurd rfl hctx
          obtain ⟨heq, hz, hinv1⟩ := del_black_none_R_cont t ctx G (fuel + 1) p op s os x sl sr
            hrep (by simpa using hroot) (rootColor_eq_black_of_ne_red hsl)
            (rootColor_eq_black_of_ne_red hsr) hinv
          obtain ⟨t', h1, h2⟩ := ih ctx (HYRBTREE_SET_NODE_RED t s) G _
            (by simp only [List.length_cons] at hlen; omega) hz (by simpa using hroot) hinv1
          refine ⟨t', by rw [heq]; exact h1, Rebalanced_trans ⟨rfl, rfl, rfl, rfl⟩ ?_ h2⟩
          cases G <;> simp [nodes_plug, nodes, Frame.plug]
    · rcases sib with _ | ⟨cs, s, os, sl, sr⟩
      · exfalso
        have := hinv.2.2.2.1
        simp only [CtxBal_cons, Frame.sibling_R, bh_leaf] at this
        omega
      simp only [Frame.addr_R] at hroot ⊢
      cases cs with
      | red =>
        obtain ⟨t1, heq, hz, hr, he, hinv1, hbh⟩ :=
          del_red_L t ctx (fuel + 1) cp p op s os x sl sr hrep hroot hinv
        rcases sr with _ | ⟨cn, n, no, nl, nr⟩
        · simp at hbh
        have hcn : cn = Color.black := by
          have := hinv1.2.2.2.2.1
          simp only [CtxNoRedRed_cons, Frame.color_R, Frame.sibling_R, rootColor_node] at this
          exact (this.1 trivial).2
        subst hcn
        obtain ⟨t', h1, h2⟩ := del_black_term_L t1 (Frame.R Color.black s os sl :: ctx) fuel Color.red p op n no x nl nr
          hz (by simpa using hr) hinv1 (Or.inl rfl)
        refine ⟨t', by rw [heq]; exact h1, Rebalanced_trans he ?_ h2⟩
        simp [nodes_plug, nodes, Frame.plug, ctxBefore, ctxAfter]
      | black =>
        by_cases hterm : cp = Color.red ∨ ctx = [] ∨ rootColor sl = Color.red ∨
            rootColor sr = Color.red
        · exact del_black_term_L t ctx (fuel + 1) cp p op s os x sl sr hrep hroot hinv hterm
        · simp only [not_or] at hterm
          obtain ⟨hcp, hctx, hsl, hsr⟩ := hterm
          have hcp' : cp = Color.black := by cases cp <;> simp_all
          subst hcp'
          rcases ctx with _ | ⟨G, ctx⟩
          · exact absurd rfl hctx
          obtain ⟨heq, hz, hinv1⟩ := del_black_none_L_cont t ctx G (fuel + 1) p op s os x sl sr
            hrep (by simpa using hroot) (rootColor_eq_black_of_ne_red hsl)
            (rootColor_eq_black_of_ne_red hsr) hinv
          obtain ⟨t', h1, h2⟩ := ih ctx (HYRBTREE_SET_NODE_RED t s) G _
            (by simp only [List.length_cons] at hlen; omega) hz (by simpa using hroot) hinv1
          refine ⟨t', by rw [heq]; exact h1, Rebalanced_trans ⟨rfl, rfl, rfl, rfl⟩ ?_ h2⟩
          cases G <;> simp [nodes_plug, nodes, Frame.plug]

open Tree hyrbtree_t hyrbtree_ret_t

/-! ## Contexts in two segments -/

theorem plug_append : ∀ (c1 c2 : Ctx) (s : Tree), plug (c1 ++ c2) s = plug c2 (plug c1 s)
  | [], _, _ => rfl
  | f :: c1, c2, s => by
    simp only [List.cons_append, plug_cons]; exact plug_append c1 c2 _

theorem ctxAddrs_append : ∀ (c1 c2 : Ctx), ctxAddrs (c1 ++ c2) = ctxAddrs c1 ++ ctxAddrs c2
  | [], _ => rfl
  | f :: c1, c2 => by simp [ctxAddrs_append c1 c2]

theorem ctxPar_append (top : Nat) : ∀ (c1 c2 : Ctx),
    ctxPar top (c1 ++ c2) = ctxPar (ctxPar top c2) c1
  | [], _ => rfl
  | _ :: _, _ => rfl

theorem ctxRoot_append : ∀ (c1 c2 : Ctx) (p : Nat),
    ctxRoot (c1 ++ c2) p = ctxRoot c2 (ctxRoot c1 p)
  | [], _, _ => rfl
  | f :: c1, c2, p => by simp [ctxRoot_append c1 c2]

theorem ctxBefore_append : ∀ (c1 c2 : Ctx),
    ctxBefore (c1 ++ c2) = ctxBefore c2 ++ ctxBefore c1
  | [], _ => by simp [ctxBefore]
  | Frame.L _ _ _ _ :: c1, c2 => by simp [ctxBefore, ctxBefore_append c1 c2]
  | Frame.R _ _ _ _ :: c1, c2 => by simp [ctxBefore, ctxBefore_append c1 c2]

theorem ctxAfter_append : ∀ (c1 c2 : Ctx),
    ctxAfter (c1 ++ c2) = ctxAfter c1 ++ ctxAfter c2
  | [], _ => by simp [ctxAfter]
  | Frame.L _ _ _ _ :: c1, c2 => by simp [ctxAfter, ctxAfter_append c1 c2]
  | Frame.R _ _ _ _ :: c1, c2 => by simp [ctxAfter, ctxAfter_append c1 c2]

theorem RepCtx_append (t : hyrbtree_t) : ∀ (c1 c2 : Ctx) (p top : Nat),
    RepCtx t (c1 ++ c2) p top ↔
      RepCtx t c1 p (ctxPar top c2) ∧ RepCtx t c2 (ctxRoot c1 p) top
  | [], c2, p, top => by simp [RepCtx]
  | Frame.L c a o sib :: c1, c2, p, top => by
    have ih := RepCtx_append t c1 c2 a top
    have e := ctxPar_append top c1 c2
    show (_ ∧ _ ∧ t.parent_node a = ctxPar top (c1 ++ c2) ∧ _ ∧ _ ∧ _ ∧
        RepCtx t (c1 ++ c2) a top) ↔
      ((_ ∧ _ ∧ t.parent_node a = ctxPar (ctxPar top c2) c1 ∧ _ ∧ _ ∧ _ ∧
        RepCtx t c1 a (ctxPar top c2)) ∧ RepCtx t c2 (ctxRoot c1 a) top)
    rw [ih, e]; tauto
  | Frame.R c a o sib :: c1, c2, p, top => by
    have ih := RepCtx_append t c1 c2 a top
    have e := ctxPar_append top c1 c2
    show (_ ∧ _ ∧ t.parent_node a = ctxPar top (c1 ++ c2) ∧ _ ∧ _ ∧ _ ∧
        RepCtx t (c1 ++ c2) a top) ↔
      ((_ ∧ _ ∧ t.parent_node a = ctxPar (ctxPar top c2) c1 ∧ _ ∧ _ ∧ _ ∧
        RepCtx t c1 a (ctxPar top c2)) ∧ RepCtx t c2 (ctxRoot c1 a) top)
    rw [ih, e]; tauto

theorem Sep_append (nil : Nat) : ∀ (c1 c2 : Ctx) (s : Tree),
    Sep nil (c1 ++ c2) s ↔ Sep nil c2 (plug c1 s)
  | [], _, _ => Iff.rfl
  | f :: c1, c2, s => by
    rw [List.cons_append, Sep_cons, Sep_append nil c1 c2, plug_cons]

theorem ZRep_append (t : hyrbtree_t) : ∀ (c1 c2 : Ctx) (s : Tree),
    ZRep t (c1 ++ c2) s ↔ ZRep t c2 (plug c1 s)
  | [], _, _ => Iff.rfl
  | f :: c1, c2, s => by
    rw [List.cons_append, ZRep_cons, ZRep_append t c1 c2, plug_cons]

/-! ## Relabelling a frame -/

theorem CtxBal_relabel (c2 : Ctx) (F F' : Frame) (hc : F.color = F'.color)
    (hs : F.sibling = F'.sibling) : ∀ (c1 : Ctx) (k : Nat),
    CtxBal (c1 ++ F :: c2) k ↔ CtxBal (c1 ++ F' :: c2) k
  | [], k => by simp only [List.nil_append, CtxBal_cons, hc, hs]
  | f :: c1, k => by
    simp only [List.cons_append, CtxBal_cons, CtxBal_relabel c2 F F' hc hs c1]

theorem CtxNoRedRed_relabel (c2 : Ctx) (F F' : Frame) (hc : F.color = F'.color)
    (hs : F.sibling = F'.sibling) : ∀ (c1 : Ctx) (c : Color),
    CtxNoRedRed (c1 ++ F :: c2) c ↔ CtxNoRedRed (c1 ++ F' :: c2) c
  | [], c => by simp only [List.nil_append, CtxNoRedRed_cons, hc, hs]
  | f :: c1, c => by
    simp only [List.cons_append, CtxNoRedRed_cons, CtxNoRedRed_relabel c2 F F' hc hs c1]

theorem ctxRootColor_relabel (c2 : Ctx) (F F' : Frame) (hc : F.color = F'.color) :
    ∀ (c1 : Ctx) (c : Color),
    ctxRootColor (c1 ++ F :: c2) c = ctxRootColor (c1 ++ F' :: c2) c
  | [], c => by simp only [List.nil_append, ctxRootColor_cons, hc]
  | f :: c1, c => by
    simp only [List.cons_append, ctxRootColor_cons, ctxRootColor_relabel c2 F F' hc c1]

/-- A context made of left turns only. -/
theorem ctxBefore_of_left : ∀ (c : Ctx), (∀ f ∈ c, ∃ cc a o sib, f = Frame.L cc a o sib) →
    ctxBefore c = []
  | [], _ => rfl
  | f :: c, h => by
    obtain ⟨cc, a, o, sib, rfl⟩ := h f (by simp)
    simp only [ctxBefore]
    exact ctxBefore_of_left c (fun g hg => h g (by simp [hg]))

/-! ## The successor walk -/

/-- The walk of `hyrbtree_replace_successor` below a non-empty subtree ends at
its leftmost node, which has no left child and is reached by left turns. -/
theorem successor_walk (t : hyrbtree_t) : ∀ (r : Tree) (par fuel : Nat), r ≠ Tree.leaf →
    Rep t r par → t.nil_node ∉ addrs r → size r ≤ fuel →
    ∃ sctx cs s os sr, r = plug sctx (Tree.node cs s os Tree.leaf sr) ∧
      (∀ f ∈ sctx, ∃ cc a o sib, f = Frame.L cc a o sib) ∧
      replace_successor_walk fuel t (rootOf t.nil_node r) = some s
  | Tree.leaf, _, _, h, _, _, _ => absurd rfl h
  | Tree.node c a o l r, par, 0, _, _, _, hf => by simp [size] at hf
  | Tree.node c a o l r, par, fuel + 1, _, hr, hn, hf => by
    obtain ⟨h1, h2, h3, h4, h5, h6, h7⟩ := hr
    simp only [addrs_node, List.mem_append, List.mem_cons, not_or] at hn
    simp only [size] at hf
    rcases hl : l with _ | ⟨cl, la, lo, ll, lr⟩
    · subst hl
      refine ⟨[], c, a, o, r, rfl, by simp, ?_⟩
      simp [replace_successor_walk, h4]
    · have hne : l ≠ Tree.leaf := by rw [hl]; simp
      obtain ⟨sctx, cs, s, os, sr, e, hall, hw⟩ :=
        successor_walk t l a fuel hne h6 hn.1 (by omega)
      refine ⟨sctx ++ [Frame.L c a o r], cs, s, os, sr, ?_, ?_, ?_⟩
      · rw [plug_append, ← e, ← hl]; rfl
      · intro f hf'
        simp only [List.mem_append, List.mem_singleton] at hf'
        rcases hf' with hf' | hf'
        · exact hall f hf'
        · exact ⟨c, a, o, r, hf'⟩
      · have hla : ¬ t.left_node a = t.nil_node := by
          rw [h4, hl]
          simp only [rootOf_node]
          intro e'
          apply hn.1
          rw [hl, ← e']; simp
        simp only [rootOf_node, replace_successor_walk, ne_eq, hla, not_false_eq_true, if_true]
        rw [h4]; exact hw

open Tree hyrbtree_t hyrbtree_ret_t

/-! ## The exchange of a node with its successor -/

section links_fields
variable (t : hyrbtree_t) (n s : Nat)

@[simp]
theorem successor_left_nil_node :
    (replace_successor_left t n s).nil_node = t.nil_node := by
  simp [replace_successor_left]
@[simp]
theorem successor_left_get_rbnode :
    (replace_successor_left t n s).get_rbnode = t.get_rbnode := by
  simp [replace_successor_left]
@[simp]
theorem successor_left_get_elem :
    (replace_successor_left t n s).get_elem = t.get_elem := by
  simp [replace_successor_left]
@[simp]
theorem successor_left_cmp_elem :
    (replace_successor_left t n s).cmp_elem = t.cmp_elem := by
  simp [replace_successor_left]
@[simp]
theorem successor_left_root_node :
    (replace_successor_left t n s).root_node = t.root_node := by
  simp [replace_successor_left]
@[simp]
theorem successor_left_user :
    (replace_successor_left t n s).user_node = t.user_node := by
  funext x; simp [replace_successor_left]
@[simp]
theorem successor_left_color (x : Nat) :
    HYRBTREE_READ_NODE_COLOR (replace_successor_left t n s) x = HYRBTREE_READ_NODE_COLOR t x := by
  simp only [HYRBTREE_READ_NODE_COLOR, successor_left_user]
@[simp]
theorem successor_left_addr (x : Nat) :
    HYRBTREE_GET_NODE_ADDR (replace_successor_left t n s) x = HYRBTREE_GET_NODE_ADDR t x := by
  simp only [HYRBTREE_GET_NODE_ADDR, successor_left_user]
@[simp]
theorem successor_parent_nil_node :
    (replace_successor_parent t n s).nil_node = t.nil_node := by
  simp [replace_successor_parent]
@[simp]
theorem successor_parent_get_rbnode :
    (replace_successor_parent t n s).get_rbnode = t.get_rbnode := by
  simp [replace_successor_parent]
@[simp]
theorem successor_parent_get_elem :
    (replace_successor_parent t n s).get_elem = t.get_elem := by
  simp [replace_successor_parent]
@[simp]
theorem successor_parent_cmp_elem :
    (replace_successor_parent t n s).cmp_elem = t.cmp_elem := by
  simp [replace_successor_parent]
@[simp]
theorem successor_parent_root_node :
    (replace_successor_parent t n s).root_node = t.root_node := by
  simp [replace_successor_parent]
@[simp]
theorem successor_parent_user :
    (replace_successor_parent t n s).user_node = t.user_node := by
  funext x; simp [replace_successor_parent]
@[simp]
theorem successor_parent_color (x : Nat) :
    HYRBTREE_READ_NODE_COLOR (replace_successor_parent t n s) x = HYRBTREE_READ_NODE_COLOR t x := by
  simp only [HYRBTREE_READ_NODE_COLOR, successor_parent_user]
@[simp]
theorem successor_parent_addr (x : Nat) :
    HYRBTREE_GET_NODE_ADDR (replace_successor_parent t n s) x = HYRBTREE_GET_NODE_ADDR t x := by
  simp only [HYRBTREE_GET_NODE_ADDR, successor_parent_user]
@[simp]
theorem successor_far_nil_node :
    (replace_successor_far t n s).nil_node = t.nil_node := by
  simp [replace_successor_far]
@[simp]
theorem successor_far_get_rbnode :
    (replace_successor_far t n s).get_rbnode = t.get_rbnode := by
  simp [replace_successor_far]
@[simp]
theorem successor_far_get_elem :
    (replace_successor_far t n s).get_elem = t.get_elem := by
  simp [replace_successor_far]
@[simp]
theorem successor_far_cmp_elem :
    (replace_successor_far t n s).cmp_elem = t.cmp_elem := by
  simp [replace_successor_far]
@[simp]
theorem successor_far_root_node :
    (replace_successor_far t n s).root_node = t.root_node := by
  simp [replace_successor_far]
@[simp]
theorem successor_far_user :
    (replace_successor_far t n s).user_node = t.user_node := by
  funext x; simp [replace_successor_far]
@[simp]
theorem successor_far_color (x : Nat) :
    HYRBTREE_READ_NODE_COLOR (replace_successor_far t n s) x = HYRBTREE_READ_NODE_COLOR t x := by
  simp only [HYRBTREE_READ_NODE_COLOR, successor_far_user]
@[simp]
theorem successor_far_addr (x : Nat) :
    HYRBTREE_GET_NODE_ADDR (replace_successor_far t n s) x = HYRBTREE_GET_NODE_ADDR t x := by
  simp only [HYRBTREE_GET_NODE_ADDR, successor_far_user]
@[simp]
theorem successor_near_nil_node :
    (replace_successor_near t n s).nil_node = t.nil_node := by
  simp [replace_successor_near]
@[simp]
theorem successor_near_get_rbnode :
    (replace_successor_near t n s).get_rbnode = t.get_rbnode := by
  simp [replace_successor_near]
@[simp]
theorem successor_near_get_elem :
    (replace_successor_near t n s).get_elem = t.get_elem := by
  simp [replace_successor_near]
@[simp]
theorem successor_near_cmp_elem :
    (replace_successor_near t n s).cmp_elem = t.cmp_elem := by
  simp [replace_successor_near]
@[simp]
theorem successor_near_root_node :
    (replace_successor_near t n s).root_node = t.root_node := by
  simp [replace_successor_near]
@[simp]
theorem successor_near_user :
    (replace_successor_near t n s).user_node = t.user_node := by
  funext x; simp [replace_successor_near]
@[simp]
theorem successor_near_color (x : Nat) :
    HYRBTREE_READ_NODE_COLOR (replace_successor_near t n s) x = HYRBTREE_READ_NODE_COLOR t x := by
  simp only [HYRBTREE_READ_NODE_COLOR, successor_near_user]
@[simp]
theorem successor_near_addr (x : Nat) :
    HYRBTREE_GET_NODE_ADDR (replace_successor_near t n s) x = HYRBTREE_GET_NODE_ADDR t x := by
  simp only [HYRBTREE_GET_NODE_ADDR, successor_near_user]
@[simp]
theorem links_nil_node : (replace_successor_links t n s).nil_node = t.nil_node := by
  simp [replace_successor_links]
@[simp]
theorem links_get_rbnode : (replace_successor_links t n s).get_rbnode = t.get_rbnode := by
  simp [replace_successor_links]
@[simp]
theorem links_get_elem : (replace_successor_links t n s).get_elem = t.get_elem := by
  simp [replace_successor_links]
@[simp]
theorem links_cmp_elem : (replace_successor_links t n s).cmp_elem = t.cmp_elem := by
  simp [replace_successor_links]
theorem links_env : SameEnv t (replace_successor_links t n s) :=
  ⟨by simp, by simp, by simp, by simp⟩

@[simp]
theorem successor_parent_parent :
    (replace_successor_parent t n s).parent_node = t.parent_node := by
  funext x; simp [replace_successor_parent]

@[simp]
theorem successor_parent_left_ne (x : Nat) (h : ¬ x = t.parent_node n) :
    (replace_successor_parent t n s).left_node x = t.left_node x := by
  simp [replace_successor_parent, h]

@[simp]
theorem successor_parent_right_ne (x : Nat) (h : ¬ x = t.parent_node n) :
    (replace_successor_parent t n s).right_node x = t.right_node x := by
  simp [replace_successor_parent, h]

theorem successor_parent_at_left (h : t.left_node (t.parent_node n) = n) :
    (replace_successor_parent t n s).left_node (t.parent_node n) = s ∧
    (replace_successor_parent t n s).right_node (t.parent_node n) =
      t.right_node (t.parent_node n) := by
  simp [replace_successor_parent, h]

theorem successor_parent_at_right (h : ¬ t.left_node (t.parent_node n) = n) :
    (replace_successor_parent t n s).right_node (t.parent_node n) = s ∧
    (replace_successor_parent t n s).left_node (t.parent_node n) =
      t.left_node (t.parent_node n) := by
  simp [replace_successor_parent, h]

@[simp]
theorem Rep_successor_parent (X : Tree) (par : Nat) (h : t.parent_node n ∉ addrs X) :
    Rep (replace_successor_parent t n s) X par ↔ Rep t X par := by
  simp only [replace_successor_parent]
  split_ifs <;> simp [h]

@[simp]
theorem RepCtx_successor_parent (C : Ctx) (p top : Nat)
    (h : t.parent_node n ∉ ctxAddrs C) :
    RepCtx (replace_successor_parent t n s) C p top ↔ RepCtx t C p top := by
  simp only [replace_successor_parent]
  split_ifs <;> simp [h]

end links_fields

theorem Sep_of_perm {nil : Nat} {ctx ctx' : Ctx} {s s' : Tree}
    (hp : (addrs s' ++ ctxAddrs ctx').Perm (addrs s ++ ctxAddrs ctx)) (h : Sep nil ctx s) :
    Sep nil ctx' s' :=
  ⟨hp.nodup_iff.2 h.1, fun hm => h.2 (hp.mem_iff.1 hm)⟩

/-- The node of a frame inside a context is not a node of the context above it. -/
theorem Sep_mid_not_mem {nil : Nat} {c1 : Ctx} {f : Frame} {ctx : Ctx} {s : Tree}
    (h : Sep nil (c1 ++ f :: ctx) s) : f.addr ∉ ctxAddrs ctx :=
  Sep_frame_not_mem ((Sep_append nil c1 (f :: ctx) s).1 h)

/-- A node below the root is not the root. -/
theorem ne_root_of_frame {t : hyrbtree_t} {c1 : Ctx} {f : Frame} {ctx : Ctx} {s : Tree}
    (h : Sep t.nil_node (c1 ++ f :: ctx) s) (hroot : t.root_node = ctxRoot ctx f.addr)
    (hctx : ctx ≠ []) : ¬ f.addr = t.root_node := fun e =>
  Sep_mid_not_mem h (e.trans hroot ▸ ctxRoot_mem ctx f.addr hctx)

/-- Exchanging a node with the leftmost node of its right subtree keeps the
nodes pairwise distinct. -/
theorem Sep_swap (nil : Nat) (sctx ctx : Ctx) (cn cs cn' cs' : Color) (n o s os : Nat)
    (l sl sr : Tree)
    (h : Sep nil (sctx ++ Frame.R cn n o l :: ctx) (Tree.node cs s os sl sr)) :
    Sep nil (sctx ++ Frame.R cs' s os l :: ctx) (Tree.node cn' n o sl sr) := by
  refine Sep_of_perm ?_ h
  rw [List.perm_iff_count]
  intro x
  simp only [addrs_node, ctxAddrs_append, ctxAddrs_cons, Frame.addr_R, Frame.sibling_R,
    List.count_append, List.count_cons]
  omega

/-- Moving a subtree from a frame into the focus keeps the nodes pairwise distinct. -/
theorem Sep_move_left (nil : Nat) (sctx ctx : Ctx) (cn cs : Color) (n o s os : Nat)
    (l sr : Tree)
    (h : Sep nil (sctx ++ Frame.R cn n o l :: ctx) (Tree.node cs s os Tree.leaf sr)) :
    Sep nil (sctx ++ Frame.R cn n o Tree.leaf :: ctx) (Tree.node cs s os l sr) := by
  refine Sep_of_perm ?_ h
  rw [List.perm_iff_count]
  intro x
  simp only [addrs_node, addrs_leaf, ctxAddrs_append, ctxAddrs_cons, Frame.addr_R,
    Frame.sibling_R, List.count_append, List.count_cons, List.count_nil]
  omega

/-- Exchanging a node without left child with the leftmost node of its right
subtree, which takes over the left subtree `l`, keeps the nodes pairwise
distinct. -/
theorem Sep_swap_moved (nil : Nat) (sctx ctx : Ctx) (cn cs cn' cs' : Color) (n o s os : Nat)
    (l sr : Tree)
    (h : Sep nil (sctx ++ Frame.R cn n o Tree.leaf :: ctx) (Tree.node cs s os l sr)) :
    Sep nil (sctx ++ Frame.R cs' s os l :: ctx) (Tree.node cn' n o Tree.leaf sr) := by
  refine Sep_of_perm ?_ h
  rw [List.perm_iff_count]
  intro x
  simp only [addrs_node, addrs_leaf, ctxAddrs_append, ctxAddrs_cons, Frame.addr_R,
    Frame.sibling_R, List.count_append, List.count_cons, List.count_nil]
  omega

/-- First step of the relinking: the left subtree `l` of `n` hangs below the
successor `s` afterwards. -/
theorem successor_left_rep (t : hyrbtree_t) (sctx ctx : Ctx) (cn cs : Color) (n o s os : Nat)
    (l sr : Tree)
    (h : ZRep t (sctx ++ Frame.R cn n o l :: ctx) (Tree.node cs s os Tree.leaf sr)) :
    ZRep (replace_successor_left t n s) (sctx ++ Frame.R cn n o Tree.leaf :: ctx)
      (Tree.node cs s os l sr) := by
  obtain ⟨h1, h2, h3, hs⟩ := h
  refine ⟨?_, ?_, by simpa using h3, by simpa using Sep_move_left _ _ _ _ _ _ _ _ _ _ _ hs⟩ <;>
  rcases l with _ | ⟨cl, la, lo, ll, lr⟩ <;>
  simp only [HoleRep, ZRep, RepCtx_append, RepCtx, Rep, rootOf_node, rootOf_leaf, ctxPar_nil,
    ctxPar_cons, ctxPar_append, ctxRoot_cons, ctxRoot_nil, ctxRoot_append, Frame.addr_L,
    Frame.addr_R, true_and, and_true, List.cons_append, List.nil_append, successor_left_nil_node] at h1 h2 ⊢ <;>
  simp only [Sep, addrs_node, addrs_leaf, ctxAddrs_cons, ctxAddrs_nil, ctxAddrs_append,
    Frame.addr_L, Frame.addr_R,
    Frame.sibling_L, Frame.sibling_R, List.nodup_append, List.nodup_cons,
    List.mem_append, not_or, not_mem_cons_sym, List.disjoint_cons_left, List.disjoint_cons_right,
    List.disjoint_append_left, List.disjoint_append_right, List.not_mem_nil, List.nodup_nil,
    List.disjoint_nil_left, List.disjoint_nil_right, not_false_eq_true, true_and, and_true,
    List.append_nil, List.nil_append, List.cons_append] at hs <;>
  simp [replace_successor_left, h1, h2, h3, hs]

open Tree hyrbtree_t hyrbtree_ret_t

section parent_step
variable (t : hyrbtree_t) (n s : Nat)

@[simp]
theorem successor_parent_left_of_left (P : Nat) (hP : t.parent_node n = P)
    (h : t.left_node P = n) : (replace_successor_parent t n s).left_node P = s := by
  subst hP; exact (successor_parent_at_left t n s h).1

@[simp]
theorem successor_parent_right_of_left (P : Nat) (hP : t.parent_node n = P)
    (h : t.left_node P = n) :
    (replace_successor_parent t n s).right_node P = t.right_node P := by
  subst hP; exact (successor_parent_at_left t n s h).2

@[simp]
theorem successor_parent_right_of_right (P : Nat) (hP : t.parent_node n = P)
    (h : ¬ t.left_node P = n) : (replace_successor_parent t n s).right_node P = s := by
  subst hP; exact (successor_parent_at_right t n s h).1

@[simp]
theorem successor_parent_left_of_right (P : Nat) (hP : t.parent_node n = P)
    (h : ¬ t.left_node P = n) :
    (replace_successor_parent t n s).left_node P = t.left_node P := by
  subst hP; exact (successor_parent_at_right t n s h).2

end parent_step

set_option maxHeartbeats 1000000 in
/-- The relinking when the successor `s` is the right child of `n`. Second and third step, after the left subtree has moved. -/
theorem swap_adj (t : hyrbtree_t) (ctx : Ctx) (cn cs : Color) (n o s os : Nat) (l sr : Tree)
    (h : ZRep t (Frame.R cn n o Tree.leaf :: ctx) (Tree.node cs s os l sr)) :
    HoleRep (replace_successor_near (replace_successor_parent t n s) n s)
      (Frame.R cs s os l :: ctx) cn n o Tree.leaf sr := by
  have hsep := Sep_swap_moved t.nil_node [] ctx cn cs cn cs n o s os l sr
    (by simpa using h.2.2.2)
  simp only [List.cons_append, List.nil_append, List.append_assoc] at hsep
  obtain ⟨h1, h2, h3, hs⟩ := h
  rcases ctx with _ | ⟨⟨cp, p, op, sib⟩ | ⟨cp, p, op, sib⟩, ctx⟩ <;>
  simp only [HoleRep, ZRep, RepCtx_append, RepCtx, Rep, rootOf_node, rootOf_leaf, ctxPar_nil,
    ctxPar_cons, ctxPar_append, ctxRoot_cons, ctxRoot_nil, ctxRoot_append, Frame.addr_L,
    Frame.addr_R, true_and, and_true, List.cons_append, List.nil_append, ne_eq, reduceCtorEq,
    not_false_eq_true, true_implies, not_true_eq_false, false_implies] at h1 h2 ⊢ <;>
  simp only [Sep, addrs_node, addrs_leaf, ctxAddrs_cons, ctxAddrs_nil, ctxAddrs_append,
    Frame.addr_L, Frame.addr_R,
    Frame.sibling_L, Frame.sibling_R, List.nodup_append, List.nodup_cons,
    List.mem_append, not_or, not_mem_cons_sym, List.disjoint_cons_left, List.disjoint_cons_right,
    List.disjoint_append_left, List.disjoint_append_right, List.not_mem_nil, List.nodup_nil,
    List.disjoint_nil_left, List.disjoint_nil_right, not_false_eq_true, true_and, and_true,
    List.append_nil, List.nil_append, List.cons_append] at hs <;>
  refine ⟨?_, ?_, ?_, ?_, ?_, ?_, ⟨s, ?_⟩, ?_, by simpa using hsep⟩ <;>
  simp [replace_successor_near, h1, h2, h3, hs]

set_option maxHeartbeats 1000000 in
/-- The relinking when the successor `s` is the left child of the right child `q` of `n`. Second and third step, after the left subtree has moved. -/
theorem swap_far1 (t : hyrbtree_t) (ctx : Ctx) (cn cs cq : Color) (n o s os q oq : Nat) (l sr qsib : Tree)
    (h : ZRep t (Frame.L cq q oq qsib :: Frame.R cn n o Tree.leaf :: ctx) (Tree.node cs s os l sr)) :
    HoleRep (replace_successor_far (replace_successor_parent t n s) n s)
      (Frame.L cq q oq qsib :: Frame.R cs s os l :: ctx) cn n o Tree.leaf sr := by
  have hsep := Sep_swap_moved t.nil_node [Frame.L cq q oq qsib] ctx cn cs cn cs n o s os l sr
    (by simpa using h.2.2.2)
  simp only [List.cons_append, List.nil_append, List.append_assoc] at hsep
  obtain ⟨h1, h2, h3, hs⟩ := h
  rcases ctx with _ | ⟨⟨cp, p, op, sib⟩ | ⟨cp, p, op, sib⟩, ctx⟩ <;>
  rcases sr with _ | ⟨csr, x, ox, xl, xr⟩ <;>
  simp only [HoleRep, ZRep, RepCtx_append, RepCtx, Rep, rootOf_node, rootOf_leaf, ctxPar_nil,
    ctxPar_cons, ctxPar_append, ctxRoot_cons, ctxRoot_nil, ctxRoot_append, Frame.addr_L,
    Frame.addr_R, true_and, and_true, List.cons_append, List.nil_append, ne_eq, reduceCtorEq,
    not_false_eq_true, true_implies, not_true_eq_false, false_implies] at h1 h2 ⊢ <;>
  simp only [Sep, addrs_node, addrs_leaf, ctxAddrs_cons, ctxAddrs_nil, ctxAddrs_append,
    Frame.addr_L, Frame.addr_R,
    Frame.sibling_L, Frame.sibling_R, List.nodup_append, List.nodup_cons,
    List.mem_append, not_or, not_mem_cons_sym, List.disjoint_cons_left, List.disjoint_cons_right,
    List.disjoint_append_left, List.disjoint_append_right, List.not_mem_nil, List.nodup_nil,
    List.disjoint_nil_left, List.disjoint_nil_right, not_false_eq_true, true_and, and_true,
    List.append_nil, List.nil_append, List.cons_append] at hs <;>
  refine ⟨?_, ?_, ?_, ?_, ?_, ?_, ⟨n, ?_⟩, ?_, by simpa using hsep⟩ <;>
  simp [replace_successor_far, h1, h2, h3, hs]

set_option maxHeartbeats 1000000 in
/-- The relinking when the successor `s` lies at least three levels below `n`. Second and third step, after the left subtree has moved. -/
theorem swap_far2 (t : hyrbtree_t) (mid ctx : Ctx) (cn cs cq cr : Color) (n o s os q oq rr ro : Nat)
    (l sr qsib rsib : Tree)
    (h : ZRep t (Frame.L cq q oq qsib :: (mid ++ Frame.L cr rr ro rsib :: Frame.R cn n o Tree.leaf :: ctx)) (Tree.node cs s os l sr)) :
    HoleRep (replace_successor_far (replace_successor_parent t n s) n s)
      (Frame.L cq q oq qsib :: (mid ++ Frame.L cr rr ro rsib :: Frame.R cs s os l :: ctx)) cn n o Tree.leaf sr := by
  have hsep := Sep_swap_moved t.nil_node (Frame.L cq q oq qsib :: (mid ++ [Frame.L cr rr ro rsib])) ctx cn cs cn cs n o s os l sr
    (by simpa using h.2.2.2)
  simp only [List.cons_append, List.nil_append, List.append_assoc] at hsep
  obtain ⟨h1, h2, h3, hs⟩ := h
  rcases ctx with _ | ⟨⟨cp, p, op, sib⟩ | ⟨cp, p, op, sib⟩, ctx⟩ <;>
  rcases sr with _ | ⟨csr, x, ox, xl, xr⟩ <;>
  simp only [HoleRep, ZRep, RepCtx_append, RepCtx, Rep, rootOf_node, rootOf_leaf, ctxPar_nil,
    ctxPar_cons, ctxPar_append, ctxRoot_cons, ctxRoot_nil, ctxRoot_append, Frame.addr_L,
    Frame.addr_R, true_and, and_true, List.cons_append, List.nil_append, ne_eq, reduceCtorEq,
    not_false_eq_true, true_implies, not_true_eq_false, false_implies] at h1 h2 ⊢ <;>
  simp only [Sep, addrs_node, addrs_leaf, ctxAddrs_cons, ctxAddrs_nil, ctxAddrs_append,
    Frame.addr_L, Frame.addr_R,
    Frame.sibling_L, Frame.sibling_R, List.nodup_append, List.nodup_cons,
    List.mem_append, not_or, not_mem_cons_sym, List.disjoint_cons_left, List.disjoint_cons_right,
    List.disjoint_append_left, List.disjoint_append_right, List.not_mem_nil, List.nodup_nil,
    List.disjoint_nil_left, List.disjoint_nil_right, not_false_eq_true, true_and, and_true,
    List.append_nil, List.nil_append, List.cons_append] at hs <;>
  refine ⟨?_, ?_, ?_, ?_, ?_, ?_, ⟨n, ?_⟩, ?_, by simpa using hsep⟩ <;>
  simp [replace_successor_far, h1, h2, h3, hs]

open Tree hyrbtree_t hyrbtree_ret_t

theorem ctxPar_mem (top : Nat) : ∀ ctx : Ctx, ctxPar top ctx = top ∨ ctxPar top ctx ∈ ctxAddrs ctx
  | [] => Or.inl rfl
  | f :: ctx => Or.inr (by simp)

@[simp]
theorem HoleRep_set_root (t : hyrbtree_t) (K : Ctx) (c : Color) (n o v : Nat)
    (l r : Tree) : HoleRep (t.set_root v) K c n o l r ↔ HoleRep t K c n o l r := by
  simp [HoleRep]

theorem HoleRep_of_ZRep {t : hyrbtree_t} {K : Ctx} {c : Color} {n o : Nat} {l r : Tree}
    (h : ZRep t K (Tree.node c n o l r)) : HoleRep t K c n o l r := by
  obtain ⟨h1, ⟨a1, a2, a3, a4, a5, a6, a7⟩, h3, hs⟩ := h
  exact ⟨h1, a1, a2, a3, a4, a5, a6, ⟨n, a7⟩, h3, hs⟩

/-- The colour exchange of `hyrbtree_replace_successor`: the node `n` and its
successor `s` trade colours. -/
theorem successor_colors_rep (t : hyrbtree_t) (sctx ctx : Ctx) (c cs : Color) (n o s os : Nat)
    (l sl sr : Tree)
    (h : ZRep t (sctx ++ Frame.R c n o l :: ctx) (Tree.node cs s os sl sr)) :
    ZRep (replace_successor_colors t n s) (sctx ++ Frame.R cs n o l :: ctx)
      (Tree.node c s os sl sr) := by
  have hn0 := (ZRep_cons t _ _ _).1 ((ZRep_append t sctx _ _).1 h)
  have hn : HYRBTREE_READ_NODE_COLOR t n = c.code := hn0.2.1.2.1
  have hs : HYRBTREE_READ_NODE_COLOR t s = cs.code := h.2.1.2.1
  have black_n : ZRep (HYRBTREE_SET_NODE_BLACK t n) (sctx ++ Frame.R Color.black n o l :: ctx)
      (Tree.node cs s os sl sr) :=
    (ZRep_append _ sctx _ _).2 ((ZRep_cons _ (Frame.R Color.black n o l) ctx _).2
      (set_black_rep _ _ _ _ _ _ _ hn0))
  have red_n : ZRep (HYRBTREE_SET_NODE_RED t n) (sctx ++ Frame.R Color.red n o l :: ctx)
      (Tree.node cs s os sl sr) :=
    (ZRep_append _ sctx _ _).2 ((ZRep_cons _ (Frame.R Color.red n o l) ctx _).2
      (set_red_rep _ _ _ _ _ _ _ hn0))
  cases c <;> cases cs <;>
  simp only [replace_successor_colors, hn, hs, Color.code, HYRBTREE_NODE_RED,
    HYRBTREE_NODE_BLACK, ne_eq, not_true_eq_false, if_true, if_false, one_ne_zero, zero_ne_one,
    not_false_eq_true]
  · exact h
  · exact set_red_rep _ _ _ _ _ _ _ black_n
  · exact set_black_rep _ _ _ _ _ _ _ red_n
  · exact h

@[simp]
theorem successor_colors_root (t : hyrbtree_t) (n s : Nat) :
    (replace_successor_colors t n s).root_node = t.root_node := by
  simp only [replace_successor_colors]; split_ifs <;> rfl

theorem successor_colors_env (t : hyrbtree_t) (n s : Nat) :
    SameEnv t (replace_successor_colors t n s) := by
  simp only [replace_successor_colors]; split_ifs <;> exact ⟨rfl, rfl, rfl, rfl⟩

/-- The relinking of `hyrbtree_replace_successor`: the node `n` and the leftmost
node `s` of its right subtree trade places. -/
theorem links_rep (t : hyrbtree_t) (sctx ctx : Ctx) (cn cs : Color) (n o s os : Nat)
    (l sr : Tree) (hall : ∀ f ∈ sctx, ∃ cc a o' sib, f = Frame.L cc a o' sib)
    (h : ZRep t (sctx ++ Frame.R cn n o l :: ctx) (Tree.node cs s os Tree.leaf sr))
    (hroot : t.root_node = ctxRoot ctx n) :
    HoleRep (replace_successor_links t n s) (sctx ++ Frame.R cs s os l :: ctx) cn n o
      Tree.leaf sr ∧
    (replace_successor_links t n s).root_node = ctxRoot ctx s := by
  have hL := successor_left_rep t sctx ctx cn cs n o s os l sr h
  have hn := (RepCtx_append _ sctx _ _ _).1 hL.1
  have hrn : (replace_successor_left t n s).right_node n = ctxRoot sctx s := hn.2.2.2.2.2.1
  have hpn : (replace_successor_left t n s).parent_node n = ctxPar t.nil_node ctx := by
    simpa using hn.2.2.2.1
  have hsep := hL.2.2.2
  have hnctx : n ∉ ctxAddrs ctx := Sep_mid_not_mem hsep
  have hnnil : ¬ n = t.nil_node := by
    have := hsep.2
    simp only [ctxAddrs_append, ctxAddrs_cons, List.mem_append, List.mem_cons, Frame.addr_R,
      not_or, successor_left_nil_node] at this
    exact fun e => this.2.2.1 e.symm
  have hnP : ¬ n = (replace_successor_left t n s).parent_node n := by
    rw [hpn]
    rcases ctxPar_mem t.nil_node ctx with e | e
    · rw [e]; exact hnnil
    · exact fun e' => hnctx (e' ▸ e)
  have hrn2 : (replace_successor_parent (replace_successor_left t n s) n s).right_node n =
      ctxRoot sctx s := by
    rw [successor_parent_right_ne _ _ _ _ hnP, hrn]
  have hroot1 : ((replace_successor_left t n s).root_node) = t.root_node := by simp
  -- the root pointer
  have hrootfix : ∀ X : hyrbtree_t, X.root_node = t.root_node →
      (if n = X.root_node then X.set_root s else X).root_node = ctxRoot ctx s := by
    intro X hX
    by_cases hctx : ctx = []
    · subst hctx
      simp only [ctxRoot_nil] at hroot ⊢
      simp [hX, hroot]
    · have hne := ne_root_of_frame (f := Frame.R cn n o l) h.2.2.2 hroot hctx
      simp only [Frame.addr_R] at hne
      rw [hX, if_neg hne, hX, hroot]
      exact ctxRoot_congr ctx _ _ hctx
  have hholefix : ∀ (K : Ctx) (X : hyrbtree_t),
      HoleRep X K cn n o Tree.leaf sr →
      HoleRep (if n = X.root_node then X.set_root s else X) K cn n o Tree.leaf sr := by
    intro K X hX
    split_ifs
    · exact (HoleRep_set_root _ _ _ _ _ _ _ _).2 hX
    · exact hX
  simp only [replace_successor_links]
  rw [hrn2]
  rcases sctx with _ | ⟨F, rest⟩
  · simp only [ctxRoot_nil, ne_eq, not_true_eq_false, if_false, List.nil_append] at hL ⊢
    exact ⟨hholefix _ _ (swap_adj _ ctx cn cs n o s os l sr hL), hrootfix _ (by simp)⟩
  · obtain ⟨cq, q, oq, qsib, rfl⟩ := hall F (by simp)
    have hsne : ¬ s = ctxRoot (Frame.L cq q oq qsib :: rest) s := by
      intro e
      have hd := List.disjoint_of_nodup_append hsep.1
      have hm := ctxRoot_mem (Frame.L cq q oq qsib :: rest) s (by simp)
      rw [← e] at hm
      exact hd (a := s) (by simp) (by rw [ctxAddrs_append]; exact List.mem_append_left _ hm)
    simp only [ne_eq, hsne, not_false_eq_true, if_true]
    rcases List.eq_nil_or_concat rest with rfl | ⟨mid, last, rfl⟩
    · simp only [List.cons_append, List.nil_append] at hL ⊢
      exact ⟨hholefix _ _ (swap_far1 _ ctx cn cs cq n o s os q oq l sr qsib hL),
        hrootfix _ (by simp)⟩
    · obtain ⟨cr, rr, ro, rsib, rfl⟩ := hall last (by simp)
      simp only [List.cons_append, List.append_assoc, List.singleton_append,
        List.concat_eq_append] at hL ⊢
      exact ⟨hholefix _ _ (swap_far2 _ mid ctx cn cs cq cr n o s os q oq rr ro l sr qsib rsib hL),
        hrootfix _ (by simp)⟩

open Tree hyrbtree_t hyrbtree_ret_t

/-! ## The four branches of `hyrbtree_del_balance` -/

theorem Sep_of_sublist {nil : Nat} {ctx ctx' : Ctx} {s s' : Tree}
    (hp : (addrs s' ++ ctxAddrs ctx').Sublist (addrs s ++ ctxAddrs ctx)) (h : Sep nil ctx s) :
    Sep nil ctx' s' :=
  ⟨h.1.sublist hp, fun hm => h.2 (hp.subset hm)⟩

/-- Branch 1: the node `n` has a right child only, the RED leaf `x`, which takes
its place and turns BLACK. -/
theorem del_splice_right (t : hyrbtree_t) (F : Frame) (K : Ctx) (c cx : Color)
    (n o x ox fuel : Nat)
    (h : HoleRep t (F :: K) c n o Tree.leaf (Tree.node cx x ox Tree.leaf Tree.leaf)) :
    ∃ t', hyrbtree_del_balance fuel t n = some t' ∧
      ZRep t' (F :: K) (Tree.node Color.black x ox Tree.leaf Tree.leaf) ∧
      t'.root_node = t.root_node ∧ SameEnv t t' := by
  obtain ⟨h1, a1, a2, a3, a4, a5, a6, ⟨q, a7⟩, h3, hs⟩ := h
  have hsep : Sep t.nil_node (F :: K) (Tree.node Color.black x ox Tree.leaf Tree.leaf) :=
    Sep_of_sublist (by simp) hs
  rcases F with ⟨cp, p, op, sib⟩ | ⟨cp, p, op, sib⟩ <;>
  simp only [RepCtx, Rep, rootOf_node, rootOf_leaf, ctxPar_nil, ctxPar_cons, Frame.addr_L,
    Frame.addr_R, true_and, and_true] at h1 a3 a4 a5 a7 <;>
  simp only [Sep, addrs_node, addrs_leaf, ctxAddrs_cons, ctxAddrs_nil, Frame.addr_L, Frame.addr_R,
    Frame.sibling_L, Frame.sibling_R, List.nodup_append, List.nodup_cons,
    List.mem_append, not_or, not_mem_cons_sym, List.disjoint_cons_left, List.disjoint_cons_right,
    List.disjoint_append_left, List.disjoint_append_right, List.not_mem_nil, List.nodup_nil,
    List.disjoint_nil_left, List.disjoint_nil_right, not_false_eq_true, true_and, and_true,
    List.append_nil, List.nil_append] at hs <;>
  simp [hyrbtree_del_balance, h1, a3, a4, a5, a7, hs] <;>
  refine ⟨⟨?_, ?_, ?_, by simpa using hsep⟩, ⟨by simp, by simp, by simp, by simp⟩⟩ <;>
  simp [RepCtx, Rep, h1, a1, a2, a3, a4, a5, a7, hs, h3, Color.code, HYRBTREE_NODE_BLACK]

/-- Branch 2: the node `n` has a left child only, the RED leaf `x`, which takes
its place and turns BLACK; the root pointer follows when `n` was the root. -/
theorem del_splice_left (t : hyrbtree_t) (K : Ctx) (c cx : Color) (n o x ox fuel : Nat)
    (h : ZRep t K (Tree.node c n o (Tree.node cx x ox Tree.leaf Tree.leaf) Tree.leaf))
    (hroot : t.root_node = ctxRoot K n) :
    ∃ t', hyrbtree_del_balance fuel t n = some t' ∧
      ZRep t' K (Tree.node Color.black x ox Tree.leaf Tree.leaf) ∧
      t'.root_node = ctxRoot K x ∧ SameEnv t t' := by
  have hnr : K ≠ [] → ¬ n = ctxRoot K n := fun hK =>
    hroot ▸ @ne_root_of_frame t [] (Frame.L c n o Tree.leaf) K _
      ((Sep_cons _ _ _ _).2 h.2.2.2) hroot hK
  obtain ⟨h1, h2, h3, hs⟩ := h
  have hsep : Sep t.nil_node K (Tree.node Color.black x ox Tree.leaf Tree.leaf) :=
    Sep_of_sublist (by simp) hs
  rcases K with _ | ⟨⟨cp, p, op, sib⟩ | ⟨cp, p, op, sib⟩, K⟩ <;>
  simp only [RepCtx, Rep, rootOf_node, rootOf_leaf, ctxPar_nil, ctxPar_cons, Frame.addr_L,
    Frame.addr_R, true_and, and_true, ctxRoot_nil, ctxRoot_cons, ne_eq, reduceCtorEq,
    not_false_eq_true, true_implies, not_true_eq_false, false_implies] at h1 h2 hroot hnr ⊢ <;>
  simp only [Sep, addrs_node, addrs_leaf, ctxAddrs_cons, ctxAddrs_nil, Frame.addr_L, Frame.addr_R,
    Frame.sibling_L, Frame.sibling_R, List.nodup_append, List.nodup_cons,
    List.mem_append, not_or, not_mem_cons_sym, List.disjoint_cons_left, List.disjoint_cons_right,
    List.disjoint_append_left, List.disjoint_append_right, List.not_mem_nil, List.nodup_nil,
    List.disjoint_nil_left, List.disjoint_nil_right, not_false_eq_true, true_and, and_true,
    List.append_nil, List.nil_append] at hs <;>
  simp [hyrbtree_del_balance, h1, h2, hs, hroot, hnr] <;>
  refine ⟨⟨?_, ?_, ?_, by simpa using hsep⟩, ⟨by simp, by simp, by simp, by simp⟩⟩ <;>
  simp [RepCtx, Rep, h1, h2, hs, h3, hroot, hnr, Color.code, HYRBTREE_NODE_BLACK]

/-- Branch 3: the node `n` is a RED leaf and is unlinked from its parent. -/
theorem del_unlink_red (t : hyrbtree_t) (F : Frame) (K : Ctx) (n o fuel : Nat)
    (h : ZRep t (F :: K) (Tree.node Color.red n o Tree.leaf Tree.leaf)) :
    ∃ t', hyrbtree_del_balance fuel t n = some t' ∧ ZRep t' (F :: K) Tree.leaf ∧
      t'.root_node = t.root_node ∧ SameEnv t t' := by
  obtain ⟨h1, h2, h3, hs⟩ := h
  have hsep : Sep t.nil_node (F :: K) Tree.leaf := Sep_of_sublist (by simp) hs
  rcases F with ⟨cp, p, op, sib⟩ | ⟨cp, p, op, sib⟩ <;>
  simp only [RepCtx, Rep, rootOf_node, rootOf_leaf, ctxPar_nil, ctxPar_cons, Frame.addr_L,
    Frame.addr_R, true_and, and_true, ctxRoot_nil, ctxRoot_cons, ne_eq, reduceCtorEq,
    not_false_eq_true, true_implies, not_true_eq_false, false_implies] at h1 h2 ⊢ <;>
  simp only [Sep, addrs_node, addrs_leaf, ctxAddrs_cons, ctxAddrs_nil, Frame.addr_L, Frame.addr_R,
    Frame.sibling_L, Frame.sibling_R, List.nodup_append, List.nodup_cons,
    List.mem_append, not_or, not_mem_cons_sym, List.disjoint_cons_left, List.disjoint_cons_right,
    List.disjoint_append_left, List.disjoint_append_right, List.not_mem_nil, List.nodup_nil,
    List.disjoint_nil_left, List.disjoint_nil_right, not_false_eq_true, true_and, and_true,
    List.append_nil, List.nil_append] at hs <;>
  simp [hyrbtree_del_balance, h1, h2, hs, Color.code, HYRBTREE_NODE_RED] <;>
  refine ⟨⟨?_, ?_, ?_, by simpa using hsep⟩, ⟨by simp, by simp, by simp, by simp⟩⟩ <;>
  simp [RepCtx, Rep, h1, h2, hs, h3]

/-- Branch 4 at the root: the tree becomes empty. -/
theorem del_last (t : hyrbtree_t) (n o fuel : Nat)
    (h : ZRep t [] (Tree.node Color.black n o Tree.leaf Tree.leaf))
    (hroot : t.root_node = n) :
    ∃ t', hyrbtree_del_balance fuel t n = some t' ∧ ZRep t' [] Tree.leaf ∧
      t'.root_node = t'.nil_node ∧ SameEnv t t' := by
  obtain ⟨h1, h2, h3, hs⟩ := h
  simp only [Rep, rootOf_leaf] at h2
  refine ⟨t.set_root t.nil_node, ?_, ?_, rfl, ⟨rfl, rfl, rfl, rfl⟩⟩
  · simp [hyrbtree_del_balance, h2, hroot, Color.code, HYRBTREE_NODE_RED, HYRBTREE_NODE_BLACK]
  · simpa [ZRep, RepCtx, Rep, Sep] using h3

/-- Branch 4 below the root: the BLACK leaf `n` is unlinked and the loop starts
at the empty slot. -/
theorem del_unlink_black (t : hyrbtree_t) (F : Frame) (K : Ctx) (n o fuel : Nat)
    (h : ZRep t (F :: K) (Tree.node Color.black n o Tree.leaf Tree.leaf))
    (hroot : t.root_node = ctxRoot K F.addr) :
    ∃ t1, hyrbtree_del_balance fuel t n =
        hyrbtree_del_balance_loop fuel t1 t1.nil_node F.addr 0 ∧
      ZRep t1 (F :: K) Tree.leaf ∧ t1.root_node = t.root_node ∧ SameEnv t t1 := by
  have hnr : ¬ n = t.root_node := by
    have hd := List.disjoint_of_nodup_append h.2.2.2.1
    intro e
    exact hd (a := n) (by simp) (e.trans hroot ▸ ctxRoot_mem (F :: K) n (by simp))
  obtain ⟨h1, h2, h3, hs⟩ := h
  have hsep : Sep t.nil_node (F :: K) Tree.leaf := Sep_of_sublist (by simp) hs
  rcases F with ⟨cp, p, op, sib⟩ | ⟨cp, p, op, sib⟩ <;>
  simp only [RepCtx, Rep, rootOf_node, rootOf_leaf, ctxPar_nil, ctxPar_cons, Frame.addr_L,
    Frame.addr_R, true_and, and_true, ctxRoot_nil, ctxRoot_cons, ne_eq, reduceCtorEq,
    not_false_eq_true, true_implies, not_true_eq_false, false_implies] at h1 h2 ⊢ <;>
  simp only [Sep, addrs_node, addrs_leaf, ctxAddrs_cons, ctxAddrs_nil, Frame.addr_L, Frame.addr_R,
    Frame.sibling_L, Frame.sibling_R, List.nodup_append, List.nodup_cons,
    List.mem_append, not_or, not_mem_cons_sym, List.disjoint_cons_left, List.disjoint_cons_right,
    List.disjoint_append_left, List.disjoint_append_right, List.not_mem_nil, List.nodup_nil,
    List.disjoint_nil_left, List.disjoint_nil_right, not_false_eq_true, true_and, and_true,
    List.append_nil, List.nil_append] at hs
  · refine ⟨t.set_left p t.nil_node, ?_, ⟨?_, ?_, ?_, by simpa using hsep⟩, rfl,
      ⟨rfl, rfl, rfl, rfl⟩⟩ <;>
    simp [hyrbtree_del_balance, RepCtx, Rep, h1, h2, hs, h3, hnr, Color.code, HYRBTREE_NODE_RED,
      HYRBTREE_NODE_BLACK]
  · refine ⟨t.set_right p t.nil_node, ?_, ⟨?_, ?_, ?_, by simpa using hsep⟩, rfl,
      ⟨rfl, rfl, rfl, rfl⟩⟩ <;>
    simp [hyrbtree_del_balance, RepCtx, Rep, h1, h2, hs, h3, hnr, Color.code, HYRBTREE_NODE_RED,
      HYRBTREE_NODE_BLACK]

open Tree hyrbtree_t hyrbtree_ret_t

/-! ## Red-black facts used by the deletion -/

theorem leaf_of_bh_zero : ∀ s : Tree, bh s = 0 → rootColor s = Color.black → s = Tree.leaf
  | Tree.leaf, _, _ => rfl
  | Tree.node c a o l r, h1, h2 => by
    simp only [rootColor_node] at h2
    subst h2
    simp [bh] at h1

/-- A balanced subtree without BLACK nodes is empty or a single RED node. -/
theorem red_leaf_of_bh_zero : ∀ s : Tree, Bal s → NoRedRed s → bh s = 0 →
    s = Tree.leaf ∨ ∃ x ox, s = Tree.node Color.red x ox Tree.leaf Tree.leaf
  | Tree.leaf, _, _, _ => Or.inl rfl
  | Tree.node c a o l r, hb, hn, h => by
    cases c with
    | black => simp [bh] at h
    | red =>
      simp only [bh] at h
      simp only [Bal_node] at hb
      simp only [NoRedRed_node, true_implies] at hn
      have hl := leaf_of_bh_zero l h hn.1.1
      have hr := leaf_of_bh_zero r (by omega) hn.1.2
      subst hl; subst hr
      exact Or.inr ⟨a, o, rfl⟩

/-- Replacing the subtree in focus by a BLACK-rooted red-black subtree of the
same black-height keeps the invariants of the whole tree. -/
theorem RBTree_replace (K : Ctx) (X X' : Tree) (h : RBTree (plug K X)) (hb : Bal X')
    (hn : NoRedRed X') (hh : bh X' = bh X) (hc : rootColor X' = Color.black) :
    RBTree (plug K X') := by
  obtain ⟨h1, h2, h3⟩ := h
  rw [rootColor_plug] at h1
  rw [NoRedRed_plug] at h2
  rw [Bal_plug] at h3
  refine ⟨?_, (NoRedRed_plug _ _).2 ⟨hn, ?_⟩, (Bal_plug _ _).2 ⟨hb, hh ▸ h3.2⟩⟩
  · rw [rootColor_plug]
    by_cases hK : K = []
    · subst hK; simpa using hc
    · rw [← h1]; exact ctxRootColor_congr K _ _ hK
  · rw [hc]; exact CtxNoRedRed_black _ _ h2.2

/-- A node with a single child is BLACK and its child is a RED leaf. -/
theorem single_child_right (K : Ctx) (c : Color) (n o : Nat) (r : Tree)
    (h : RBTree (plug K (Tree.node c n o Tree.leaf r))) (hr : r ≠ Tree.leaf) :
    ∃ x ox, r = Tree.node Color.red x ox Tree.leaf Tree.leaf ∧
      RBTree (plug K (Tree.node Color.black x ox Tree.leaf Tree.leaf)) := by
  have h2 := (NoRedRed_plug _ _).1 h.2.1
  have h3 := (Bal_plug _ _).1 h.2.2
  simp only [Bal_node, NoRedRed_node, Bal_leaf, NoRedRed_leaf, bh_leaf, true_and,
    rootColor_leaf] at h2 h3
  rcases red_leaf_of_bh_zero r h3.1.1 h2.1.2 h3.1.2.symm with e | ⟨x, ox, e⟩
  · exact absurd e hr
  · subst e
    refine ⟨x, ox, rfl, RBTree_replace K _ _ h (by simp) (by simp) ?_ rfl⟩
    have hc : c = Color.black := by
      cases c
      · have := h2.1.1 rfl; simp at this
      · rfl
    subst hc
    simp [bh]

theorem single_child_left (K : Ctx) (c : Color) (n o : Nat) (l : Tree)
    (h : RBTree (plug K (Tree.node c n o l Tree.leaf))) (hl : l ≠ Tree.leaf) :
    ∃ x ox, l = Tree.node Color.red x ox Tree.leaf Tree.leaf ∧
      RBTree (plug K (Tree.node Color.black x ox Tree.leaf Tree.leaf)) := by
  have h2 := (NoRedRed_plug _ _).1 h.2.1
  have h3 := (Bal_plug _ _).1 h.2.2
  simp only [Bal_node, NoRedRed_node, Bal_leaf, NoRedRed_leaf, bh_leaf, true_and, and_true,
    rootColor_leaf] at h2 h3
  rcases red_leaf_of_bh_zero l h3.1.1 h2.1.2 h3.1.2 with e | ⟨x, ox, e⟩
  · exact absurd e hl
  · subst e
    refine ⟨x, ox, rfl, RBTree_replace K _ _ h (by simp) (by simp) ?_ rfl⟩
    have hc : c = Color.black := by
      cases c
      · have := h2.1.1 rfl; simp at this
      · rfl
    subst hc
    simp [bh]

/-- Removing a RED leaf keeps the invariants; a RED leaf is never the root. -/
theorem remove_red_leaf (K : Ctx) (n o : Nat)
    (h : RBTree (plug K (Tree.node Color.red n o Tree.leaf Tree.leaf))) :
    K ≠ [] ∧ RBTree (plug K Tree.leaf) := by
  refine ⟨?_, RBTree_replace K _ _ h (by simp) (by simp) (by simp [bh]) rfl⟩
  rintro rfl
  have := h.1
  simp at this

/-- Removing a BLACK leaf leaves the empty slot one BLACK node short. -/
theorem remove_black_leaf (K : Ctx) (n o : Nat)
    (h : RBTree (plug K (Tree.node Color.black n o Tree.leaf Tree.leaf))) :
    DelInv K Tree.leaf := by
  obtain ⟨h1, h2, h3⟩ := h
  rw [rootColor_plug] at h1
  rw [NoRedRed_plug] at h2
  rw [Bal_plug] at h3
  exact ⟨by simp, by simp, rfl, by simpa [bh] using h3.2, by simpa using h2.2,
    by simpa using h1⟩

/-- The exchange of a node with its successor keeps the invariants: colours
stay with the positions. -/
theorem RBTree_swap (sctx ctx : Ctx) (c cs : Color) (n o s os : Nat) (l sl sr : Tree)
    (h : RBTree (plug (sctx ++ Frame.R c n o l :: ctx) (Tree.node cs s os sl sr))) :
    RBTree (plug (sctx ++ Frame.R c s os l :: ctx) (Tree.node cs n o sl sr)) := by
  obtain ⟨h1, h2, h3⟩ := h
  rw [rootColor_plug] at h1
  rw [NoRedRed_plug] at h2
  rw [Bal_plug] at h3
  refine ⟨?_, (NoRedRed_plug _ _).2 ⟨?_, ?_⟩, (Bal_plug _ _).2 ⟨?_, ?_⟩⟩
  · rw [rootColor_plug, ← h1]
    exact ctxRootColor_relabel ctx (Frame.R c s os l) (Frame.R c n o l) rfl sctx _
  · simpa using h2.1
  · exact (CtxNoRedRed_relabel ctx (Frame.R c n o l) (Frame.R c s os l) rfl rfl sctx _).1 h2.2
  · simpa using h3.1
  · have := (CtxBal_relabel ctx (Frame.R c n o l) (Frame.R c s os l) rfl rfl sctx _).1 h3.2
    simpa [bh_node] using this

theorem exists_plug_of_mem_owners : ∀ (T : Tree) (o : Nat), o ∈ owners T →
    ∃ ctx c n l r, T = plug ctx (Tree.node c n o l r)
  | Tree.leaf, _, h => by simp [owners] at h
  | Tree.node c a o' l r, o, h => by
    simp only [owners, List.mem_append, List.mem_cons] at h
    rcases h with h | rfl | h
    · obtain ⟨ctx, c', n, l', r', e⟩ := exists_plug_of_mem_owners l o h
      exact ⟨ctx ++ [Frame.L c a o' r], c', n, l', r', by rw [plug_append, ← e]; rfl⟩
    · exact ⟨[], c, a, l, r, rfl⟩
    · obtain ⟨ctx, c', n, l', r', e⟩ := exists_plug_of_mem_owners r o h
      exact ⟨ctx ++ [Frame.R c a o' l], c', n, l', r', by rw [plug_append, ← e]; rfl⟩

open Tree hyrbtree_t hyrbtree_ret_t

/-! ## `hyrbtree_replace_successor` and `hyrbtree_del_balance` as a whole -/

theorem ZRep_of_HoleRep_leaf {t : hyrbtree_t} {K : Ctx} {c : Color} {n o : Nat} {l : Tree}
    (h : HoleRep t K c n o l Tree.leaf) : ZRep t K (Tree.node c n o l Tree.leaf) := by
  obtain ⟨h1, a1, a2, a3, a4, a5, a6, -, h3, hs⟩ := h
  exact ⟨h1, ⟨a1, a2, a3, a4, a5, a6, trivial⟩, h3, hs⟩

/-- `hyrbtree_replace_successor` on a node with a right subtree: the node `n`
trades places with the leftmost node `s` of its right subtree, colours staying
with the positions, and `n` ends up without a left child. -/
theorem replace_successor_spec (t : hyrbtree_t) (ctx : Ctx) (c : Color) (n o fuel : Nat)
    (l r : Tree) (h : ZRep t ctx (Tree.node c n o l r)) (hroot : t.root_node = ctxRoot ctx n)
    (hr : r ≠ Tree.leaf) (hf : size r ≤ fuel) :
    ∃ sctx cs s os sr t1, r = plug sctx (Tree.node cs s os Tree.leaf sr) ∧
      (∀ f ∈ sctx, ∃ cc a o' sib, f = Frame.L cc a o' sib) ∧
      hyrbtree_replace_successor fuel t n = some t1 ∧
      HoleRep t1 (sctx ++ Frame.R c s os l :: ctx) cs n o Tree.leaf sr ∧
      t1.root_node = ctxRoot ctx s ∧ SameEnv t t1 := by
  have hrep := h.2.1
  have hnil : t.nil_node ∉ addrs r := by
    have := h.2.2.2.2
    simp only [addrs_node, List.mem_append, List.mem_cons, not_or] at this
    exact this.1.2.2
  obtain ⟨sctx, cs, s, os, sr, e, hall, hw⟩ :=
    successor_walk t r n fuel hr hrep.2.2.2.2.2.2 hnil hf
  have hrn : t.right_node n = rootOf t.nil_node r := hrep.2.2.2.2.1
  have hne : ¬ rootOf t.nil_node r = t.nil_node := by
    rcases rootOf_mem_or t.nil_node r with h' | h'
    · cases r with
      | leaf => exact absurd rfl hr
      | node c' a' o' l' r' =>
        simp only [rootOf_node] at h' ⊢
        intro e'
        apply hnil
        rw [← e']; simp
    · intro e'
      exact hnil (e' ▸ h')
  subst e
  have hK : ZRep t (sctx ++ Frame.R c n o l :: ctx) (Tree.node cs s os Tree.leaf sr) :=
    (ZRep_append _ sctx _ _).2 ((ZRep_cons _ (Frame.R c n o l) ctx _).2 h)
  have hc := successor_colors_rep t sctx ctx c cs n o s os l Tree.leaf sr hK
  obtain ⟨hH, hR⟩ := links_rep _ sctx ctx cs c n o s os l sr hall hc (by simpa using hroot)
  refine ⟨sctx, cs, s, os, sr, _, rfl, hall, ?_, hH, hR,
    SameEnv_trans (successor_colors_env t n s) (links_env _ n s)⟩
  simp only [hyrbtree_replace_successor, hrn, ne_eq, hne, not_false_eq_true, if_true, hw]

/-- `hyrbtree_replace_successor` on a node without right subtree does nothing. -/
theorem replace_successor_none (t : hyrbtree_t) (ctx : Ctx) (c : Color) (n o fuel : Nat)
    (l : Tree) (h : ZRep t ctx (Tree.node c n o l Tree.leaf)) :
    hyrbtree_replace_successor fuel t n = some t := by
  have hrn : t.right_node n = t.nil_node := h.2.1.2.2.2.2.1
  simp [hyrbtree_replace_successor, hrn]

/-- `hyrbtree_del_balance` on a node `n` with at most one child: the call
returns, and the new state holds a red-black tree whose nodes are those of the
old tree in the same order, without `n`. -/
theorem del_balance_spec (t : hyrbtree_t) (K : Ctx) (c : Color) (n o fuel : Nat) (l r : Tree)
    (h : HoleRep t K c n o l r) (hroot : t.root_node = ctxRoot K n)
    (hlr : r ≠ Tree.leaf → l = Tree.leaf ∧ K ≠ [])
    (hrb : RBTree (plug K (Tree.node c n o l r))) (hf : K.length + 1 ≤ fuel) :
    ∃ t' T', hyrbtree_del_balance fuel t n = some t' ∧
      t'.root_node = rootOf t'.nil_node T' ∧ ZRep t' [] T' ∧ RBTree T' ∧
      nodes T' = ctxBefore K ++ ((nodes l ++ nodes r) ++ ctxAfter K) ∧ SameEnv t t' := by
  by_cases hr : r = Tree.leaf
  · subst hr
    have hz := ZRep_of_HoleRep_leaf h
    by_cases hl : l = Tree.leaf
    · subst hl
      cases c with
      | red =>
        obtain ⟨hK, hrb'⟩ := remove_red_leaf K n o hrb
        rcases K with _ | ⟨F, K⟩
        · exact absurd rfl hK
        obtain ⟨t', h1, h2, h3, h4⟩ := del_unlink_red t F K n o fuel hz
        refine ⟨t', _, h1, ?_, (ZRep_plug _ _ _).2 h2, hrb', ?_, h4⟩
        · rw [rootOf_plug, h3, hroot, h4.2.2.2]; rfl
        · rw [nodes_plug]; simp [nodes]
      | black =>
        rcases K with _ | ⟨F, K⟩
        · obtain ⟨t', h1, h2, h3, h4⟩ := del_last t n o fuel hz (by simpa using hroot)
          exact ⟨t', Tree.leaf, h1, by simpa using h3, h2, by simp [RBTree],
            by simp [nodes, ctxBefore, ctxAfter], h4⟩
        · obtain ⟨t1, h1, h2, h3, h4⟩ := del_unlink_black t F K n o fuel hz
            (by simpa using hroot)
          have hinv := remove_black_leaf (F :: K) n o hrb
          obtain ⟨t', h5, T', h6, h7, h8, h9, h10⟩ := del_balance_loop_spec fuel K t1 F
            Tree.leaf (by simp only [List.length_cons] at hf; omega) h2
            (by rw [h3, hroot]; rfl) hinv
          refine ⟨t', T', by rw [h1]; exact h5, h6, h7, h9, ?_, SameEnv_trans h4 h10⟩
          rw [h8, nodes_plug]; simp [nodes]
    · obtain ⟨x, ox, e, hrb'⟩ := single_child_left K c n o l hrb hl
      subst e
      obtain ⟨t', h1, h2, h3, h4⟩ := del_splice_left t K c Color.red n o x ox fuel hz hroot
      refine ⟨t', _, h1, ?_, (ZRep_plug _ _ _).2 h2, hrb', ?_, h4⟩
      · rw [rootOf_plug, h3]; rfl
      · rw [nodes_plug]; simp [nodes]
  · obtain ⟨hl, hK⟩ := hlr hr
    subst hl
    obtain ⟨x, ox, e, hrb'⟩ := single_child_right K c n o r hrb hr
    subst e
    rcases K with _ | ⟨F, K⟩
    · exact absurd rfl hK
    obtain ⟨t', h1, h2, h3, h4⟩ := del_splice_right t F K c Color.red n o x ox fuel h
    refine ⟨t', _, h1, ?_, (ZRep_plug _ _ _).2 h2, hrb', ?_, h4⟩
    · rw [rootOf_plug, h3, hroot, h4.2.2.2]; rfl
    · rw [nodes_plug]; simp [nodes]

open Tree hyrbtree_t hyrbtree_ret_t

/-! ## `hyrbtree_del_node` -/

/-- Clearing the owner word of the removed node completes the deletion. -/
theorem DelOk_of (t t2 : hyrbtree_t) (T T' : Tree) (n o : Nat) (l1 l2 : List (Nat × Nat))
    (hwf : WellFormed t T) (hn : n = t.get_rbnode o) (heven : o % 2 = 0)
    (hT : nodes T = l1 ++ (n, o) :: l2) (hT' : nodes T' = l1 ++ l2)
    (he : SameEnv t t2) (hroot : t2.root_node = rootOf t2.nil_node T') (hz : ZRep t2 [] T')
    (hrb : RBTree T') :
    DelOk t (t2.set_user n HY_NULL) T T' o := by
  obtain ⟨hrep, -, hsorted, hord⟩ := hwf
  have hmem : (n, o) ∈ nodes T := by rw [hT]; simp
  have hnd := hrep.nodup
  rw [addrs_eq_map, hT] at hnd
  simp only [List.map_append, List.map_cons, List.nodup_append, List.nodup_cons, List.mem_map,
    List.disjoint_cons_right] at hnd
  have hnT' : n ∉ addrs T' := by
    rw [addrs_eq_map, hT']
    simp only [List.map_append, List.mem_append, List.mem_map, not_or]
    exact ⟨hnd.2.2.1, hnd.2.1.1⟩
  have hnnil : ¬ t2.nil_node = n := by
    intro e
    apply hrep.nil_not_mem
    rw [← he.2.2.2, e, addrs_eq_map]
    exact List.mem_map.2 ⟨(n, o), hmem, rfl⟩
  have hsub : (l1 ++ l2).Sublist (l1 ++ (n, o) :: l2) :=
    List.Sublist.append_left (List.sublist_cons_self _ _) l1
  refine ⟨⟨(Represents_iff _ _).2 ⟨hroot, ⟨trivial, ?_, ?_, hz.2.2.2⟩, ?_⟩, hrb, ?_, ?_⟩,
    ⟨he.1, he.2.1, he.2.2.1, he.2.2.2⟩, ⟨(hrep.linked _ hmem).2, heven, ?_, ?_⟩,
    l1, l2, hn ▸ hT, hT'⟩
  · exact (Rep_set_user t2 n _ T' _ hnT').2 hz.2.1
  · have := hz.2.2.1
    simpa [color_set_user, hnnil] using this
  · intro p hp
    have hp' : p ∈ nodes T := by rw [hT]; exact hsub.subset (hT' ▸ hp)
    have := hrep.linked p hp'
    exact ⟨by simpa [he.1] using this.1, this.2⟩
  · have hk : keyLt (t2.set_user n HY_NULL) = keyLt t :=
      @keyLt_congr t (t2.set_user n HY_NULL) ⟨he.1, he.2.1, he.2.2.1, he.2.2.2⟩
    rw [hk, owners_eq_map, hT']
    rw [owners_eq_map, hT] at hsorted
    exact hsorted.sublist (hsub.map _)
  · simpa [he.2.2.1] using hord
  · show ¬ t2.get_rbnode o = t2.nil_node
    rw [he.1, ← hn]
    exact fun e => hnnil e.symm
  · show HYRBTREE_GET_NODE_ADDR (t2.set_user n HY_NULL) (t2.get_rbnode o) = HY_NULL
    rw [he.1, ← hn]
    simp [addr_set_user, HY_NULL]

theorem addr_even (t : hyrbtree_t) (n : Nat) : HYRBTREE_GET_NODE_ADDR t n % 2 = 0 := by
  simp only [HYRBTREE_GET_NODE_ADDR]; omega

/-- `hyrbtree_del_node` on a well-formed tree, for an attached owner: the call
returns OK, and the new state holds a well-formed tree whose nodes are the old
ones without the node of the owner, which is detached afterwards. -/
theorem del_node_ok (t : hyrbtree_t) (T : Tree) (o fuel : Nat) (hwf : WellFormed t T)
    (ho : o ∈ owners T) (hf : size T < fuel) :
    ∃ t' T', hyrbtree_del_node fuel t o = some (HYRBTREE_RET_OK, t') ∧ DelOk t t' T T' o := by
  obtain ⟨ctx, c, n, l, r, hT⟩ := exists_plug_of_mem_owners T o ho
  have hz0 := ((Represents_iff _ _).1 hwf.1).2.1
  rw [hT] at hz0
  have hz := (ZRep_plug _ _ _).1 hz0
  have hroot : t.root_node = ctxRoot ctx n := by
    rw [hwf.1.root, hT, rootOf_plug]; rfl
  have hmem : (n, o) ∈ nodes T := by rw [hT, nodes_plug]; simp [nodes]
  have hn : n = t.get_rbnode o := (hwf.1.linked _ hmem).1
  have haddr : HYRBTREE_GET_NODE_ADDR t n = o := hz.2.1.1
  have heven : o % 2 = 0 := haddr ▸ addr_even t n
  have hsize := length_le_size ctx (Tree.node c n o l r)
  rw [← hT] at hsize
  simp only [size] at hsize
  have hrb : RBTree (plug ctx (Tree.node c n o l r)) := hT ▸ hwf.2.1
  simp only [hyrbtree_del_node, ← hn, haddr, if_true]
  by_cases hr : r = Tree.leaf
  · subst hr
    rw [replace_successor_none t ctx c n o fuel l hz]
    obtain ⟨t2, T', h1, h2, h3, h4, h5, h6⟩ := del_balance_spec t ctx c n o fuel l Tree.leaf
      (HoleRep_of_ZRep hz) hroot (fun h => absurd rfl h) hrb (by omega)
    refine ⟨_, T', by simp only [h1], DelOk_of t t2 T T' n o (ctxBefore ctx ++ nodes l)
      (ctxAfter ctx) hwf hn heven ?_ ?_ h6 h2 h3 h4⟩
    · rw [hT, nodes_plug]; simp [nodes]
    · rw [h5]; simp [nodes]
  · obtain ⟨sctx, cs, s, os, sr, t1, e, hall, h1, hH, hR, hE⟩ :=
      replace_successor_spec t ctx c n o fuel l r hz hroot hr (by omega)
    subst e
    have hrbK : RBTree (plug (sctx ++ Frame.R c s os l :: ctx) (Tree.node cs n o Tree.leaf sr)) := by
      apply RBTree_swap
      rw [plug_append]; exact hrb
    have hlen : (sctx ++ Frame.R c s os l :: ctx).length + 1 ≤ fuel := by
      have := length_le_size sctx (Tree.node cs s os Tree.leaf sr)
      simp only [size] at this
      simp only [List.length_append, List.length_cons]
      omega
    obtain ⟨t2, T', h2, h3, h4, h5, h6, h7⟩ := del_balance_spec t1
      (sctx ++ Frame.R c s os l :: ctx) cs n o fuel Tree.leaf sr hH
      (by rw [hR, ctxRoot_append]; rfl) (fun _ => ⟨rfl, by simp⟩) hrbK hlen
    refine ⟨_, T', by simp only [h1, h2], DelOk_of t t2 T T' n o (ctxBefore ctx ++ nodes l)
      ((s, os) :: (nodes sr ++ (ctxAfter sctx ++ ctxAfter ctx))) hwf hn heven ?_ ?_
      (SameEnv_trans hE h7) h3 h4 h5⟩
    · rw [hT, nodes_plug, nodes, nodes_plug, ctxBefore_of_left sctx hall]; simp [nodes]
    · rw [h6, ctxBefore_append, ctxAfter_append, ctxBefore_of_left sctx hall]
      simp [nodes, ctxBefore, ctxAfter]

open Tree hyrbtree_t hyrbtree_ret_t

/-! ## Shared consequences of the insertion theorems -/

theorem TotalOrder.refl_eq {cmp : Nat → Nat → Int} (h : TotalOrder cmp) (a : Nat) :
    cmp a a = 0 := by
  have := h.1 a a
  omega

/-- Whatever `hyrbtree_add_node` returns on a well-formed tree for a detached
owner, a result OK comes with a well-formed tree that contains the owner. -/
theorem add_node_cases (t : hyrbtree_t) (T : Tree) (o fuel : Nat) (hwf : WellFormed t T)
    (hd : DetachedOwner t o) (hf : size T < fuel) :
    (∃ e, hyrbtree_add_node fuel t o = some (HYRBTREE_RET_ADD_NODE_ELEM_EXIST,
      (t.set_left (t.get_rbnode o) t.nil_node).set_right (t.get_rbnode o) t.nil_node, some e)) ∨
    (∃ t' T', hyrbtree_add_node fuel t o = some (HYRBTREE_RET_OK, t', none) ∧ AddOk t t' T T' o) := by
  by_cases h : ∃ e ∈ owners T, t.cmp_elem (t.get_elem o) (t.get_elem e) = 0
  · obtain ⟨e, he, hk⟩ := h
    exact Or.inl ⟨e, add_node_exist t T o e fuel hwf hd he hk (le_of_lt hf)⟩
  · refine Or.inr (add_node_ok t T o fuel hwf hd ?_ hf)
    intro e he hk
    exact h ⟨e, he, hk⟩

theorem AddOk.owners {t t' : hyrbtree_t} {T T' : Tree} {o : Nat} (h : AddOk t t' T T' o) :
    ∃ l1 l2, owners T = l1 ++ l2 ∧ owners T' = l1 ++ o :: l2 ∧
      (∀ x ∈ l1, keyLt t x o) ∧ (∀ x ∈ l2, keyLt t o x) := by
  obtain ⟨-, -, l1, l2, h1, h2, h3, h4⟩ := h
  refine ⟨l1.map Prod.snd, l2.map Prod.snd, ?_, ?_, ?_, ?_⟩
  · rw [owners_eq_map, h1, List.map_append]
  · rw [owners_eq_map, h2, List.map_append, List.map_cons]
  · intro x hx
    obtain ⟨y, hy, rfl⟩ := List.mem_map.1 hx
    exact h3 y hy
  · intro x hx
    obtain ⟨y, hy, rfl⟩ := List.mem_map.1 hx
    exact h4 y hy

theorem AddOk.size {t t' : hyrbtree_t} {T T' : Tree} {o : Nat} (h : AddOk t t' T T' o) :
    size T' = size T + 1 := by
  obtain ⟨-, -, l1, l2, h1, h2, -, -⟩ := h
  rw [size_eq_length, size_eq_length, h1, h2]
  simp only [List.length_append, List.length_cons]
  omega

/-! ## The claims about insertion and search -/

/-- C1: for every well-formed tree and every detached owner, `hyrbtree_add_node`
returns (with enough fuel for its loops), and when it returns OK the new state
holds a tree with a BLACK root, no RED node with a RED child and the same
number of BLACK nodes on every root-to-sentinel path. -/
theorem add_node_preserves_rb_invariants (t : hyrbtree_t) (T : Tree) (o fuel : Nat)
    (hwf : WellFormed t T) (hd : DetachedOwner t o) (hf : size T < fuel) :
    ∃ r t' e, hyrbtree_add_node fuel t o = some (r, t', e) ∧
      (r = HYRBTREE_RET_OK → RBInvariants t') := by
  rcases add_node_cases t T o fuel hwf hd hf with ⟨e, h⟩ | ⟨t', T', h, hok⟩
  · exact ⟨_, _, _, h, fun e => by cases e⟩
  · exact ⟨_, _, _, h, fun _ => ⟨T', hok.1.1, hok.1.2.1⟩⟩

theorem add_node_preserves_rb_invariants_witness :
    WellFormed oneNodeTree oneNode ∧ DetachedOwner oneNodeTree 10 ∧
    ∃ r t' e, hyrbtree_add_node 2 oneNodeTree 10 = some (r, t', e) ∧
      (r = HYRBTREE_RET_OK → RBInvariants t') :=
  ⟨oneNodeTree_wf, oneNodeTree_detached_10,
    add_node_preserves_rb_invariants oneNodeTree oneNode 10 2 oneNodeTree_wf
      oneNodeTree_detached_10 (by decide)⟩

/-- C3: for every well-formed tree and every detached owner whose key compares
unequal to every attached key, `hyrbtree_add_node` returns OK and the in-order
sequence of owners afterwards is the previous one with the new owner inserted
between the owners with smaller keys and the owners with larger keys; it is
strictly increasing under the comparator. -/
theorem add_node_inorder (t : hyrbtree_t) (T : Tree) (o fuel : Nat)
    (hwf : WellFormed t T) (hd : DetachedOwner t o)
    (hnew : ∀ e ∈ owners T, t.cmp_elem (t.get_elem o) (t.get_elem e) ≠ 0)
    (hf : size T < fuel) :
    ∃ t' T', hyrbtree_add_node fuel t o = some (HYRBTREE_RET_OK, t', none) ∧
      Represents t' T' ∧ (owners T').Pairwise (keyLt t') ∧
      ∃ l1 l2, owners T = l1 ++ l2 ∧ owners T' = l1 ++ o :: l2 ∧
        (∀ x ∈ l1, keyLt t x o) ∧ (∀ x ∈ l2, keyLt t o x) := by
  obtain ⟨t', T', h, hok⟩ := add_node_ok t T o fuel hwf hd hnew hf
  exact ⟨t', T', h, hok.1.1, hok.1.2.2.1, hok.owners⟩

theorem add_node_inorder_witness :
    WellFormed oneNodeTree oneNode ∧ DetachedOwner oneNodeTree 10 ∧
    (∀ e ∈ owners oneNode,
      oneNodeTree.cmp_elem (oneNodeTree.get_elem 10) (oneNodeTree.get_elem e) ≠ 0) ∧
    ∃ t' T', hyrbtree_add_node 2 oneNodeTree 10 = some (HYRBTREE_RET_OK, t', none) ∧
      Represents t' T' ∧ (owners T').Pairwise (keyLt t') ∧
      ∃ l1 l2, owners oneNode = l1 ++ l2 ∧ owners T' = l1 ++ 10 :: l2 ∧
        (∀ x ∈ l1, keyLt oneNodeTree x 10) ∧ (∀ x ∈ l2, keyLt oneNodeTree 10 x) :=
  ⟨oneNodeTree_wf, oneNodeTree_detached_10, by simp [oneNode, owners, oneNodeTree],
    add_node_inorder oneNodeTree oneNode 10 2 oneNodeTree_wf oneNodeTree_detached_10
      (by simp [oneNode, owners, oneNodeTree]) (by decide)⟩

/-- C5: for every well-formed tree and every key `k`, `hyrbtree_get_node` returns
TREE_NULL exactly when the root is the sentinel; on a non-empty tree it returns
OK with the attached owner whose key compares equal to `k` when there is one,
and NOT_FIND when no attached owner has a key equal to `k`. -/
theorem get_node_correct (t : hyrbtree_t) (T : Tree) (k fuel : Nat) (hwf : WellFormed t T)
    (hf : size T ≤ fuel) :
    ∃ r g, hyrbtree_get_node fuel t k = some (r, g) ∧
      (r = HYRBTREE_RET_GET_NODE_TREE_NULL ↔ t.root_node = t.nil_node) ∧
      (t.root_node ≠ t.nil_node →
        (∀ e ∈ owners T, t.cmp_elem k (t.get_elem e) = 0 → r = HYRBTREE_RET_OK ∧ g = some e) ∧
        ((∀ e ∈ owners T, t.cmp_elem k (t.get_elem e) ≠ 0) →
          r = HYRBTREE_RET_GET_NODE_NOT_FIND)) := by
  obtain ⟨h1, h2, h3⟩ := get_node_spec t T k fuel hwf hf
  have hiff := root_eq_nil_iff t T hwf.1
  by_cases hT : T = Tree.leaf
  · refine ⟨_, _, h1 hT, ?_, ?_⟩
    · simp [hiff.2 hT]
    · intro hne; exact absurd (hiff.2 hT) hne
  · have hroot : ¬ t.root_node = t.nil_node := fun h => hT (hiff.1 h)
    by_cases he : ∃ e ∈ owners T, t.cmp_elem k (t.get_elem e) = 0
    · obtain ⟨e, he, hk⟩ := he
      refine ⟨_, _, h2 e he hk, by simp [hroot], fun _ => ⟨?_, ?_⟩⟩
      · intro e' he' hk'
        have := (h2 e' he' hk').symm.trans (h2 e he hk)
        simp only [Option.some.injEq, Prod.mk.injEq, true_and] at this
        exact ⟨rfl, by rw [this]⟩
      · intro hall; exact absurd hk (hall e he)
    · have hall : ∀ e ∈ owners T, t.cmp_elem k (t.get_elem e) ≠ 0 :=
        fun e he' hk => he ⟨e, he', hk⟩
      refine ⟨_, _, h3 hT hall, by simp [hroot], fun _ => ⟨?_, fun _ => rfl⟩⟩
      intro e he' hk; exact absurd hk (hall e he')

theorem get_node_correct_witness :
    WellFormed oneNodeTree oneNode ∧
    ∃ r g, hyrbtree_get_node 1 oneNodeTree 1 = some (r, g) ∧
      (r = HYRBTREE_RET_GET_NODE_TREE_NULL ↔ oneNodeTree.root_node = oneNodeTree.nil_node) ∧
      (oneNodeTree.root_node ≠ oneNodeTree.nil_node →
        (∀ e ∈ owners oneNode, oneNodeTree.cmp_elem 1 (oneNodeTree.get_elem e) = 0 →
          r = HYRBTREE_RET_OK ∧ g = some e) ∧
        ((∀ e ∈ owners oneNode, oneNodeTree.cmp_elem 1 (oneNodeTree.get_elem e) ≠ 0) →
          r = HYRBTREE_RET_GET_NODE_NOT_FIND)) :=
  ⟨oneNodeTree_wf, get_node_correct oneNodeTree oneNode 1 1 oneNodeTree_wf (by decide)⟩

/-- C6: for every well-formed tree and every detached owner, if
`hyrbtree_add_node` returns OK then an immediately following
`hyrbtree_get_node` with the owner's key returns OK and yields that owner. -/
theorem get_after_add (t : hyrbtree_t) (T : Tree) (o fuel fuel' : Nat)
    (hwf : WellFormed t T) (hd : DetachedOwner t o) (hf : size T < fuel)
    (hf' : size T < fuel') (t' : hyrbtree_t) (e : Option Nat)
    (hadd : hyrbtree_add_node fuel t o = some (HYRBTREE_RET_OK, t', e)) :
    hyrbtree_get_node fuel' t' (t'.get_elem o) = some (HYRBTREE_RET_OK, some o) := by
  rcases add_node_cases t T o fuel hwf hd hf with ⟨e', h⟩ | ⟨t'', T', h, hok⟩
  · rw [h] at hadd; simp at hadd
  · rw [h] at hadd
    simp only [Option.some.injEq, Prod.mk.injEq, true_and] at hadd
    obtain ⟨rfl, -⟩ := hadd
    obtain ⟨l1, l2, -, h2, -, -⟩ := hok.owners
    have hmem : o ∈ owners T' := by rw [h2]; simp
    have hsz := hok.size
    exact (get_node_spec t'' T' (t''.get_elem o) fuel' hok.1 (by omega)).2.1 o hmem
      (hok.1.2.2.2.refl_eq _)

theorem get_after_add_witness :
    WellFormed emptyTree Tree.leaf ∧ DetachedOwner emptyTree 2 ∧
    ∃ t', hyrbtree_add_node 1 emptyTree 2 = some (HYRBTREE_RET_OK, t', none) ∧
      hyrbtree_get_node 1 t' (t'.get_elem 2) = some (HYRBTREE_RET_OK, some 2) := by
  obtain ⟨t', T', h, -⟩ := add_node_ok emptyTree Tree.leaf 2 1 emptyTree_wf emptyTree_detached
    (by simp [owners]) (by decide)
  exact ⟨emptyTree_wf, emptyTree_detached, t', h,
    get_after_add emptyTree Tree.leaf 2 1 1 emptyTree_wf emptyTree_detached (by decide)
      (by decide) t' none h⟩

/-- C7: for every well-formed tree and every detached owner whose key compares
equal to the key of an attached owner `e`, `hyrbtree_add_node` returns ELEM_EXIST
and writes `e` to `exist_node`; the root pointer and every field of every node
other than the new owner's own linkage (which is neither an attached node nor
the sentinel) are unchanged, and the state holds the same tree as before. -/
theorem add_node_existing_key (t : hyrbtree_t) (T : Tree) (o e fuel : Nat)
    (hwf : WellFormed t T) (hd : DetachedOwner t o) (he : e ∈ owners T)
    (hk : t.cmp_elem (t.get_elem o) (t.get_elem e) = 0) (hf : size T ≤ fuel) :
    ∃ t', hyrbtree_add_node fuel t o = some (HYRBTREE_RET_ADD_NODE_ELEM_EXIST, t', some e) ∧
      t'.root_node = t.root_node ∧ t'.nil_node = t.nil_node ∧
      (∀ x, x ≠ t.get_rbnode o → t'.user_node x = t.user_node x ∧
        t'.parent_node x = t.parent_node x ∧ t'.left_node x = t.left_node x ∧
        t'.right_node x = t.right_node x) ∧
      t.get_rbnode o ∉ addrs T ∧ t.get_rbnode o ≠ t.nil_node ∧
      t'.user_node (t.get_rbnode o) = t.user_node (t.get_rbnode o) ∧
      Represents t' T := by
  refine ⟨_, add_node_exist t T o e fuel hwf hd he hk hf, rfl, rfl, ?_,
    detached_not_mem t T o hwf.1 hd, hd.2.2.1, rfl, add_node_prep t T o hwf.1 hd⟩
  intro x hx
  simp [hx]

theorem add_node_existing_key_witness :
    WellFormed oneNodeTree oneNode ∧ DetachedOwner oneNodeTree 4 ∧ 2 ∈ owners oneNode ∧
    oneNodeTree.cmp_elem (oneNodeTree.get_elem 4) (oneNodeTree.get_elem 2) = 0 ∧
    ∃ t', hyrbtree_add_node 1 oneNodeTree 4 =
        some (HYRBTREE_RET_ADD_NODE_ELEM_EXIST, t', some 2) ∧
      t'.root_node = oneNodeTree.root_node ∧ t'.nil_node = oneNodeTree.nil_node ∧
      (∀ x, x ≠ oneNodeTree.get_rbnode 4 → t'.user_node x = oneNodeTree.user_node x ∧
        t'.parent_node x = oneNodeTree.parent_node x ∧
        t'.left_node x = oneNodeTree.left_node x ∧
        t'.right_node x = oneNodeTree.right_node x) ∧
      oneNodeTree.get_rbnode 4 ∉ addrs oneNode ∧
      oneNodeTree.get_rbnode 4 ≠ oneNodeTree.nil_node ∧
      t'.user_node (oneNodeTree.get_rbnode 4) = oneNodeTree.user_node (oneNodeTree.get_rbnode 4) ∧
      Represents t' oneNode :=
  ⟨oneNodeTree_wf, oneNodeTree_detached_4, by simp [oneNode, owners],
    by simp [oneNodeTree],
    add_node_existing_key oneNodeTree oneNode 4 2 1 oneNodeTree_wf oneNodeTree_detached_4
      (by simp [oneNode, owners]) (by simp [oneNodeTree]) (by decide)⟩

/-- C8: for every tree and every owner whose linkage is not in the detached
state (its owner word with the colour bit masked off is non-null),
`hyrbtree_add_node` returns UNINITIALIZED and the state, the owner's linkage
included, is unchanged. -/
theorem add_node_uninitialized (t : hyrbtree_t) (o fuel : Nat)
    (h : HYRBTREE_GET_NODE_ADDR t (t.get_rbnode o) ≠ HY_NULL) :
    hyrbtree_add_node fuel t o = some (HYRBTREE_RET_ADD_NODE_UNINITIALIZED, t, none) := by
  simp only [hyrbtree_add_node, h, if_false]

theorem add_node_uninitialized_witness :
    HYRBTREE_GET_NODE_ADDR oneNodeTree (oneNodeTree.get_rbnode 2) ≠ HY_NULL ∧
    hyrbtree_add_node 0 oneNodeTree 2 =
      some (HYRBTREE_RET_ADD_NODE_UNINITIALIZED, oneNodeTree, none) :=
  ⟨by decide, add_node_uninitialized oneNodeTree 2 0 (by decide)⟩

/-- C9: for every tree and every owner whose linkage does not resolve back to
that owner, `hyrbtree_del_node` returns DEL_NODE_ARGS_ERROR and the state, the
owner's linkage included, is unchanged. -/
theorem del_node_args_error (t : hyrbtree_t) (o fuel : Nat)
    (h : HYRBTREE_GET_NODE_ADDR t (t.get_rbnode o) ≠ o) :
    hyrbtree_del_node fuel t o = some (HYRBTREE_RET_DEL_NODE_ARGS_ERROR, t) := by
  simp only [hyrbtree_del_node, h, if_false]

theorem del_node_args_error_witness :
    HYRBTREE_GET_NODE_ADDR oneNodeTree (oneNodeTree.get_rbnode 10) ≠ 10 ∧
    hyrbtree_del_node 0 oneNodeTree 10 = some (HYRBTREE_RET_DEL_NODE_ARGS_ERROR, oneNodeTree) :=
  ⟨by decide, del_node_args_error oneNodeTree 10 0 (by decide)⟩

/-- C10 (failing input): replacing the root owner 2 of `oneNodeTree` by the
detached owner 4 with the same key returns OK but leaves the root pointer on
the linkage of owner 2, whose owner word is now null; the following search for
that key does not return owner 4 (in this model it returns NOT_FIND). -/
theorem replace_root_loses_new_owner :
    (hyrbtree_replace_node oneNodeTree 2 4).1 = HYRBTREE_RET_OK ∧
    (hyrbtree_replace_node oneNodeTree 2 4).2.root_node = oneNodeTree.get_rbnode 2 ∧
    HYRBTREE_GET_NODE_ADDR (hyrbtree_replace_node oneNodeTree 2 4).2 (oneNodeTree.get_rbnode 2) =
      HY_NULL ∧
    hyrbtree_get_node 2 (hyrbtree_replace_node oneNodeTree 2 4).2 (oneNodeTree.get_elem 4) =
      some (HYRBTREE_RET_GET_NODE_NOT_FIND, none) := by
  decide

open Tree hyrbtree_t hyrbtree_ret_t

/-! ## The claims about deletion -/

theorem DelOk_owners {t t' : hyrbtree_t} {T T' : Tree} {o : Nat} (h : DelOk t t' T T' o) :
    ∃ l1 l2, owners T = l1 ++ o :: l2 ∧ owners T' = l1 ++ l2 := by
  obtain ⟨-, -, -, l1, l2, h1, h2⟩ := h
  exact ⟨l1.map Prod.snd, l2.map Prod.snd,
    by rw [owners_eq_map, h1, List.map_append, List.map_cons],
    by rw [owners_eq_map, h2, List.map_append]⟩

theorem DelOk_size {t t' : hyrbtree_t} {T T' : Tree} {o : Nat} (h : DelOk t t' T T' o) :
    size T = size T' + 1 := by
  obtain ⟨-, -, -, l1, l2, h1, h2⟩ := h
  rw [size_eq_length, size_eq_length, h1, h2]
  simp only [List.length_append, List.length_cons]
  omega

/-- In a strictly increasing owner sequence no owner occurs twice. -/
theorem not_mem_of_sorted (t : hyrbtree_t) (ho : TotalOrder t.cmp_elem) (l1 l2 : List Nat)
    (o : Nat) (h : (l1 ++ o :: l2).Pairwise (keyLt t)) : o ∉ l1 ++ l2 := by
  simp only [List.pairwise_append, List.pairwise_cons, List.mem_cons] at h
  intro hm
  rcases List.mem_append.1 hm with hm | hm
  · exact ho.lt_irrefl _ (h.2.2 o hm o (Or.inl rfl))
  · exact ho.lt_irrefl _ (h.2.1.1 o hm)

/-- C2: for every well-formed tree and every owner attached to it,
`hyrbtree_del_node` returns OK (with enough fuel for its loops) and the new
state holds a tree that is empty or has a BLACK root, has no RED node with a
RED child and has the same number of BLACK nodes on every root-to-sentinel
path. -/
theorem del_node_preserves_rb_invariants (t : hyrbtree_t) (T : Tree) (o fuel : Nat)
    (hwf : WellFormed t T) (ho : o ∈ owners T) (hf : size T < fuel) :
    ∃ t' T', hyrbtree_del_node fuel t o = some (HYRBTREE_RET_OK, t') ∧ Represents t' T' ∧
      (T' = Tree.leaf ∨ rootColor T' = Color.black) ∧ NoRedRed T' ∧ Bal T' := by
  obtain ⟨t', T', h, hok⟩ := del_node_ok t T o fuel hwf ho hf
  exact ⟨t', T', h, hok.1.1, Or.inr hok.1.2.1.1, hok.1.2.1.2.1, hok.1.2.1.2.2⟩

/-- C4: for every well-formed tree and every owner attached to it,
`hyrbtree_del_node` returns OK and the tree afterwards has the previous
in-order sequence with exactly that owner removed: the (linkage, owner) pairs
of all other owners are the same objects in the same relative order, the
removed owner does not occur any more, and the sequence is still strictly
increasing. -/
theorem del_node_inorder (t : hyrbtree_t) (T : Tree) (o fuel : Nat)
    (hwf : WellFormed t T) (ho : o ∈ owners T) (hf : size T < fuel) :
    ∃ t' T', hyrbtree_del_node fuel t o = some (HYRBTREE_RET_OK, t') ∧ Represents t' T' ∧
      (owners T').Pairwise (keyLt t') ∧ o ∉ owners T' ∧
      (∃ l1 l2, owners T = l1 ++ o :: l2 ∧ owners T' = l1 ++ l2) ∧
      (∃ l1 l2, nodes T = l1 ++ (t.get_rbnode o, o) :: l2 ∧ nodes T' = l1 ++ l2) ∧
      t'.get_rbnode = t.get_rbnode ∧ t'.get_elem = t.get_elem := by
  obtain ⟨t', T', h, hok⟩ := del_node_ok t T o fuel hwf ho hf
  obtain ⟨l1, l2, h1, h2⟩ := DelOk_owners hok
  refine ⟨t', T', h, hok.1.1, hok.1.2.2.1, ?_, ⟨l1, l2, h1, h2⟩, hok.2.2.2, hok.2.1.1,
    hok.2.1.2.1⟩
  rw [h2]
  exact not_mem_of_sorted t hwf.2.2.2 l1 l2 o (h1 ▸ hwf.2.2.1)

open Tree hyrbtree_t hyrbtree_ret_t

/-! ## The error paths of `hyrbtree_replace_node` and the empty-tree insertion -/

/-- C11: `hyrbtree_replace_node(old, new)` returns REPLACE_INIT_ERROR exactly
when `old` is not attached or `new` is not detached, it returns
REPLACE_CMP_ERROR exactly when `old` is attached, `new` is detached and the
comparator applied to the two keys is non-zero, and whenever the result is not
OK the state (tree object and all linkages) is the one before the call. -/
theorem replace_node_errors (t : hyrbtree_t) (old_node new_node : Nat) :
    ((hyrbtree_replace_node t old_node new_node).1 = HYRBTREE_RET_REPLACE_INIT_ERROR ↔
      ¬ Attached t old_node ∨ ¬ Detached t new_node) ∧
    ((hyrbtree_replace_node t old_node new_node).1 = HYRBTREE_RET_REPLACE_CMP_ERROR ↔
      Attached t old_node ∧ Detached t new_node ∧
        t.cmp_elem (t.get_elem old_node) (t.get_elem new_node) ≠ 0) ∧
    ((hyrbtree_replace_node t old_node new_node).1 ≠ HYRBTREE_RET_OK →
      (hyrbtree_replace_node t old_node new_node).2 = t) := by
  unfold hyrbtree_replace_node Attached Detached
  by_cases h1 : HYRBTREE_GET_NODE_ADDR t (t.get_rbnode old_node) = old_node
  · by_cases h2 : HYRBTREE_GET_NODE_ADDR t (t.get_rbnode new_node) = HY_NULL
    · by_cases h3 : t.cmp_elem (t.get_elem old_node) (t.get_elem new_node) = 0
      · simp [h1, h2, h3]
      · simp [h1, h2, h3]
    · simp [h1, h2]
  · simp [h1]

/-- C17: on an empty tree (the root is the sentinel) `hyrbtree_add_node` of a
detached owner returns OK, and afterwards the root is the owner's linkage, it
holds the owner, it is coloured BLACK, its parent is the sentinel and both its
children are the sentinel. -/
theorem add_node_empty_tree (t : hyrbtree_t) (o fuel : Nat) (hroot : t.root_node = t.nil_node)
    (hd : DetachedOwner t o) :
    ∃ t', hyrbtree_add_node fuel t o = some (HYRBTREE_RET_OK, t', none) ∧
      t'.nil_node = t.nil_node ∧ t'.root_node = t.get_rbnode o ∧
      HYRBTREE_GET_NODE_ADDR t' t'.root_node = o ∧
      HYRBTREE_READ_NODE_COLOR t' t'.root_node = HYRBTREE_NODE_BLACK ∧
      t'.parent_node t'.root_node = t'.nil_node ∧
      t'.left_node t'.root_node = t'.nil_node ∧
      t'.right_node t'.root_node = t'.nil_node := by
  obtain ⟨h0, heven, hne, hnull⟩ := hd
  simp only [hyrbtree_add_node, hnull, if_true, set_right_root, set_left_root, set_right_nil,
    set_left_nil, hroot, ne_eq, not_true_eq_false, if_false]
  refine ⟨_, rfl, ?_⟩
  simp [HYRBTREE_SET_NODE_BLACK, HYRBTREE_GET_NODE_ADDR, HYRBTREE_READ_NODE_COLOR,
    HYRBTREE_NODE_BLACK, hne, Ne.symm hne, lor_one_eq]
  omega

theorem add_node_empty_tree_witness :
    emptyTree.root_node = emptyTree.nil_node ∧ DetachedOwner emptyTree 2 ∧
    ∃ t', hyrbtree_add_node 0 emptyTree 2 = some (HYRBTREE_RET_OK, t', none) ∧
      t'.nil_node = emptyTree.nil_node ∧ t'.root_node = emptyTree.get_rbnode 2 ∧
      HYRBTREE_GET_NODE_ADDR t' t'.root_node = 2 ∧
      HYRBTREE_READ_NODE_COLOR t' t'.root_node = HYRBTREE_NODE_BLACK ∧
      t'.parent_node t'.root_node = t'.nil_node ∧
      t'.left_node t'.root_node = t'.nil_node ∧
      t'.right_node t'.root_node = t'.nil_node :=
  ⟨rfl, emptyTree_detached, add_node_empty_tree emptyTree 2 0 rfl emptyTree_detached⟩

open Tree hyrbtree_t hyrbtree_ret_t

/-! ## `hyrbtree_replace_node` on a node of the tree -/

/-- Putting a fresh node in the place of the node in focus keeps the nodes
pairwise distinct. -/
theorem Sep_replace {nil : Nat} {ctx : Ctx} {c : Color} {n o n' o' : Nat} {l r : Tree}
    (h : Sep nil (Frame.L Color.red n' 0 Tree.leaf :: ctx) (Tree.node c n o l r)) :
    Sep nil ctx (Tree.node c n' o' l r) := by
  obtain ⟨hnd, hnm⟩ := h
  simp only [addrs_node, ctxAddrs_cons, Frame.addr_L, Frame.sibling_L, addrs_leaf,
    List.nil_append] at hnd hnm
  constructor
  · have h1 : ((addrs l ++ addrs r) ++ n' :: ctxAddrs ctx).Nodup :=
      hnd.sublist (by simp)
    refine (List.Perm.nodup_iff ?_).1 h1
    rw [List.perm_iff_count]
    intro a
    simp only [addrs_node, List.count_append, List.count_cons]
    omega
  · simp only [addrs_node, List.mem_append, List.mem_cons, not_or] at hnm ⊢
    tauto

/-- The success path of `hyrbtree_replace_node` is the sequence of its four
blocks. -/
theorem replace_node_eq (t : hyrbtree_t) (o o' : Nat)
    (h1 : HYRBTREE_GET_NODE_ADDR t (t.get_rbnode o) = o)
    (h2 : HYRBTREE_GET_NODE_ADDR t (t.get_rbnode o') = HY_NULL)
    (hk : t.cmp_elem (t.get_elem o) (t.get_elem o') = 0) :
    hyrbtree_replace_node t o o' = (HYRBTREE_RET_OK,
      replace_node_children (replace_node_parent (replace_node_copy
        (replace_node_owner t (t.get_rbnode o) (t.get_rbnode o') o')
        (t.get_rbnode o) (t.get_rbnode o')) (t.get_rbnode o) (t.get_rbnode o'))
        (t.get_rbnode o) (t.get_rbnode o')) := by
  simp only [hyrbtree_replace_node, h1, h2, hk, and_self, if_true]
  rfl

/-- `hyrbtree_replace_node` at the node `n` of owner `o`, for a detached owner
`o'` with an equal key whose linkage `n'` is not in the tree: the call returns
OK, the node memory lays out the same tree with `n'`, holding `o'`, in the
place of `n`, the root pointer is not written, `n` is detached, and the links
around the position point at `n'`. -/
theorem replace_node_rep (t : hyrbtree_t) (ctx : Ctx) (c : Color) (n o n' o' : Nat) (l r : Tree)
    (hz : ZRep t ctx (Tree.node c n o l r)) (hn : t.get_rbnode o = n) (hn' : t.get_rbnode o' = n')
    (hnew : Sep t.nil_node (Frame.L Color.red n' 0 Tree.leaf :: ctx) (Tree.node c n o l r))
    (hnull : HYRBTREE_GET_NODE_ADDR t n' = HY_NULL) (heven : o' % 2 = 0)
    (hk : t.cmp_elem (t.get_elem o) (t.get_elem o') = 0) :
    ∃ t', hyrbtree_replace_node t o o' = (HYRBTREE_RET_OK, t') ∧
      ZRep t' ctx (Tree.node c n' o' l r) ∧ t'.root_node = t.root_node ∧ SameEnv t t' ∧
      HYRBTREE_GET_NODE_ADDR t' n = HY_NULL ∧
      t'.parent_node (t.left_node n) = n' ∧ t'.parent_node (t.right_node n) = n' ∧
      (t.left_node (t.parent_node n) = n → t'.left_node (t.parent_node n) = n') ∧
      (t.left_node (t.parent_node n) ≠ n → t'.right_node (t.parent_node n) = n') := by
  have hsep : Sep t.nil_node ctx (Tree.node c n' o' l r) := Sep_replace hnew
  obtain ⟨h1, h2, h3, -⟩ := hz
  have hs := hnew
  rw [replace_node_eq t o o' (by rw [hn]; exact h2.1) (by rw [hn']; exact hnull) hk, hn, hn']
  by_cases hnl : t.left_node t.nil_node = n <;>
  rcases ctx with _ | ⟨⟨cp, p, op, sib⟩ | ⟨cp, p, op, sib⟩, K⟩ <;>
  rcases l with _ | ⟨cl, la, lo, ll, lr⟩ <;>
  rcases r with _ | ⟨cr, ra, ro, rl, rr⟩ <;>
  simp only [RepCtx, Rep, rootOf_node, rootOf_leaf, ctxPar_nil, ctxPar_cons, Frame.addr_L,
    Frame.addr_R, true_and, and_true] at h1 h2 <;>
  simp only [Sep, addrs_node, addrs_leaf, ctxAddrs_cons, ctxAddrs_nil, Frame.addr_L, Frame.addr_R,
    Frame.sibling_L, Frame.sibling_R, List.nodup_append, List.nodup_cons,
    List.mem_append, not_or, not_mem_cons_sym, List.disjoint_cons_left, List.disjoint_cons_right,
    List.disjoint_append_left, List.disjoint_append_right, List.not_mem_nil, List.nodup_nil,
    List.disjoint_nil_left, List.disjoint_nil_right, not_false_eq_true, true_and, and_true,
    List.append_nil, List.nil_append] at hs <;>
  cases c <;>
  simp [replace_node_children, replace_node_parent, replace_node_copy, replace_node_owner, h1, h2,
    hs, hnl, Color.code, HYRBTREE_NODE_RED, HYRBTREE_NODE_BLACK, color_set_user, addr_set_user] <;>
  refine ⟨⟨?_, ?_, ?_, by simpa using hsep⟩, ⟨by simp, by simp, by simp, by simp⟩, ?_⟩ <;>
  simp [RepCtx, Rep, h1, h2, hs, h3, hnl, color_set_user, addr_set_user, Color.code,
    HYRBTREE_NODE_RED, HYRBTREE_NODE_BLACK, HY_NULL, heven]

open Tree hyrbtree_t hyrbtree_ret_t

/-! ## Replacement, deletion and the sentinel on well-formed trees -/

/-- An owner of the tree sits at its linkage, in some context. -/
theorem focus_of_mem_owners (t : hyrbtree_t) (T : Tree) (o : Nat) (h : Represents t T)
    (ho : o ∈ owners T) :
    ∃ ctx c l r, T = plug ctx (Tree.node c (t.get_rbnode o) o l r) ∧
      ZRep t ctx (Tree.node c (t.get_rbnode o) o l r) := by
  obtain ⟨ctx, c, n, l, r, hT⟩ := exists_plug_of_mem_owners T o ho
  have hz0 := ((Represents_iff _ _).1 h).2.1
  rw [hT] at hz0
  have hz := (ZRep_plug _ _ _).1 hz0
  have hmem : (n, o) ∈ nodes T := by rw [hT, nodes_plug]; simp [nodes]
  have hn : n = t.get_rbnode o := (h.linked _ hmem).1
  subst hn
  exact ⟨ctx, c, l, r, hT, hz⟩

/-- The linkage of an owner of the tree resolves back to the owner. -/
theorem attached_of_mem_owners (t : hyrbtree_t) (T : Tree) (o : Nat) (h : Represents t T)
    (ho : o ∈ owners T) : Attached t o := by
  obtain ⟨ctx, c, l, r, -, hz⟩ := focus_of_mem_owners t T o h ho
  exact hz.2.1.1

/-- A linkage outside the tree that is not the sentinel is distinct from every
node of the tree, seen from any focus. -/
theorem Sep_fresh {nil : Nat} {ctx : Ctx} {s : Tree} {x : Nat} (h : Sep nil ctx s)
    (hx : x ∉ addrs (plug ctx s)) (hnil : x ≠ nil) :
    Sep nil (Frame.L Color.red x 0 Tree.leaf :: ctx) s := by
  rw [mem_addrs_plug] at hx
  obtain ⟨hnd, hnm⟩ := h
  simp only [not_or] at hx
  constructor
  · simp only [ctxAddrs_cons, Frame.addr_L, Frame.sibling_L, addrs_leaf, List.nil_append]
    refine (List.Perm.nodup_iff (List.perm_middle)).2 ?_
    exact List.nodup_cons.2 ⟨by simp [hx.1, hx.2], hnd⟩
  · simp only [ctxAddrs_cons, Frame.addr_L, Frame.sibling_L, addrs_leaf, List.nil_append,
      List.mem_append, List.mem_cons, not_or] at hnm ⊢
    exact ⟨hnm.1, Ne.symm hnil, hnm.2⟩

/-- In a tree, the child links of a real parent do not both designate the same
node. -/
theorem child_link_cases (t : hyrbtree_t) (ctx : Ctx) (c : Color) (n o : Nat) (l r : Tree)
    (hz : ZRep t ctx (Tree.node c n o l r)) (hp : t.parent_node n ≠ t.nil_node) :
    (t.left_node (t.parent_node n) = n ∧ t.right_node (t.parent_node n) ≠ n) ∨
    (t.left_node (t.parent_node n) ≠ n ∧ t.right_node (t.parent_node n) = n) := by
  obtain ⟨h1, h2, h3, hs⟩ := hz
  rcases ctx with _ | ⟨⟨cp, p, op, sib⟩ | ⟨cp, p, op, sib⟩, K⟩ <;>
  simp only [RepCtx, Rep, rootOf_node, rootOf_leaf, ctxPar_nil, ctxPar_cons, Frame.addr_L,
    Frame.addr_R, true_and, and_true] at h1 h2 <;>
  simp only [Sep, addrs_node, addrs_leaf, ctxAddrs_cons, ctxAddrs_nil, Frame.addr_L, Frame.addr_R,
    Frame.sibling_L, Frame.sibling_R, List.nodup_append, List.nodup_cons,
    List.mem_append, not_or, not_mem_cons_sym, List.disjoint_cons_left, List.disjoint_cons_right,
    List.disjoint_append_left, List.disjoint_append_right, List.not_mem_nil, List.nodup_nil,
    List.disjoint_nil_left, List.disjoint_nil_right, not_false_eq_true, true_and, and_true,
    List.append_nil, List.nil_append] at hs
  · exact absurd h2.2.2.1 hp
  · left; simp [h2, h1, hs]
  · right; simp [h2, h1, hs]

/-- `hyrbtree_replace_node` on a well-formed tree, for an owner of the tree and
a detached owner with an equal key: the focus of the owner and the outcome of
`replace_node_rep` there. -/
theorem replace_node_focus (t : hyrbtree_t) (T : Tree) (o o' : Nat) (hwf : WellFormed t T)
    (ho : o ∈ owners T) (hd : DetachedOwner t o')
    (hk : t.cmp_elem (t.get_elem o) (t.get_elem o') = 0) :
    ∃ ctx c l r t', T = plug ctx (Tree.node c (t.get_rbnode o) o l r) ∧
      ZRep t ctx (Tree.node c (t.get_rbnode o) o l r) ∧
      hyrbtree_replace_node t o o' = (HYRBTREE_RET_OK, t') ∧
      ZRep t' ctx (Tree.node c (t.get_rbnode o') o' l r) ∧ t'.root_node = t.root_node ∧
      SameEnv t t' ∧ HYRBTREE_GET_NODE_ADDR t' (t.get_rbnode o) = HY_NULL ∧
      t'.parent_node (t.left_node (t.get_rbnode o)) = t.get_rbnode o' ∧
      t'.parent_node (t.right_node (t.get_rbnode o)) = t.get_rbnode o' ∧
      (t.left_node (t.parent_node (t.get_rbnode o)) = t.get_rbnode o →
        t'.left_node (t.parent_node (t.get_rbnode o)) = t.get_rbnode o') ∧
      (t.left_node (t.parent_node (t.get_rbnode o)) ≠ t.get_rbnode o →
        t'.right_node (t.parent_node (t.get_rbnode o)) = t.get_rbnode o') := by
  obtain ⟨ctx, c, l, r, hT, hz⟩ := focus_of_mem_owners t T o hwf.1 ho
  have hnot := detached_not_mem t T o' hwf.1 hd
  rw [hT] at hnot
  obtain ⟨t', h⟩ := replace_node_rep t ctx c (t.get_rbnode o) o (t.get_rbnode o') o' l r hz rfl rfl
    (Sep_fresh hz.2.2.2 hnot hd.2.2.1) hd.2.2.2 hd.2.1 hk
  exact ⟨ctx, c, l, r, t', hT, hz, h⟩

open Tree hyrbtree_t hyrbtree_ret_t

/-! ## The claims about replacement, detachment and the sentinel -/

/-- C12: on a well-formed tree, for an attached owner `old_node` and a detached
owner `new_node` with an equal key, `hyrbtree_replace_node` returns OK and
afterwards the linkage of `new_node` has the colour and the parent, left and
right links that the linkage of `old_node` had, the child link of the parent
that designated the old linkage designates the new one (a real parent has
exactly one such link), the parent links of both children designate the new
linkage, `new_node` is attached and `old_node` is detached. -/
theorem replace_node_links (t : hyrbtree_t) (T : Tree) (old_node new_node : Nat)
    (hwf : WellFormed t T) (ho : old_node ∈ owners T) (hd : DetachedOwner t new_node)
    (hk : t.cmp_elem (t.get_elem old_node) (t.get_elem new_node) = 0) :
    ∃ t', hyrbtree_replace_node t old_node new_node = (HYRBTREE_RET_OK, t') ∧
      HYRBTREE_READ_NODE_COLOR t' (t.get_rbnode new_node) =
        HYRBTREE_READ_NODE_COLOR t (t.get_rbnode old_node) ∧
      t'.parent_node (t.get_rbnode new_node) = t.parent_node (t.get_rbnode old_node) ∧
      t'.left_node (t.get_rbnode new_node) = t.left_node (t.get_rbnode old_node) ∧
      t'.right_node (t.get_rbnode new_node) = t.right_node (t.get_rbnode old_node) ∧
      (t.left_node (t.parent_node (t.get_rbnode old_node)) = t.get_rbnode old_node →
        t'.left_node (t.parent_node (t.get_rbnode old_node)) = t.get_rbnode new_node) ∧
      (t.parent_node (t.get_rbnode old_node) ≠ t.nil_node →
        (t.left_node (t.parent_node (t.get_rbnode old_node)) = t.get_rbnode old_node ∨
          t.right_node (t.parent_node (t.get_rbnode old_node)) = t.get_rbnode old_node) ∧
        (t.right_node (t.parent_node (t.get_rbnode old_node)) = t.get_rbnode old_node →
          t'.right_node (t.parent_node (t.get_rbnode old_node)) = t.get_rbnode new_node)) ∧
      t'.parent_node (t.left_node (t.get_rbnode old_node)) = t.get_rbnode new_node ∧
      t'.parent_node (t.right_node (t.get_rbnode old_node)) = t.get_rbnode new_node ∧
      Attached t' new_node ∧ Detached t' old_node := by
  obtain ⟨ctx, c, l, r, t', -, hz, h, hz', -, he, h1, h2, h3, h4, h5⟩ :=
    replace_node_focus t T old_node new_node hwf ho hd hk
  have hcases := child_link_cases t ctx c _ old_node l r hz
  obtain ⟨-, ⟨a1, a2, a3, a4, a5, -, -⟩, -, -⟩ := hz
  obtain ⟨-, ⟨b1, b2, b3, b4, b5, -, -⟩, -, -⟩ := hz'
  refine ⟨t', h, by rw [a2, b2], by rw [a3, b3, he.2.2.2], by rw [a4, b4, he.2.2.2],
    by rw [a5, b5, he.2.2.2], h4, fun hp => ?_, h2, h3, ?_, ?_⟩
  · rcases hcases hp with ⟨e1, e2⟩ | ⟨e1, e2⟩
    · exact ⟨Or.inl e1, fun e => absurd e e2⟩
    · exact ⟨Or.inr e2, fun _ => h5 e1⟩
  · simp only [Attached, he.1]; exact b1
  · simp only [Detached, he.1]; exact h1

theorem replace_node_links_witness :
    WellFormed oneNodeTree oneNode ∧ 2 ∈ owners oneNode ∧ DetachedOwner oneNodeTree 4 ∧
    oneNodeTree.cmp_elem (oneNodeTree.get_elem 2) (oneNodeTree.get_elem 4) = 0 ∧
    ∃ t', hyrbtree_replace_node oneNodeTree 2 4 = (HYRBTREE_RET_OK, t') ∧
      HYRBTREE_READ_NODE_COLOR t' (oneNodeTree.get_rbnode 4) =
        HYRBTREE_READ_NODE_COLOR oneNodeTree (oneNodeTree.get_rbnode 2) ∧
      t'.parent_node (oneNodeTree.get_rbnode 4) =
        oneNodeTree.parent_node (oneNodeTree.get_rbnode 2) ∧
      t'.left_node (oneNodeTree.get_rbnode 4) = oneNodeTree.left_node (oneNodeTree.get_rbnode 2) ∧
      t'.right_node (oneNodeTree.get_rbnode 4) =
        oneNodeTree.right_node (oneNodeTree.get_rbnode 2) ∧
      (oneNodeTree.left_node (oneNodeTree.parent_node (oneNodeTree.get_rbnode 2)) =
          oneNodeTree.get_rbnode 2 →
        t'.left_node (oneNodeTree.parent_node (oneNodeTree.get_rbnode 2)) =
          oneNodeTree.get_rbnode 4) ∧
      (oneNodeTree.parent_node (oneNodeTree.get_rbnode 2) ≠ oneNodeTree.nil_node →
        (oneNodeTree.left_node (oneNodeTree.parent_node (oneNodeTree.get_rbnode 2)) =
            oneNodeTree.get_rbnode 2 ∨
          oneNodeTree.right_node (oneNodeTree.parent_node (oneNodeTree.get_rbnode 2)) =
            oneNodeTree.get_rbnode 2) ∧
        (oneNodeTree.right_node (oneNodeTree.parent_node (oneNodeTree.get_rbnode 2)) =
            oneNodeTree.get_rbnode 2 →
          t'.right_node (oneNodeTree.parent_node (oneNodeTree.get_rbnode 2)) =
            oneNodeTree.get_rbnode 4)) ∧
      t'.parent_node (oneNodeTree.left_node (oneNodeTree.get_rbnode 2)) =
        oneNodeTree.get_rbnode 4 ∧
      t'.parent_node (oneNodeTree.right_node (oneNodeTree.get_rbnode 2)) =
        oneNodeTree.get_rbnode 4 ∧
      Attached t' 4 ∧ Detached t' 2 :=
  ⟨oneNodeTree_wf, by simp [oneNode, owners], oneNodeTree_detached_4, by simp [oneNodeTree],
    replace_node_links oneNodeTree oneNode 2 4 oneNodeTree_wf (by simp [oneNode, owners])
      oneNodeTree_detached_4 (by simp [oneNodeTree])⟩

open Tree hyrbtree_t hyrbtree_ret_t

/-- C18: for every well-formed tree, attached owner `e` and detached owner `d`
whose key compares equal to the key of `e`, `hyrbtree_add_node(d)` returns
ELEM_EXIST naming `e`; afterwards `d` is still detached and `e` still attached,
and `hyrbtree_replace_node(e, d)` on that state returns OK, with `d` attached
and `e` detached after it. -/
theorem add_exist_then_replace (t : hyrbtree_t) (T : Tree) (d e fuel : Nat)
    (hwf : WellFormed t T) (hd : DetachedOwner t d) (he : e ∈ owners T)
    (hk : t.cmp_elem (t.get_elem d) (t.get_elem e) = 0) (hf : size T ≤ fuel) :
    ∃ t', hyrbtree_add_node fuel t d = some (HYRBTREE_RET_ADD_NODE_ELEM_EXIST, t', some e) ∧
      DetachedOwner t' d ∧ Attached t' e ∧
      ∃ t'', hyrbtree_replace_node t' e d = (HYRBTREE_RET_OK, t'') ∧
        Attached t'' d ∧ Detached t'' e := by
  have hrep := add_node_prep t T d hwf.1 hd
  have hwf' : WellFormed
      ((t.set_left (t.get_rbnode d) t.nil_node).set_right (t.get_rbnode d) t.nil_node) T :=
    ⟨hrep, hwf.2.1, hwf.2.2.1, hwf.2.2.2⟩
  have hd' : DetachedOwner
      ((t.set_left (t.get_rbnode d) t.nil_node).set_right (t.get_rbnode d) t.nil_node) d := hd
  obtain ⟨ctx, c, l, r, t'', -, -, h, hz', -, hE, h1, -⟩ :=
    replace_node_focus _ T e d hwf' he hd' (hwf.2.2.2.eq_symm hk)
  refine ⟨_, add_node_exist t T d e fuel hwf hd he hk hf, hd', attached_of_mem_owners _ T e hrep he,
    t'', h, ?_, ?_⟩
  · simp only [Attached, hE.1]; exact hz'.2.1.1
  · simp only [Detached, hE.1]; exact h1

theorem add_exist_then_replace_witness :
    WellFormed oneNodeTree oneNode ∧ DetachedOwner oneNodeTree 4 ∧ 2 ∈ owners oneNode ∧
    oneNodeTree.cmp_elem (oneNodeTree.get_elem 4) (oneNodeTree.get_elem 2) = 0 ∧
    ∃ t', hyrbtree_add_node 1 oneNodeTree 4 =
        some (HYRBTREE_RET_ADD_NODE_ELEM_EXIST, t', some 2) ∧
      DetachedOwner t' 4 ∧ Attached t' 2 ∧
      ∃ t'', hyrbtree_replace_node t' 2 4 = (HYRBTREE_RET_OK, t'') ∧
        Attached t'' 4 ∧ Detached t'' 2 :=
  ⟨oneNodeTree_wf, oneNodeTree_detached_4, by simp [oneNode, owners], by simp [oneNodeTree],
    add_exist_then_replace oneNodeTree oneNode 4 2 1 oneNodeTree_wf oneNodeTree_detached_4
      (by simp [oneNode, owners]) (by simp [oneNodeTree]) (by decide)⟩

/-- C15: for every well-formed tree and every owner attached to it, after
`hyrbtree_del_node(owner)` has returned OK the owner is detached: a second
`hyrbtree_del_node(owner)` returns DEL_NODE_ARGS_ERROR and leaves the state as
it is, `hyrbtree_add_node(owner)` on the state after the deletion returns OK,
and the owner attached again can be deleted again with result OK. -/
theorem del_node_detaches (t : hyrbtree_t) (T : Tree) (o fuel : Nat)
    (hwf : WellFormed t T) (ho : o ∈ owners T) (hf : size T < fuel) :
    ∃ t', hyrbtree_del_node fuel t o = some (HYRBTREE_RET_OK, t') ∧ Detached t' o ∧
      hyrbtree_del_node fuel t' o = some (HYRBTREE_RET_DEL_NODE_ARGS_ERROR, t') ∧
      ∃ t'', hyrbtree_add_node fuel t' o = some (HYRBTREE_RET_OK, t'', none) ∧ Attached t'' o ∧
        ∃ t3, hyrbtree_del_node fuel t'' o = some (HYRBTREE_RET_OK, t3) ∧ Detached t3 o := by
  obtain ⟨t', T', h, hok⟩ := del_node_ok t T o fuel hwf ho hf
  obtain ⟨l1, l2, e1, e2⟩ := DelOk_owners hok
  have hsz := DelOk_size hok
  obtain ⟨hwf', hE, hd, -⟩ := hok
  have hnew : ∀ e ∈ owners T', t'.cmp_elem (t'.get_elem o) (t'.get_elem e) ≠ 0 := by
    intro e he hk
    have hs := hwf.2.2.1
    rw [e1] at hs
    rw [e2] at he
    simp only [List.pairwise_append, List.pairwise_cons, List.mem_cons] at hs
    rw [hE.2.1, hE.2.2.1] at hk
    have hk' := hwf.2.2.2.eq_symm hk
    rcases List.mem_append.1 he with hm | hm
    · have := hs.2.2 e hm o (Or.inl rfl)
      simp only [keyLt] at this
      omega
    · have := hs.2.1.1 e hm
      simp only [keyLt] at this
      omega
  obtain ⟨t'', T'', h2, hok2⟩ := add_node_ok t' T' o fuel hwf' hd hnew (by omega)
  obtain ⟨l3, l4, -, e4, -, -⟩ := hok2.owners
  have ho2 : o ∈ owners T'' := by rw [e4]; simp
  have hsz2 := hok2.size
  obtain ⟨t3, T3, h3, hok3⟩ := del_node_ok t'' T'' o fuel hok2.1 ho2 (by omega)
  refine ⟨t', h, hd.2.2.2, ?_, t'', h2, attached_of_mem_owners t'' T'' o hok2.1.1 ho2, t3, h3,
    hok3.2.2.1.2.2.2⟩
  have hne : ¬ HYRBTREE_GET_NODE_ADDR t' (t'.get_rbnode o) = o := by
    rw [hd.2.2.2]; exact fun e => hd.1 e.symm
  simp only [hyrbtree_del_node, hne, if_false]

theorem del_node_detaches_witness :
    WellFormed oneNodeTree oneNode ∧ 2 ∈ owners oneNode ∧
    ∃ t', hyrbtree_del_node 2 oneNodeTree 2 = some (HYRBTREE_RET_OK, t') ∧ Detached t' 2 ∧
      hyrbtree_del_node 2 t' 2 = some (HYRBTREE_RET_DEL_NODE_ARGS_ERROR, t') ∧
      ∃ t'', hyrbtree_add_node 2 t' 2 = some (HYRBTREE_RET_OK, t'', none) ∧ Attached t'' 2 ∧
        ∃ t3, hyrbtree_del_node 2 t'' 2 = some (HYRBTREE_RET_OK, t3) ∧ Detached t3 2 :=
  ⟨oneNodeTree_wf, by simp [oneNode, owners],
    del_node_detaches oneNodeTree oneNode 2 2 oneNodeTree_wf (by simp [oneNode, owners])
      (by decide)⟩

/-- The blocks of `hyrbtree_replace_node` keep the sentinel address, the link
blocks write no owner word and the owner-word block writes the owner words of
the two linkages only. -/
theorem replace_node_children_user (s : hyrbtree_t) (a b : Nat) :
    (replace_node_children s a b).user_node = s.user_node := rfl

theorem replace_node_children_nil (s : hyrbtree_t) (a b : Nat) :
    (replace_node_children s a b).nil_node = s.nil_node := rfl

theorem replace_node_parent_user (s : hyrbtree_t) (a b : Nat) :
    (replace_node_parent s a b).user_node = s.user_node := by
  unfold replace_node_parent; split <;> rfl

theorem replace_node_parent_nil (s : hyrbtree_t) (a b : Nat) :
    (replace_node_parent s a b).nil_node = s.nil_node := by
  unfold replace_node_parent; split <;> rfl

theorem replace_node_copy_user (s : hyrbtree_t) (a b : Nat) :
    (replace_node_copy s a b).user_node = s.user_node := rfl

theorem replace_node_copy_nil (s : hyrbtree_t) (a b : Nat) :
    (replace_node_copy s a b).nil_node = s.nil_node := rfl

theorem replace_node_owner_nil (s : hyrbtree_t) (a b v : Nat) :
    (replace_node_owner s a b v).nil_node = s.nil_node := by
  simp only [replace_node_owner]; split <;> rfl

theorem replace_node_owner_user (s : hyrbtree_t) (a b v x : Nat) (ha : x ≠ a) (hb : x ≠ b) :
    (replace_node_owner s a b v).user_node x = s.user_node x := by
  simp only [replace_node_owner]
  split <;> simp [HYRBTREE_SET_NODE_RED, HYRBTREE_SET_NODE_BLACK, ha, hb]

/-- When one of its checks fails `hyrbtree_replace_node` returns the state it
was given. -/
theorem replace_node_unchanged (t : hyrbtree_t) (o o' : Nat)
    (h : ¬ (HYRBTREE_GET_NODE_ADDR t (t.get_rbnode o) = o ∧
      HYRBTREE_GET_NODE_ADDR t (t.get_rbnode o') = HY_NULL ∧
      t.cmp_elem (t.get_elem o) (t.get_elem o') = 0)) :
    (hyrbtree_replace_node t o o').2 = t := by
  unfold hyrbtree_replace_node
  by_cases h1 : HYRBTREE_GET_NODE_ADDR t (t.get_rbnode o) = o
  · by_cases h2 : HYRBTREE_GET_NODE_ADDR t (t.get_rbnode o') = HY_NULL
    · by_cases h3 : t.cmp_elem (t.get_elem o) (t.get_elem o') = 0
      · exact absurd ⟨h1, h2, h3⟩ h
      · simp [h1, h2, h3]
    · simp [h1, h2]
  · simp [h1]

/-- C16: the colour bit of the sentinel is BLACK after `hyrbtree_init` on any
state, and on a well-formed tree it is BLACK after `hyrbtree_add_node` (for a
non-null, aligned owner whose linkage is not the sentinel),
`hyrbtree_del_node` (for an owner that, if attached, is attached to this
tree) and `hyrbtree_replace_node` (for owners whose linkages are not the
sentinel), whatever the result code; `hyrbtree_get_node` returns without
producing a new state. -/
theorem sentinel_stays_black (t : hyrbtree_t) (T : Tree) (hwf : WellFormed t T) :
    (∀ t0 : hyrbtree_t, HYRBTREE_READ_NODE_COLOR (hyrbtree_init t0) (hyrbtree_init t0).nil_node =
      HYRBTREE_NODE_BLACK) ∧
    (∀ fuel o, size T < fuel → o ≠ HY_NULL → o % 2 = 0 → t.get_rbnode o ≠ t.nil_node →
      ∃ r t' e, hyrbtree_add_node fuel t o = some (r, t', e) ∧ t'.nil_node = t.nil_node ∧
        HYRBTREE_READ_NODE_COLOR t' t'.nil_node = HYRBTREE_NODE_BLACK) ∧
    (∀ fuel o, size T < fuel → (Attached t o → o ∈ owners T) →
      ∃ r t', hyrbtree_del_node fuel t o = some (r, t') ∧ t'.nil_node = t.nil_node ∧
        HYRBTREE_READ_NODE_COLOR t' t'.nil_node = HYRBTREE_NODE_BLACK) ∧
    (∀ fuel k, size T ≤ fuel → ∃ r g, hyrbtree_get_node fuel t k = some (r, g)) ∧
    (∀ old_node new_node, t.get_rbnode old_node ≠ t.nil_node →
      t.get_rbnode new_node ≠ t.nil_node →
      (hyrbtree_replace_node t old_node new_node).2.nil_node = t.nil_node ∧
      HYRBTREE_READ_NODE_COLOR (hyrbtree_replace_node t old_node new_node).2
        (hyrbtree_replace_node t old_node new_node).2.nil_node = HYRBTREE_NODE_BLACK) := by
  have hb := hwf.1.nil_black
  refine ⟨fun t0 => ?_, fun fuel o hf h0 heven hne => ?_, fun fuel o hf hatt => ?_,
    fun fuel k hf => ?_, fun old_node new_node h1 h2 => ?_⟩
  · simp [hyrbtree_init, color_set_user, HYRBTREE_NODE_BLACK, lor_one_eq]
    omega
  · by_cases ha : HYRBTREE_GET_NODE_ADDR t (t.get_rbnode o) = HY_NULL
    · rcases add_node_cases t T o fuel hwf ⟨h0, heven, hne, ha⟩ hf with ⟨e, h⟩ | ⟨t', T', h, hok⟩
      · exact ⟨_, _, _, h, rfl, hb⟩
      · exact ⟨_, _, _, h, hok.2.1.2.2.2, hok.1.1.nil_black⟩
    · refine ⟨HYRBTREE_RET_ADD_NODE_UNINITIALIZED, t, none, ?_, rfl, hb⟩
      simp only [hyrbtree_add_node, ha, if_false]
  · by_cases ha : HYRBTREE_GET_NODE_ADDR t (t.get_rbnode o) = o
    · obtain ⟨t', T', h, hok⟩ := del_node_ok t T o fuel hwf (hatt ha) hf
      exact ⟨_, _, h, hok.2.1.2.2.2, hok.1.1.nil_black⟩
    · refine ⟨HYRBTREE_RET_DEL_NODE_ARGS_ERROR, t, ?_, rfl, hb⟩
      simp only [hyrbtree_del_node, ha, if_false]
  · obtain ⟨h1, h2, h3⟩ := get_node_spec t T k fuel hwf hf
    by_cases hT : T = Tree.leaf
    · exact ⟨_, _, h1 hT⟩
    · by_cases he : ∃ e ∈ owners T, t.cmp_elem k (t.get_elem e) = 0
      · obtain ⟨e, he, hk⟩ := he
        exact ⟨_, _, h2 e he hk⟩
      · exact ⟨_, _, h3 hT (fun e he' hk => he ⟨e, he', hk⟩)⟩
  · by_cases hc : HYRBTREE_GET_NODE_ADDR t (t.get_rbnode old_node) = old_node ∧
        HYRBTREE_GET_NODE_ADDR t (t.get_rbnode new_node) = HY_NULL ∧
        t.cmp_elem (t.get_elem old_node) (t.get_elem new_node) = 0
    · rw [replace_node_eq t old_node new_node hc.1 hc.2.1 hc.2.2]
      simp only [replace_node_children_nil, replace_node_parent_nil, replace_node_copy_nil,
        replace_node_owner_nil, HYRBTREE_READ_NODE_COLOR, replace_node_children_user,
        replace_node_parent_user, replace_node_copy_user, true_and]
      rw [replace_node_owner_user t _ _ _ _ (Ne.symm h1) (Ne.symm h2)]
      exact hb
    · rw [replace_node_unchanged t old_node new_node hc]
      exact ⟨rfl, hb⟩

open Tree hyrbtree_t hyrbtree_ret_t

/-! ## The strict test loops compute what the test loops compute -/

theorem force_eq {α : Type} (n : Nat) (k : Nat → α) : force n k = k n := by
  cases n <;> rfl

theorem strict_map_eq {α : Type} (f : Nat → Nat) : ∀ (as : List Nat) (k : (Nat → Nat) → α),
    strict_map f as k = k f
  | [], _ => rfl
  | a :: as, k => by
    simp only [strict_map, force_eq, strict_map_eq f as]
    congr 1
    funext x
    split
    · subst x; rfl
    · rfl

theorem strict_tree_eq {α : Type} (nodes : List Nat) (t : hyrbtree_t) (k : hyrbtree_t → α) :
    strict_tree nodes t k = k t := by
  simp only [strict_tree, force_eq, strict_map_eq]

theorem add_loop_strict_eq (nodes : List Nat) (fuel : Nat) : ∀ (add_array : List Nat) (i : Nat)
    (s : test_t), add_loop_strict nodes fuel add_array i s = add_loop fuel add_array i s
  | [], _, _ => rfl
  | _ :: add_array, i, s => by
    simp only [add_loop_strict, add_loop, strict_tree_eq, add_loop_strict_eq nodes fuel add_array]

theorem del_loop_strict_eq (nodes : List Nat) (fuel : Nat) : ∀ (del_array : List Nat)
    (s : test_t), del_loop_strict nodes fuel del_array s = del_loop fuel del_array s
  | [], _ => rfl
  | _ :: del_array, s => by
    simp only [del_loop_strict, del_loop, strict_tree_eq, del_loop_strict_eq nodes fuel del_array]

/-- A state that passes `check_invariants` satisfies invariants 1 to 5. -/
theorem check_invariants_sound (fuel : Nat) (t : hyrbtree_t) (h : check_invariants fuel t = true) :
    Invariants t := by
  unfold check_invariants at h
  split at h
  · rename_i T _
    obtain ⟨h1, h2, h3, h4, h5, h6, h7, h8⟩ := of_decide_eq_true h
    exact ⟨T, ⟨h1, h2, h3, h4, h5, h6⟩, h7, h8⟩
  · cases h

open Tree hyrbtree_t hyrbtree_ret_t

/-! ## The concrete scenarios of the test harness -/

theorem add_del_test_eq (fuel : Nat) (rbtree : hyrbtree_t) (add_array del_array : List Nat) :
    hyrbtree_add_del_test fuel rbtree add_array del_array =
      (add_loop_strict test_nodes fuel add_array 0 (test_start rbtree)).bind
        (del_loop_strict test_nodes fuel del_array) := by
  rw [add_loop_strict_eq, funext (del_loop_strict_eq test_nodes fuel del_array)]
  unfold hyrbtree_add_del_test
  cases add_loop fuel add_array 0 (test_start rbtree) <;> rfl

/-- C19: starting from the freshly initialised tree of the test harness (keys
compared by `user_node_cmp_elem`), inserting owners with the keys
20, 10, 30, 5, 15, 25, 35 in that order returns OK each time; afterwards the
owner at the root has key 20, the root is BLACK, and the state holds a tree
satisfying the invariants, in particular with the same number of BLACK nodes
on every root-to-sentinel path. -/
theorem insert_seven_keys :
    ∃ s, add_loop 17 seven_keys 0 (test_start (hyrbtree_init (rbtree seven_keys))) = some s ∧
      s.rets = List.replicate 7 (api_t.add_node, HYRBTREE_RET_OK) ∧
      s.rbtree.get_elem (HYRBTREE_GET_NODE_ADDR s.rbtree s.rbtree.root_node) = 20 ∧
      HYRBTREE_READ_NODE_COLOR s.rbtree s.rbtree.root_node = HYRBTREE_NODE_BLACK ∧
      ∃ T, Represents s.rbtree T ∧ RBTree T ∧ (owners T).Pairwise (keyLt s.rbtree) ∧ Bal T ∧
        size T = 7 := by
  have h : (add_loop_strict test_nodes 17 seven_keys 0
      (test_start (hyrbtree_init (rbtree seven_keys)))).map
        (fun s => (insert_report 17 s,
          (read_tree 17 s.rbtree s.rbtree.root_node).map size)) =
      some ((List.replicate 7 (api_t.add_node, HYRBTREE_RET_OK), 20, HYRBTREE_NODE_BLACK, true),
        some 7) := by
    decide!
  rw [add_loop_strict_eq] at h
  obtain ⟨s, hs, hr⟩ := Option.map_eq_some'.1 h
  simp only [insert_report, Prod.mk.injEq] at hr
  obtain ⟨⟨h1, h2, h3, h4⟩, h5⟩ := hr
  refine ⟨s, hs, h1, h2, h3, ?_⟩
  unfold check_invariants at h4
  split at h4
  · rename_i T hT
    obtain ⟨a1, a2, a3, a4, a5, a6, a7, a8⟩ := of_decide_eq_true h4
    rw [hT] at h5
    exact ⟨T, ⟨a1, a2, a3, a4, a5, a6⟩, a7, a8, a7.2.2, by simpa using h5⟩
  · cases h4

/-- The first run of `hyrbtree_test`, evaluated with the strict loops. -/
theorem first_run_report :
    ((add_loop_strict test_nodes 17 temp_add_array 0
      (test_start (hyrbtree_init (rbtree temp_add_array)))).bind
        (del_loop_strict test_nodes 17 temp_del_array)).map (test_report 17) =
      some (expected_rets, 32, true, true) := by
  decide!

/-- C20: the first run of `hyrbtree_test`.  Starting from the freshly
initialised tree, the sixteen keys of `temp_add_array` are inserted with
result OK; then each of the sixteen keys of `temp_del_array` is searched with
result OK and the owner found is deleted with `hyrbtree_del_node` with result
OK; the final search, for key 19, returns TREE_NULL.  Each of the 32 trees
written on the way satisfies the invariants 1 to 5 and the tree is empty at
the end. -/
theorem test_first_run :
    ∃ s, hyrbtree_add_del_test 17 (hyrbtree_init (rbtree temp_add_array)) temp_add_array
        temp_del_array = some s ∧
      s.rets = expected_rets ∧ s.trees.length = 32 ∧ (∀ t ∈ s.trees, Invariants t) ∧
      s.rbtree.root_node = s.rbtree.nil_node := by
  have h := first_run_report
  rw [← add_del_test_eq] at h
  obtain ⟨s, hs, hr⟩ := Option.map_eq_some'.1 h
  simp only [test_report, Prod.mk.injEq, decide_eq_true_eq, List.all_eq_true] at hr
  obtain ⟨h1, h2, h3, h4⟩ := hr
  exact ⟨s, hs, h1, h2, fun t ht => check_invariants_sound 17 t (h3 t ht), h4⟩

open Tree hyrbtree_t hyrbtree_ret_t

/-! ## Replacing the owner at the root -/

/-- C13 (failing input): `oneNodeTree` is well-formed and the walk from its
root pointer reads owner 2, BLACK.  Replacing owner 2 by the detached owner 4
with the same key returns OK, but the walk from the root pointer afterwards
reads one node whose owner is null and whose colour bit is RED instead of
owner 4, BLACK, and the state holds no tree at all. -/
theorem replace_root_breaks_tree :
    rbtree_preorder 2 oneNodeTree oneNodeTree.root_node 0 = some [(0, 2, HYRBTREE_NODE_BLACK)] ∧
    (hyrbtree_replace_node oneNodeTree 2 4).1 = HYRBTREE_RET_OK ∧
    rbtree_preorder 2 (hyrbtree_replace_node oneNodeTree 2 4).2
      (hyrbtree_replace_node oneNodeTree 2 4).2.root_node 0 =
        some [(0, HY_NULL, HYRBTREE_NODE_RED)] ∧
    ¬ ∃ T, Represents (hyrbtree_replace_node oneNodeTree 2 4).2 T := by
  refine ⟨by decide, by decide, by decide, ?_⟩
  rintro ⟨T, h⟩
  cases T with
  | leaf => exact absurd h.root (by decide)
  | node c a o l r =>
    have h1 : a = 3 := by
      have := h.root
      simp only [rootOf] at this
      rw [← this]; decide
    subst h1
    have h2 : o = 0 := by
      rw [← h.rep.1]; decide
    subst h2
    exact (h.linked (3, 0) (by simp [nodes])).2 rfl

/-- C14 (failing input): on the freshly initialised `emptyTree`, insert owner 2
(key 1), insert owner 10 (key 2), replace owner 2 by the detached owner 4 with
the same key, delete owner 10.  Every call returns OK, so two insertions and
one deletion succeeded, but two nodes are reachable from the root. -/
theorem replace_root_breaks_count :
    (run_calls 3 [call_t.add_node 2, call_t.add_node 10, call_t.replace_node 2 4,
        call_t.del_node 10] (hyrbtree_init emptyTree)).map
      (fun p => (p.1.map Prod.snd, live_count p.1, node_count 3 p.2)) =
    some ([HYRBTREE_RET_OK, HYRBTREE_RET_OK, HYRBTREE_RET_OK, HYRBTREE_RET_OK], 1, some 2) := by
  decide!

open Tree hyrbtree_t hyrbtree_ret_t

/-! ## Replacing an owner below the root -/

/-- Substituting an element of a pairwise related list by one that is related
to the others in the same way keeps the list pairwise related. -/
theorem pairwise_subst {R : Nat → Nat → Prop} {l1 l2 : List Nat} {a b : Nat}
    (h : (l1 ++ a :: l2).Pairwise R) (h1 : ∀ x, R x a → R x b) (h2 : ∀ x, R a x → R b x) :
    (l1 ++ b :: l2).Pairwise R := by
  simp only [List.pairwise_append, List.pairwise_cons, List.mem_cons] at h ⊢
  refine ⟨h.1, ⟨fun x hx => h2 x (h.2.1.1 x hx), h.2.1.2⟩, fun x hx y hy => ?_⟩
  rcases hy with rfl | hy
  · exact h1 x (h.2.2 x hx a (Or.inl rfl))
  · exact h.2.2 x hx y (Or.inr hy)

/-- `hyrbtree_replace_node` on a well-formed tree, for an owner of the tree
that is not at the root and a detached owner with an equal key: the call
returns OK and the new state holds a well-formed tree of the same shape and
colours, with the new owner and its linkage in the place of the old ones. -/
theorem replace_node_below_root (t : hyrbtree_t) (T : Tree) (o o' : Nat) (hwf : WellFormed t T)
    (ho : o ∈ owners T) (hd : DetachedOwner t o')
    (hk : t.cmp_elem (t.get_elem o) (t.get_elem o') = 0)
    (hnr : t.get_rbnode o ≠ t.root_node) :
    ∃ t' ctx c l r, hyrbtree_replace_node t o o' = (HYRBTREE_RET_OK, t') ∧
      T = plug ctx (Tree.node c (t.get_rbnode o) o l r) ∧
      WellFormed t' (plug ctx (Tree.node c (t.get_rbnode o') o' l r)) ∧ Detached t' o := by
  obtain ⟨ctx, c, l, r, t', hT, hz, h, hz', hroot, hE, h1, -⟩ :=
    replace_node_focus t T o o' hwf ho hd hk
  have hctx : ctx ≠ [] := by
    intro e
    subst e
    apply hnr
    rw [hwf.1.root, hT]
    rfl
  refine ⟨t', ctx, c, l, r, h, hT, ⟨?_, ?_, ?_, ?_⟩, ?_⟩
  · refine (Represents_iff _ _).2 ⟨?_, (ZRep_plug _ _ _).2 hz', ?_⟩
    · rw [hroot, hwf.1.root, hT, hE.2.2.2, rootOf_plug, rootOf_plug]
      cases ctx with
      | nil => exact absurd rfl hctx
      | cons f K => rfl
    · intro p hp
      rw [nodes_plug] at hp
      simp only [nodes, List.mem_append, List.mem_cons] at hp
      rw [hE.1]
      have hall : ∀ q ∈ nodes T, q.1 = t.get_rbnode q.2 ∧ q.2 ≠ HY_NULL := hwf.1.linked
      rw [hT, nodes_plug] at hall
      simp only [nodes, List.mem_append, List.mem_cons] at hall
      rcases hp with hp | (hp | rfl | hp) | hp
      · exact hall p (Or.inl hp)
      · exact hall p (Or.inr (Or.inl (Or.inl hp)))
      · exact ⟨rfl, hd.1⟩
      · exact hall p (Or.inr (Or.inl (Or.inr (Or.inr hp))))
      · exact hall p (Or.inr (Or.inr hp))
  · have hrb := hwf.2.1
    rw [hT] at hrb
    obtain ⟨a1, a2, a3⟩ := hrb
    rw [rootColor_plug] at a1
    rw [NoRedRed_plug] at a2
    rw [Bal_plug] at a3
    exact ⟨by rw [rootColor_plug]; exact a1, (NoRedRed_plug _ _).2 a2, (Bal_plug _ _).2 ⟨a3.1, by cases c <;> exact a3.2⟩⟩
  · have hs := hwf.2.2.1
    rw [keyLt_congr hE]
    rw [owners_eq_map, hT, nodes_plug] at hs
    rw [owners_eq_map, nodes_plug]
    simp only [nodes, List.map_append, List.map_cons, List.append_assoc] at hs ⊢
    rw [← List.append_assoc] at hs ⊢
    refine pairwise_subst hs (fun x hx => ?_) (fun x hx => ?_)
    · exact hwf.2.2.2.lt_eq_trans hx hk
    · exact hwf.2.2.2.eq_lt_trans (hwf.2.2.2.eq_symm hk) hx
  · rw [hE.2.2.1]; exact hwf.2.2.2
  · simp only [Detached, hE.1]; exact h1

open Tree hyrbtree_t hyrbtree_ret_t

/-! ## Height of a red-black tree and the cost of a search -/

/-- With no RED node below a RED node and uniform black-height, a tree of
black-height `b` has at least `2 ^ b - 1` nodes and height at most `2 * b`,
plus one when its root is RED, in which case it has at least `2 ^ (b + 1) - 1`
nodes. -/
theorem height_bounds : ∀ T : Tree, NoRedRed T → Bal T →
    2 ^ bh T ≤ size T + 1 ∧
    (rootColor T = Color.black → height T ≤ 2 * bh T) ∧
    (rootColor T = Color.red → height T ≤ 2 * bh T + 1 ∧ 2 ^ (bh T + 1) ≤ size T + 1)
  | Tree.leaf, _, _ => by simp [bh, size, height, rootColor]
  | Tree.node c a o l r, hn, hb => by
    obtain ⟨hn1, hn2, hn3⟩ := hn
    obtain ⟨hb1, hb2, hb3⟩ := hb
    obtain ⟨l1, l2, l3⟩ := height_bounds l hn2 hb1
    obtain ⟨r1, r2, r3⟩ := height_bounds r hn3 hb2
    have hl : height l ≤ 2 * bh l + 1 := by
      cases hc : rootColor l
      · exact (l3 hc).1
      · have := l2 hc; omega
    have hr : height r ≤ 2 * bh r + 1 := by
      cases hc : rootColor r
      · exact (r3 hc).1
      · have := r2 hc; omega
    have hp : 0 < 2 ^ bh l := pow_pos (by decide) _
    cases c with
    | red =>
      obtain ⟨hcl, hcr⟩ := hn1 rfl
      have hl' := l2 hcl
      have hr' := r2 hcr
      rw [← hb3] at r1 hr'
      refine ⟨?_, fun h => (by cases h), fun _ => ⟨?_, ?_⟩⟩
      · simp only [bh, size]; omega
      · simp only [bh, height]; omega
      · simp only [bh, size]; rw [pow_succ]; omega
    | black =>
      rw [← hb3] at r1 hr
      refine ⟨?_, fun _ => ?_, fun h => (by cases h)⟩
      · simp only [bh, size]; rw [pow_succ]; omega
      · simp only [bh, height]; omega

/-- The height of a tree with no RED node below a RED node and uniform
black-height is at most twice the binary logarithm of its size plus one. -/
theorem height_le_log (T : Tree) (hn : NoRedRed T) (hb : Bal T) :
    height T ≤ 2 * Nat.log 2 (size T + 1) := by
  obtain ⟨h1, h2, h3⟩ := height_bounds T hn hb
  cases hc : rootColor T
  · obtain ⟨h4, h5⟩ := h3 hc
    have := (Nat.pow_le_iff_le_log (by decide) (by omega)).1 h5
    omega
  · have h4 := h2 hc
    have := (Nat.pow_le_iff_le_log (by decide) (by omega)).1 h1
    omega

/-- The search loop needs as many iterations as the subtree is high. -/
theorem get_node_loop_height (t : hyrbtree_t) (k : Nat) :
    ∀ (s : Tree) (par : Nat) (ctx : Ctx) (fuel : Nat), s ≠ Tree.leaf → Rep t s par →
      t.nil_node ∉ addrs s → height s ≤ fuel →
      hyrbtree_get_node_loop fuel t k (rootOf t.nil_node s) = some (getResult (descend t k s ctx))
  | Tree.leaf, _, _, _, h, _, _, _ => absurd rfl h
  | Tree.node c a o l r, par, ctx, 0, _, _, _, hf => by simp [height] at hf
  | Tree.node c a o l r, par, ctx, fuel + 1, _, hr, hn, hf => by
    obtain ⟨h1, h2, h3, h4, h5, h6, h7⟩ := hr
    simp only [addrs_node, List.mem_append, List.mem_cons, not_or] at hn
    simp only [height] at hf
    simp only [hyrbtree_get_node_loop, rootOf_node, h1, descend, h4, h5]
    by_cases hlt : t.cmp_elem k (t.get_elem o) < 0
    · simp only [hlt, if_true]
      cases l with
      | leaf => simp [descend, getResult]
      | node lc la lo ll lr =>
        have hla : la ≠ t.nil_node := by
          intro e; apply hn.1; simp [e]
        simp only [rootOf_node, hla, if_false]
        exact get_node_loop_height t k (Tree.node lc la lo ll lr) a (Frame.L c a o r :: ctx) fuel
          (by simp) h6 hn.1 (by omega)
    · simp only [hlt, if_false]
      by_cases hgt : t.cmp_elem k (t.get_elem o) > 0
      · simp only [hgt, if_true]
        cases r with
        | leaf => simp [descend, getResult]
        | node rc ra ro rl rr =>
          have hra : ra ≠ t.nil_node := by
            intro e; apply hn.2.2; simp [e]
          simp only [rootOf_node, hra, if_false]
          exact get_node_loop_height t k (Tree.node rc ra ro rl rr) a (Frame.R c a o l :: ctx)
            fuel (by simp) h7 hn.2.2 (by omega)
      · simp only [hgt, if_false, getResult]

/-- With fuel for as many iterations as the tree is high, `hyrbtree_get_node`
returns what it returns with fuel for as many iterations as the tree has
nodes. -/
theorem get_node_height (t : hyrbtree_t) (T : Tree) (k fuel : Nat) (h : Represents t T)
    (hf : height T ≤ fuel) :
    hyrbtree_get_node fuel t k = hyrbtree_get_node (size T) t k := by
  have hiff := root_eq_nil_iff t T h
  by_cases hT : T = Tree.leaf
  · simp [hyrbtree_get_node, hiff.2 hT]
  · have hrootne : ¬ t.root_node = t.nil_node := fun e => hT (hiff.1 e)
    simp only [hyrbtree_get_node, ne_eq, hrootne, not_false_eq_true, if_true]
    rw [h.root, get_node_loop_height t k T _ [] fuel hT h.rep h.nil_not_mem hf,
      get_node_loop_eq t k T _ [] (size T) hT h.rep h.nil_not_mem le_rfl]

/-- C25: a tree with `n` nodes that has no RED node below a RED node and
uniform black-height has height at most `2 * log2 (n + 1)`; so on a
well-formed tree `hyrbtree_get_node`, whose loop calls the comparator once per
iteration, returns within `2 * log2 (n + 1)` iterations, with the result it
gives with unbounded fuel. -/
theorem height_le_two_log (T : Tree) (hn : NoRedRed T) (hb : Bal T) :
    height T ≤ 2 * Nat.log 2 (size T + 1) ∧
    ∀ (t : hyrbtree_t) (k : Nat), WellFormed t T →
      (∃ r, hyrbtree_get_node (2 * Nat.log 2 (size T + 1)) t k = some r) ∧
      ∀ fuel, 2 * Nat.log 2 (size T + 1) ≤ fuel →
        hyrbtree_get_node fuel t k = hyrbtree_get_node (2 * Nat.log 2 (size T + 1)) t k := by
  have hh := height_le_log T hn hb
  refine ⟨hh, fun t k hwf => ⟨?_, fun fuel hf => ?_⟩⟩
  · rw [get_node_height t T k _ hwf.1 hh]
    obtain ⟨h1, h2, h3⟩ := get_node_spec t T k (size T) hwf le_rfl
    by_cases hT : T = Tree.leaf
    · exact ⟨_, h1 hT⟩
    · by_cases he : ∃ e ∈ owners T, t.cmp_elem k (t.get_elem e) = 0
      · obtain ⟨e, he, hk⟩ := he
        exact ⟨_, h2 e he hk⟩
      · exact ⟨_, h3 hT (fun e he' hk => he ⟨e, he', hk⟩)⟩
  · rw [get_node_height t T k _ hwf.1 hh, get_node_height t T k _ hwf.1 (le_trans hh hf)]

theorem height_le_two_log_witness :
    NoRedRed oneNode ∧ Bal oneNode ∧ WellFormed oneNodeTree oneNode ∧
    height oneNode ≤ 2 * Nat.log 2 (size oneNode + 1) ∧
    (∃ r, hyrbtree_get_node (2 * Nat.log 2 (size oneNode + 1)) oneNodeTree 1 = some r) :=
  ⟨oneNodeTree_wf.2.1.2.1, oneNodeTree_wf.2.1.2.2, oneNodeTree_wf,
    (height_le_two_log oneNode oneNodeTree_wf.2.1.2.1 oneNodeTree_wf.2.1.2.2).1,
    ((height_le_two_log oneNode oneNodeTree_wf.2.1.2.1 oneNodeTree_wf.2.1.2.2).2 oneNodeTree 1
      oneNodeTree_wf).1⟩

open Tree hyrbtree_t hyrbtree_ret_t

/-! ## Search after deletion, and the colour bit -/

/-- C28: for every well-formed tree and every owner attached to it, after
`hyrbtree_del_node(owner)` has returned OK a search for the owner's key
returns TREE_NULL when the owner was the only node and NOT_FIND otherwise,
and a search for the key of any other attached owner returns OK with that
owner. -/
theorem get_after_del (t : hyrbtree_t) (T : Tree) (o fuel : Nat)
    (hwf : WellFormed t T) (ho : o ∈ owners T) (hf : size T < fuel) :
    ∃ t', hyrbtree_del_node fuel t o = some (HYRBTREE_RET_OK, t') ∧
      (size T = 1 →
        hyrbtree_get_node fuel t' (t'.get_elem o) =
          some (HYRBTREE_RET_GET_NODE_TREE_NULL, none)) ∧
      (size T ≠ 1 →
        hyrbtree_get_node fuel t' (t'.get_elem o) =
          some (HYRBTREE_RET_GET_NODE_NOT_FIND, none)) ∧
      ∀ e ∈ owners T, e ≠ o →
        hyrbtree_get_node fuel t' (t'.get_elem e) = some (HYRBTREE_RET_OK, some e) := by
  obtain ⟨t', T', h, hok⟩ := del_node_ok t T o fuel hwf ho hf
  obtain ⟨l1, l2, e1, e2⟩ := DelOk_owners hok
  have hsz := DelOk_size hok
  obtain ⟨hwf', hE, hd, -⟩ := hok
  obtain ⟨g1, g2, g3⟩ := get_node_spec t' T' (t'.get_elem o) fuel hwf' (by omega)
  have hnew : ∀ e ∈ owners T', t'.cmp_elem (t'.get_elem o) (t'.get_elem e) ≠ 0 := by
    intro e he hk
    have hs := hwf.2.2.1
    rw [e1] at hs
    rw [e2] at he
    simp only [List.pairwise_append, List.pairwise_cons, List.mem_cons] at hs
    rw [hE.2.1, hE.2.2.1] at hk
    have hk' := hwf.2.2.2.eq_symm hk
    rcases List.mem_append.1 he with hm | hm
    · have := hs.2.2 e hm o (Or.inl rfl)
      simp only [keyLt] at this
      omega
    · have := hs.2.1.1 e hm
      simp only [keyLt] at this
      omega
  have hleaf : size T = 1 ↔ T' = Tree.leaf := by
    constructor
    · intro h1
      cases T' with
      | leaf => rfl
      | node c a o' l r => simp only [size] at hsz; omega
    · intro h1
      rw [h1] at hsz
      simpa [size] using hsz
  refine ⟨t', h, fun h1 => g1 (hleaf.1 h1), fun h1 => g3 (fun e => h1 (hleaf.2 e)) hnew, ?_⟩
  intro e he hne
  have he' : e ∈ owners T' := by
    rw [e1] at he
    rw [e2]
    simp only [List.mem_append, List.mem_cons] at he ⊢
    tauto
  exact (get_node_spec t' T' (t'.get_elem e) fuel hwf' (by omega)).2.1 e he'
    (hwf'.2.2.2.refl_eq _)

/-- C26: when a node's owner word holds the even address `a`, with either
colour bit, `HYRBTREE_SET_NODE_BLACK` makes the word `a + 1` and
`HYRBTREE_SET_NODE_RED` makes it `a`, so only bit 0 changes; after either
`HYRBTREE_GET_NODE_ADDR` returns `a`; `HYRBTREE_READ_NODE_COLOR` returns 1
after `HYRBTREE_SET_NODE_BLACK` and 0 after `HYRBTREE_SET_NODE_RED`; the words
of the other nodes and all links are untouched.  `HYRBTREE_GET_NODE_ADDR`
never returns an address with bit 0 set, in particular not when such an
address was stored in the owner word. -/
theorem color_bit_macros (t : hyrbtree_t) (n a : Nat) (ha : a % 2 = 0)
    (hw : t.user_node n = a ∨ t.user_node n = a + 1) :
    ((HYRBTREE_SET_NODE_BLACK t n).user_node n = a + 1 ∧
      (HYRBTREE_SET_NODE_RED t n).user_node n = a) ∧
    ((HYRBTREE_SET_NODE_BLACK t n).user_node n / 2 = t.user_node n / 2 ∧
      (HYRBTREE_SET_NODE_RED t n).user_node n / 2 = t.user_node n / 2) ∧
    (HYRBTREE_GET_NODE_ADDR (HYRBTREE_SET_NODE_BLACK t n) n = a ∧
      HYRBTREE_GET_NODE_ADDR (HYRBTREE_SET_NODE_RED t n) n = a) ∧
    (HYRBTREE_READ_NODE_COLOR (HYRBTREE_SET_NODE_BLACK t n) n = 1 ∧
      HYRBTREE_READ_NODE_COLOR (HYRBTREE_SET_NODE_RED t n) n = 0) ∧
    (∀ x, x ≠ n → (HYRBTREE_SET_NODE_BLACK t n).user_node x = t.user_node x ∧
      (HYRBTREE_SET_NODE_RED t n).user_node x = t.user_node x) ∧
    ((HYRBTREE_SET_NODE_BLACK t n).parent_node = t.parent_node ∧
      (HYRBTREE_SET_NODE_BLACK t n).left_node = t.left_node ∧
      (HYRBTREE_SET_NODE_BLACK t n).right_node = t.right_node ∧
      (HYRBTREE_SET_NODE_RED t n).parent_node = t.parent_node ∧
      (HYRBTREE_SET_NODE_RED t n).left_node = t.left_node ∧
      (HYRBTREE_SET_NODE_RED t n).right_node = t.right_node) ∧
    ∀ (s : hyrbtree_t) (m b : Nat), b % 2 = 1 →
      HYRBTREE_GET_NODE_ADDR s m ≠ b ∧
      HYRBTREE_GET_NODE_ADDR (s.set_user m b) m ≠ b := by
  have hb : (HYRBTREE_SET_NODE_BLACK t n).user_node n = a + 1 := by
    simp only [HYRBTREE_SET_NODE_BLACK, set_user_user, if_true, lor_one_eq]
    rcases hw with h | h <;> rw [h] <;> omega
  have hr : (HYRBTREE_SET_NODE_RED t n).user_node n = a := by
    simp only [HYRBTREE_SET_NODE_RED, set_user_user, if_true]
    rcases hw with h | h <;> rw [h] <;> omega
  refine ⟨⟨hb, hr⟩, ⟨?_, ?_⟩, ⟨?_, ?_⟩, ⟨?_, ?_⟩, fun x hx => ⟨?_, ?_⟩,
    ⟨rfl, rfl, rfl, rfl, rfl, rfl⟩, fun s m b hb1 => ⟨?_, ?_⟩⟩
  · rw [hb]; rcases hw with h | h <;> (rw [h]; try omega)
  · rw [hr]; rcases hw with h | h <;> (rw [h]; try omega)
  · simp only [HYRBTREE_GET_NODE_ADDR, hb]; omega
  · simp only [HYRBTREE_GET_NODE_ADDR, hr]; omega
  · simp only [HYRBTREE_READ_NODE_COLOR, hb]; omega
  · simp only [HYRBTREE_READ_NODE_COLOR, hr]; omega
  · simp [HYRBTREE_SET_NODE_BLACK, hx]
  · simp [HYRBTREE_SET_NODE_RED, hx]
  · have := addr_even s m
    intro e; rw [e] at this; omega
  · have := addr_even (s.set_user m b) m
    intro e; rw [e] at this; omega

theorem color_bit_macros_witness :
    2 % 2 = 0 ∧ (oneNodeTree.user_node 3 = 2 ∨ oneNodeTree.user_node 3 = 2 + 1) ∧
    ((HYRBTREE_SET_NODE_BLACK oneNodeTree 3).user_node 3 = 2 + 1 ∧
      (HYRBTREE_SET_NODE_RED oneNodeTree 3).user_node 3 = 2) ∧
    (HYRBTREE_GET_NODE_ADDR (HYRBTREE_SET_NODE_BLACK oneNodeTree 3) 3 = 2 ∧
      HYRBTREE_GET_NODE_ADDR (HYRBTREE_SET_NODE_RED oneNodeTree 3) 3 = 2) ∧
    (HYRBTREE_READ_NODE_COLOR (HYRBTREE_SET_NODE_BLACK oneNodeTree 3) 3 = 1 ∧
      HYRBTREE_READ_NODE_COLOR (HYRBTREE_SET_NODE_RED oneNodeTree 3) 3 = 0) ∧
    HYRBTREE_GET_NODE_ADDR (oneNodeTree.set_user 3 7) 3 ≠ 7 :=
  ⟨by decide, Or.inr (by decide),
    (color_bit_macros oneNodeTree 3 2 (by decide) (Or.inr (by decide))).1,
    (color_bit_macros oneNodeTree 3 2 (by decide) (Or.inr (by decide))).2.2.1,
    (color_bit_macros oneNodeTree 3 2 (by decide) (Or.inr (by decide))).2.2.2.1,
    ((color_bit_macros oneNodeTree 3 2 (by decide) (Or.inr (by decide))).2.2.2.2.2.2
      oneNodeTree 3 7 (by decide)).2⟩

open Tree hyrbtree_t hyrbtree_ret_t

/-! ## Nodes with one child -/

/-- In a red-black tree a node whose left subtree is empty and whose right
subtree is not is BLACK. -/
theorem black_of_single_right (K : Ctx) (c : Color) (n o : Nat) (r : Tree)
    (h : RBTree (plug K (Tree.node c n o Tree.leaf r))) (hr : r ≠ Tree.leaf) :
    c = Color.black := by
  obtain ⟨x, ox, e, -⟩ := single_child_right K c n o r h hr
  subst e
  have h2 := (NoRedRed_plug _ _).1 h.2.1
  cases c
  · have := (h2.1.1 rfl).2
    simp [rootColor] at this
  · rfl

/-- In a red-black tree a node whose right subtree is empty and whose left
subtree is not is BLACK. -/
theorem black_of_single_left (K : Ctx) (c : Color) (n o : Nat) (l : Tree)
    (h : RBTree (plug K (Tree.node c n o l Tree.leaf))) (hl : l ≠ Tree.leaf) :
    c = Color.black := by
  obtain ⟨x, ox, e, -⟩ := single_child_left K c n o l h hl
  subst e
  have h2 := (NoRedRed_plug _ _).1 h.2.1
  cases c
  · have := (h2.1.1 rfl).1
    simp [rootColor] at this
  · rfl

/-- C23: in a tree satisfying the red-black invariants, a node with exactly
one real child is BLACK and that child is a RED leaf.  So the one-child
branches of `hyrbtree_del_balance` (the right-child branch, reached below the
root after the successor exchange, and the left-child branch) return with the
child, coloured BLACK, in the slot of the removed node; the slot keeps its
black-height and the tree satisfies the red-black invariants again. -/
theorem one_child_is_red_leaf (K : Ctx) (c : Color) (n o : Nat) (l r : Tree)
    (h : RBTree (plug K (Tree.node c n o l r)))
    (hone : (l = Tree.leaf ∧ r ≠ Tree.leaf) ∨ (l ≠ Tree.leaf ∧ r = Tree.leaf)) :
    c = Color.black ∧
    ∃ x ox, ((l = Tree.leaf ∧ r = Tree.node Color.red x ox Tree.leaf Tree.leaf) ∨
        (l = Tree.node Color.red x ox Tree.leaf Tree.leaf ∧ r = Tree.leaf)) ∧
      bh (Tree.node Color.black x ox Tree.leaf Tree.leaf) = bh (Tree.node c n o l r) ∧
      RBTree (plug K (Tree.node Color.black x ox Tree.leaf Tree.leaf)) ∧
      (∀ (t : hyrbtree_t) (fuel : Nat), l = Tree.leaf → K ≠ [] → HoleRep t K c n o l r →
        ∃ t', hyrbtree_del_balance fuel t n = some t' ∧
          ZRep t' K (Tree.node Color.black x ox Tree.leaf Tree.leaf)) ∧
      (∀ (t : hyrbtree_t) (fuel : Nat), r = Tree.leaf → ZRep t K (Tree.node c n o l r) →
        t.root_node = ctxRoot K n →
        ∃ t', hyrbtree_del_balance fuel t n = some t' ∧
          ZRep t' K (Tree.node Color.black x ox Tree.leaf Tree.leaf) ∧
          t'.root_node = ctxRoot K x) := by
  rcases hone with ⟨hl, hr⟩ | ⟨hl, hr⟩
  · subst hl
    have hc := black_of_single_right K c n o r h hr
    obtain ⟨x, ox, e, hrb⟩ := single_child_right K c n o r h hr
    subst e hc
    refine ⟨rfl, x, ox, Or.inl ⟨rfl, rfl⟩, rfl, hrb, fun t fuel _ hK hH => ?_,
      fun t fuel e => (by cases e)⟩
    rcases K with _ | ⟨F, K⟩
    · exact absurd rfl hK
    · obtain ⟨t', h1, h2, -⟩ := del_splice_right t F K Color.black Color.red n o x ox fuel hH
      exact ⟨t', h1, h2⟩
  · subst hr
    have hc := black_of_single_left K c n o l h hl
    obtain ⟨x, ox, e, hrb⟩ := single_child_left K c n o l h hl
    subst e hc
    refine ⟨rfl, x, ox, Or.inr ⟨rfl, rfl⟩, rfl, hrb, fun t fuel e => (by cases e),
      fun t fuel _ hz hroot => ?_⟩
    obtain ⟨t', h1, h2, h3, -⟩ := del_splice_left t K Color.black Color.red n o x ox fuel hz hroot
    exact ⟨t', h1, h2, h3⟩

open Tree hyrbtree_t hyrbtree_ret_t

/-! ## The successor exchange -/

/-- C22: on a well-formed tree, for an attached owner `o` whose node `n` has a
real right child, `hyrbtree_replace_successor` returns (fuel for the walk) and
exchanges `n` with the leftmost node `s` of its right subtree, whether `s` is
the right child of `n` (`sctx = []`) or lies deeper: `s` fills the former slot
of `n` with the former colour, parent and left subtree of `n`, and is the root
if `n` was; `n` fills the former slot of `s` with the former colour of `s`, no
left child and the former right subtree of `s` as right child; each linkage
keeps its owner. -/
theorem replace_successor_exchanges (t : hyrbtree_t) (T : Tree) (o fuel : Nat)
    (hwf : WellFormed t T) (ho : o ∈ owners T)
    (hr : t.right_node (t.get_rbnode o) ≠ t.nil_node) (hf : size T ≤ fuel) :
    ∃ ctx c l sctx cs s os sr t1,
      T = plug ctx (Tree.node c (t.get_rbnode o) o l (plug sctx (Tree.node cs s os Tree.leaf sr))) ∧
      (∀ f ∈ sctx, ∃ cc a o' sib, f = Frame.L cc a o' sib) ∧
      hyrbtree_replace_successor fuel t (t.get_rbnode o) = some t1 ∧
      HoleRep t1 (sctx ++ Frame.R c s os l :: ctx) cs (t.get_rbnode o) o Tree.leaf sr ∧
      (t.root_node = t.get_rbnode o → t1.root_node = s) ∧
      (t.root_node ≠ t.get_rbnode o → t1.root_node = t.root_node) ∧
      HYRBTREE_GET_NODE_ADDR t s = os ∧
      HYRBTREE_GET_NODE_ADDR t1 s = os ∧
      HYRBTREE_GET_NODE_ADDR t1 (t.get_rbnode o) = o ∧
      HYRBTREE_READ_NODE_COLOR t1 s = HYRBTREE_READ_NODE_COLOR t (t.get_rbnode o) ∧
      HYRBTREE_READ_NODE_COLOR t1 (t.get_rbnode o) = HYRBTREE_READ_NODE_COLOR t s ∧
      t1.parent_node s = t.parent_node (t.get_rbnode o) ∧
      t1.left_node s = t.left_node (t.get_rbnode o) ∧
      t1.left_node (t.get_rbnode o) = t1.nil_node ∧
      t1.right_node (t.get_rbnode o) = t.right_node s ∧
      (sctx = [] → t.right_node (t.get_rbnode o) = s ∧ t1.right_node s = t.get_rbnode o ∧
        t1.parent_node (t.get_rbnode o) = s) ∧
      (sctx ≠ [] → t.right_node (t.get_rbnode o) ≠ s ∧
        t1.right_node s = t.right_node (t.get_rbnode o) ∧
        t1.parent_node (t.get_rbnode o) = t.parent_node s) := by
  obtain ⟨ctx, c, l, r, hT, hz⟩ := focus_of_mem_owners t T o hwf.1 ho
  have hroot : t.root_node = ctxRoot ctx (t.get_rbnode o) := by
    rw [hwf.1.root, hT, rootOf_plug]; rfl
  have hrn : t.right_node (t.get_rbnode o) = rootOf t.nil_node r := hz.2.1.2.2.2.2.1
  have hrl : r ≠ Tree.leaf := by
    intro e; rw [e] at hrn; exact hr hrn
  have hsize := length_le_size ctx (Tree.node c (t.get_rbnode o) o l r)
  rw [← hT] at hsize
  simp only [size] at hsize
  obtain ⟨sctx, cs, s, os, sr, t1, e, hall, h1, hH, hR, hE⟩ :=
    replace_successor_spec t ctx c (t.get_rbnode o) o fuel l r hz hroot hrl (by omega)
  subst e
  have hzS : ZRep t (sctx ++ Frame.R c (t.get_rbnode o) o l :: ctx)
      (Tree.node cs s os Tree.leaf sr) := by
    rw [ZRep_append]; exact (ZRep_cons t _ _ _).2 hz
  obtain ⟨-, ⟨s1, s2, s3, s4, s5, -, -⟩, -, hsepS⟩ := hzS
  obtain ⟨-, ⟨n1, n2, n3, n4, n5, -, -⟩, -, -⟩ := hz
  have hH0 := hH
  obtain ⟨k1, k2, k3, k4, k5, k6, -, -, -, -⟩ := hH
  have k1' := ((RepCtx_append t1 sctx (Frame.R c s os l :: ctx) _ _).1 k1).2
  simp only [RepCtx] at k1'
  obtain ⟨m1, m2, m3, m4, m5, -, -⟩ := k1'
  have hnroot : ctx ≠ [] → ¬ t.get_rbnode o = t.root_node := fun hctx =>
    @ne_root_of_frame t sctx (Frame.R c (t.get_rbnode o) o l) ctx _ hsepS hroot hctx
  have hsmem : s ∉ ctxAddrs sctx := by
    have h := hsepS.1
    simp only [addrs_node, addrs_leaf, List.nil_append, ctxAddrs_append, List.cons_append,
      List.nodup_cons, List.mem_append, not_or] at h
    exact h.1.2.1
  refine ⟨ctx, c, l, sctx, cs, s, os, sr, t1, hT, hall, h1, hH0, ?_, ?_,
    s1, m1, k2, by rw [m2, n2], by rw [k3, s2], by rw [m3, n3, hE.2.2.2], by rw [m4, n4, hE.2.2.2],
    by rw [k5]; rfl, by rw [k6, s5, hE.2.2.2], ?_, ?_⟩
  · intro e
    rcases ctx with _ | ⟨F, ctx⟩
    · exact hR
    · exact absurd e.symm (hnroot (by simp))
  · intro hne
    rcases ctx with _ | ⟨F, ctx⟩
    · exact absurd hroot hne
    · rw [hR, hroot]; rfl
  · intro e
    subst e
    refine ⟨by rw [hrn]; rfl, by rw [m5]; rfl, by rw [k4]; rfl⟩
  · intro hne
    rcases sctx with _ | ⟨F, sctx⟩
    · exact absurd rfl hne
    · have hrr : t.right_node (t.get_rbnode o) = ctxRoot (F :: sctx) s := by
        rw [hrn, rootOf_plug]; rfl
      refine ⟨?_, by rw [m5, hrr]; rfl, by rw [k4, s3]; rfl⟩
      rw [hrr]
      intro e
      exact hsmem (e ▸ ctxRoot_mem (F :: sctx) s (by simp))

open Tree hyrbtree_t hyrbtree_ret_t

/-! ## The frame of a rotation -/

/-- A left rotation at `n` writes only links of `n`, of its right child, of its
parent and of the root of the left subtree of the right child. -/
theorem left_rotate_frame (t : hyrbtree_t) (ctx : Ctx) (cn : Color) (n no : Nat) (a : Tree)
    (cc : Color) (c oc : Nat) (b d : Tree)
    (h : ZRep t ctx (node cn n no a (node cc c oc b d))) (x : Nat)
    (h1 : x ≠ n) (h2 : x ≠ c) (h3 : x ≠ t.parent_node n) (h4 : x ≠ t.left_node c) :
    (hyrbtree_left_rotate_node t n).parent_node x = t.parent_node x ∧
    (hyrbtree_left_rotate_node t n).left_node x = t.left_node x ∧
    (hyrbtree_left_rotate_node t n).right_node x = t.right_node x := by
  obtain ⟨k1, k2, k3, hs⟩ := h
  rcases ctx with _ | ⟨⟨cp, p, op, sib⟩ | ⟨cp, p, op, sib⟩, ctx⟩ <;>
  rcases b with _ | ⟨cb, ab, ob, bl, br⟩ <;>
  simp only [ZRep, RepCtx, Rep, rootOf_node, rootOf_leaf, ctxPar_nil, ctxPar_cons, Frame.addr_L,
    Frame.addr_R, true_and, and_true] at k1 k2 <;>
  simp only [Sep, addrs_node, addrs_leaf, ctxAddrs_cons, ctxAddrs_nil, Frame.addr_L, Frame.addr_R,
    Frame.sibling_L, Frame.sibling_R, List.nodup_append, List.nodup_cons,
    List.mem_append, not_or, not_mem_cons_sym, List.disjoint_cons_left, List.disjoint_cons_right,
    List.disjoint_append_left, List.disjoint_append_right, List.not_mem_nil, List.nodup_nil,
    List.disjoint_nil_left, List.disjoint_nil_right, not_false_eq_true, true_and, and_true,
    List.append_nil, List.nil_append] at hs <;>
  simp only [k1, k2] at h3 h4 <;>
  simp [hyrbtree_left_rotate_node, k1, k2, k3, hs, h1, h2, h3, h4]

/-- A right rotation at `n` writes only links of `n`, of its left child, of its
parent and of the root of the right subtree of the left child. -/
theorem right_rotate_frame (t : hyrbtree_t) (ctx : Ctx) (cn : Color) (n no : Nat) (d : Tree)
    (cc : Color) (c oc : Nat) (a b : Tree)
    (h : ZRep t ctx (node cn n no (node cc c oc a b) d)) (x : Nat)
    (h1 : x ≠ n) (h2 : x ≠ c) (h3 : x ≠ t.parent_node n) (h4 : x ≠ t.right_node c) :
    (hyrbtree_right_rotate_node t n).parent_node x = t.parent_node x ∧
    (hyrbtree_right_rotate_node t n).left_node x = t.left_node x ∧
    (hyrbtree_right_rotate_node t n).right_node x = t.right_node x := by
  obtain ⟨k1, k2, k3, hs⟩ := h
  rcases ctx with _ | ⟨⟨cp, p, op, sib⟩ | ⟨cp, p, op, sib⟩, ctx⟩ <;>
  rcases b with _ | ⟨cb, ab, ob, bl, br⟩ <;>
  simp only [ZRep, RepCtx, Rep, rootOf_node, rootOf_leaf, ctxPar_nil, ctxPar_cons, Frame.addr_L,
    Frame.addr_R, true_and, and_true] at k1 k2 <;>
  simp only [Sep, addrs_node, addrs_leaf, ctxAddrs_cons, ctxAddrs_nil, Frame.addr_L, Frame.addr_R,
    Frame.sibling_L, Frame.sibling_R, List.nodup_append, List.nodup_cons,
    List.mem_append, not_or, not_mem_cons_sym, List.disjoint_cons_left, List.disjoint_cons_right,
    List.disjoint_append_left, List.disjoint_append_right, List.not_mem_nil, List.nodup_nil,
    List.disjoint_nil_left, List.disjoint_nil_right, not_false_eq_true, true_and, and_true,
    List.append_nil, List.nil_append] at hs <;>
  simp only [k1, k2] at h3 h4 <;>
  simp [hyrbtree_right_rotate_node, k1, k2, k3, hs, h1, h2, h3, h4]

/-- C21: for a node `n` of a tree whose right child `c` is a real node,
`hyrbtree_left_rotate_node` turns the subtree `n(a, c(b, d))` into
`c(n(a, b), d)`, so the in-order sequence of the subtree is the same, no owner
word (owner and colour) is written, the root pointer is not written, and the
links of every node other than `n`, `c`, the parent of `n` and the root of `b`
are unchanged; `hyrbtree_right_rotate_node` does the mirror image for a node
whose left child is real. -/
theorem rotate_preserves_order :
    (∀ (t : hyrbtree_t) (ctx : Ctx) (cn : Color) (n no : Nat) (a : Tree) (cc : Color)
        (c oc : Nat) (b d : Tree), ZRep t ctx (node cn n no a (node cc c oc b d)) →
      ZRep (hyrbtree_left_rotate_node t n) ctx (node cc c oc (node cn n no a b) d) ∧
      nodes (plug ctx (node cc c oc (node cn n no a b) d)) =
        nodes (plug ctx (node cn n no a (node cc c oc b d))) ∧
      nodes (node cc c oc (node cn n no a b) d) = nodes (node cn n no a (node cc c oc b d)) ∧
      (hyrbtree_left_rotate_node t n).user_node = t.user_node ∧
      (hyrbtree_left_rotate_node t n).root_node = t.root_node ∧
      ∀ x, x ≠ n → x ≠ t.right_node n → x ≠ t.parent_node n →
        x ≠ t.left_node (t.right_node n) →
        (hyrbtree_left_rotate_node t n).parent_node x = t.parent_node x ∧
        (hyrbtree_left_rotate_node t n).left_node x = t.left_node x ∧
        (hyrbtree_left_rotate_node t n).right_node x = t.right_node x) ∧
    (∀ (t : hyrbtree_t) (ctx : Ctx) (cn : Color) (n no : Nat) (d : Tree) (cc : Color)
        (c oc : Nat) (a b : Tree), ZRep t ctx (node cn n no (node cc c oc a b) d) →
      ZRep (hyrbtree_right_rotate_node t n) ctx (node cc c oc a (node cn n no b d)) ∧
      nodes (plug ctx (node cc c oc a (node cn n no b d))) =
        nodes (plug ctx (node cn n no (node cc c oc a b) d)) ∧
      nodes (node cc c oc a (node cn n no b d)) = nodes (node cn n no (node cc c oc a b) d) ∧
      (hyrbtree_right_rotate_node t n).user_node = t.user_node ∧
      (hyrbtree_right_rotate_node t n).root_node = t.root_node ∧
      ∀ x, x ≠ n → x ≠ t.left_node n → x ≠ t.parent_node n →
        x ≠ t.right_node (t.left_node n) →
        (hyrbtree_right_rotate_node t n).parent_node x = t.parent_node x ∧
        (hyrbtree_right_rotate_node t n).left_node x = t.left_node x ∧
        (hyrbtree_right_rotate_node t n).right_node x = t.right_node x) := by
  constructor
  · intro t ctx cn n no a cc c oc b d h
    have hc : t.right_node n = c := h.2.1.2.2.2.2.1
    refine ⟨left_rotate_rep t ctx cn n no a cc c oc b d h, ?_, ?_, left_rotate_user t n,
      left_rotate_root t n, fun x h1 h2 h3 h4 => ?_⟩
    · simp [nodes_plug, nodes]
    · simp [nodes]
    · rw [hc] at h2 h4
      exact left_rotate_frame t ctx cn n no a cc c oc b d h x h1 h2 h3 h4
  · intro t ctx cn n no d cc c oc a b h
    have hc : t.left_node n = c := h.2.1.2.2.2.1
    refine ⟨right_rotate_rep t ctx cn n no d cc c oc a b h, ?_, ?_, right_rotate_user t n,
      right_rotate_root t n, fun x h1 h2 h3 h4 => ?_⟩
    · simp [nodes_plug, nodes]
    · simp [nodes]
    · rw [hc] at h2 h4
      exact right_rotate_frame t ctx cn n no d cc c oc a b h x h1 h2 h3 h4

open Tree hyrbtree_t hyrbtree_ret_t

/-! ## Link consistency -/

/-- In a laid-out subtree each child link is the sentinel or designates a node
of the subtree whose parent link points back, and each node holds the owner
the tree assigns to it. -/
theorem Rep_links (t : hyrbtree_t) : ∀ (s : Tree) (par : Nat), Rep t s par →
    ∀ n ∈ addrs s,
      (t.left_node n = t.nil_node ∨
        (t.left_node n ∈ addrs s ∧ t.parent_node (t.left_node n) = n)) ∧
      (t.right_node n = t.nil_node ∨
        (t.right_node n ∈ addrs s ∧ t.parent_node (t.right_node n) = n)) ∧
      (n, HYRBTREE_GET_NODE_ADDR t n) ∈ nodes s
  | Tree.leaf, _, _, n, hn => by simp at hn
  | Tree.node c a o l r, par, h, n, hn => by
    obtain ⟨h1, h2, h3, h4, h5, h6, h7⟩ := h
    simp only [addrs_node, List.mem_append, List.mem_cons] at hn
    rcases hn with hn | rfl | hn
    · obtain ⟨q1, q2, q3⟩ := Rep_links t l a h6 n hn
      refine ⟨q1.imp id (fun q => ⟨?_, q.2⟩), q2.imp id (fun q => ⟨?_, q.2⟩), ?_⟩
      · simp [q.1]
      · simp [q.1]
      · simp [nodes, q3]
    · refine ⟨?_, ?_, ?_⟩
      · rw [h4]
        cases l with
        | leaf => exact Or.inl rfl
        | node lc la lo ll lr => exact Or.inr ⟨by simp, h6.2.2.1⟩
      · rw [h5]
        cases r with
        | leaf => exact Or.inl rfl
        | node rc ra ro rl rr => exact Or.inr ⟨by simp, h7.2.2.1⟩
      · simp [nodes, h1]
    · obtain ⟨q1, q2, q3⟩ := Rep_links t r a h7 n hn
      refine ⟨q1.imp id (fun q => ⟨?_, q.2⟩), q2.imp id (fun q => ⟨?_, q.2⟩), ?_⟩
      · simp [q.1]
      · simp [q.1]
      · simp [nodes, q3]

/-- A state that holds a tree is link consistent on the nodes of the tree. -/
theorem Represents.link_consistent {t : hyrbtree_t} {T : Tree} (h : Represents t T) :
    LinkConsistent t (addrs T) := by
  refine ⟨fun hne => ?_, fun n hn => ?_⟩
  · cases T with
    | leaf => exact absurd h.root hne
    | node c a o l r =>
      have hr : t.root_node = a := h.root
      rw [hr]
      exact ⟨by simp, h.rep.2.2.1⟩
  · obtain ⟨q1, q2, q3⟩ := Rep_links t T _ h.rep n hn
    obtain ⟨e1, e2⟩ := h.linked _ q3
    exact ⟨q1, q2, e2, e1.symm⟩

/-- C27: link consistency holds after every successful `hyrbtree_add_node` and
`hyrbtree_del_node` on a well-formed tree: the new state holds a tree (its
nodes are the nodes reachable from the root) in which the parent link of the
root is the sentinel, every child link is the sentinel or designates a node of
the tree whose parent link points back, and every owner word names a non-null
owner whose linkage is that node.  The deletion covers the exchange with an
adjacent and with a deeper successor. -/
theorem link_consistency (t : hyrbtree_t) (T : Tree) (hwf : WellFormed t T) :
    LinkConsistent t (addrs T) ∧
    (∀ o fuel, DetachedOwner t o → size T < fuel →
      ∀ t' e, hyrbtree_add_node fuel t o = some (HYRBTREE_RET_OK, t', e) →
        ∃ T', Represents t' T' ∧ size T' = size T + 1 ∧ LinkConsistent t' (addrs T')) ∧
    (∀ o fuel, o ∈ owners T → size T < fuel →
      ∃ t' T', hyrbtree_del_node fuel t o = some (HYRBTREE_RET_OK, t') ∧ Represents t' T' ∧
        size T = size T' + 1 ∧ LinkConsistent t' (addrs T')) := by
  refine ⟨hwf.1.link_consistent, fun o fuel hd hf t' e hadd => ?_, fun o fuel ho hf => ?_⟩
  · rcases add_node_cases t T o fuel hwf hd hf with ⟨e', h⟩ | ⟨t'', T', h, hok⟩
    · rw [h] at hadd; simp at hadd
    · rw [h] at hadd
      simp only [Option.some.injEq, Prod.mk.injEq, true_and] at hadd
      obtain ⟨rfl, -⟩ := hadd
      exact ⟨T', hok.1.1, hok.size, hok.1.1.link_consistent⟩
  · obtain ⟨t', T', h, hok⟩ := del_node_ok t T o fuel hwf ho hf
    exact ⟨t', T', h, hok.1.1, DelOk_size hok, hok.1.1.link_consistent⟩

open Tree hyrbtree_t hyrbtree_ret_t

/-! ## Facts about the concrete states -/

theorem twoNodeTree_wf : WellFormed twoNodeTree twoNodes := by
  refine ⟨⟨rfl, ?_, rfl, by simp [twoNodes], by simp [twoNodes, twoNodeTree], ?_⟩,
    ⟨rfl, by simp [twoNodes, NoRedRed, rootColor], by simp [twoNodes, Bal, bh]⟩, ?_, totalOrder_sub⟩
  · simp [twoNodes, Rep, twoNodeTree, HYRBTREE_GET_NODE_ADDR, HYRBTREE_READ_NODE_COLOR, Color.code,
      HYRBTREE_NODE_BLACK, HYRBTREE_NODE_RED, rootOf]
  · intro p hp
    simp only [twoNodes, nodes, List.nil_append, List.mem_cons, List.mem_singleton,
      List.not_mem_nil, or_false] at hp
    rcases hp with rfl | rfl <;> simp [twoNodeTree, HY_NULL]
  · simp [twoNodes, owners, keyLt, twoNodeTree]

theorem twoNodeTreeL_wf : WellFormed twoNodeTreeL twoNodesL := by
  refine ⟨⟨rfl, ?_, rfl, by simp [twoNodesL], by simp [twoNodesL, twoNodeTreeL], ?_⟩,
    ⟨rfl, by simp [twoNodesL, NoRedRed, rootColor], by simp [twoNodesL, Bal, bh]⟩, ?_,
    totalOrder_sub⟩
  · simp [twoNodesL, Rep, twoNodeTreeL, HYRBTREE_GET_NODE_ADDR, HYRBTREE_READ_NODE_COLOR,
      Color.code, HYRBTREE_NODE_BLACK, HYRBTREE_NODE_RED, rootOf]
  · intro p hp
    simp only [twoNodesL, nodes, List.nil_append, List.mem_cons, List.mem_singleton,
      List.not_mem_nil, or_false, List.cons_append] at hp
    rcases hp with rfl | rfl <;> simp [twoNodeTreeL, HY_NULL]
  · simp [twoNodesL, owners, keyLt, twoNodeTreeL]

theorem twoNodeTree_zrep : ZRep twoNodeTree [] twoNodes :=
  ((Represents_iff _ _).1 twoNodeTree_wf.1).2.1

theorem twoNodeTreeL_zrep : ZRep twoNodeTreeL [] twoNodesL :=
  ((Represents_iff _ _).1 twoNodeTreeL_wf.1).2.1

open Tree hyrbtree_t hyrbtree_ret_t

/-! ## Single iterations of the rebalancing loops -/

/-- The grandparent of a RED node with a RED parent is BLACK. -/
theorem add_grandparent_black (ctx : Ctx) (P G : Frame) (a o : Nat) (l r : Tree)
    (hP : P.color = Color.red)
    (hrr : NoRedRed (plug (P :: G :: ctx) (Tree.node Color.black a o l r))) :
    G.color = Color.black := by
  have h := hrr
  simp only [plug_cons, NoRedRed_plug] at h
  have h1 := h.1
  cases hg : G.color with
  | black => rfl
  | red =>
    exfalso
    rcases G with ⟨cg, g, og, u⟩ | ⟨cg, g, og, u⟩ <;>
    rcases P with ⟨cp, p, op, psib⟩ | ⟨cp, p, op, psib⟩ <;>
    simp only [Frame.color_L, Frame.color_R] at hP hg <;>
    subst hP <;> subst hg <;>
    simp [Frame.plug] at h1

/-- Insertion, BLACK or absent uncle: the loop of `hyrbtree_add_balance` exits
in the iteration that meets it. -/
theorem add_black_uncle_exit (t : hyrbtree_t) (ctx : Ctx) (P G : Frame) (a o : Nat)
    (l r : Tree)
    (hrep : ZRep t (P :: G :: ctx) (Tree.node Color.red a o l r))
    (hroot : t.root_node = ctxRoot ctx G.addr)
    (hP : P.color = Color.red) (hlc : rootColor l = Color.black)
    (hrcc : rootColor r = Color.black)
    (hbal : Bal (plug (P :: G :: ctx) (Tree.node Color.red a o l r)))
    (hrr : NoRedRed (plug (P :: G :: ctx) (Tree.node Color.black a o l r)))
    (hrc : rootColor (plug (P :: G :: ctx) (Tree.node Color.red a o l r)) = Color.black)
    (hu : rootColor G.sibling = Color.black) :
    ∃ t', hyrbtree_add_balance_loop 1 t a P.addr G.addr 0 = some t' := by
  have hG := add_grandparent_black ctx P G a o l r hP hrr
  rcases G with ⟨cg, g, og, u⟩ | ⟨cg, g, og, u⟩
  · simp only [Frame.color_L] at hG
    subst hG
    simp only [Frame.addr_L, Frame.sibling_L] at hroot hu ⊢
    rcases P with ⟨cp, p, op, psib⟩ | ⟨cp, p, op, psib⟩ <;>
      simp only [Frame.color_L, Frame.color_R] at hP <;> subst hP
    · obtain ⟨t', h, _⟩ := add_balance_black_LL t ctx 0 g og p op a o l r psib u hrep hroot hu
        hlc hrcc hbal hrr hrc
      exact ⟨t', h⟩
    · obtain ⟨t', h, _⟩ := add_balance_black_LR t ctx 0 g og p op a o l r psib u hrep hroot hu
        hlc hrcc hbal hrr hrc
      exact ⟨t', h⟩
  · simp only [Frame.color_R] at hG
    subst hG
    simp only [Frame.addr_R, Frame.sibling_R] at hroot hu ⊢
    rcases P with ⟨cp, p, op, psib⟩ | ⟨cp, p, op, psib⟩ <;>
      simp only [Frame.color_L, Frame.color_R] at hP <;> subst hP
    · obtain ⟨t', h, _⟩ := add_balance_black_RL t ctx 0 g og p op a o l r psib u hrep hroot hu
        hlc hrcc hbal hrr hrc
      exact ⟨t', h⟩
    · obtain ⟨t', h, _⟩ := add_balance_black_RR t ctx 0 g og p op a o l r psib u hrep hroot hu
        hlc hrcc hbal hrr hrc
      exact ⟨t', h⟩

/-- Insertion, RED uncle: the iteration recolours, and either exits or goes on
with the grandparent as current node, which lies two levels nearer to the
root (its context is `ctx`). -/
theorem add_red_uncle_step (t : hyrbtree_t) (ctx : Ctx) (P G : Frame) (a o : Nat)
    (l r : Tree)
    (hrep : ZRep t (P :: G :: ctx) (Tree.node Color.red a o l r))
    (hroot : t.root_node = ctxRoot ctx G.addr)
    (hP : P.color = Color.red)
    (hrr : NoRedRed (plug (P :: G :: ctx) (Tree.node Color.black a o l r)))
    (hu : rootColor G.sibling = Color.red) :
    ∃ t2 t3 og L R, ZRep t3 ctx (Tree.node Color.red G.addr og L R) ∧
      ∀ fuel, hyrbtree_add_balance_loop (fuel + 1) t a P.addr G.addr 0 =
        if ctx = [] then some t2
        else if HYRBTREE_READ_NODE_COLOR t3 (t3.parent_node G.addr) = HYRBTREE_NODE_RED then
          hyrbtree_add_balance_loop fuel t3 G.addr (t3.parent_node G.addr)
            (t3.parent_node (t3.parent_node G.addr)) 0
        else some t3 := by
  have hG := add_grandparent_black ctx P G a o l r hP hrr
  rcases G with ⟨cg, g, og, u⟩ | ⟨cg, g, og, u⟩
  · simp only [Frame.color_L] at hG
    subst hG
    simp only [Frame.addr_L, Frame.sibling_L] at hroot hu ⊢
    rcases u with _ | ⟨cu, ua, uo, ul, ur⟩
    · simp at hu
    simp only [rootColor_node] at hu
    subst hu
    have h := fun fuel => add_balance_red_L t ctx fuel P g og a o ua uo l r ul ur hrep hroot
    exact ⟨_, _, og, _, _, (h 0).2.1, fun fuel => (h fuel).2.2⟩
  · simp only [Frame.color_R] at hG
    subst hG
    simp only [Frame.addr_R, Frame.sibling_R] at hroot hu ⊢
    rcases u with _ | ⟨cu, ua, uo, ul, ur⟩
    · simp at hu
    simp only [rootColor_node] at hu
    subst hu
    have h := fun fuel => add_balance_red_R t ctx fuel P g og a o ua uo l r ul ur hrep hroot
    exact ⟨_, _, og, _, _, (h 0).2.1, fun fuel => (h fuel).2.2⟩

/-- Deletion, RED sibling: the iteration that meets it does not exit, and the
next one does. -/
theorem del_red_sibling_exit (t : hyrbtree_t) (ctx : Ctx) (F : Frame) (x : Tree)
    (hrep : ZRep t (F :: ctx) x) (hroot : t.root_node = ctxRoot ctx F.addr)
    (hinv : DelInv (F :: ctx) x) (hred : rootColor F.sibling = Color.red) :
    hyrbtree_del_balance_loop 1 t (rootOf t.nil_node x) F.addr 0 = none ∧
    ∃ t', hyrbtree_del_balance_loop 2 t (rootOf t.nil_node x) F.addr 0 = some t' := by
  rcases F with ⟨cp, p, op, sib⟩ | ⟨cp, p, op, sib⟩
  · simp only [Frame.addr_L, Frame.sibling_L] at hroot hred ⊢
    rcases sib with _ | ⟨cs, s, os, sl, sr⟩
    · simp at hred
    simp only [rootColor_node] at hred
    subst hred
    constructor
    · obtain ⟨t1, heq, _⟩ := del_red_R t ctx 0 cp p op s os x sl sr hrep hroot hinv
      rw [heq]; rfl
    obtain ⟨t1, heq, hz, hr, he, hinv1, hbh⟩ :=
      del_red_R t ctx (0 + 1) cp p op s os x sl sr hrep hroot hinv
    rcases sl with _ | ⟨cn, n, no, nl, nr⟩
    · simp at hbh
    have hcn : cn = Color.black := by
      have := hinv1.2.2.2.2.1
      simp only [CtxNoRedRed_cons, Frame.color_L, Frame.sibling_L, rootColor_node] at this
      exact (this.1 trivial).2
    subst hcn
    obtain ⟨t', h1, _⟩ := del_black_term_R t1 (Frame.L Color.black s os sr :: ctx) 0
      Color.red p op n no x nl nr hz (by simpa using hr) hinv1 (Or.inl rfl)
    exact ⟨t', by rw [heq]; exact h1⟩
  · simp only [Frame.addr_R, Frame.sibling_R] at hroot hred ⊢
    rcases sib with _ | ⟨cs, s, os, sl, sr⟩
    · simp at hred
    simp only [rootColor_node] at hred
    subst hred
    constructor
    · obtain ⟨t1, heq, _⟩ := del_red_L t ctx 0 cp p op s os x sl sr hrep hroot hinv
      rw [heq]; rfl
    obtain ⟨t1, heq, hz, hr, he, hinv1, hbh⟩ :=
      del_red_L t ctx (0 + 1) cp p op s os x sl sr hrep hroot hinv
    rcases sr with _ | ⟨cn, n, no, nl, nr⟩
    · simp at hbh
    have hcn : cn = Color.black := by
      have := hinv1.2.2.2.2.1
      simp only [CtxNoRedRed_cons, Frame.color_R, Frame.sibling_R, rootColor_node] at this
      exact (this.1 trivial).2
    subst hcn
    obtain ⟨t', h1, _⟩ := del_black_term_L t1 (Frame.R Color.black s os sl :: ctx) 0
      Color.red p op n no x nl nr hz (by simpa using hr) hinv1 (Or.inl rfl)
    exact ⟨t', by rw [heq]; exact h1⟩

/-- Deletion, BLACK sibling: the iteration either exits, or goes on with the
parent as current node, one level nearer to the root. -/
theorem del_black_sibling_step (t : hyrbtree_t) (ctx : Ctx) (F : Frame) (x : Tree)
    (hrep : ZRep t (F :: ctx) x) (hroot : t.root_node = ctxRoot ctx F.addr)
    (hinv : DelInv (F :: ctx) x) (hblk : rootColor F.sibling = Color.black) :
    (∃ t', hyrbtree_del_balance_loop 1 t (rootOf t.nil_node x) F.addr 0 = some t') ∨
    ∃ G ctx' t2 x', ctx = G :: ctx' ∧ rootOf t2.nil_node x' = F.addr ∧
      ZRep t2 (G :: ctx') x' ∧ t2.root_node = ctxRoot ctx' G.addr ∧ DelInv (G :: ctx') x' ∧
      ∀ fuel, hyrbtree_del_balance_loop (fuel + 1) t (rootOf t.nil_node x) F.addr 0 =
        hyrbtree_del_balance_loop fuel t2 F.addr G.addr 0 := by
  rcases F with ⟨cp, p, op, sib⟩ | ⟨cp, p, op, sib⟩
  · rcases sib with _ | ⟨cs, s, os, sl, sr⟩
    · exfalso
      have := hinv.2.2.2.1
      simp only [CtxBal_cons, Frame.sibling_L, bh_leaf] at this
      omega
    simp only [Frame.addr_L, Frame.sibling_L, rootColor_node] at hroot hblk ⊢
    subst hblk
    by_cases hterm : cp = Color.red ∨ ctx = [] ∨ rootColor sl = Color.red ∨
        rootColor sr = Color.red
    · obtain ⟨t', h, _⟩ := del_black_term_R t ctx 0 cp p op s os x sl sr hrep hroot hinv hterm
      exact Or.inl ⟨t', h⟩
    · simp only [not_or] at hterm
      obtain ⟨hcp, hctx, hsl, hsr⟩ := hterm
      have hcp' : cp = Color.black := by cases cp <;> simp_all
      subst hcp'
      rcases ctx with _ | ⟨G, ctx⟩
      · exact absurd rfl hctx
      have h := fun fuel => del_black_none_R_cont t ctx G fuel p op s os x sl sr
        hrep (by simpa using hroot) (rootColor_eq_black_of_ne_red hsl)
        (rootColor_eq_black_of_ne_red hsr) hinv
      exact Or.inr ⟨G, ctx, _, _, rfl, (rootOf_node _ _ _ _ _ _), (h 0).2.1,
        (by simpa using hroot), (h 0).2.2, fun fuel => (h fuel).1⟩
  · rcases sib with _ | ⟨cs, s, os, sl, sr⟩
    · exfalso
      have := hinv.2.2.2.1
      simp only [CtxBal_cons, Frame.sibling_R, bh_leaf] at this
      omega
    simp only [Frame.addr_R, Frame.sibling_R, rootColor_node] at hroot hblk ⊢
    subst hblk
    by_cases hterm : cp = Color.red ∨ ctx = [] ∨ rootColor sl = Color.red ∨
        rootColor sr = Color.red
    · obtain ⟨t', h, _⟩ := del_black_term_L t ctx 0 cp p op s os x sl sr hrep hroot hinv hterm
      exact Or.inl ⟨t', h⟩
    · simp only [not_or] at hterm
      obtain ⟨hcp, hctx, hsl, hsr⟩ := hterm
      have hcp' : cp = Color.black := by cases cp <;> simp_all
      subst hcp'
      rcases ctx with _ | ⟨G, ctx⟩
      · exact absurd rfl hctx
      have h := fun fuel => del_black_none_L_cont t ctx G fuel p op s os x sl sr
        hrep (by simpa using hroot) (rootColor_eq_black_of_ne_red hsl)
        (rootColor_eq_black_of_ne_red hsr) hinv
      exact Or.inr ⟨G, ctx, _, _, rfl, (rootOf_node _ _ _ _ _ _), (h 0).2.1,
        (by simpa using hroot), (h 0).2.2, fun fuel => (h fuel).1⟩

open Tree hyrbtree_t hyrbtree_ret_t

/-! ## Termination of the loops -/

/-- C24: on a well-formed tree `T` held by `t` every loop returns.  The descent
loop of `hyrbtree_add_node` returns within `size T` iterations, that of
`hyrbtree_get_node` within `height T`, the successor walk of
`hyrbtree_replace_successor` within `size T`, and `hyrbtree_add_node` and
`hyrbtree_del_node`, which run the rebalancing loops, return with more than
`size T` iterations allowed.  In a state `s` of the loop of
`hyrbtree_add_balance` (a RED node below a RED parent at depth
`ctx.length + 2`) the loop returns within `ctx.length + 1` iterations; with a
BLACK or absent uncle it exits in this iteration; with a RED uncle it exits or
goes on at the grandparent, whose context is `ctx`.  In a state `s` of the loop
of `hyrbtree_del_balance` (the current node at depth `ctx.length + 1`) the loop
returns within `ctx.length + 2` iterations; with a RED sibling this iteration
does not exit and the next one does; with a BLACK sibling it exits or goes on at
the parent, one level up. -/
theorem loops_terminate (t : hyrbtree_t) (T : Tree) (hwf : WellFormed t T) :
    (∀ add k fuel, T ≠ Tree.leaf → size T ≤ fuel →
      ∃ r, hyrbtree_add_node_loop fuel t add k t.root_node = some r) ∧
    (∀ k fuel, T ≠ Tree.leaf → height T ≤ fuel →
      ∃ r, hyrbtree_get_node_loop fuel t k t.root_node = some r) ∧
    (∀ o fuel, o ∈ owners T → t.right_node (t.get_rbnode o) ≠ t.nil_node → size T ≤ fuel →
      ∃ s, replace_successor_walk fuel t (t.right_node (t.get_rbnode o)) = some s) ∧
    (∀ o fuel, DetachedOwner t o → size T < fuel →
      ∃ r, hyrbtree_add_node fuel t o = some r) ∧
    (∀ o fuel, o ∈ owners T → size T < fuel →
      ∃ r, hyrbtree_del_node fuel t o = some r) ∧
    (∀ (s : hyrbtree_t) (ctx : Ctx) (P G : Frame) (a o : Nat) (l r : Tree),
      ZRep s (P :: G :: ctx) (Tree.node Color.red a o l r) →
      s.root_node = ctxRoot ctx G.addr →
      P.color = Color.red → rootColor l = Color.black → rootColor r = Color.black →
      Bal (plug (P :: G :: ctx) (Tree.node Color.red a o l r)) →
      NoRedRed (plug (P :: G :: ctx) (Tree.node Color.black a o l r)) →
      rootColor (plug (P :: G :: ctx) (Tree.node Color.red a o l r)) = Color.black →
      (∀ fuel, ctx.length < fuel →
        ∃ s', hyrbtree_add_balance_loop fuel s a P.addr G.addr 0 = some s') ∧
      (rootColor G.sibling = Color.black →
        ∃ s', hyrbtree_add_balance_loop 1 s a P.addr G.addr 0 = some s') ∧
      (rootColor G.sibling = Color.red →
        ∃ s2 s3 og L R, ZRep s3 ctx (Tree.node Color.red G.addr og L R) ∧
          ∀ fuel, hyrbtree_add_balance_loop (fuel + 1) s a P.addr G.addr 0 =
            if ctx = [] then some s2
            else if HYRBTREE_READ_NODE_COLOR s3 (s3.parent_node G.addr) = HYRBTREE_NODE_RED then
              hyrbtree_add_balance_loop fuel s3 G.addr (s3.parent_node G.addr)
                (s3.parent_node (s3.parent_node G.addr)) 0
            else some s3)) ∧
    (∀ (s : hyrbtree_t) (ctx : Ctx) (F : Frame) (x : Tree),
      ZRep s (F :: ctx) x → s.root_node = ctxRoot ctx F.addr → DelInv (F :: ctx) x →
      (∀ fuel, ctx.length + 2 ≤ fuel →
        ∃ s', hyrbtree_del_balance_loop fuel s (rootOf s.nil_node x) F.addr 0 = some s') ∧
      (rootColor F.sibling = Color.red →
        hyrbtree_del_balance_loop 1 s (rootOf s.nil_node x) F.addr 0 = none ∧
        ∃ s', hyrbtree_del_balance_loop 2 s (rootOf s.nil_node x) F.addr 0 = some s') ∧
      (rootColor F.sibling = Color.black →
        (∃ s', hyrbtree_del_balance_loop 1 s (rootOf s.nil_node x) F.addr 0 = some s') ∨
        ∃ G ctx' s2 x', ctx = G :: ctx' ∧ rootOf s2.nil_node x' = F.addr ∧
          ZRep s2 (G :: ctx') x' ∧ s2.root_node = ctxRoot ctx' G.addr ∧
          DelInv (G :: ctx') x' ∧
          ∀ fuel, hyrbtree_del_balance_loop (fuel + 1) s (rootOf s.nil_node x) F.addr 0 =
            hyrbtree_del_balance_loop fuel s2 F.addr G.addr 0)) := by
  refine ⟨?_, ?_, ?_, ?_, ?_, ?_, ?_⟩
  · intro add k fuel hT hf
    rw [hwf.1.root]
    exact ⟨_, add_node_loop_eq t add k T _ [] fuel hT hwf.1.rep hwf.1.nil_not_mem hf⟩
  · intro k fuel hT hf
    rw [hwf.1.root]
    exact ⟨_, get_node_loop_height t k T _ [] fuel hT hwf.1.rep hwf.1.nil_not_mem hf⟩
  · intro o fuel ho hr hf
    obtain ⟨ctx, c, l, r, hT, hz⟩ := focus_of_mem_owners t T o hwf.1 ho
    have hrn : t.right_node (t.get_rbnode o) = rootOf t.nil_node r := hz.2.1.2.2.2.2.1
    have hrl : r ≠ Tree.leaf := by
      intro e; rw [e] at hrn; exact hr hrn
    have hsize := length_le_size ctx (Tree.node c (t.get_rbnode o) o l r)
    rw [← hT] at hsize
    simp only [size] at hsize
    have hnil : t.nil_node ∉ addrs r := by
      have := hz.2.2.2.2
      simp only [addrs_node, List.mem_append, List.mem_cons, not_or] at this
      exact this.1.2.2
    obtain ⟨sctx, cs, s, os, sr, -, -, hw⟩ :=
      successor_walk t r (t.get_rbnode o) fuel hrl hz.2.1.2.2.2.2.2.2 hnil (by omega)
    exact ⟨s, by rw [hrn]; exact hw⟩
  · intro o fuel hd hf
    rcases add_node_cases t T o fuel hwf hd hf with ⟨e, h⟩ | ⟨t', T', h, -⟩
    · exact ⟨_, h⟩
    · exact ⟨_, h⟩
  · intro o fuel ho hf
    obtain ⟨t', T', h, -⟩ := del_node_ok t T o fuel hwf ho hf
    exact ⟨_, h⟩
  · intro s ctx P G a o l r hrep hroot hP hlc hrcc hbal hrr hrc
    refine ⟨?_, ?_, ?_⟩
    · intro fuel hlen
      obtain ⟨s', h, -⟩ :=
        add_balance_loop_spec fuel s ctx P G a o l r hlen hrep hroot hP hlc hrcc hbal hrr hrc
      exact ⟨s', h⟩
    · exact add_black_uncle_exit s ctx P G a o l r hrep hroot hP hlc hrcc hbal hrr hrc
    · exact add_red_uncle_step s ctx P G a o l r hrep hroot hP hrr
  · intro s ctx F x hrep hroot hinv
    refine ⟨?_, ?_, ?_⟩
    · intro fuel hlen
      obtain ⟨s', h, -⟩ := del_balance_loop_spec fuel ctx s F x hlen hrep hroot hinv
      exact ⟨s', h⟩
    · exact del_red_sibling_exit s ctx F x hrep hroot hinv
    · exact del_black_sibling_step s ctx F x hrep hroot hinv

open Tree hyrbtree_t hyrbtree_ret_t

/-! ## Facts about the loop states -/

theorem twoNodeTree_detached_18 : DetachedOwner twoNodeTree 18 := by
  simp [DetachedOwner, twoNodeTree, HY_NULL, HYRBTREE_GET_NODE_ADDR]

theorem addLoopState_zrep :
    ZRep addLoopState [Frame.R Color.red 11 10 Tree.leaf, Frame.R Color.black 3 2 Tree.leaf]
      (Tree.node Color.red 19 18 Tree.leaf Tree.leaf) := by
  simp [ZRep, RepCtx, Rep, Sep, addLoopState, HYRBTREE_GET_NODE_ADDR, HYRBTREE_READ_NODE_COLOR,
    Color.code, HYRBTREE_NODE_BLACK, HYRBTREE_NODE_RED, rootOf, ctxPar, ctxAddrs, addrs]

theorem delLoopState_zrep :
    ZRep delLoopState
      [Frame.L Color.black 3 2 (Tree.node Color.black 11 10 Tree.leaf Tree.leaf)] Tree.leaf := by
  simp [ZRep, RepCtx, Rep, Sep, delLoopState, HYRBTREE_GET_NODE_ADDR, HYRBTREE_READ_NODE_COLOR,
    Color.code, HYRBTREE_NODE_BLACK, HYRBTREE_NODE_RED, rootOf, ctxPar, ctxAddrs, addrs]

theorem delLoopState_inv :
    DelInv [Frame.L Color.black 3 2 (Tree.node Color.black 11 10 Tree.leaf Tree.leaf)]
      Tree.leaf := by
  simp [DelInv, Bal, NoRedRed, rootColor, bh, CtxBal, CtxNoRedRed, ctxRootColor, blackInc]

theorem redSiblingState_zrep :
    ZRep redSiblingState
      [Frame.L Color.black 3 2 (Tree.node Color.red 11 10
        (Tree.node Color.black 19 18 Tree.leaf Tree.leaf)
        (Tree.node Color.black 27 26 Tree.leaf Tree.leaf))] Tree.leaf := by
  simp [ZRep, RepCtx, Rep, Sep, redSiblingState, HYRBTREE_GET_NODE_ADDR,
    HYRBTREE_READ_NODE_COLOR, Color.code, HYRBTREE_NODE_BLACK, HYRBTREE_NODE_RED, rootOf, ctxPar,
    ctxAddrs, addrs]

theorem redSiblingState_inv :
    DelInv [Frame.L Color.black 3 2 (Tree.node Color.red 11 10
        (Tree.node Color.black 19 18 Tree.leaf Tree.leaf)
        (Tree.node Color.black 27 26 Tree.leaf Tree.leaf))] Tree.leaf := by
  simp [DelInv, Bal, NoRedRed, rootColor, bh, CtxBal, CtxNoRedRed, ctxRootColor, blackInc]

theorem spliceState_holerep :
    HoleRep spliceState [Frame.R Color.black 11 10 (Tree.node Color.black 3 2 Tree.leaf Tree.leaf)]
      Color.black 19 18 Tree.leaf (Tree.node Color.red 27 26 Tree.leaf Tree.leaf) := by
  simp [HoleRep, RepCtx, Rep, Sep, spliceState, HYRBTREE_GET_NODE_ADDR,
    HYRBTREE_READ_NODE_COLOR, Color.code, HYRBTREE_NODE_BLACK, HYRBTREE_NODE_RED, rootOf, ctxPar,
    ctxAddrs, addrs]

theorem spliceState_rb :
    RBTree (plug [Frame.R Color.black 11 10 (Tree.node Color.black 3 2 Tree.leaf Tree.leaf)]
      (Tree.node Color.black 19 18 Tree.leaf (Tree.node Color.red 27 26 Tree.leaf Tree.leaf))) := by
  simp [RBTree, plug, Frame.plug, Bal, NoRedRed, rootColor, bh, blackInc]

open Tree hyrbtree_t hyrbtree_ret_t

theorem loops_terminate_witness :
    WellFormed twoNodeTree twoNodes ∧
    (∃ r, hyrbtree_add_node_loop 2 twoNodeTree 19 3 twoNodeTree.root_node = some r) ∧
    (∃ r, hyrbtree_get_node_loop 2 twoNodeTree 2 twoNodeTree.root_node = some r) ∧
    (∃ s, replace_successor_walk 2 twoNodeTree
      (twoNodeTree.right_node (twoNodeTree.get_rbnode 2)) = some s) ∧
    (∃ r, hyrbtree_add_node 3 twoNodeTree 18 = some r) ∧
    (∃ r, hyrbtree_del_node 3 twoNodeTree 2 = some r) ∧
    (∃ s', hyrbtree_add_balance_loop 1 addLoopState 19 11 3 0 = some s') ∧
    (∃ s', hyrbtree_del_balance_loop 1 delLoopState 1 3 0 = some s') ∧
    (hyrbtree_del_balance_loop 1 redSiblingState 1 3 0 = none ∧
      ∃ s', hyrbtree_del_balance_loop 2 redSiblingState 1 3 0 = some s') :=
  ⟨twoNodeTree_wf,
    (loops_terminate twoNodeTree twoNodes twoNodeTree_wf).1 19 3 2 (by simp [twoNodes])
      (by simp [twoNodes, size]),
    (loops_terminate twoNodeTree twoNodes twoNodeTree_wf).2.1 2 2 (by simp [twoNodes])
      (by simp [twoNodes, height]),
    (loops_terminate twoNodeTree twoNodes twoNodeTree_wf).2.2.1 2 2 (by simp [twoNodes, owners])
      (by simp [twoNodeTree]) (by simp [twoNodes, size]),
    (loops_terminate twoNodeTree twoNodes twoNodeTree_wf).2.2.2.1 18 3 twoNodeTree_detached_18
      (by simp [twoNodes, size]),
    (loops_terminate twoNodeTree twoNodes twoNodeTree_wf).2.2.2.2.1 2 3
      (by simp [twoNodes, owners]) (by simp [twoNodes, size]),
    ((loops_terminate twoNodeTree twoNodes twoNodeTree_wf).2.2.2.2.2.1 addLoopState []
      (Frame.R Color.red 11 10 Tree.leaf) (Frame.R Color.black 3 2 Tree.leaf) 19 18 Tree.leaf
      Tree.leaf addLoopState_zrep rfl rfl rfl rfl
      (by simp [plug, Frame.plug, Bal, bh, blackInc])
      (by simp [plug, Frame.plug, NoRedRed, rootColor])
      (by simp [plug, Frame.plug, rootColor])).2.1 rfl,
    (((loops_terminate twoNodeTree twoNodes twoNodeTree_wf).2.2.2.2.2.2 delLoopState []
      (Frame.L Color.black 3 2 (Tree.node Color.black 11 10 Tree.leaf Tree.leaf)) Tree.leaf
      delLoopState_zrep rfl delLoopState_inv).2.2 rfl).resolve_right
        (fun ⟨_, _, _, _, h, _⟩ => by cases h),
    ((loops_terminate twoNodeTree twoNodes twoNodeTree_wf).2.2.2.2.2.2 redSiblingState []
      (Frame.L Color.black 3 2 (Tree.node Color.red 11 10
        (Tree.node Color.black 19 18 Tree.leaf Tree.leaf)
        (Tree.node Color.black 27 26 Tree.leaf Tree.leaf))) Tree.leaf
      redSiblingState_zrep rfl redSiblingState_inv).2.1 rfl⟩

theorem rotate_preserves_order_witness :
    ZRep twoNodeTree [] twoNodes ∧ ZRep twoNodeTreeL [] twoNodesL ∧
    ZRep (hyrbtree_left_rotate_node twoNodeTree 3) []
      (Tree.node Color.red 11 10 (Tree.node Color.black 3 2 Tree.leaf Tree.leaf) Tree.leaf) ∧
    nodes (Tree.node Color.red 11 10 (Tree.node Color.black 3 2 Tree.leaf Tree.leaf) Tree.leaf) =
      nodes twoNodes ∧
    (hyrbtree_left_rotate_node twoNodeTree 3).user_node = twoNodeTree.user_node ∧
    ZRep (hyrbtree_right_rotate_node twoNodeTreeL 11) []
      (Tree.node Color.red 3 2 Tree.leaf (Tree.node Color.black 11 10 Tree.leaf Tree.leaf)) ∧
    nodes (Tree.node Color.red 3 2 Tree.leaf (Tree.node Color.black 11 10 Tree.leaf Tree.leaf)) =
      nodes twoNodesL ∧
    (hyrbtree_right_rotate_node twoNodeTreeL 11).user_node = twoNodeTreeL.user_node :=
  ⟨twoNodeTree_zrep, twoNodeTreeL_zrep,
    (rotate_preserves_order.1 twoNodeTree [] Color.black 3 2 Tree.leaf Color.red 11 10 Tree.leaf
      Tree.leaf twoNodeTree_zrep).1,
    (rotate_preserves_order.1 twoNodeTree [] Color.black 3 2 Tree.leaf Color.red 11 10 Tree.leaf
      Tree.leaf twoNodeTree_zrep).2.2.1,
    (rotate_preserves_order.1 twoNodeTree [] Color.black 3 2 Tree.leaf Color.red 11 10 Tree.leaf
      Tree.leaf twoNodeTree_zrep).2.2.2.1,
    (rotate_preserves_order.2 twoNodeTreeL [] Color.black 11 10 Tree.leaf Color.red 3 2 Tree.leaf
      Tree.leaf twoNodeTreeL_zrep).1,
    (rotate_preserves_order.2 twoNodeTreeL [] Color.black 11 10 Tree.leaf Color.red 3 2 Tree.leaf
      Tree.leaf twoNodeTreeL_zrep).2.2.1,
    (rotate_preserves_order.2 twoNodeTreeL [] Color.black 11 10 Tree.leaf Color.red 3 2 Tree.leaf
      Tree.leaf twoNodeTreeL_zrep).2.2.2.1⟩

theorem one_child_is_red_leaf_witness :
    RBTree (plug [] twoNodesL) ∧
    RBTree (plug [Frame.R Color.black 11 10 (Tree.node Color.black 3 2 Tree.leaf Tree.leaf)]
      (Tree.node Color.black 19 18 Tree.leaf (Tree.node Color.red 27 26 Tree.leaf Tree.leaf))) ∧
    (∃ t', hyrbtree_del_balance 1 twoNodeTreeL 11 = some t' ∧
      ZRep t' [] (Tree.node Color.black 3 2 Tree.leaf Tree.leaf) ∧ t'.root_node = 3) ∧
    (∃ t', hyrbtree_del_balance 1 spliceState 19 = some t' ∧
      ZRep t' [Frame.R Color.black 11 10 (Tree.node Color.black 3 2 Tree.leaf Tree.leaf)]
        (Tree.node Color.black 27 26 Tree.leaf Tree.leaf)) := by
  refine ⟨twoNodeTreeL_wf.2.1, spliceState_rb, ?_, ?_⟩
  · obtain ⟨-, x, ox, hshape, -, -, -, hL⟩ :=
      one_child_is_red_leaf [] Color.black 11 10
        (Tree.node Color.red 3 2 Tree.leaf Tree.leaf) Tree.leaf twoNodeTreeL_wf.2.1
        (Or.inr ⟨by simp, rfl⟩)
    have hx : x = 3 ∧ ox = 2 := by
      rcases hshape with ⟨h, -⟩ | ⟨h, -⟩
      · cases h
      · cases h; exact ⟨rfl, rfl⟩
    obtain ⟨rfl, rfl⟩ := hx
    exact hL twoNodeTreeL 1 rfl twoNodeTreeL_zrep rfl
  · obtain ⟨-, x, ox, hshape, -, -, hR, -⟩ :=
      one_child_is_red_leaf
        [Frame.R Color.black 11 10 (Tree.node Color.black 3 2 Tree.leaf Tree.leaf)]
        Color.black 19 18 Tree.leaf (Tree.node Color.red 27 26 Tree.leaf Tree.leaf)
        spliceState_rb (Or.inl ⟨rfl, by simp⟩)
    have hx : x = 27 ∧ ox = 26 := by
      rcases hshape with ⟨-, h⟩ | ⟨h, -⟩
      · cases h; exact ⟨rfl, rfl⟩
      · cases h
    obtain ⟨rfl, rfl⟩ := hx
    exact hR spliceState 1 rfl (by simp) spliceState_holerep

open Tree hyrbtree_t hyrbtree_ret_t

theorem replace_successor_exchanges_witness :
    WellFormed twoNodeTree twoNodes ∧ 2 ∈ owners twoNodes ∧
    twoNodeTree.right_node (twoNodeTree.get_rbnode 2) ≠ twoNodeTree.nil_node ∧
    ∃ ctx c l sctx cs s os sr t1,
      twoNodes = plug ctx (Tree.node c (twoNodeTree.get_rbnode 2) 2 l (plug sctx (Tree.node cs s os Tree.leaf sr))) ∧
      (∀ f ∈ sctx, ∃ cc a o' sib, f = Frame.L cc a o' sib) ∧
      hyrbtree_replace_successor 2 twoNodeTree (twoNodeTree.get_rbnode 2) = some t1 ∧
      HoleRep t1 (sctx ++ Frame.R c s os l :: ctx) cs (twoNodeTree.get_rbnode 2) 2 Tree.leaf sr ∧
      (twoNodeTree.root_node = twoNodeTree.get_rbnode 2 → t1.root_node = s) ∧
      (twoNodeTree.root_node ≠ twoNodeTree.get_rbnode 2 → t1.root_node = twoNodeTree.root_node) ∧
      HYRBTREE_GET_NODE_ADDR twoNodeTree s = os ∧
      HYRBTREE_GET_NODE_ADDR t1 s = os ∧
      HYRBTREE_GET_NODE_ADDR t1 (twoNodeTree.get_rbnode 2) = 2 ∧
      HYRBTREE_READ_NODE_COLOR t1 s = HYRBTREE_READ_NODE_COLOR twoNodeTree (twoNodeTree.get_rbnode 2) ∧
      HYRBTREE_READ_NODE_COLOR t1 (twoNodeTree.get_rbnode 2) = HYRBTREE_READ_NODE_COLOR twoNodeTree s ∧
      t1.parent_node s = twoNodeTree.parent_node (twoNodeTree.get_rbnode 2) ∧
      t1.left_node s = twoNodeTree.left_node (twoNodeTree.get_rbnode 2) ∧
      t1.left_node (twoNodeTree.get_rbnode 2) = t1.nil_node ∧
      t1.right_node (twoNodeTree.get_rbnode 2) = twoNodeTree.right_node s ∧
      (sctx = [] → twoNodeTree.right_node (twoNodeTree.get_rbnode 2) = s ∧ t1.right_node s = twoNodeTree.get_rbnode 2 ∧
        t1.parent_node (twoNodeTree.get_rbnode 2) = s) ∧
      (sctx ≠ [] → twoNodeTree.right_node (twoNodeTree.get_rbnode 2) ≠ s ∧
        t1.right_node s = twoNodeTree.right_node (twoNodeTree.get_rbnode 2) ∧
        t1.parent_node (twoNodeTree.get_rbnode 2) = twoNodeTree.parent_node s) :=
  ⟨twoNodeTree_wf, by simp [twoNodes, owners], by simp [twoNodeTree],
    replace_successor_exchanges twoNodeTree twoNodes 2 2 twoNodeTree_wf
      (by simp [twoNodes, owners]) (by simp [twoNodeTree]) (by simp [twoNodes, size])⟩

open Tree hyrbtree_t hyrbtree_ret_t

/-! ## Larger concrete trees -/

theorem spliceState_wf : WellFormed spliceState fourNodes := by
  refine ⟨⟨rfl, ?_, rfl, by simp [fourNodes], by simp [fourNodes, spliceState], ?_⟩,
    ⟨rfl, by simp [fourNodes, NoRedRed, rootColor], by simp [fourNodes, Bal, bh]⟩, ?_,
    totalOrder_sub⟩
  · simp [fourNodes, Rep, spliceState, HYRBTREE_GET_NODE_ADDR, HYRBTREE_READ_NODE_COLOR,
      Color.code, HYRBTREE_NODE_BLACK, HYRBTREE_NODE_RED, rootOf]
  · intro p hp
    simp only [fourNodes, nodes, List.nil_append, List.mem_cons, List.mem_singleton,
      List.not_mem_nil, or_false, List.cons_append, List.mem_append] at hp
    rcases hp with rfl | rfl | rfl | rfl <;> simp [spliceState, HY_NULL]
  · simp [fourNodes, owners, keyLt, spliceState]

theorem sixNodeTree_wf : WellFormed sixNodeTree sixNodes := by
  refine ⟨⟨rfl, ?_, rfl, by simp [sixNodes], by simp [sixNodes, sixNodeTree], ?_⟩,
    ⟨rfl, by simp [sixNodes, NoRedRed, rootColor], by simp [sixNodes, Bal, bh]⟩, ?_,
    totalOrder_sub⟩
  · simp [sixNodes, Rep, sixNodeTree, HYRBTREE_GET_NODE_ADDR, HYRBTREE_READ_NODE_COLOR,
      Color.code, HYRBTREE_NODE_BLACK, HYRBTREE_NODE_RED, rootOf]
  · intro p hp
    simp only [sixNodes, nodes, List.nil_append, List.mem_cons, List.mem_singleton,
      List.not_mem_nil, or_false, List.cons_append, List.mem_append] at hp
    rcases hp with rfl | rfl | rfl | rfl | rfl | rfl <;> simp [sixNodeTree, HY_NULL]
  · simp [sixNodes, owners, keyLt, sixNodeTree]

open Tree hyrbtree_t hyrbtree_ret_t

/-! ## Instances on trees of two, four and six nodes

The deletions below remove: a RED leaf (owner 10 of `twoNodeTree`); a root with
a right child only, exchanged with the adjacent successor (owner 2 of
`twoNodeTree`); a root with a left child only (owner 10 of `twoNodeTreeL`); a
BLACK leaf whose BLACK sibling has a RED outer child (owner 2 of
`spliceState`); a node with two children whose successor is its right child
and has a right child (owner 10 of `spliceState`); a node with a right child
only (owner 18 of `spliceState`); a BLACK leaf with a RED sibling (owner 2 of
`sixNodeTree`); a node with two children whose successor lies deeper and has a
right child (owner 10 of `sixNodeTree`). -/

theorem del_node_preserves_rb_invariants_witness :
    WellFormed twoNodeTree twoNodes ∧ WellFormed twoNodeTreeL twoNodesL ∧
    WellFormed spliceState fourNodes ∧ WellFormed sixNodeTree sixNodes ∧
    (∃ t' T', hyrbtree_del_node 3 twoNodeTree 10 = some (HYRBTREE_RET_OK, t') ∧
      Represents t' T' ∧ (T' = Tree.leaf ∨ rootColor T' = Color.black) ∧ NoRedRed T' ∧
      Bal T') ∧
    (∃ t' T', hyrbtree_del_node 3 twoNodeTree 2 = some (HYRBTREE_RET_OK, t') ∧
      Represents t' T' ∧ (T' = Tree.leaf ∨ rootColor T' = Color.black) ∧ NoRedRed T' ∧
      Bal T') ∧
    (∃ t' T', hyrbtree_del_node 3 twoNodeTreeL 10 = some (HYRBTREE_RET_OK, t') ∧
      Represents t' T' ∧ (T' = Tree.leaf ∨ rootColor T' = Color.black) ∧ NoRedRed T' ∧
      Bal T') ∧
    (∃ t' T', hyrbtree_del_node 5 spliceState 2 = some (HYRBTREE_RET_OK, t') ∧
      Represents t' T' ∧ (T' = Tree.leaf ∨ rootColor T' = Color.black) ∧ NoRedRed T' ∧
      Bal T') ∧
    (∃ t' T', hyrbtree_del_node 5 spliceState 10 = some (HYRBTREE_RET_OK, t') ∧
      Represents t' T' ∧ (T' = Tree.leaf ∨ rootColor T' = Color.black) ∧ NoRedRed T' ∧
      Bal T') ∧
    (∃ t' T', hyrbtree_del_node 5 spliceState 18 = some (HYRBTREE_RET_OK, t') ∧
      Represents t' T' ∧ (T' = Tree.leaf ∨ rootColor T' = Color.black) ∧ NoRedRed T' ∧
      Bal T') ∧
    (∃ t' T', hyrbtree_del_node 7 sixNodeTree 2 = some (HYRBTREE_RET_OK, t') ∧
      Represents t' T' ∧ (T' = Tree.leaf ∨ rootColor T' = Color.black) ∧ NoRedRed T' ∧
      Bal T') ∧
    (∃ t' T', hyrbtree_del_node 7 sixNodeTree 10 = some (HYRBTREE_RET_OK, t') ∧
      Represents t' T' ∧ (T' = Tree.leaf ∨ rootColor T' = Color.black) ∧ NoRedRed T' ∧
      Bal T') :=
  ⟨twoNodeTree_wf, twoNodeTreeL_wf, spliceState_wf, sixNodeTree_wf,
    del_node_preserves_rb_invariants twoNodeTree twoNodes 10 3 twoNodeTree_wf
      (by simp [twoNodes, owners]) (by simp [twoNodes, size]),
    del_node_preserves_rb_invariants twoNodeTree twoNodes 2 3 twoNodeTree_wf
      (by simp [twoNodes, owners]) (by simp [twoNodes, size]),
    del_node_preserves_rb_invariants twoNodeTreeL twoNodesL 10 3 twoNodeTreeL_wf
      (by simp [twoNodesL, owners]) (by simp [twoNodesL, size]),
    del_node_preserves_rb_invariants spliceState fourNodes 2 5 spliceState_wf
      (by simp [fourNodes, owners]) (by simp [fourNodes, size]),
    del_node_preserves_rb_invariants spliceState fourNodes 10 5 spliceState_wf
      (by simp [fourNodes, owners]) (by simp [fourNodes, size]),
    del_node_preserves_rb_invariants spliceState fourNodes 18 5 spliceState_wf
      (by simp [fourNodes, owners]) (by simp [fourNodes, size]),
    del_node_preserves_rb_invariants sixNodeTree sixNodes 2 7 sixNodeTree_wf
      (by simp [sixNodes, owners]) (by simp [sixNodes, size]),
    del_node_preserves_rb_invariants sixNodeTree sixNodes 10 7 sixNodeTree_wf
      (by simp [sixNodes, owners]) (by simp [sixNodes, size])⟩

theorem del_node_inorder_witness :
    WellFormed twoNodeTree twoNodes ∧ WellFormed twoNodeTreeL twoNodesL ∧
    WellFormed spliceState fourNodes ∧ WellFormed sixNodeTree sixNodes ∧
    (∃ t' T', hyrbtree_del_node 3 twoNodeTree 10 = some (HYRBTREE_RET_OK, t') ∧
      Represents t' T' ∧ (owners T').Pairwise (keyLt t') ∧ 10 ∉ owners T' ∧
      (∃ l1 l2, owners twoNodes = l1 ++ 10 :: l2 ∧ owners T' = l1 ++ l2) ∧
      (∃ l1 l2, nodes twoNodes = l1 ++ (twoNodeTree.get_rbnode 10, 10) :: l2 ∧
        nodes T' = l1 ++ l2) ∧
      t'.get_rbnode = twoNodeTree.get_rbnode ∧ t'.get_elem = twoNodeTree.get_elem) ∧
    (∃ t' T', hyrbtree_del_node 3 twoNodeTree 2 = some (HYRBTREE_RET_OK, t') ∧
      Represents t' T' ∧ (owners T').Pairwise (keyLt t') ∧ 2 ∉ owners T' ∧
      (∃ l1 l2, owners twoNodes = l1 ++ 2 :: l2 ∧ owners T' = l1 ++ l2) ∧
      (∃ l1 l2, nodes twoNodes = l1 ++ (twoNodeTree.get_rbnode 2, 2) :: l2 ∧
        nodes T' = l1 ++ l2) ∧
      t'.get_rbnode = twoNodeTree.get_rbnode ∧ t'.get_elem = twoNodeTree.get_elem) ∧
    (∃ t' T', hyrbtree_del_node 3 twoNodeTreeL 10 = some (HYRBTREE_RET_OK, t') ∧
      Represents t' T' ∧ (owners T').Pairwise (keyLt t') ∧ 10 ∉ owners T' ∧
      (∃ l1 l2, owners twoNodesL = l1 ++ 10 :: l2 ∧ owners T' = l1 ++ l2) ∧
      (∃ l1 l2, nodes twoNodesL = l1 ++ (twoNodeTreeL.get_rbnode 10, 10) :: l2 ∧
        nodes T' = l1 ++ l2) ∧
      t'.get_rbnode = twoNodeTreeL.get_rbnode ∧ t'.get_elem = twoNodeTreeL.get_elem) ∧
    (∃ t' T', hyrbtree_del_node 5 spliceState 2 = some (HYRBTREE_RET_OK, t') ∧
      Represents t' T' ∧ (owners T').Pairwise (keyLt t') ∧ 2 ∉ owners T' ∧
      (∃ l1 l2, owners fourNodes = l1 ++ 2 :: l2 ∧ owners T' = l1 ++ l2) ∧
      (∃ l1 l2, nodes fourNodes = l1 ++ (spliceState.get_rbnode 2, 2) :: l2 ∧
        nodes T' = l1 ++ l2) ∧
      t'.get_rbnode = spliceState.get_rbnode ∧ t'.get_elem = spliceState.get_elem) ∧
    (∃ t' T', hyrbtree_del_node 5 spliceState 10 = some (HYRBTREE_RET_OK, t') ∧
      Represents t' T' ∧ (owners T').Pairwise (keyLt t') ∧ 10 ∉ owners T' ∧
      (∃ l1 l2, owners fourNodes = l1 ++ 10 :: l2 ∧ owners T' = l1 ++ l2) ∧
      (∃ l1 l2, nodes fourNodes = l1 ++ (spliceState.get_rbnode 10, 10) :: l2 ∧
        nodes T' = l1 ++ l2) ∧
      t'.get_rbnode = spliceState.get_rbnode ∧ t'.get_elem = spliceState.get_elem) ∧
    (∃ t' T', hyrbtree_del_node 5 spliceState 18 = some (HYRBTREE_RET_OK, t') ∧
      Represents t' T' ∧ (owners T').Pairwise (keyLt t') ∧ 18 ∉ owners T' ∧
      (∃ l1 l2, owners fourNodes = l1 ++ 18 :: l2 ∧ owners T' = l1 ++ l2) ∧
      (∃ l1 l2, nodes fourNodes = l1 ++ (spliceState.get_rbnode 18, 18) :: l2 ∧
        nodes T' = l1 ++ l2) ∧
      t'.get_rbnode = spliceState.get_rbnode ∧ t'.get_elem = spliceState.get_elem) ∧
    (∃ t' T', hyrbtree_del_node 7 sixNodeTree 2 = some (HYRBTREE_RET_OK, t') ∧
      Represents t' T' ∧ (owners T').Pairwise (keyLt t') ∧ 2 ∉ owners T' ∧
      (∃ l1 l2, owners sixNodes = l1 ++ 2 :: l2 ∧ owners T' = l1 ++ l2) ∧
      (∃ l1 l2, nodes sixNodes = l1 ++ (sixNodeTree.get_rbnode 2, 2) :: l2 ∧
        nodes T' = l1 ++ l2) ∧
      t'.get_rbnode = sixNodeTree.get_rbnode ∧ t'.get_elem = sixNodeTree.get_elem) ∧
    (∃ t' T', hyrbtree_del_node 7 sixNodeTree 10 = some (HYRBTREE_RET_OK, t') ∧
      Represents t' T' ∧ (owners T').Pairwise (keyLt t') ∧ 10 ∉ owners T' ∧
      (∃ l1 l2, owners sixNodes = l1 ++ 10 :: l2 ∧ owners T' = l1 ++ l2) ∧
      (∃ l1 l2, nodes sixNodes = l1 ++ (sixNodeTree.get_rbnode 10, 10) :: l2 ∧
        nodes T' = l1 ++ l2) ∧
      t'.get_rbnode = sixNodeTree.get_rbnode ∧ t'.get_elem = sixNodeTree.get_elem) :=
  ⟨twoNodeTree_wf, twoNodeTreeL_wf, spliceState_wf, sixNodeTree_wf,
    del_node_inorder twoNodeTree twoNodes 10 3 twoNodeTree_wf
      (by simp [twoNodes, owners]) (by simp [twoNodes, size]),
    del_node_inorder twoNodeTree twoNodes 2 3 twoNodeTree_wf
      (by simp [twoNodes, owners]) (by simp [twoNodes, size]),
    del_node_inorder twoNodeTreeL twoNodesL 10 3 twoNodeTreeL_wf
      (by simp [twoNodesL, owners]) (by simp [twoNodesL, size]),
    del_node_inorder spliceState fourNodes 2 5 spliceState_wf
      (by simp [fourNodes, owners]) (by simp [fourNodes, size]),
    del_node_inorder spliceState fourNodes 10 5 spliceState_wf
      (by simp [fourNodes, owners]) (by simp [fourNodes, size]),
    del_node_inorder spliceState fourNodes 18 5 spliceState_wf
      (by simp [fourNodes, owners]) (by simp [fourNodes, size]),
    del_node_inorder sixNodeTree sixNodes 2 7 sixNodeTree_wf
      (by simp [sixNodes, owners]) (by simp [sixNodes, size]),
    del_node_inorder sixNodeTree sixNodes 10 7 sixNodeTree_wf
      (by simp [sixNodes, owners]) (by simp [sixNodes, size])⟩

theorem link_consistency_witness :
    WellFormed twoNodeTree twoNodes ∧ WellFormed spliceState fourNodes ∧
    WellFormed sixNodeTree sixNodes ∧ DetachedOwner twoNodeTree 18 ∧
    DetachedOwner spliceState 34 ∧
    LinkConsistent twoNodeTree (addrs twoNodes) ∧
    LinkConsistent sixNodeTree (addrs sixNodes) ∧
    (∃ t' T', hyrbtree_add_node 3 twoNodeTree 18 = some (HYRBTREE_RET_OK, t', none) ∧
      Represents t' T' ∧ size T' = size twoNodes + 1 ∧ LinkConsistent t' (addrs T')) ∧
    (∃ t' T', hyrbtree_add_node 5 spliceState 34 = some (HYRBTREE_RET_OK, t', none) ∧
      Represents t' T' ∧ size T' = size fourNodes + 1 ∧ LinkConsistent t' (addrs T')) ∧
    (∃ t' T', hyrbtree_del_node 3 twoNodeTree 2 = some (HYRBTREE_RET_OK, t') ∧
      Represents t' T' ∧ size twoNodes = size T' + 1 ∧ LinkConsistent t' (addrs T')) ∧
    (∃ t' T', hyrbtree_del_node 5 spliceState 10 = some (HYRBTREE_RET_OK, t') ∧
      Represents t' T' ∧ size fourNodes = size T' + 1 ∧ LinkConsistent t' (addrs T')) ∧
    (∃ t' T', hyrbtree_del_node 7 sixNodeTree 10 = some (HYRBTREE_RET_OK, t') ∧
      Represents t' T' ∧ size sixNodes = size T' + 1 ∧ LinkConsistent t' (addrs T')) := by
  have hd1 : DetachedOwner twoNodeTree 18 := twoNodeTree_detached_18
  have hd2 : DetachedOwner spliceState 34 := by
    simp [DetachedOwner, spliceState, HY_NULL, HYRBTREE_GET_NODE_ADDR]
  refine ⟨twoNodeTree_wf, spliceState_wf, sixNodeTree_wf, hd1, hd2,
    (link_consistency twoNodeTree twoNodes twoNodeTree_wf).1,
    (link_consistency sixNodeTree sixNodes sixNodeTree_wf).1, ?_, ?_,
    (link_consistency twoNodeTree twoNodes twoNodeTree_wf).2.2 2 3
      (by simp [twoNodes, owners]) (by simp [twoNodes, size]),
    (link_consistency spliceState fourNodes spliceState_wf).2.2 10 5
      (by simp [fourNodes, owners]) (by simp [fourNodes, size]),
    (link_consistency sixNodeTree sixNodes sixNodeTree_wf).2.2 10 7
      (by simp [sixNodes, owners]) (by simp [sixNodes, size])⟩
  · obtain ⟨t', T0, h, -⟩ := add_node_ok twoNodeTree twoNodes 18 3 twoNodeTree_wf hd1
      (by
        intro e he
        simp only [twoNodes, owners, List.nil_append, List.mem_cons, List.mem_singleton,
          List.not_mem_nil, or_false, List.cons_append] at he
        rcases he with rfl | rfl <;> decide)
      (by simp [twoNodes, size])
    obtain ⟨T', h1, h2, h3⟩ := (link_consistency twoNodeTree twoNodes twoNodeTree_wf).2.1 18 3
      hd1 (by simp [twoNodes, size]) t' none h
    exact ⟨t', T', h, h1, h2, h3⟩
  · obtain ⟨t', T0, h, -⟩ := add_node_ok spliceState fourNodes 34 5 spliceState_wf hd2
      (by
        intro e he
        simp only [fourNodes, owners, List.nil_append, List.mem_cons, List.mem_singleton,
          List.not_mem_nil, or_false, List.cons_append, List.mem_append] at he
        rcases he with rfl | rfl | rfl | rfl <;> decide)
      (by simp [fourNodes, size])
    obtain ⟨T', h1, h2, h3⟩ := (link_consistency spliceState fourNodes spliceState_wf).2.1 34 5
      hd2 (by simp [fourNodes, size]) t' none h
    exact ⟨t', T', h, h1, h2, h3⟩

theorem get_after_del_witness :
    WellFormed oneNodeTree oneNode ∧ WellFormed twoNodeTree twoNodes ∧
    WellFormed spliceState fourNodes ∧
    (∃ t', hyrbtree_del_node 2 oneNodeTree 2 = some (HYRBTREE_RET_OK, t') ∧
      hyrbtree_get_node 2 t' (t'.get_elem 2) = some (HYRBTREE_RET_GET_NODE_TREE_NULL, none)) ∧
    (∃ t', hyrbtree_del_node 3 twoNodeTree 2 = some (HYRBTREE_RET_OK, t') ∧
      hyrbtree_get_node 3 t' (t'.get_elem 2) = some (HYRBTREE_RET_GET_NODE_NOT_FIND, none) ∧
      hyrbtree_get_node 3 t' (t'.get_elem 10) = some (HYRBTREE_RET_OK, some 10)) ∧
    (∃ t', hyrbtree_del_node 5 spliceState 10 = some (HYRBTREE_RET_OK, t') ∧
      hyrbtree_get_node 5 t' (t'.get_elem 10) = some (HYRBTREE_RET_GET_NODE_NOT_FIND, none) ∧
      hyrbtree_get_node 5 t' (t'.get_elem 2) = some (HYRBTREE_RET_OK, some 2) ∧
      hyrbtree_get_node 5 t' (t'.get_elem 18) = some (HYRBTREE_RET_OK, some 18) ∧
      hyrbtree_get_node 5 t' (t'.get_elem 26) = some (HYRBTREE_RET_OK, some 26)) := by
  refine ⟨oneNodeTree_wf, twoNodeTree_wf, spliceState_wf, ?_, ?_, ?_⟩
  · obtain ⟨t', h, h1, -, -⟩ := get_after_del oneNodeTree oneNode 2 2 oneNodeTree_wf
      (by simp [oneNode, owners]) (by decide)
    exact ⟨t', h, h1 (by simp [oneNode, size])⟩
  · obtain ⟨t', h, -, h2, h3⟩ := get_after_del twoNodeTree twoNodes 2 3 twoNodeTree_wf
      (by simp [twoNodes, owners]) (by simp [twoNodes, size])
    exact ⟨t', h, h2 (by simp [twoNodes, size]), h3 10 (by simp [twoNodes, owners]) (by decide)⟩
  · obtain ⟨t', h, -, h2, h3⟩ := get_after_del spliceState fourNodes 10 5 spliceState_wf
      (by simp [fourNodes, owners]) (by simp [fourNodes, size])
    exact ⟨t', h, h2 (by simp [fourNodes, size]), h3 2 (by simp [fourNodes, owners]) (by decide),
      h3 18 (by simp [fourNodes, owners]) (by decide),
      h3 26 (by simp [fourNodes, owners]) (by decide)⟩

theorem sentinel_stays_black_witness :
    WellFormed spliceState fourNodes ∧
    HYRBTREE_READ_NODE_COLOR (hyrbtree_init emptyTree) (hyrbtree_init emptyTree).nil_node =
      HYRBTREE_NODE_BLACK ∧
    (∃ r t' e, hyrbtree_add_node 5 spliceState 34 = some (r, t', e) ∧
      t'.nil_node = spliceState.nil_node ∧
      HYRBTREE_READ_NODE_COLOR t' t'.nil_node = HYRBTREE_NODE_BLACK) ∧
    (∃ r t', hyrbtree_del_node 5 spliceState 2 = some (r, t') ∧
      t'.nil_node = spliceState.nil_node ∧
      HYRBTREE_READ_NODE_COLOR t' t'.nil_node = HYRBTREE_NODE_BLACK) ∧
    (∃ r t', hyrbtree_del_node 5 spliceState 34 = some (r, t') ∧
      t'.nil_node = spliceState.nil_node ∧
      HYRBTREE_READ_NODE_COLOR t' t'.nil_node = HYRBTREE_NODE_BLACK) ∧
    (∃ r g, hyrbtree_get_node 4 spliceState 3 = some (r, g)) ∧
    (hyrbtree_replace_node spliceState 2 4).2.nil_node = spliceState.nil_node ∧
    HYRBTREE_READ_NODE_COLOR (hyrbtree_replace_node spliceState 2 4).2
      (hyrbtree_replace_node spliceState 2 4).2.nil_node = HYRBTREE_NODE_BLACK :=
  ⟨spliceState_wf,
    (sentinel_stays_black spliceState fourNodes spliceState_wf).1 emptyTree,
    (sentinel_stays_black spliceState fourNodes spliceState_wf).2.1 5 34
      (by simp [fourNodes, size]) (by decide) (by decide) (by decide),
    (sentinel_stays_black spliceState fourNodes spliceState_wf).2.2.1 5 2
      (by simp [fourNodes, size]) (fun _ => by simp [fourNodes, owners]),
    (sentinel_stays_black spliceState fourNodes spliceState_wf).2.2.1 5 34
      (by simp [fourNodes, size]) (fun h => absurd h (by unfold Attached; decide)),
    (sentinel_stays_black spliceState fourNodes spliceState_wf).2.2.2.1 4 3
      (by simp [fourNodes, size]),
    (sentinel_stays_black spliceState fourNodes spliceState_wf).2.2.2.2 2 4 (by decide)
      (by decide)⟩

/-- C16 (counterexample): after `hyrbtree_init`, `hyrbtree_add_node` of owner 2,
and `hyrbtree_init` again, the state is well-formed and holds the empty tree,
while the linkage of owner 2 still resolves to owner 2.  `hyrbtree_del_node`
of owner 2 then returns OK and leaves the colour bit of the sentinel RED: the
guard of `hyrbtree_del_node` passes, the linkage is not the root, and the loop
of `hyrbtree_del_balance` takes the sentinel as the BLACK sibling without RED
children and colours it RED. -/
theorem sentinel_red_after_stale_del :
    ((hyrbtree_add_node 1 (hyrbtree_init emptyTree) 2).bind fun r =>
      (hyrbtree_del_node 1 (hyrbtree_init r.2.1) 2).map fun p =>
        (r.1, p.1, HYRBTREE_READ_NODE_COLOR p.2 p.2.nil_node)) =
      some (HYRBTREE_RET_OK, HYRBTREE_RET_OK, HYRBTREE_NODE_RED) ∧
    WellFormed (hyrbtree_init oneNodeTree) Tree.leaf ∧
    Attached (hyrbtree_init oneNodeTree) 2 ∧
    (hyrbtree_del_node 1 (hyrbtree_init oneNodeTree) 2).map
      (fun p => (p.1, HYRBTREE_READ_NODE_COLOR p.2 p.2.nil_node)) =
      some (HYRBTREE_RET_OK, HYRBTREE_NODE_RED) ∧
    ¬ ∀ (t : hyrbtree_t) (T : Tree) (fuel o : Nat) (r : hyrbtree_ret_t) (t' : hyrbtree_t),
      WellFormed t T → hyrbtree_del_node fuel t o = some (r, t') →
      HYRBTREE_READ_NODE_COLOR t' t'.nil_node = HYRBTREE_NODE_BLACK := by
  have hwf : WellFormed (hyrbtree_init oneNodeTree) Tree.leaf := by
    refine ⟨⟨rfl, trivial, ?_, by simp, by simp [hyrbtree_init, oneNodeTree], ?_⟩,
      ⟨rfl, trivial, trivial⟩, by simp [owners], totalOrder_sub⟩
    · decide
    · intro p hp; simp [nodes] at hp
  have hdel : (hyrbtree_del_node 1 (hyrbtree_init oneNodeTree) 2).map
      (fun p => (p.1, HYRBTREE_READ_NODE_COLOR p.2 p.2.nil_node)) =
      some (HYRBTREE_RET_OK, HYRBTREE_NODE_RED) := by decide
  refine ⟨by decide, hwf, by unfold Attached; decide, hdel, fun hall => ?_⟩
  cases hd : hyrbtree_del_node 1 (hyrbtree_init oneNodeTree) 2 with
  | none => rw [hd] at hdel; simp at hdel
  | some p =>
    rw [hd] at hdel
    simp only [Option.map_some', Option.some.injEq, Prod.mk.injEq] at hdel
    have := hall (hyrbtree_init oneNodeTree) Tree.leaf 1 2 p.1 p.2 hwf hd
    rw [hdel.2] at this
    exact absurd this (by decide)

end Hyrbtree
